import Mathlib

/-!
# parse-java: a verification development

Shallow embedding of the two programs of the repository:

* `src/parse-java.c` : the grammar checker (`check_*`, `do_validate_grammar`) and the
  translator (`translate_*`, `do_parse`) working on the lexical analysis output file;
* `src/lex-java.c` : the scanner (`do_lex` and its DFA state handlers).

Conventions of the embedding.

* C `int` values are `Int`; truth values returned by `check_word` are `Bool`.
* The global variables of `parse-java.c` (`returned`, `operators`, `operands`, `registers`,
  the static counters of `translate_S`) and the two `FILE *` are the fields of `parser_state`.
* A function that loops or recurses takes a fuel argument and yields `exec.starved` when
  the fuel is used up; `exec.undefined` marks behaviour the C standard leaves undefined
  (reading an uninitialised local, passing `NULL` to `fprintf` or `strncpy`, writing past
  the word buffer of `do_lex`, overflow of an `int` counter of `do_lex`).
-/

/-! # Part I: definitions -/

namespace ParseJava

/-! ## Results of a run: a value, undefined behaviour, or fuel spent -/

/-- Outcome of running a piece of the program: a result, undefined behaviour of the C
program, or not enough fuel given to the model. -/
inductive exec (α : Type) where
  | done (a : α)
  | undefined
  | starved
deriving DecidableEq, Repr

/-- Sequencing of two runs. -/
def exec.bind {α β : Type} (x : exec α) (f : α → exec β) : exec β :=
  match x with
  | exec.done a => f a
  | exec.undefined => exec.undefined
  | exec.starved => exec.starved

instance : Monad exec where
  pure := exec.done
  bind := exec.bind

/-! ## Word keys and the data of parse-java.c -/

def WRONG : Int := 0x101

def SPACE : Int := 0x102

def KEYWORD : Int := 0x103

def IDENTIFIER : Int := 0x104

def BOOLEAN : Int := 0x105

def CHAR : Int := 0x106

def INT : Int := 0x107

def FLOAT : Int := 0x108

def STRING : Int := 0x109

def ASSIGN : Int := 0x110

def CONDITION : Int := 0x111

def LOGIC_OR : Int := 0x112

def LOGIC_AND : Int := 0x113

def BIT_OR : Int := 0x114

def XOR : Int := 0x115

def BIT_AND : Int := 0x116

def EQUAL : Int := 0x117

def COMPARE : Int := 0x118

def SHIFT : Int := 0x119

def ADD_SUB : Int := 0x11a

def MUL_DIV : Int := 0x11b

def PLUSPLUS : Int := 0x11c

def BRACKET_DOT : Int := 0x11d

def COMMA : Int := 0x120

def BIG_BRACKET : Int := 0x121

def SEMICOLON : Int := 0x122

def COLON : Int := 0x123

def REGISTER : Int := 0x124

/-- Capacity of a word stack of `parse-java.c` (`STACK_SIZE`, equal to its `BUF_SIZE`). -/
def STACK_SIZE : Nat := 512

/-- The type `struct word_t`: an attribute key and the text of the word. -/
structure word_t where
  key : Int
  value : String
deriving DecidableEq, Repr

/-- One line of the lexical analysis output file, as `get_word` tells them apart:
a word counter line (first field `line` or `total`), or a K-V pair line with the key read
by `strtol` and the value returned by the second `strtok`. -/
inductive src_line where
  | counter
  | pair (key : Int) (value : String)
deriving DecidableEq, Repr

/-- The array `registers` (index 0 is eax, the accumulator; 1 ebx; 2 ecx; 3 edx);
`true` stands for a nonzero entry. -/
structure reg_table where
  r0 : Bool
  r1 : Bool
  r2 : Bool
  r3 : Bool
deriving DecidableEq, Repr

/-- One line written by the translator, with the `fprintf` format that produces it. -/
inductive asm_line where
  /-- Format `"%s_%d:\n"` with the name `begin`, `true` or `false`. -/
  | label (name : String) (n : Nat)
  /-- Format `"\t%s\t%s_%d\n"`: a jump to a numbered label. -/
  | jump (mnemonic : String) (target : String) (n : Nat)
  /-- Format `"\t%s\t%s, %s\n"`. -/
  | binary (mnemonic : String) (dst : String) (operand : String)
  /-- Format `"\t%s\t%s\n"`. -/
  | unary (mnemonic : String) (operand : String)
deriving DecidableEq, Repr

/-- The text `fprintf` writes for a line. -/
def asm_line.render : asm_line → String
  | asm_line.label name n => name ++ "_" ++ toString n ++ ":\n"
  | asm_line.jump m t n => "\t" ++ m ++ "\t" ++ t ++ "_" ++ toString n ++ "\n"
  | asm_line.binary m d o => "\t" ++ m ++ "\t" ++ d ++ ", " ++ o ++ "\n"
  | asm_line.unary m o => "\t" ++ m ++ "\t" ++ o ++ "\n"

/-- The global state of `parse-java.c` together with the two files: `src` holds the lines
of the source file not yet read, `out` the lines written so far. -/
structure parser_state where
  src : List src_line
  returned : word_t
  operators : List word_t
  operands : List word_t
  registers : reg_table
  begin_counter : Nat
  branch_counter : Nat
  out : List asm_line
deriving DecidableEq, Repr

/-! ## Reading words, the stacks and the register table -/

/-- State at program start, positioned at the beginning of the file `src`. -/
def parser_init (src : List src_line) : parser_state :=
  { src := src, returned := ⟨0, ""⟩, operators := [], operands := [],
    registers := ⟨false, false, false, false⟩,
    begin_counter := 0, branch_counter := 0, out := [] }

/-- The `while (1)` loop of `get_word`: skip word counter lines and spaces, stop at the
first other pair or at end of file (key 0, empty value). -/
def read_word : List src_line → word_t × List src_line
  | [] => (⟨0, ""⟩, [])
  | src_line.counter :: rest => read_word rest
  | src_line.pair k v :: rest => if k = SPACE then read_word rest else (⟨k, v⟩, rest)

/-- Get the next K-V pair: the returned word when there is one, else from the file. -/
def get_word (s : parser_state) : word_t × parser_state :=
  if s.returned.key ≠ 0 then
    (⟨s.returned.key, s.returned.value⟩, { s with returned := ⟨0, ""⟩ })
  else
    ((read_word s.src).1, { s with src := (read_word s.src).2 })

/-- Check a word of the given type and value (`none` for a `NULL` value). -/
def check_word (word : word_t) (type : Int) (value : Option String) : Bool :=
  if word.key ≠ type then false
  else match value with
    | none => true
    | some v => if word.value ≠ v then false else true

/-- Pretend to return a word to the file stream (only one word supported). -/
def return_word (word : word_t) (s : parser_state) : parser_state :=
  if s.returned.key = 0 then { s with returned := ⟨word.key, word.value⟩ } else s

/-- Push to operator stack; the failure result -1 is ignored by every caller. -/
def push_operator (word : word_t) (s : parser_state) : parser_state :=
  if s.operators.length = STACK_SIZE then s else { s with operators := word :: s.operators }

/-- Push to operand stack; the failure result -1 is ignored by every caller. -/
def push_operand (word : word_t) (s : parser_state) : parser_state :=
  if s.operands.length = STACK_SIZE then s else { s with operands := word :: s.operands }

/-- Pop from operator stack: `none` when the stack is empty (result -1, target untouched). -/
def pop_operator (s : parser_state) : Option word_t × parser_state :=
  match s.operators with
  | [] => (none, s)
  | w :: rest => (some w, { s with operators := rest })

/-- Pop from operand stack: `none` when the stack is empty (result -1, target untouched). -/
def pop_operand (s : parser_state) : Option word_t × parser_state :=
  match s.operands with
  | [] => (none, s)
  | w :: rest => (some w, { s with operands := rest })

/-- A local `struct word_t` filled by a pop; it is uninitialised when the pop failed. -/
def popped (w : Option word_t) : exec word_t :=
  match w with
  | some w => exec.done w
  | none => exec.undefined

/-- Allocate a register: the loop over the indices 1, 2, 3. -/
def alloc_register (s : parser_state) : Int × parser_state :=
  if ¬ s.registers.r1 then (1, { s with registers := { s.registers with r1 := true } })
  else if ¬ s.registers.r2 then (2, { s with registers := { s.registers with r2 := true } })
  else if ¬ s.registers.r3 then (3, { s with registers := { s.registers with r3 := true } })
  else (-1, s)

/-- Allocate the accumulator. -/
def alloc_accumulator (s : parser_state) : Int × parser_state :=
  if ¬ s.registers.r0 then (0, { s with registers := { s.registers with r0 := true } })
  else (-1, s)

/-- Free a register; numbers outside 0..3 are ignored. -/
def free_register (no : Int) (s : parser_state) : parser_state :=
  if no = 0 then { s with registers := { s.registers with r0 := false } }
  else if no = 1 then { s with registers := { s.registers with r1 := false } }
  else if no = 2 then { s with registers := { s.registers with r2 := false } }
  else if no = 3 then { s with registers := { s.registers with r3 := false } }
  else s

/-- Get register number according to the given name. -/
def get_register_no (name : String) : Int :=
  if name = "eax" then 0
  else if name = "ebx" then 1
  else if name = "ecx" then 2
  else if name = "edx" then 3
  else -1

/-- Get register name according to the given number (`none` for `NULL`). -/
def get_register_name (no : Int) : Option String :=
  if no = 0 then some "eax"
  else if no = 1 then some "ebx"
  else if no = 2 then some "ecx"
  else if no = 3 then some "edx"
  else none

/-- A register name handed to `fprintf` and `strncpy`: undefined when it is `NULL`. -/
def register_name (no : Int) : exec String :=
  match get_register_name no with
  | some n => exec.done n
  | none => exec.undefined

/-- Append one line to the output file. -/
def emit (l : asm_line) (s : parser_state) : parser_state :=
  { s with out := s.out ++ [l] }

/-! ## The grammar checkers check_V .. check_S and do_validate_grammar

Checkers are used in the grammar check; they only read words. `check_C1` and `check_T1`
reach their closing brace without a `return` statement on the [epsilon] branch, so the
value their caller tests there is indeterminate in C: the embedding takes it from the
parameter `undef`, applied to the state at that point. -/

/-- Fuel that is always enough for a recursion that reads at least one word a round. -/
def budget (s : parser_state) : Nat := s.src.length + 2

/-- Check operands: V -> [identifier] | [integer constant]. -/
def check_V (s : parser_state) : Int × parser_state :=
  let (word, s) := get_word s
  if check_word word IDENTIFIER none then (1, s)
  else if check_word word INT none then (1, s)
  else (0, s)

/-- Check comparison operators: O -> < | >. -/
def check_O (s : parser_state) : Int × parser_state :=
  let (word, s) := get_word s
  if check_word word COMPARE (some "<") then (1, s)
  else if check_word word COMPARE (some ">") then (1, s)
  else (0, s)

/-- Check plus and minus: P -> + | -. -/
def check_P (s : parser_state) : Int × parser_state :=
  let (word, s) := get_word s
  if check_word word ADD_SUB none then (1, s)
  else (0, s)

/-- Check mul and div: M -> * | /. -/
def check_M (s : parser_state) : Int × parser_state :=
  let (word, s) := get_word s
  if check_word word MUL_DIV (some "*") then (1, s)
  else if check_word word MUL_DIV (some "/") then (1, s)
  else (0, s)

/-- Check T1: T1 -> M V T1 | [epsilon]. -/
def check_T1 (undef : parser_state → Int) : Nat → parser_state → exec (Int × parser_state)
  | 0, _ => exec.starved
  | fuel + 1, s =>
    let (word, s) := get_word s
    if check_word word MUL_DIV none then
      let s := return_word word s
      let (r, s) := check_M s
      if r = 0 then exec.done (0, s) else
      let (r, s) := check_V s
      if r = 0 then exec.done (0, s) else
      (check_T1 undef fuel s).bind fun (r, s) =>
      if r = 0 then exec.done (0, s) else
      exec.done (1, s)
    else
      let s := return_word word s
      exec.done (undef s, s)

/-- Check T: T -> V T1. -/
def check_T (undef : parser_state → Int) (s : parser_state) : exec (Int × parser_state) :=
  let (r, s) := check_V s
  if r = 0 then exec.done (0, s) else
  (check_T1 undef (budget s) s).bind fun (r, s) =>
  if r = 0 then exec.done (0, s) else
  exec.done (1, s)

/-- Check C1: C1 -> P T C1 | [epsilon]. -/
def check_C1 (undef : parser_state → Int) : Nat → parser_state → exec (Int × parser_state)
  | 0, _ => exec.starved
  | fuel + 1, s =>
    let (word, s) := get_word s
    if check_word word ADD_SUB none then
      let s := return_word word s
      let (r, s) := check_P s
      if r = 0 then exec.done (0, s) else
      (check_T undef s).bind fun (r, s) =>
      if r = 0 then exec.done (0, s) else
      (check_C1 undef fuel s).bind fun (r, s) =>
      if r = 0 then exec.done (0, s) else
      exec.done (1, s)
    else
      let s := return_word word s
      exec.done (undef s, s)

/-- Check arithmetics: C -> T C1. -/
def check_C (undef : parser_state → Int) (s : parser_state) : exec (Int × parser_state) :=
  (check_T undef s).bind fun (r, s) =>
  if r = 0 then exec.done (0, s) else
  (check_C1 undef (budget s) s).bind fun (r, s) =>
  if r = 0 then exec.done (0, s) else
  exec.done (1, s)

/-- Check assignment: A -> [identifier] = C. -/
def check_A (undef : parser_state → Int) (s : parser_state) : exec (Int × parser_state) :=
  let (word, s) := get_word s
  if ¬ check_word word IDENTIFIER none then exec.done (0, s) else
  let (word, s) := get_word s
  if ¬ check_word word ASSIGN (some "=") then exec.done (0, s) else
  (check_C undef s).bind fun (r, s) =>
  if r = 0 then exec.done (0, s) else
  exec.done (1, s)

/-- Check boolean expression: E -> V O V. -/
def check_E (s : parser_state) : Int × parser_state :=
  let (r, s) := check_V s
  if r = 0 then (0, s) else
  let (r, s) := check_O s
  if r = 0 then (0, s) else
  let (r, s) := check_V s
  if r = 0 then (0, s) else
  (1, s)

/-- The common tail of both branches of `check_S`: check A, then catch a `;`. -/
def check_S_tail (undef : parser_state → Int) (s : parser_state) : exec (Int × parser_state) :=
  (check_A undef s).bind fun (r, s) =>
  if r = 0 then exec.done (0, s) else
  let (word, s) := get_word s
  if ¬ check_word word SEMICOLON (some ";") then exec.done (0, s) else
  exec.done (1, s)

/-- Check statement: S -> while (E) A; | A;. The result is 1 (a statement), 0 (error)
or -1 (no statement is available). -/
def check_S (undef : parser_state → Int) (s : parser_state) : exec (Int × parser_state) :=
  let (word, s) := get_word s
  if word.key = 0 then exec.done (-1, s) else
  if check_word word KEYWORD (some "while") then
    let (word, s) := get_word s
    if ¬ check_word word BRACKET_DOT (some "(") then exec.done (0, s) else
    let (r, s) := check_E s
    if r = 0 then exec.done (0, s) else
    let (word, s) := get_word s
    if ¬ check_word word BRACKET_DOT (some ")") then exec.done (0, s) else
    check_S_tail undef s
  else
    check_S_tail undef (return_word word s)

/-- The loop of `do_validate_grammar`: one call of `check_S` a round. -/
def validate_loop (undef : parser_state → Int) : Nat → parser_state → exec (Int × parser_state)
  | 0, _ => exec.starved
  | fuel + 1, s =>
    (check_S undef s).bind fun (ret, s) =>
    if ret = 0 then exec.done (0, s)
    else if ret = -1 then exec.done (1, s)
    else validate_loop undef fuel s

/-- Position a file at its beginning again: `all` is the whole file. -/
def rewind (all : List src_line) (s : parser_state) : parser_state := { s with src := all }

/-- Validate the grammar of the file `all`: 1 if valid, 0 otherwise. -/
def do_validate_grammar (undef : parser_state → Int) (all : List src_line) (s : parser_state) :
    exec (Int × parser_state) :=
  validate_loop undef (budget (rewind all s)) (rewind all s)

/-! ## do_validate_lex -/

/-- Simply validate the lexical analysis output file `all`: the loop of `do_validate_lex`. -/
def validate_lex_loop : Nat → parser_state → exec (Int × parser_state)
  | 0, _ => exec.starved
  | fuel + 1, s =>
    let (word, s) := get_word s
    if word.key = 0 then exec.done (1, s)
    else if word.key ≤ WRONG ∨ word.key > COLON ∨ (word.key > BRACKET_DOT ∧ word.key < COMMA) then
      exec.done (0, s)
    else validate_lex_loop fuel s

/-- Validate the lexical analysis output file `all`: 1 if valid, 0 otherwise. -/
def do_validate_lex (all : List src_line) (s : parser_state) : exec (Int × parser_state) :=
  validate_lex_loop (budget (rewind all s)) (rewind all s)

/-! ## The translators translate_V .. translate_S, do_parse and main

Translators are used after the checkers; they do nothing about the grammar and merely
translate and output. -/

/-- Translate operands: get a word and push it onto the operand stack. -/
def translate_V (s : parser_state) : parser_state :=
  let (word, s) := get_word s
  push_operand word s

/-- Translators of O, P and M: get a word and push it onto the operator stack. -/
def translate_O_P_M (s : parser_state) : parser_state :=
  let (word, s) := get_word s
  push_operator word s

/-- The multiply/divide operation of `translate_T1`, from the three pops on: `word` is
the first operand (left as it was when its pop failed), `w2` the popped operator and `w3`
the popped second operand; the result is pushed at the end. -/
def reduce_T1 (word : word_t) (w2 w3 : Option word_t) (s : parser_state) : exec parser_state :=
  -- operand1 is not eax, so move it to eax first
  (if ¬ check_word word REGISTER (some "eax") then
    let (reg_no, s) := alloc_accumulator s
    (register_name reg_no).bind fun name =>
    let s := emit (asm_line.binary "mov" name word.value) s
    let s := if check_word word REGISTER none then
      free_register (get_register_no word.value) s else s
    exec.done (some reg_no, (⟨REGISTER, name⟩ : word_t), s)
  else exec.done (none, word, s)).bind fun (reg_no, word, s) =>
  (popped w3).bind fun word3 =>
  -- operand2 is an immediate, move it to a register
  (if check_word word3 INT none then
    let (reg_no2, s) := alloc_register s
    (register_name reg_no2).bind fun name =>
    exec.done ((⟨REGISTER, name⟩ : word_t), emit (asm_line.binary "mov" name word3.value) s)
  else exec.done (word3, s)).bind fun (word3, s) =>
  (popped w2).bind fun word2 =>
  -- do multiply/divide
  let s := if check_word word2 MUL_DIV (some "*") then
      emit (asm_line.unary "mul" word3.value) s
    else if check_word word2 MUL_DIV (some "/") then
      emit (asm_line.unary "div" word3.value) s
    else s
  -- release operand2 if it is a register
  let s := if check_word word3 REGISTER none then
    free_register (get_register_no word3.value) s else s
  -- do not occupy eax
  let (reg_no2, s) := alloc_register s
  (register_name reg_no2).bind fun name =>
  let s := emit (asm_line.binary "mov" name word.value) s
  let word : word_t := ⟨word.key, name⟩
  -- `reg_no` is uninitialised when operand1 was eax already
  (match reg_no with
    | some no => exec.done (free_register no s)
    | none => exec.undefined).bind fun s =>
  -- finally push the result before translating T1
  exec.done (push_operand word s)

/-- Translate T1: T1 -> M V T1 | [epsilon]. -/
def translate_T1 : Nat → parser_state → exec parser_state
  | 0, _ => exec.starved
  | fuel + 1, s =>
    let (word, s) := get_word s
    if check_word word MUL_DIV none then
      let s := return_word word s
      let s := translate_O_P_M s
      let s := translate_V s
      let (w3, s) := pop_operand s
      let (w2, s) := pop_operator s
      let (w1, s) := pop_operand s
      (reduce_T1 (w1.getD word) w2 w3 s).bind fun s =>
      translate_T1 fuel s
    else
      exec.done (return_word word s)

/-- Translate T: T -> V T1. -/
def translate_T (s : parser_state) : exec parser_state :=
  let s := translate_V s
  translate_T1 (budget s) s

/-- The add/subtract operation of `translate_C1`, from the three pops on: `word` is the
first operand (left as it was when its pop failed), `w2` the popped operator and `w3` the
popped second operand; the result is pushed at the end. -/
def reduce_C1 (word : word_t) (w2 w3 : Option word_t) (s : parser_state) : exec parser_state :=
  -- operand1 is not a register, so move it to a register first
  (if ¬ check_word word REGISTER none then
    let (reg_no, s) := alloc_register s
    (register_name reg_no).bind fun name =>
    exec.done ((⟨REGISTER, name⟩ : word_t), emit (asm_line.binary "mov" name word.value) s)
  else exec.done (word, s)).bind fun (word, s) =>
  (popped w2).bind fun word2 =>
  (popped w3).bind fun word3 =>
  -- do add/subtract
  let s := if check_word word2 ADD_SUB (some "+") then
      emit (asm_line.binary "add" word.value word3.value) s
    else if check_word word2 ADD_SUB (some "-") then
      emit (asm_line.binary "sub" word.value word3.value) s
    else s
  -- release operand2 if it is a register
  let s := if check_word word3 REGISTER none then
    free_register (get_register_no word3.value) s else s
  -- finally push the result before translating C1
  exec.done (push_operand word s)

/-- Translate C1: C1 -> P T C1 | [epsilon]. -/
def translate_C1 : Nat → parser_state → exec parser_state
  | 0, _ => exec.starved
  | fuel + 1, s =>
    let (word, s) := get_word s
    if check_word word ADD_SUB none then
      let s := return_word word s
      let s := translate_O_P_M s
      (translate_T s).bind fun s =>
      let (w3, s) := pop_operand s
      let (w2, s) := pop_operator s
      let (w1, s) := pop_operand s
      (reduce_C1 (w1.getD word) w2 w3 s).bind fun s =>
      translate_C1 fuel s
    else
      exec.done (return_word word s)

/-- Translate arithmetics: C -> T C1. -/
def translate_C (s : parser_state) : exec parser_state :=
  (translate_T s).bind fun s =>
  translate_C1 (budget s) s

/-- Translate assignment: A -> [identifier] = C. -/
def translate_A (s : parser_state) : exec parser_state :=
  let (word, s) := get_word s
  let (word2, s) := get_word s
  (translate_C s).bind fun s =>
  let (w, s) := pop_operand s
  let word2 := w.getD word2
  let s := emit (asm_line.binary "mov" word.value word2.value) s
  exec.done (if check_word word2 REGISTER none then
    free_register (get_register_no word2.value) s else s)

/-- Translate boolean expression: E -> V O V. -/
def translate_E (s : parser_state) : exec parser_state :=
  let s := translate_V s
  let s := translate_O_P_M s
  let s := translate_V s
  let (w2, s) := pop_operand s
  let (w1, s) := pop_operand s
  (popped w2).bind fun word2 =>
  (popped w1).bind fun word =>
  exec.done (emit (asm_line.binary "cmp" word.value word2.value) s)

/-- The branch instructions of `translate_S` for the comparison operator `op`. -/
def emit_branch (op : String) (s : parser_state) : parser_state :=
  if op = "<" then
    let s := { s with branch_counter := s.branch_counter + 1 }
    let s := emit (asm_line.jump "jl" "true" s.branch_counter) s
    emit (asm_line.jump "jge" "false" s.branch_counter) s
  else if op = ">" then
    let s := { s with branch_counter := s.branch_counter + 1 }
    let s := emit (asm_line.jump "jg" "true" s.branch_counter) s
    emit (asm_line.jump "jle" "false" s.branch_counter) s
  else s

/-- Translate statement: S -> while (E) A; | A;. The result is -1 when no statement is
available, else 0. -/
def translate_S (s : parser_state) : exec (Int × parser_state) :=
  let (word, s) := get_word s
  if word.key = 0 then exec.done (-1, s) else
  (if check_word word KEYWORD (some "while") then
    -- generate label S.begin
    let s := { s with begin_counter := s.begin_counter + 1 }
    let s := emit (asm_line.label "begin" s.begin_counter) s
    -- catch a `(`
    let (_, s) := get_word s
    (translate_E s).bind fun s =>
    -- catch a `)`
    let (word, s) := get_word s
    -- now generate branch instructions
    let (w, s) := pop_operator s
    let word := w.getD word
    let s := emit_branch word.value s
    -- generate label E.true
    let s := emit (asm_line.label "true" s.branch_counter) s
    exec.done (word, s)
  else
    exec.done (word, return_word word s)).bind fun (word, s) =>
  (translate_A s).bind fun s =>
  let s := if word.key = COMPARE then
      let s := emit (asm_line.jump "jmp" "begin" s.begin_counter) s
      emit (asm_line.label "false" s.branch_counter) s
    else s
  -- catch a `;`
  let (_, s) := get_word s
  exec.done (0, s)

/-- The loop of `do_parse`: one call of `translate_S` a round, until it meets EOF. -/
def parse_loop : Nat → parser_state → exec parser_state
  | 0, _ => exec.starved
  | fuel + 1, s =>
    (translate_S s).bind fun (ret, s) =>
    if ret = -1 then exec.done s else parse_loop fuel s

/-- Do parse the file `all`. -/
def do_parse (all : List src_line) (s : parser_state) : exec parser_state :=
  parse_loop (budget (rewind all s)) (rewind all s)

/-- The function `main` of `parse-java.c` on an opened source file `all`: the exit status
and the content of the output file, `none` when that file was never opened. -/
def main (undef : parser_state → Int) (all : List src_line) :
    exec (Int × Option (List asm_line)) :=
  (do_validate_lex all (parser_init all)).bind fun (ok, s) =>
  if ok = 0 then exec.done (1, none) else
  (do_validate_grammar undef all s).bind fun (ok, s) =>
  if ok = 0 then exec.done (1, none) else
  (do_parse all s).bind fun s =>
  exec.done (0, some s.out)

/-! ## The grammar of the language, as derivations over words -/

/-- The words of a file in the order `get_word` delivers them: the K-V pair lines that
are not spaces (word counter lines and spaces removed). -/
def tokens : List src_line → List word_t
  | [] => []
  | src_line.counter :: rest => tokens rest
  | src_line.pair k v :: rest => if k = SPACE then tokens rest else ⟨k, v⟩ :: tokens rest

/-- The words still to be delivered in a state: the returned word, if any, then the file. -/
def pending (s : parser_state) : List word_t :=
  if s.returned.key ≠ 0 then s.returned :: tokens s.src else tokens s.src

/-- Terminal V: an identifier or an integer constant. -/
def isV (w : word_t) : Prop := w.key = IDENTIFIER ∨ w.key = INT

/-- Terminal O: the comparison operator `<` or `>`. -/
def isO (w : word_t) : Prop := w.key = COMPARE ∧ (w.value = "<" ∨ w.value = ">")

/-- Terminal M: the operator `*` or `/`. -/
def isM (w : word_t) : Prop := w.key = MUL_DIV ∧ (w.value = "*" ∨ w.value = "/")

/-- Terminal P as the grammar writes it: the operator `+` or `-`. -/
def isPlusMinus (w : word_t) : Prop := w.key = ADD_SUB ∧ (w.value = "+" ∨ w.value = "-")

/-- Terminal P as `check_P` tests it: any word with the key `ADD_SUB`. -/
def isAddSub (w : word_t) : Prop := w.key = ADD_SUB

/-- T1 -> M V T1 | [epsilon]. -/
inductive DerT1 : List word_t → Prop where
  | eps : DerT1 []
  | step (m v : word_t) (rest : List word_t) :
      isM m → isV v → DerT1 rest → DerT1 (m :: v :: rest)

/-- T -> V T1. -/
def DerT (ts : List word_t) : Prop :=
  ∃ v rest, isV v ∧ DerT1 rest ∧ ts = v :: rest

/-- C1 -> P T C1 | [epsilon], for a given reading `isP` of the terminal P. -/
inductive DerC1 (isP : word_t → Prop) : List word_t → Prop where
  | eps : DerC1 isP []
  | step (p : word_t) (t rest : List word_t) :
      isP p → DerT t → DerC1 isP rest → DerC1 isP (p :: (t ++ rest))

/-- C -> T C1. -/
def DerC (isP : word_t → Prop) (ts : List word_t) : Prop :=
  ∃ t rest, DerT t ∧ DerC1 isP rest ∧ ts = t ++ rest

/-- A -> IDENT `=` C. -/
def DerA (isP : word_t → Prop) (ts : List word_t) : Prop :=
  ∃ x c, x.key = IDENTIFIER ∧ DerC isP c ∧ ts = x :: ⟨ASSIGN, "="⟩ :: c

/-- E -> V O V. -/
def DerE (ts : List word_t) : Prop :=
  ∃ a o b, isV a ∧ isO o ∧ isV b ∧ ts = [a, o, b]

/-- S -> `while` `(` E `)` A `;` | A `;`. -/
def DerS (isP : word_t → Prop) (ts : List word_t) : Prop :=
  (∃ e a, DerE e ∧ DerA isP a ∧
    ts = ⟨KEYWORD, "while"⟩ :: ⟨BRACKET_DOT, "("⟩ :: (e ++ ⟨BRACKET_DOT, ")"⟩ ::
      (a ++ [⟨SEMICOLON, ";"⟩])))
  ∨ (∃ a, DerA isP a ∧ ts = a ++ [⟨SEMICOLON, ";"⟩])

/-- A concatenation of zero or more statements. -/
inductive DerProgram (isP : word_t → Prop) : List word_t → Prop where
  | nil : DerProgram isP []
  | cons (st rest : List word_t) :
      DerS isP st → DerProgram isP rest → DerProgram isP (st ++ rest)

/-- Two states that differ at most in the file position and the returned word. -/
def same_machine (s s1 : parser_state) : Prop :=
  s1.operators = s.operators ∧ s1.operands = s.operands ∧ s1.registers = s.registers ∧
  s1.begin_counter = s.begin_counter ∧ s1.branch_counter = s.branch_counter ∧ s1.out = s.out

/-- Every pending word carries the key of a token kind (0 is the end-of-input mark). -/
def good (s : parser_state) : Prop := ∀ t ∈ pending s, t.key ≠ 0

/-- The word that follows an [epsilon] choice, if any, has a key other than `k1` and `k2`. -/
def follows (k1 k2 : Int) (rest : List word_t) : Prop :=
  ∀ w ws, rest = w :: ws → w.key ≠ k1 ∧ w.key ≠ k2

/-- A word is plain when, if its key is `ADD_SUB`, its text is `+` or `-`. -/
def plain (w : word_t) : Prop := w.key = ADD_SUB → (w.value = "+" ∨ w.value = "-")

/-- A property of words that holds of every terminal of the grammar, for the reading `isP`
of the terminal P. -/
structure terminals_have (isP : word_t → Prop) (Q : word_t → Prop) : Prop where
  operand : ∀ w, isV w → Q w
  compare : ∀ w, isO w → Q w
  mul_div : ∀ w, isM w → Q w
  add_sub : ∀ w, isP w → Q w
  ident : ∀ w, w.key = IDENTIFIER → Q w
  kw_while : Q ⟨KEYWORD, "while"⟩
  paren_open : Q ⟨BRACKET_DOT, "("⟩
  paren_close : Q ⟨BRACKET_DOT, ")"⟩
  assign : Q ⟨ASSIGN, "="⟩
  semicolon : Q ⟨SEMICOLON, ";"⟩

/-! ## Sample word files -/

/-- The file of `x = 1 + 2 * 3 ;` with its spaces and word counter lines. -/
def file_assign : List src_line :=
  [src_line.pair IDENTIFIER "x", src_line.pair SPACE " ", src_line.pair ASSIGN "=",
   src_line.pair SPACE " ", src_line.pair INT "1", src_line.pair SPACE " ",
   src_line.pair ADD_SUB "+", src_line.pair SPACE " ", src_line.pair INT "2",
   src_line.pair SPACE " ", src_line.pair MUL_DIV "*", src_line.pair SPACE " ",
   src_line.pair INT "3", src_line.pair SPACE " ", src_line.pair SEMICOLON ";",
   src_line.counter, src_line.counter]

/-- A file whose additive operator carries a text other than `+` and `-`. -/
def file_odd_operator : List src_line :=
  [src_line.pair IDENTIFIER "x", src_line.pair ASSIGN "=", src_line.pair INT "1",
   src_line.pair ADD_SUB "%", src_line.pair INT "2", src_line.pair SEMICOLON ";"]

/-! ## Syntax trees and the code the translator emits for them

A term `v0 m1 v1 ... mn vn` is kept as its first operand and the list of its
(operator, operand) pairs; an arithmetic expression as its first term and the list of its
(operator, term) pairs. -/

/-- A term T: the first operand and the pairs M V that follow it. -/
structure term_t where
  first : word_t
  rest : List (word_t × word_t)

/-- An arithmetic expression C: the first term and the pairs P T that follow it. -/
structure expr_t where
  first : term_t
  rest : List (word_t × term_t)

/-- The words of the pairs M V of a term. -/
def pairs_words : List (word_t × word_t) → List word_t
  | [] => []
  | (m, v) :: ps => m :: v :: pairs_words ps

/-- The words of a term. -/
def term_t.words (t : term_t) : List word_t := t.first :: pairs_words t.rest

/-- The words of the pairs P T of an expression. -/
def tail_words : List (word_t × term_t) → List word_t
  | [] => []
  | (p, t) :: ps => p :: (t.words ++ tail_words ps)

/-- The words of an expression. -/
def expr_t.words (e : expr_t) : List word_t := e.first.words ++ tail_words e.rest

/-- The name of the register with the number `k`. -/
def reg_name (k : Int) : String := (get_register_name k).getD ""

/-- The register `alloc_register` returns when, of ebx, ecx and edx, at most the one with
the number `p` is busy. -/
def fresh (p : Int) : Int := if p = 1 then 2 else 1

/-- The register table in which, of ebx, ecx and edx, exactly those with the numbers `p`
and `k` are busy (0 stands for none), and eax is free. -/
def regs_of (p k : Int) : reg_table :=
  ⟨false, decide (p = 1 ∨ k = 1), decide (p = 2 ∨ k = 2), decide (p = 3 ∨ k = 3)⟩

/-- Code of one multiply/divide operation: first operand `acc`, operator `m`, second
operand `v`, with the free register `k`. -/
def mul_code (k : Int) (acc m v : word_t) : List asm_line :=
  [asm_line.binary "mov" "eax" acc.value] ++
  (if v.key = INT then [asm_line.binary "mov" (reg_name k) v.value] else []) ++
  [asm_line.unary (if m.value = "*" then "mul" else "div")
    (if v.key = INT then reg_name k else v.value)] ++
  [asm_line.binary "mov" (reg_name k) "eax"]

/-- Code of the pairs M V of a term whose value so far is held by `acc`. -/
def pairs_code (k : Int) (acc : word_t) : List (word_t × word_t) → List asm_line
  | [] => []
  | (m, v) :: ps => mul_code k acc m v ++ pairs_code k ⟨REGISTER, reg_name k⟩ ps

/-- Code of a term when, of ebx, ecx and edx, at most the register `p` is busy. -/
def term_t.code (p : Int) (t : term_t) : List asm_line :=
  pairs_code (fresh p) t.first t.rest

/-- The operand that stands for the value after the pairs M V: `acc` itself when there is
no pair, else the register `k`. -/
def pairs_result (k : Int) (acc : word_t) : List (word_t × word_t) → word_t
  | [] => acc
  | _ :: _ => ⟨REGISTER, reg_name k⟩

/-- The number of the register that holds the value after the pairs M V: `a` as before
when there is no pair, else `k`. -/
def pairs_reg (a k : Int) : List (word_t × word_t) → Int
  | [] => a
  | _ :: _ => k

/-- The number of the register that holds the value of a term (0 when the term is a single
operand, which stands for itself). -/
def term_t.reg (p : Int) (t : term_t) : Int := pairs_reg 0 (fresh p) t.rest

/-- The operand that stands for the value of a term after its code. -/
def term_t.result (p : Int) (t : term_t) : word_t := pairs_result (fresh p) t.first t.rest

/-- The register that holds the sum after a pair P T, when it was held by the register `c`
before (0 when the first operand was not in a register yet). -/
def sum_reg (c : Int) (t : term_t) : Int :=
  if c = 0 then fresh (t.reg 0) else c

/-- Code of one add/subtract operation: first operand `acc` (in the register `c`, if any),
operator `p`, second operand the value of the term `t`. -/
def add_code (c : Int) (acc p : word_t) (t : term_t) : List asm_line :=
  t.code c ++
  (if c = 0 then [asm_line.binary "mov" (reg_name (sum_reg c t)) acc.value] else []) ++
  [asm_line.binary (if p.value = "+" then "add" else "sub") (reg_name (sum_reg c t))
    (t.result c).value]

/-- Code of the pairs P T of an expression whose value so far is held by `acc`. -/
def tail_code (c : Int) (acc : word_t) : List (word_t × term_t) → List asm_line
  | [] => []
  | (p, t) :: ps =>
    add_code c acc p t ++ tail_code (sum_reg c t) ⟨REGISTER, reg_name (sum_reg c t)⟩ ps

/-- The register that holds the value after the pairs P T (0 for none). -/
def tail_reg (c : Int) : List (word_t × term_t) → Int
  | [] => c
  | (_, t) :: ps => tail_reg (sum_reg c t) ps

/-- The operand that stands for the value after the pairs P T. -/
def tail_result (c : Int) (acc : word_t) : List (word_t × term_t) → word_t
  | [] => acc
  | (_, t) :: ps => tail_result (sum_reg c t) ⟨REGISTER, reg_name (sum_reg c t)⟩ ps

/-- Code of an arithmetic expression, from an all-free register table. -/
def expr_t.code (e : expr_t) : List asm_line :=
  e.first.code 0 ++ tail_code (e.first.reg 0) (e.first.result 0) e.rest

/-- The operand that stands for the value of an expression after its code. -/
def expr_t.result (e : expr_t) : word_t :=
  tail_result (e.first.reg 0) (e.first.result 0) e.rest

/-- Code of the assignment `x = e`. -/
def assign_code (x : word_t) (e : expr_t) : List asm_line :=
  e.code ++ [asm_line.binary "mov" x.value e.result.value]

/-! ## Well-formed operands -/

/-- The text is an integer literal: it starts with a decimal digit. -/
def is_literal (o : String) : Bool :=
  match o.data with
  | [] => false
  | c :: _ => c.isDigit

/-- A source operand: an integer constant, or an identifier that is not named as a
register. -/
def is_operand (v : word_t) : Prop :=
  (v.key = INT ∧ is_literal v.value = true) ∨
  (v.key = IDENTIFIER ∧ is_literal v.value = false ∧ get_register_no v.value = -1)

/-- A term of the grammar over source operands. -/
def term_t.wf (t : term_t) : Prop :=
  is_operand t.first ∧ ∀ mv ∈ t.rest, isM mv.1 ∧ is_operand mv.2

/-- An expression of the grammar over source operands. -/
def expr_t.wf (e : expr_t) : Prop :=
  e.first.wf ∧ ∀ pt ∈ e.rest, isPlusMinus pt.1 ∧ pt.2.wf

/-- A term of the grammar: T -> V T1. -/
def term_t.valid (t : term_t) : Prop :=
  isV t.first ∧ ∀ mv ∈ t.rest, isM mv.1 ∧ isV mv.2

/-- An expression of the grammar: C -> T C1, with P -> `+` | `-`. -/
def expr_t.valid (e : expr_t) : Prop :=
  e.first.valid ∧ ∀ pt ∈ e.rest, isPlusMinus pt.1 ∧ pt.2.valid

/-! ## Meaning of the emitted lines and of the trees -/

/-- The value of an operand text: the value `lit` gives to a literal, or the content of
the variable or register of that name. -/
def operand_value (lit : String → Int) (σ : String → Int) (o : String) : Int :=
  if is_literal o then lit o else σ o

/-- Store update. -/
def store_set (σ : String → Int) (d : String) (x : Int) : String → Int :=
  fun n => if n = d then x else σ n

/-- Effect of one line on the store: `mov d, s` sets d to s; `add d, s` and `sub d, s`
set d to d + s and d - s; `mul s` and `div s` set eax to eax * s and eax / s. -/
def step_asm (lit : String → Int) (σ : String → Int) : asm_line → (String → Int)
  | asm_line.binary m d o =>
    if m = "mov" then store_set σ d (operand_value lit σ o)
    else if m = "add" then store_set σ d (σ d + operand_value lit σ o)
    else if m = "sub" then store_set σ d (σ d - operand_value lit σ o)
    else σ
  | asm_line.unary m o =>
    if m = "mul" then store_set σ "eax" (σ "eax" * operand_value lit σ o)
    else if m = "div" then store_set σ "eax" (σ "eax" / operand_value lit σ o)
    else σ
  | asm_line.label _ _ => σ
  | asm_line.jump _ _ _ => σ

/-- Executing lines in order. -/
def run_asm (lit : String → Int) (σ : String → Int) (code : List asm_line) : String → Int :=
  code.foldl (step_asm lit) σ

/-- One step of the value of a term: multiply or divide by the next operand. -/
def mul_step (lit : String → Int) (σ : String → Int) (a : Int) (mv : word_t × word_t) : Int :=
  if mv.1.value = "*" then a * operand_value lit σ mv.2.value
  else a / operand_value lit σ mv.2.value

/-- Value of a term: `*` and `/` associate to the left. -/
def term_t.value (lit : String → Int) (σ : String → Int) (t : term_t) : Int :=
  t.rest.foldl (mul_step lit σ) (operand_value lit σ t.first.value)

/-- One step of the value of an expression: add or subtract the value of the next term. -/
def add_step (lit : String → Int) (σ : String → Int) (a : Int) (pt : word_t × term_t) : Int :=
  if pt.1.value = "+" then a + pt.2.value lit σ else a - pt.2.value lit σ

/-- Value of an expression: `+` and `-` associate to the left, over the values of the
terms, in which `*` and `/` bind tighter. -/
def expr_t.value (lit : String → Int) (σ : String → Int) (e : expr_t) : Int :=
  e.rest.foldl (add_step lit σ) (e.first.value lit σ)

/-! ## The observable part of a parser state -/

/-- What the translator observes of a state: the pending words, the two stacks, the
register table, the label counters and the output. -/
structure machine where
  pend : List word_t
  operators : List word_t
  operands : List word_t
  registers : reg_table
  begin_counter : Nat
  branch_counter : Nat
  out : List asm_line

/-- The observable part of a state. -/
def view (s : parser_state) : machine :=
  ⟨pending s, s.operators, s.operands, s.registers, s.begin_counter, s.branch_counter, s.out⟩

/-- The word at which an [epsilon] choice is made by the translator: a real word whose
key is neither `k1` nor `k2`. -/
def stops (k1 k2 : Int) (rest : List word_t) : Prop :=
  ∃ w ws, rest = w :: ws ∧ w.key ≠ 0 ∧ w.key ≠ k1 ∧ w.key ≠ k2

/-! ## Sample files and trees for the translator -/

/-- The file of `x = a * b - 6 / c ;`. -/
def file_mixed : List src_line :=
  [src_line.pair IDENTIFIER "x", src_line.pair ASSIGN "=", src_line.pair IDENTIFIER "a",
   src_line.pair MUL_DIV "*", src_line.pair IDENTIFIER "b", src_line.pair ADD_SUB "-",
   src_line.pair INT "6", src_line.pair MUL_DIV "/", src_line.pair IDENTIFIER "c",
   src_line.pair SEMICOLON ";"]

/-- The syntax tree of `a * b - 6 / c`. -/
def tree_mixed : expr_t :=
  ⟨⟨⟨IDENTIFIER, "a"⟩, [(⟨MUL_DIV, "*"⟩, ⟨IDENTIFIER, "b"⟩)]⟩,
   [(⟨ADD_SUB, "-"⟩, ⟨⟨INT, "6"⟩, [(⟨MUL_DIV, "/"⟩, ⟨IDENTIFIER, "c"⟩)]⟩)]⟩

/-- The lines a `while` statement puts before the code of its body. -/
def while_head (n : Nat) (a op b : word_t) : List asm_line :=
  [asm_line.label "begin" n,
   asm_line.binary "cmp" a.value b.value,
   asm_line.jump (if op.value = "<" then "jl" else "jg") "true" n,
   asm_line.jump (if op.value = "<" then "jge" else "jle") "false" n,
   asm_line.label "true" n]

/-- The lines a `while` statement puts after the code of its body. -/
def while_foot (n : Nat) : List asm_line :=
  [asm_line.jump "jmp" "begin" n, asm_line.label "false" n]

/-- The file of `while ( i < 10 ) i = i + 1 ;`. -/
def file_while : List src_line :=
  [src_line.pair KEYWORD "while", src_line.pair SPACE " ", src_line.pair BRACKET_DOT "(",
   src_line.pair SPACE " ", src_line.pair IDENTIFIER "i", src_line.pair SPACE " ",
   src_line.pair COMPARE "<", src_line.pair SPACE " ", src_line.pair INT "10",
   src_line.pair SPACE " ", src_line.pair BRACKET_DOT ")", src_line.pair SPACE " ",
   src_line.pair IDENTIFIER "i", src_line.pair SPACE " ", src_line.pair ASSIGN "=",
   src_line.pair SPACE " ", src_line.pair IDENTIFIER "i", src_line.pair SPACE " ",
   src_line.pair ADD_SUB "+", src_line.pair SPACE " ", src_line.pair INT "1",
   src_line.pair SPACE " ", src_line.pair SEMICOLON ";"]

/-- The syntax tree of `i + 1`. -/
def tree_increment : expr_t :=
  ⟨⟨⟨IDENTIFIER, "i"⟩, []⟩, [(⟨ADD_SUB, "+"⟩, ⟨⟨INT, "1"⟩, []⟩)]⟩

/-- A word the grammar has no place for: the comparison `<=` or `>=`, or the operator `%`. -/
def refused (w : word_t) : Prop :=
  (w.key = COMPARE ∧ (w.value = "<=" ∨ w.value = ">=")) ∨ (w.key = MUL_DIV ∧ w.value = "%")

/-- The file of `x <= 1 ;`. -/
def file_less_equal : List src_line :=
  [src_line.pair IDENTIFIER "x", src_line.pair SPACE " ", src_line.pair COMPARE "<=",
   src_line.pair SPACE " ", src_line.pair INT "1", src_line.pair SPACE " ",
   src_line.pair SEMICOLON ";", src_line.counter, src_line.counter]

/-! ## The text of the lexical analysis output file, as get_word reads it -/

/-- Size of the line buffer of `get_word` and of the value of a word (`BUF_SIZE` of
`parse-java.c`). -/
def BUF_SIZE : Nat := 512

/-- The delimiters `" \t\r\n"` that `get_word` hands to `strtok`. -/
def is_blank (c : Char) : Bool :=
  c == ' ' || c == Char.ofNat 9 || c == Char.ofNat 13 || c == Char.ofNat 10

/-- The characters `fgets` stores when it may store `k` more, and the characters left in
the file: it stops behind the first newline. -/
def fgets_chars : Nat → List Char → List Char × List Char
  | 0, cs => ([], cs)
  | _ + 1, [] => ([], [])
  | k + 1, c :: cs =>
    if c = Char.ofNat 10 then ([c], cs)
    else ((fgets_chars k cs).1.cons c, (fgets_chars k cs).2)

/-- The call `fgets(buffer, n, src)` on the characters still to be read: the characters
stored in the buffer and the characters left; `none` (`NULL`) at end of file. -/
def fgets (n : Nat) (text : List Char) : Option (List Char × List Char) :=
  match text with
  | [] => none
  | _ :: _ => some (fgets_chars (n - 1) text)

/-- The C string in a buffer: the characters before the first NUL. -/
def c_string (buffer : List Char) : List Char := buffer.takeWhile (fun c => c ≠ Char.ofNat 0)

/-- The call `strtok(s, " \t\r\n")` on a C string: skip the delimiters in front, `none`
(`NULL`) when nothing is left; else the token up to the next delimiter and the characters
behind that delimiter, where the next call `strtok(NULL, ...)` goes on. -/
def strtok (s : List Char) : Option (List Char × List Char) :=
  match s.dropWhile is_blank with
  | [] => none
  | c :: cs =>
    some ((c :: cs).takeWhile (fun x => !is_blank x),
      ((c :: cs).dropWhile (fun x => !is_blank x)).drop 1)

/-- The value of a hexadecimal digit. -/
def hex_value (c : Char) : Option Nat :=
  if '0' ≤ c ∧ c ≤ '9' then some (c.toNat - 48)
  else if 'a' ≤ c ∧ c ≤ 'f' then some (c.toNat - 87)
  else if 'A' ≤ c ∧ c ≤ 'F' then some (c.toNat - 55)
  else none

/-- The number read from the hexadecimal digits in front of a string, after `acc`. -/
def hex_prefix : Nat → List Char → Nat
  | acc, [] => acc
  | acc, c :: cs =>
    match hex_value c with
    | some d => hex_prefix (acc * 16 + d) cs
    | none => acc

/-- The call `strtol(word, NULL, 16)` assigned to the `int attr`: white space, an optional
sign and an optional `0x` or `0X` are skipped, the hexadecimal digits that follow are read
(0 when there is none); the result is kept within the range of `long` (64 bits) and then
taken to the 32 bits of an `int`. -/
def strtol16 (word : List Char) : Int :=
  let w := word.dropWhile (fun c => is_blank c || c == Char.ofNat 11 || c == Char.ofNat 12)
  let neg := w.head? == some '-'
  let w := if w.head? == some '-' ∨ w.head? == some '+' then w.drop 1 else w
  let w := if w.take 2 = ['0', 'x'] ∨ w.take 2 = ['0', 'X'] then w.drop 2 else w
  let v : Int := hex_prefix 0 w
  let v := if neg then -v else v
  let v := max (-(2 ^ 63)) (min v (2 ^ 63 - 1))
  (v + 2 ^ 31) % 2 ^ 32 - 2 ^ 31

/-- One round of the loop of `get_word` on the line `fgets` has stored: what the line is
for `get_word`. The program has no defined behaviour when the line has no first field
(`strcmp` on `NULL`) or, not being a word counter line or a space, no second field
(`strncpy` from `NULL`). The value of a space is not read: it stands as the empty text. -/
def parse_line (buffer : List Char) : exec src_line :=
  match strtok (c_string buffer) with
  | none => exec.undefined
  | some (word, rest) =>
    if word = "line".data ∨ word = "total".data then exec.done src_line.counter
    else if strtol16 word = SPACE then exec.done (src_line.pair SPACE "")
    else
      match strtok rest with
      | none => exec.undefined
      | some (value, _) => exec.done (src_line.pair (strtol16 word) (String.mk value))

/-- The lines `fgets(buffer, BUF_SIZE, src)` delivers one after the other from the text of
a file. -/
def file_lines : Nat → List Char → List (List Char)
  | 0, _ => []
  | fuel + 1, text =>
    match fgets BUF_SIZE text with
    | none => []
    | some (line, rest) => line :: file_lines fuel rest

/-- The lines of a file as `get_word` tells them apart, in order. -/
def parse_lines : List (List Char) → exec (List src_line)
  | [] => exec.done []
  | l :: ls => (parse_line l).bind fun x => (parse_lines ls).bind fun xs => exec.done (x :: xs)

/-- The text of a lexical analysis output file, read line by line as `get_word` does:
the file as the list of lines that `read_word` works on. It is undefined as soon as one
line of the file leaves `get_word` without defined behaviour; the C program meets such a
line only when it reads that far. -/
def parse_file (text : List Char) : exec (List src_line) :=
  parse_lines (file_lines text.length text)

/-! ## The tags of do_validate_lex and the slots of the register table -/

/-- The tags of the token kinds other than Malformed, as the specification lists them:
0x102..0x109, 0x110..0x11d and 0x120..0x123. -/
def token_kind_tag (k : Int) : Bool :=
  decide ((0x102 ≤ k ∧ k ≤ 0x109) ∨ (0x110 ≤ k ∧ k ≤ 0x11d) ∨ (0x120 ≤ k ∧ k ≤ 0x123))

/-- The keys that the test of `do_validate_lex` lets pass: not
`key <= WRONG || key > COLON || (key > BRACKET_DOT && key < COMMA)`. -/
def key_in_range (k : Int) : Bool :=
  !decide (k ≤ WRONG ∨ k > COLON ∨ (k > BRACKET_DOT ∧ k < COMMA))

/-- The words `do_validate_lex` looks at: those in front of the first word with the key 0,
which it takes for the end of the file. -/
def checked_words (all : List src_line) : List word_t :=
  (tokens all).takeWhile fun w => decide (w.key ≠ 0)

/-- A file with one word, whose key 0x10a is no entry of the attribute list. -/
def file_gap_tag : List src_line := [src_line.pair 0x10a "x", src_line.counter]

/-- The text of a file whose first line has no hexadecimal key and whose second line is a
wrong word. -/
def text_no_tag : List Char :=
  "zzz".data ++ [Char.ofNat 9] ++ "q".data ++ [Char.ofNat 10] ++
  "0x101".data ++ [Char.ofNat 9] ++ "w at line 1".data ++ [Char.ofNat 10]

/-- The entry `registers[n]` of the register table, for an index within the array. -/
def slot (r : reg_table) (n : Int) : Bool :=
  if n = 0 then r.r0 else if n = 1 then r.r1 else if n = 2 then r.r2 else if n = 3 then r.r3
  else false

/-- The register table after `registers[n] = b`, for an index within the array. -/
def set_slot (r : reg_table) (n : Int) (b : Bool) : reg_table :=
  if n = 0 then { r with r0 := b } else if n = 1 then { r with r1 := b }
  else if n = 2 then { r with r2 := b } else if n = 3 then { r with r3 := b } else r

/-- A state in which ebx is busy and the other registers are free. -/
def state_ebx_busy : parser_state :=
  { parser_init [] with registers := ⟨false, true, false, false⟩ }

/-! ## Trees of statements, the frame of mul and div, labels -/

/-- The syntax tree of the purely additive expression `v0 op1 v1 ... opn vn`: every term
is a single operand. -/
def additive_tree (v0 : word_t) (ps : List (word_t × word_t)) : expr_t :=
  ⟨⟨v0, []⟩, ps.map fun p => (p.1, ⟨p.2, []⟩)⟩

/-- One line `add ebx, v` or `sub ebx, v` for each pair of an operator and an operand. -/
def additive_lines (ps : List (word_t × word_t)) : List asm_line :=
  ps.map fun p => asm_line.binary (if p.1.value = "+" then "add" else "sub") "ebx" p.2.value

/-- The texts of the identifiers among the words `ws`. -/
def identifiers (ws : List word_t) : List String :=
  (ws.filter fun w => decide (w.key = IDENTIFIER)).map fun w => w.value

/-- A line with one operand (`mul` and `div` are the only ones the translator writes). -/
def asm_line.is_unary : asm_line → Bool
  | asm_line.unary _ _ => true
  | _ => false

/-- Lines in which every one-operand line is a `mul` or a `div` that stands in one of two
frames. Either its operand is the text of an identifier of `ids`, the line before it moves
something into eax and the line after it moves eax into one of ebx, ecx, edx; or its
operand is one of ebx, ecx, edx, the line before it moves something into that register,
the line before that one moves something into eax, and the line after it moves eax into
that register. -/
inductive framed (ids : List String) : List asm_line → Prop
  | nil : framed ids []
  | plain (l : asm_line) (rest : List asm_line) :
      l.is_unary = false → framed ids rest → framed ids (l :: rest)
  | by_name (k : Int) (a m o : String) (rest : List asm_line) :
      (k = 1 ∨ k = 2 ∨ k = 3) → (m = "mul" ∨ m = "div") → o ∈ ids → framed ids rest →
      framed ids (asm_line.binary "mov" "eax" a :: asm_line.unary m o ::
        asm_line.binary "mov" (reg_name k) "eax" :: rest)
  | by_register (k : Int) (a m lit : String) (rest : List asm_line) :
      (k = 1 ∨ k = 2 ∨ k = 3) → (m = "mul" ∨ m = "div") → framed ids rest →
      framed ids (asm_line.binary "mov" "eax" a :: asm_line.binary "mov" (reg_name k) lit ::
        asm_line.unary m (reg_name k) :: asm_line.binary "mov" (reg_name k) "eax" :: rest)

/-- What `ids` must hold for a term: the texts of its identifiers from the second operand
on. -/
def term_t.named (ids : List String) (t : term_t) : Prop :=
  ∀ mv ∈ t.rest, mv.2.key = IDENTIFIER → mv.2.value ∈ ids

/-- A statement S: the assignment `x = e ;`, or the loop `while ( a op b ) x = e ;`. -/
inductive stmt_t where
  | assign (x : word_t) (e : expr_t)
  | loop (a op b x : word_t) (e : expr_t)

/-- The words of a statement. -/
def stmt_t.words : stmt_t → List word_t
  | stmt_t.assign x e => x :: ⟨ASSIGN, "="⟩ :: (e.words ++ [⟨SEMICOLON, ";"⟩])
  | stmt_t.loop a op b x e =>
    ⟨KEYWORD, "while"⟩ :: ⟨BRACKET_DOT, "("⟩ :: a :: op :: b :: ⟨BRACKET_DOT, ")"⟩ ::
      x :: ⟨ASSIGN, "="⟩ :: (e.words ++ [⟨SEMICOLON, ";"⟩])

/-- A statement of the grammar: S -> while (E) A; | A;. -/
def stmt_t.valid : stmt_t → Prop
  | stmt_t.assign x e => x.key = IDENTIFIER ∧ e.valid
  | stmt_t.loop a op b x e => isV a ∧ isO op ∧ isV b ∧ x.key = IDENTIFIER ∧ e.valid

/-- The number of `while` in a statement. -/
def stmt_t.loops : stmt_t → Nat
  | stmt_t.assign _ _ => 0
  | stmt_t.loop _ _ _ _ _ => 1

/-- Code of a statement when both label counters stand at `n`. -/
def stmt_t.code (n : Nat) : stmt_t → List asm_line
  | stmt_t.assign x e => assign_code x e
  | stmt_t.loop a op b x e =>
    while_head (n + 1) a op b ++ (assign_code x e ++ while_foot (n + 1))

/-- The words of a list of statements. -/
def program_words : List stmt_t → List word_t
  | [] => []
  | st :: ss => st.words ++ program_words ss

/-- The number of `while` in a list of statements. -/
def program_loops : List stmt_t → Nat
  | [] => 0
  | st :: ss => program_loops ss + st.loops

/-- Code of a list of statements when both label counters stand at `n`. -/
def program_code (n : Nat) : List stmt_t → List asm_line
  | [] => []
  | st :: ss => st.code n ++ program_code (n + st.loops) ss

/-- The labels that the lines define, in order. -/
def labels_of (code : List asm_line) : List (String × Nat) :=
  code.filterMap fun l =>
    match l with
    | asm_line.label name n => some (name, n)
    | _ => none

/-- The labels that the lines jump to, in order. -/
def jumps_of (code : List asm_line) : List (String × Nat) :=
  code.filterMap fun l =>
    match l with
    | asm_line.jump _ target n => some (target, n)
    | _ => none

/-- A line that is an instruction with operands: neither a label nor a jump. -/
def asm_line.is_plain : asm_line → Bool
  | asm_line.binary _ _ _ => true
  | asm_line.unary _ _ => true
  | _ => false

/-- The file of `while ( i < 10 ) i = i + 1 ; x = a * b - 6 / c ;`. -/
def file_loop_assign : List src_line := file_while ++ file_mixed

/-! ## The translators under watch, and the two passes side by side -/

/-- The number of ebx, ecx and edx that are busy. -/
def busy_count (r : reg_table) : Nat :=
  (if r.r1 then 1 else 0) + (if r.r2 then 1 else 0) + (if r.r3 then 1 else 0)

/-- `push_operand` under watch: undefined when the stack holds 3 words already. -/
def strict_push_operand (word : word_t) (s : parser_state) : exec parser_state :=
  if s.operands.length < 3 then exec.done (push_operand word s) else exec.undefined

/-- `push_operator` under watch: undefined when the stack holds 2 words already. -/
def strict_push_operator (word : word_t) (s : parser_state) : exec parser_state :=
  if s.operators.length < 2 then exec.done (push_operator word s) else exec.undefined

/-- `pop_operand` under watch: undefined when the stack is empty. -/
def strict_pop_operand (s : parser_state) : exec (Option word_t × parser_state) :=
  if s.operands = [] then exec.undefined else exec.done (pop_operand s)

/-- `pop_operator` under watch: undefined when the stack is empty. -/
def strict_pop_operator (s : parser_state) : exec (Option word_t × parser_state) :=
  if s.operators = [] then exec.undefined else exec.done (pop_operator s)

/-- `alloc_register` under watch: undefined when two of ebx, ecx, edx are busy already. -/
def strict_alloc_register (s : parser_state) : exec (Int × parser_state) :=
  if busy_count s.registers < 2 then exec.done (alloc_register s) else exec.undefined

/-- `alloc_accumulator` under watch: undefined when eax is busy. -/
def strict_alloc_accumulator (s : parser_state) : exec (Int × parser_state) :=
  if s.registers.r0 then exec.undefined else exec.done (alloc_accumulator s)

/-- `translate_V` with its push under watch. -/
def strict_translate_V (s : parser_state) : exec parser_state :=
  let (word, s) := get_word s
  strict_push_operand word s

/-- `translate_O_P_M` with its push under watch. -/
def strict_translate_O_P_M (s : parser_state) : exec parser_state :=
  let (word, s) := get_word s
  strict_push_operator word s

/-- `reduce_T1` with its allocations and its push under watch. -/
def strict_reduce_T1 (word : word_t) (w2 w3 : Option word_t) (s : parser_state) :
    exec parser_state :=
  (if ¬ check_word word REGISTER (some "eax") then
    (strict_alloc_accumulator s).bind fun (reg_no, s) =>
    (register_name reg_no).bind fun name =>
    let s := emit (asm_line.binary "mov" name word.value) s
    let s := if check_word word REGISTER none then
      free_register (get_register_no word.value) s else s
    exec.done (some reg_no, (⟨REGISTER, name⟩ : word_t), s)
  else exec.done (none, word, s)).bind fun (reg_no, word, s) =>
  (popped w3).bind fun word3 =>
  (if check_word word3 INT none then
    (strict_alloc_register s).bind fun (reg_no2, s) =>
    (register_name reg_no2).bind fun name =>
    exec.done ((⟨REGISTER, name⟩ : word_t), emit (asm_line.binary "mov" name word3.value) s)
  else exec.done (word3, s)).bind fun (word3, s) =>
  (popped w2).bind fun word2 =>
  let s := if check_word word2 MUL_DIV (some "*") then
      emit (asm_line.unary "mul" word3.value) s
    else if check_word word2 MUL_DIV (some "/") then
      emit (asm_line.unary "div" word3.value) s
    else s
  let s := if check_word word3 REGISTER none then
    free_register (get_register_no word3.value) s else s
  (strict_alloc_register s).bind fun (reg_no2, s) =>
  (register_name reg_no2).bind fun name =>
  let s := emit (asm_line.binary "mov" name word.value) s
  let word : word_t := ⟨word.key, name⟩
  (match reg_no with
    | some no => exec.done (free_register no s)
    | none => exec.undefined).bind fun s =>
  strict_push_operand word s

/-- `translate_T1` with every push, pop and allocation under watch. -/
def strict_translate_T1 : Nat → parser_state → exec parser_state
  | 0, _ => exec.starved
  | fuel + 1, s =>
    let (word, s) := get_word s
    if check_word word MUL_DIV none then
      let s := return_word word s
      (strict_translate_O_P_M s).bind fun s =>
      (strict_translate_V s).bind fun s =>
      (strict_pop_operand s).bind fun (w3, s) =>
      (strict_pop_operator s).bind fun (w2, s) =>
      (strict_pop_operand s).bind fun (w1, s) =>
      (strict_reduce_T1 (w1.getD word) w2 w3 s).bind fun s =>
      strict_translate_T1 fuel s
    else
      exec.done (return_word word s)

/-- `translate_T` with every push, pop and allocation under watch. -/
def strict_translate_T (s : parser_state) : exec parser_state :=
  (strict_translate_V s).bind fun s =>
  strict_translate_T1 (budget s) s

/-- `reduce_C1` with its allocation and its push under watch. -/
def strict_reduce_C1 (word : word_t) (w2 w3 : Option word_t) (s : parser_state) :
    exec parser_state :=
  (if ¬ check_word word REGISTER none then
    (strict_alloc_register s).bind fun (reg_no, s) =>
    (register_name reg_no).bind fun name =>
    exec.done ((⟨REGISTER, name⟩ : word_t), emit (asm_line.binary "mov" name word.value) s)
  else exec.done (word, s)).bind fun (word, s) =>
  (popped w2).bind fun word2 =>
  (popped w3).bind fun word3 =>
  let s := if check_word word2 ADD_SUB (some "+") then
      emit (asm_line.binary "add" word.value word3.value) s
    else if check_word word2 ADD_SUB (some "-") then
      emit (asm_line.binary "sub" word.value word3.value) s
    else s
  let s := if check_word word3 REGISTER none then
    free_register (get_register_no word3.value) s else s
  strict_push_operand word s

/-- `translate_C1` with every push, pop and allocation under watch. -/
def strict_translate_C1 : Nat → parser_state → exec parser_state
  | 0, _ => exec.starved
  | fuel + 1, s =>
    let (word, s) := get_word s
    if check_word word ADD_SUB none then
      let s := return_word word s
      (strict_translate_O_P_M s).bind fun s =>
      (strict_translate_T s).bind fun s =>
      (strict_pop_operand s).bind fun (w3, s) =>
      (strict_pop_operator s).bind fun (w2, s) =>
      (strict_pop_operand s).bind fun (w1, s) =>
      (strict_reduce_C1 (w1.getD word) w2 w3 s).bind fun s =>
      strict_translate_C1 fuel s
    else
      exec.done (return_word word s)

/-- `translate_C` with every push, pop and allocation under watch. -/
def strict_translate_C (s : parser_state) : exec parser_state :=
  (strict_translate_T s).bind fun s =>
  strict_translate_C1 (budget s) s

/-- `translate_A` with every push, pop and allocation under watch. -/
def strict_translate_A (s : parser_state) : exec parser_state :=
  let (word, s) := get_word s
  let (word2, s) := get_word s
  (strict_translate_C s).bind fun s =>
  (strict_pop_operand s).bind fun (w, s) =>
  let word2 := w.getD word2
  let s := emit (asm_line.binary "mov" word.value word2.value) s
  exec.done (if check_word word2 REGISTER none then
    free_register (get_register_no word2.value) s else s)

/-- `translate_E` with every push and pop under watch. -/
def strict_translate_E (s : parser_state) : exec parser_state :=
  (strict_translate_V s).bind fun s =>
  (strict_translate_O_P_M s).bind fun s =>
  (strict_translate_V s).bind fun s =>
  (strict_pop_operand s).bind fun (w2, s) =>
  (strict_pop_operand s).bind fun (w1, s) =>
  (popped w2).bind fun word2 =>
  (popped w1).bind fun word =>
  exec.done (emit (asm_line.binary "cmp" word.value word2.value) s)

/-- `translate_S` with every push, pop and allocation under watch. -/
def strict_translate_S (s : parser_state) : exec (Int × parser_state) :=
  let (word, s) := get_word s
  if word.key = 0 then exec.done (-1, s) else
  (if check_word word KEYWORD (some "while") then
    let s := { s with begin_counter := s.begin_counter + 1 }
    let s := emit (asm_line.label "begin" s.begin_counter) s
    let (_, s) := get_word s
    (strict_translate_E s).bind fun s =>
    let (word, s) := get_word s
    (strict_pop_operator s).bind fun (w, s) =>
    let word := w.getD word
    let s := emit_branch word.value s
    let s := emit (asm_line.label "true" s.branch_counter) s
    exec.done (word, s)
  else
    exec.done (word, return_word word s)).bind fun (word, s) =>
  (strict_translate_A s).bind fun s =>
  let s := if word.key = COMPARE then
      let s := emit (asm_line.jump "jmp" "begin" s.begin_counter) s
      emit (asm_line.label "false" s.branch_counter) s
    else s
  let (_, s) := get_word s
  exec.done (0, s)

/-- The loop of `do_parse` with every push, pop and allocation under watch. -/
def strict_parse_loop : Nat → parser_state → exec parser_state
  | 0, _ => exec.starved
  | fuel + 1, s =>
    (strict_translate_S s).bind fun (ret, s) =>
    if ret = -1 then exec.done s else strict_parse_loop fuel s

/-- The function `do_parse` with every push, pop and allocation under watch: it is done
only if, all along, no push met more than 2 operands or 1 operator on its stack, no pop
met an empty stack, no `alloc_register` met two of ebx, ecx, edx busy and no
`alloc_accumulator` met eax busy. -/
def strict_do_parse (all : List src_line) (s : parser_state) : exec parser_state :=
  strict_parse_loop (budget (rewind all s)) (rewind all s)

/-- One run is as the other says whenever the first is done. -/
def refines {α : Type} (a b : exec α) : Prop := ∀ r, a = exec.done r → b = exec.done r

/-- What the translator reads and the resources it uses: the pending words, the two
stacks and the register table. -/
def shape (s : parser_state) : List word_t × List word_t × List word_t × reg_table :=
  (pending s, s.operators, s.operands, s.registers)

/-- An expression as the checker accepts it: C -> T C1, with P any word of the key
ADD_SUB. -/
def expr_t.accepted (e : expr_t) : Prop :=
  e.first.valid ∧ ∀ pt ∈ e.rest, isAddSub pt.1 ∧ pt.2.valid

/-- The two passes side by side, from a state `c` of the checker and a state `t` of the
translator: for each entry of the list, `check_S` returns 1 and `translate_S` returns 0,
both have read the words of that entry and nothing else, the last of them a `;`, and both
leave the pushback slot empty; the next pair of calls starts from the states they leave.
After the last entry both are at the same words, find no word there (`get_word` yields the
key 0), return -1 and leave the same words. -/
inductive lockstep (undef : parser_state → Int) :
    List (List word_t) → parser_state → parser_state → Prop
  | stop (c t c1 t1 : parser_state) :
      pending t = pending c → (get_word c).1.key = 0 →
      check_S undef c = exec.done (-1, c1) → translate_S t = exec.done (-1, t1) →
      pending t1 = pending c1 →
      lockstep undef [] c t
  | step (st : List word_t) (sts : List (List word_t)) (c t c1 t1 : parser_state) :
      check_S undef c = exec.done (1, c1) → translate_S t = exec.done (0, t1) →
      pending c = (st ++ [⟨SEMICOLON, ";"⟩]) ++ pending c1 →
      pending t = (st ++ [⟨SEMICOLON, ";"⟩]) ++ pending t1 →
      c1.returned.key = 0 → t1.returned.key = 0 →
      lockstep undef sts c1 t1 → lockstep undef ((st ++ [⟨SEMICOLON, ";"⟩]) :: sts) c t

/-- The file of `x = 1 ;`, a line with the key 0, and `y = 2 ;`. -/
def file_cut : List src_line :=
  [src_line.pair IDENTIFIER "x", src_line.pair ASSIGN "=", src_line.pair INT "1",
   src_line.pair SEMICOLON ";", src_line.pair 0 "?", src_line.pair IDENTIFIER "y",
   src_line.pair ASSIGN "=", src_line.pair INT "2", src_line.pair SEMICOLON ";"]

end ParseJava

namespace LexJava

open ParseJava

/-! ## The data of lex-java.c -/

/-- Size of the word buffer of `lex-java.c`. -/
def BUF_SIZE : Nat := 4096

abbrev NUL : Char := Char.ofNat 0

abbrev TAB : Char := Char.ofNat 9

abbrev LF : Char := Char.ofNat 10

abbrev CR : Char := Char.ofNat 13

abbrev DQUOTE : Char := Char.ofNat 34

abbrev QUOTE : Char := Char.ofNat 39

abbrev BACKSLASH : Char := Char.ofNat 92

abbrev LBRACE : Char := Char.ofNat 123

abbrev RBRACE : Char := Char.ofNat 125

/-- Keyword list (`true` and `false` are not in it: they are boolean constants). -/
def keywords : List (List Char) :=
  ["abstract".data,
   "boolean".data, "break".data, "byte".data,
   "case".data, "catch".data, "char".data, "class".data, "const".data, "continue".data,
   "default".data, "do".data, "double".data,
   "else".data, "extends".data,
   "final".data, "finally".data, "float".data, "for".data,
   "goto".data,
   "if".data, "implements".data, "import".data, "instanceof".data, "int".data,
   "interface".data,
   "long".data,
   "native".data, "new".data, "null".data,
   "package".data, "private".data, "protected".data, "public".data,
   "return".data,
   "short".data, "static".data, "super".data, "switch".data, "synchronized".data,
   "this".data, "throw".data, "throws".data, "transient".data, "try".data,
   "void".data, "volatile".data,
   "while".data]

/-- One record written to the output file, with the `fprintf` format that produces it. -/
inductive out_line where
  /-- Format `"0x%x\t%s\n"` (`do_output_word`). -/
  | word (type : Int) (text : List Char)
  /-- Format `"0x%x\t%s at line %d\n"` with the type `WRONG` (`do_output_wrong_word`). -/
  | wrong (text : List Char) (line : Nat)
  /-- Format `"line %d has %d word\n"` (`do_update_line_count`, fewer than 2 words). -/
  | line_word (line : Nat) (count : Nat)
  /-- Format `"line %d has %d words\n"` (`do_update_line_count`). -/
  | line_words (line : Nat) (count : Nat)
  /-- Format `"total %d words\n"` (`do_output_word_count`). -/
  | total (count : Nat)
deriving DecidableEq, Repr

/-- The local variables of `do_lex` that live across the characters, and the output file.
`word` holds the cells of the buffer up to the last one written since it was cleared (the
cells after them are NUL). `overrun` records that a write reached the last cell of the
buffer `char word[BUF_SIZE]` or went past it: a write past it is outside the array, and a
write to the last cell takes the NUL that ends the word, so that `fprintf` and `strcmp`
read past the array. The flag is never lowered, and `do_lex` has no defined result when it
is raised. -/
structure lex_state where
  state : Int
  word : List Char
  length : Nat
  condition_flag : Bool
  words : Nat
  lines : Nat
  words_in_line : Nat
  out : List out_line
  overrun : Bool
deriving DecidableEq, Repr

/-- The variables of `do_lex` before the first character. -/
def lex_init : lex_state :=
  { state := 0, word := [], length := 0, condition_flag := false, words := 0, lines := 0,
    words_in_line := 0, out := [], overrun := false }

/-! ## The word buffer and the output routines -/

/-- The buffer cells after `word[i] = c`. -/
def buf_write (w : List Char) (i : Nat) (c : Char) : List Char :=
  if i < w.length then w.set i c else w ++ List.replicate (i - w.length) NUL ++ [c]

/-- The C string held by the buffer: the cells before the first NUL. -/
def cstr (w : List Char) : List Char := w.takeWhile (fun c => c ≠ NUL)

/-- The assignment `word[i] = c`. No handler compares `i` with `BUF_SIZE`: the write is
done wherever it lands, and `overrun` is raised when `i` is the last cell of the buffer or
lies beyond it. -/
def store (i : Nat) (c : Char) (s : lex_state) : lex_state :=
  { s with word := buf_write s.word i c,
           overrun := s.overrun || decide (BUF_SIZE ≤ i + 1) }

/-- The assignment `word[(*length)++] = c`. -/
def push (c : Char) (s : lex_state) : lex_state :=
  { store s.length c s with length := s.length + 1 }

/-- The assignment `*state = n`. -/
def goto (n : Int) (s : lex_state) : lex_state := { s with state := n }

/-- Print a word to output file. -/
def do_output_word (text : List Char) (type : Int) (s : lex_state) : lex_state :=
  { s with out := s.out ++ [out_line.word type text] }

/-- Print a wrong word with line number to output file. -/
def do_output_wrong_word (text : List Char) (lines : Nat) (s : lex_state) : lex_state :=
  { s with out := s.out ++ [out_line.wrong text lines] }

/-- Determine if a word is a boolean value, a keyword or an identifier. -/
def do_judgement (word : List Char) : Int :=
  if word = "true".data ∨ word = "false".data then BOOLEAN
  else if keywords.any (fun k => decide (word = k)) then KEYWORD
  else IDENTIFIER

/-- Update word count. -/
def do_update_word_count (s : lex_state) : lex_state :=
  { s with words := s.words + 1, words_in_line := s.words_in_line + 1 }

/-- Update and print line count and in-line word count. -/
def do_update_line_count (s : lex_state) : lex_state :=
  let lines := s.lines + 1
  let line := if s.words_in_line < 2 then out_line.line_word lines s.words_in_line
    else out_line.line_words lines s.words_in_line
  { s with lines := lines, out := s.out ++ [line], words_in_line := 0 }

/-- Clear current word and set state to 0. -/
def do_clear (s : lex_state) : lex_state :=
  { s with word := [], length := 0, state := 0 }

/-- Print total word count to output file. -/
def do_output_word_count (s : lex_state) : lex_state :=
  { s with out := s.out ++ [out_line.total s.words] }

/-- The three calls that end most cases of the switch: print the word with the given
type, update the word count, clear. -/
def accept (type : Int) (s : lex_state) : lex_state :=
  do_clear (do_update_word_count (do_output_word (cstr s.word) type s))

/-! ## Character classes -/

/-- The test `(c >= 'A' && c <= 'Z') || (c >= 'a' && c <= 'z') || c == '$' || c == '_'`. -/
def is_word_start (c : Char) : Bool :=
  ('A' ≤ c && c ≤ 'Z') || ('a' ≤ c && c ≤ 'z') || c == '$' || c == '_'

/-- The test of `do_state_1`: a letter, a digit, `$` or `_`. -/
def is_word_char (c : Char) : Bool :=
  ('A' ≤ c && c ≤ 'Z') || ('a' ≤ c && c ≤ 'z') || ('0' ≤ c && c ≤ '9') || c == '$' || c == '_'

/-- The test `c >= '0' && c <= '9'`. -/
def is_digit (c : Char) : Bool := '0' ≤ c && c ≤ '9'

/-- The test `c >= '0' && c <= '7'`. -/
def is_octal (c : Char) : Bool := '0' ≤ c && c ≤ '7'

/-- The test `(c >= 'A' && c <= 'F') || (c >= 'a' && c <= 'f') || (c >= '0' && c <= '9')`. -/
def is_hex (c : Char) : Bool :=
  ('A' ≤ c && c ≤ 'F') || ('a' ≤ c && c ≤ 'f') || ('0' ≤ c && c ≤ '9')

/-- The characters that end a wrong word: a space or a delimiter. -/
def is_delimiter (c : Char) : Bool :=
  c == ' ' || c == TAB || c == CR || c == LF || c == LBRACE || c == RBRACE || c == '[' ||
  c == ']' || c == '(' || c == ')' || c == ',' || c == '.' || c == ';'

/-- The escapes of one character: `\\ \' \" \r \n \f \t \b`. -/
def is_simple_escape (c : Char) : Bool :=
  c == BACKSLASH || c == QUOTE || c == DQUOTE || c == 'r' || c == 'n' || c == 'f' ||
  c == 't' || c == 'b'

/-- The suffixes `f`, `F`, `d`, `D`. -/
def is_float_suffix (c : Char) : Bool := c == 'f' || c == 'F' || c == 'd' || c == 'D'

/-! ## The states of do_lex

A handler with a return value yields the new variables and its result (`true` for 1);
the others yield the new variables only. -/

/-- Handler of state -1, inside a wrong word: the result tells that the word has ended. -/
def do_state_m1 (c : Char) (s : lex_state) : lex_state × Bool :=
  if is_delimiter c then (goto (-2) s, true) else (push c s, false)

/-- Handler of the initial state: the result tells that it met a `?`. -/
def do_state_0 (c : Char) (s : lex_state) : lex_state × Bool :=
  let s := push c s
  if is_word_start c then (goto 1 s, false)
  else if '1' ≤ c ∧ c ≤ '9' then (goto 23 s, false)
  else if c = DQUOTE then (goto 3 s, false)
  else if c = QUOTE then (goto 12 s, false)
  else if c = '.' then (goto 22 s, false)
  else if c = '0' then (goto 29 s, false)
  else if c = '[' ∨ c = ']' ∨ c = '(' ∨ c = ')' then (goto 35 s, false)
  else if c = ',' then (goto 36 s, false)
  else if c = LBRACE ∨ c = RBRACE then (goto 37 s, false)
  else if c = ';' then (goto 38 s, false)
  else if c = '+' then (goto 39 s, false)
  else if c = '-' then (goto 42 s, false)
  else if c = '*' then (goto 45 s, false)
  else if c = '/' then (goto 47 s, false)
  else if c = '%' then (goto 49 s, false)
  else if c = '&' then (goto 51 s, false)
  else if c = '|' then (goto 54 s, false)
  else if c = '^' then (goto 57 s, false)
  else if c = '~' then (goto 59 s, false)
  else if c = '!' then (goto 60 s, false)
  else if c = '<' then (goto 62 s, false)
  else if c = '>' then (goto 66 s, false)
  else if c = '=' then (goto 72 s, false)
  else if c = ' ' then (goto 79 s, false)
  else if c = TAB then
    (push 't' (store (s.length - 1) BACKSLASH (goto 79 s)), false)
  else if c = CR then
    (push 'r' (store (s.length - 1) BACKSLASH (goto 79 s)), false)
  else if c = LF then
    (push 'n' (store (s.length - 1) BACKSLASH (goto 80 s)), false)
  else if c = '?' then (s, true)
  else if c = ':' then (goto 81 s, false)
  else (goto (-1) s, false)

/-- Handler of state 1, inside a keyword, boolean value or identifier. -/
def do_state_1 (c : Char) (s : lex_state) : lex_state × Bool :=
  if is_word_char c then (push c s, false) else (goto 2 s, true)

/-- Handler of state 3, inside a string. -/
def do_state_3 (c : Char) (s : lex_state) : lex_state :=
  let s := push c s
  if c = DQUOTE then goto 4 s
  else if c = BACKSLASH then goto 5 s
  else s

/-- Handler of state 5, inside a string and after a back slash. -/
def do_state_5 (c : Char) (s : lex_state) : lex_state :=
  let s := push c s
  if is_octal c then goto 6 s
  else if is_simple_escape c then goto 3 s
  else if c = 'u' then goto 8 s
  else goto (-1) s

/-- Handler of states 6 and 16, after a back slash and an octal digit. -/
def do_state_6_16 (c : Char) (s : lex_state) : lex_state :=
  let s := push c s
  if is_octal c then goto (s.state + 1) s else goto (-1) s

/-- Handler of state 7, inside a string and after a back slash and 2 octal digits. -/
def do_state_7 (c : Char) (s : lex_state) : lex_state :=
  let s := push c s
  if is_octal c then goto 3 s else goto (-1) s

/-- Handler of states 8, 9, 10, 18, 19 and 20, after `\u` and 0 to 2 hexadecimal digits. -/
def do_state_8_9_10_18_19_20 (c : Char) (s : lex_state) : lex_state :=
  let s := push c s
  if is_hex c then goto (s.state + 1) s else goto (-1) s

/-- Handler of state 11, inside a string and after `\u` and 3 hexadecimal digits. -/
def do_state_11 (c : Char) (s : lex_state) : lex_state :=
  let s := push c s
  if is_hex c then goto 3 s else goto (-1) s

/-- Handler of state 12, inside a char and do not have a char. -/
def do_state_12 (c : Char) (s : lex_state) : lex_state :=
  let s := push c s
  if c = BACKSLASH then goto 15 s else goto 13 s

/-- Handler of state 13, inside a char and have a char. -/
def do_state_13 (c : Char) (s : lex_state) : lex_state :=
  let s := push c s
  if c = QUOTE then goto 14 s else goto (-1) s

/-- Handler of state 15, inside a char and after a back slash. -/
def do_state_15 (c : Char) (s : lex_state) : lex_state :=
  let s := push c s
  if is_octal c then goto 16 s
  else if is_simple_escape c then goto 13 s
  else if c = 'u' then goto 18 s
  else goto (-1) s

/-- Handler of state 17, inside a char and after a back slash and two octal digits. -/
def do_state_17 (c : Char) (s : lex_state) : lex_state :=
  let s := push c s
  if is_octal c then goto 13 s else goto (-1) s

/-- Handler of state 21, inside a char and after `\u` and 3 hexadecimal digits. -/
def do_state_21 (c : Char) (s : lex_state) : lex_state :=
  let s := push c s
  if is_hex c then goto 13 s else goto (-1) s

/-- Handler of state 22, after a dot. -/
def do_state_22 (c : Char) (s : lex_state) : lex_state × Bool :=
  if is_digit c then (goto 24 (push c s), false) else (s, true)

/-- Handler of state 23, after a `1` to `9`. -/
def do_state_23 (c : Char) (s : lex_state) : lex_state × Bool :=
  if is_digit c then (push c s, false)
  else if c = '.' then (goto 24 (push c s), false)
  else if is_float_suffix c then (goto 25 (push c s), false)
  else if c = 'e' ∨ c = 'E' then (goto 26 (push c s), false)
  else if c = 'l' ∨ c = 'L' then (goto 33 (push c s), false)
  else (s, true)

/-- Handler of state 24, a float without suffix or exponent. -/
def do_state_24 (c : Char) (s : lex_state) : lex_state × Bool :=
  if is_digit c then (push c s, false)
  else if is_float_suffix c then (goto 25 (push c s), false)
  else if c = 'e' ∨ c = 'E' then (goto 26 (push c s), false)
  else (s, true)

/-- Handler of state 26, a float ending with `e` or `E`. -/
def do_state_26 (c : Char) (s : lex_state) : lex_state :=
  let s := push c s
  if is_digit c then goto 28 s
  else if c = '-' ∨ c = '+' then goto 27 s
  else goto (-1) s

/-- Handler of state 27, a float ending with `e` or `E` and a sign. -/
def do_state_27 (c : Char) (s : lex_state) : lex_state :=
  let s := push c s
  if is_digit c then goto 28 s else goto (-1) s

/-- Handler of state 28, a float ending with an exponent. -/
def do_state_28 (c : Char) (s : lex_state) : lex_state × Bool :=
  if is_digit c then (push c s, false)
  else if is_float_suffix c then (goto 25 (push c s), false)
  else (s, true)

/-- Handler of state 29, after a `0`. -/
def do_state_29 (c : Char) (s : lex_state) : lex_state × Bool :=
  if is_octal c then (goto 33 (push c s), false)
  else if c = 'x' ∨ c = 'X' then (goto 30 (push c s), false)
  else if c = 'l' ∨ c = 'L' then (goto 32 (push c s), false)
  else if c = 'e' ∨ c = 'E' then (goto 26 (push c s), false)
  else if is_float_suffix c then (goto 25 (push c s), false)
  else if c = '8' ∨ c = '9' then (goto 34 (push c s), false)
  else if c = '.' then (goto 24 (push c s), false)
  else (s, true)

/-- Handler of state 30, after `0x` or `0X`. -/
def do_state_30 (c : Char) (s : lex_state) : lex_state :=
  let s := push c s
  if is_hex c then goto 31 s else goto (-1) s

/-- Handler of state 31, int in hexadecimal. -/
def do_state_31 (c : Char) (s : lex_state) : lex_state × Bool :=
  if is_hex c then (push c s, false)
  else if c = 'l' ∨ c = 'L' then (goto 32 (push c s), false)
  else (s, true)

/-- Handler of state 33, int in octal. -/
def do_state_33 (c : Char) (s : lex_state) : lex_state × Bool :=
  if is_octal c then (push c s, false)
  else if c = '8' ∨ c = '9' then (goto 34 (push c s), false)
  else if c = 'l' ∨ c = 'L' then (goto 32 (push c s), false)
  else if c = 'e' ∨ c = 'E' then (goto 26 (push c s), false)
  else if is_float_suffix c then (goto 25 (push c s), false)
  else (s, true)

/-- Handler of state 34, number starting with `0` that has an `8` or `9`. -/
def do_state_34 (c : Char) (s : lex_state) : lex_state :=
  let s := push c s
  if is_digit c then s
  else if c = 'e' ∨ c = 'E' then goto 26 s
  else if is_float_suffix c then goto 25 s
  else goto (-1) s

/-- Handler of state 39, after a `+`. -/
def do_state_39 (c : Char) (s : lex_state) : lex_state × Bool :=
  if c = '=' then (goto 40 (push c s), false)
  else if c = '+' then (goto 41 (push c s), false)
  else (s, true)

/-- Handler of state 42, after a `-`. -/
def do_state_42 (c : Char) (s : lex_state) : lex_state × Bool :=
  if c = '=' then (goto 43 (push c s), false)
  else if c = '-' then (goto 44 (push c s), false)
  else (s, true)

/-- Handler of states 45, 49, 57, 60, 64, 70 and 72: an operator that `=` may follow. -/
def do_state_45_49_57_60_64_70_72 (c : Char) (s : lex_state) : lex_state × Bool :=
  if c = '=' then
    let s := push c s
    (goto (s.state + 1) s, false)
  else (s, true)

/-- Handler of state 51, after a `&`; the second `&` is stored without moving `length`. -/
def do_state_51 (c : Char) (s : lex_state) : lex_state × Bool :=
  if c = '=' then (goto 52 (push c s), false)
  else if c = '&' then (goto 53 (store s.length c s), false)
  else (s, true)

/-- Handler of state 54, after a `|`; the second `|` is stored without moving `length`. -/
def do_state_54 (c : Char) (s : lex_state) : lex_state × Bool :=
  if c = '=' then (goto 55 (push c s), false)
  else if c = '|' then (goto 56 (store s.length c s), false)
  else (s, true)

/-- Handler of state 62, after a `<`; the second `<` is stored without moving `length`. -/
def do_state_62 (c : Char) (s : lex_state) : lex_state × Bool :=
  if c = '=' then (goto 63 (push c s), false)
  else if c = '<' then (goto 64 (store s.length c s), false)
  else (s, true)

/-- Handler of states 66 and 68, after `>` and `>>`; a further `>` is stored without
moving `length`. -/
def do_state_66_68 (c : Char) (s : lex_state) : lex_state × Bool :=
  if c = '=' then
    let s := push c s
    (goto (s.state + 1) s, false)
  else if c = '>' then
    let s := store s.length c s
    (goto (s.state + 2) s, false)
  else (s, true)

/-- Handler of state 47, after a `/`. -/
def do_state_47 (c : Char) (s : lex_state) : lex_state × Bool :=
  if c = '=' then (goto 48 (push c s), false)
  else if c = '*' then (goto 74 (do_clear s), false)
  else if c = '/' then (goto 77 (do_clear s), false)
  else (s, true)

/-- Handler of state 74, in a block comment: the result tells that it met a newline. -/
def do_state_74 (c : Char) (s : lex_state) : lex_state × Bool :=
  if c = '*' then (goto 75 s, false)
  else if c = LF then (s, true)
  else (s, false)

/-- Handler of state 75, after a `*` in a block comment: the result tells that it met a
newline. -/
def do_state_75 (c : Char) (s : lex_state) : lex_state × Bool :=
  if c = '/' then (goto 76 s, false)
  else if c = '*' then (s, false)
  else if c = LF then (s, true)
  else (goto 74 s, false)

/-- Handler of state 77, in a line comment: the result tells that it met a newline. -/
def do_state_77 (c : Char) (s : lex_state) : lex_state × Bool :=
  if c = LF then (goto 78 s, true) else (s, false)

/-! ## One step of do_lex, the loop, and the whole run -/

/-- A case of the switch whose handler tells whether the word is complete: accept it with
the given type (the character is looked at again), or go on to the next character. -/
def accept_if (type : Int) (r : lex_state × Bool) : lex_state × Bool :=
  if r.2 then (accept type r.1, false) else (r.1, true)

/-- A case of the switch in a comment: update the line count when the handler met a
newline, and go on to the next character. -/
def count_line_if (r : lex_state × Bool) : lex_state × Bool :=
  if r.2 then (do_update_line_count r.1, true) else (r.1, true)

/-- One round of the `switch (state)` of `do_lex` on the character `c`: the new variables
and whether the character counter `i` is advanced; `none` for the default case (illegal
state), where `do_lex` returns. -/
def do_lex_step (c : Char) (s : lex_state) : Option (lex_state × Bool) :=
  match s.state with
  -- inside a wrong word
  | -1 => let r := do_state_m1 c s; some (r.1, !r.2)
  -- get a wrong word
  | -2 =>
    some (do_clear (do_update_word_count (do_output_wrong_word (cstr s.word) (s.lines + 1) s)),
      false)
  -- initial
  | 0 =>
    let r := do_state_0 c s
    if r.2 then
      if ¬ r.1.condition_flag then
        some (store (r.1.length - 1) NUL
          { r.1 with condition_flag := true, length := r.1.length - 1 }, true)
      else some (goto (-1) r.1, true)
    else some (r.1, true)
  -- inside a keyword, boolean value or identifier
  | 1 => let r := do_state_1 c s; some (r.1, !r.2)
  -- get a keyword, boolean value or identifier
  | 2 => some (accept (do_judgement (cstr s.word)) s, false)
  | 3 => some (do_state_3 c s, true)
  -- get a string
  | 4 => some (accept STRING s, false)
  | 5 => some (do_state_5 c s, true)
  | 6 | 16 => some (do_state_6_16 c s, true)
  | 7 => some (do_state_7 c s, true)
  | 8 | 9 | 10 | 18 | 19 | 20 => some (do_state_8_9_10_18_19_20 c s, true)
  | 11 => some (do_state_11 c s, true)
  | 12 => some (do_state_12 c s, true)
  | 13 => some (do_state_13 c s, true)
  -- get a char
  | 14 => some (accept CHAR s, false)
  | 15 => some (do_state_15 c s, true)
  | 17 => some (do_state_17 c s, true)
  | 21 => some (do_state_21 c s, true)
  -- catch a dot
  | 22 => some (accept_if BRACKET_DOT (do_state_22 c s))
  | 23 => some (accept_if INT (do_state_23 c s))
  | 24 => some (accept_if FLOAT (do_state_24 c s))
  | 25 => some (accept FLOAT s, false)
  | 26 => some (do_state_26 c s, true)
  | 27 => some (do_state_27 c s, true)
  | 28 => some (accept_if FLOAT (do_state_28 c s))
  | 29 => some (accept_if INT (do_state_29 c s))
  | 30 => some (do_state_30 c s, true)
  | 31 => some (accept_if INT (do_state_31 c s))
  | 32 => some (accept INT s, false)
  | 33 => some (accept_if INT (do_state_33 c s))
  | 34 => some (do_state_34 c s, true)
  | 35 => some (accept BRACKET_DOT s, false)
  | 36 => some (accept COMMA s, false)
  | 37 => some (accept BIG_BRACKET s, false)
  | 38 => some (accept SEMICOLON s, false)
  | 39 => some (accept_if ADD_SUB (do_state_39 c s))
  | 40 | 43 | 46 | 48 | 50 | 52 | 55 | 58 | 65 | 69 | 71 => some (accept ASSIGN s, false)
  | 41 | 44 | 59 => some (accept PLUSPLUS s, false)
  | 42 => some (accept_if ADD_SUB (do_state_42 c s))
  | 45 | 49 => some (accept_if MUL_DIV (do_state_45_49_57_60_64_70_72 c s))
  | 47 => some (accept_if MUL_DIV (do_state_47 c s))
  | 51 => some (accept_if BIT_AND (do_state_51 c s))
  | 53 => some (accept LOGIC_AND s, false)
  | 54 => some (accept_if BIT_OR (do_state_54 c s))
  | 56 => some (accept LOGIC_OR s, false)
  | 57 => some (accept_if XOR (do_state_45_49_57_60_64_70_72 c s))
  | 60 => some (accept_if PLUSPLUS (do_state_45_49_57_60_64_70_72 c s))
  | 61 | 73 => some (accept EQUAL s, false)
  | 62 => some (accept_if COMPARE (do_state_62 c s))
  | 63 | 67 => some (accept COMPARE s, false)
  | 64 | 70 => some (accept_if SHIFT (do_state_45_49_57_60_64_70_72 c s))
  | 66 => some (accept_if COMPARE (do_state_66_68 c s))
  | 68 => some (accept_if SHIFT (do_state_66_68 c s))
  | 72 => some (accept_if ASSIGN (do_state_45_49_57_60_64_70_72 c s))
  | 74 => some (count_line_if (do_state_74 c s))
  | 75 => some (count_line_if (do_state_75 c s))
  | 76 => some (do_clear s, false)
  | 77 => some (count_line_if (do_state_77 c s))
  | 78 => some (do_clear s, false)
  -- catch a space, a tab or a carriage return
  | 79 => some (accept SPACE s, false)
  -- catch a newline
  | 80 =>
    some (do_clear (do_update_line_count
      (do_update_word_count (do_output_word (cstr s.word) SPACE s))), false)
  -- catch a `:` after `?`
  | 81 =>
    if s.condition_flag then
      some (do_clear (do_update_word_count (do_output_word "?:".data CONDITION s)), false)
    else some (accept COLON s, false)
  | _ => none

/-- The loops of `do_lex` over the characters still to be scanned (those read from the
file, then the newline added after the last one): the variables at the end, and whether
the end was reached (`false` when the loop stopped at an illegal state). The variables
carry the flag `overrun` and the counters, by which `do_lex` tells whether the run had
defined behaviour. -/
def do_lex_loop : Nat → List Char → lex_state → exec (lex_state × Bool)
  | _, [], s => exec.done (s, true)
  | 0, _ :: _, _ => exec.starved
  | fuel + 1, c :: cs, s =>
    match do_lex_step c s with
    | none => exec.done (s, false)
    | some (s1, advance) => do_lex_loop fuel (if advance then cs else c :: cs) s1

/-- Largest value of the C type `int`. -/
def INT_MAX : Nat := 2147483647

/-- Whether the run of `do_lex` that led to these variables had defined behaviour: no write
reached the last cell of `word` or went past it (`overrun`, which stays raised), and the
counters `words` and `lines`, C `int`s that only grow (`words_in_line` is at most `words`),
did not pass `INT_MAX`, `lines` leaving room for the `lines + 1` that is printed with a
wrong word. -/
def in_bounds (s : lex_state) : Bool :=
  !s.overrun && decide (s.words ≤ INT_MAX) && decide (s.lines < INT_MAX)

/-- Do lexical analysis of the characters `src` of the source file: the records written to
the output file. The buffers the file is read into do not show: the variables live across
them, and the characters are scanned in order, a newline added after the last one. A run
that wrote to the last cell of `word` or past it, or in which a counter passed `INT_MAX`,
has no defined result: `word` lies on the stack of `do_lex` next to `state`, `length` and
the counters. -/
def do_lex (src : List Char) : exec (List out_line) :=
  (do_lex_loop (3 * (src.length + 1)) (src ++ [LF]) lex_init).bind fun r =>
  if in_bounds r.1 then
    if r.2 then exec.done (do_output_word_count r.1).out else exec.done r.1.out
  else exec.undefined

/-! ## Reading the token types off a run -/

/-- The types of the records of a scan that are not spaces (`WRONG` for a wrong word). -/
def token_types : List out_line → List Int
  | [] => []
  | out_line.word t _ :: rest => if t = SPACE then token_types rest else t :: token_types rest
  | out_line.wrong _ _ :: rest => WRONG :: token_types rest
  | out_line.line_word _ _ :: rest => token_types rest
  | out_line.line_words _ _ :: rest => token_types rest
  | out_line.total _ :: rest => token_types rest

/-- The types of the words other than spaces that `do_lex` writes for a source text. -/
def scan_types (src : List Char) : Option (List Int) :=
  match do_lex src with
  | exec.done o => some (token_types o)
  | exec.undefined => none
  | exec.starved => none

/-- The operators of more than one character, each with the type of its word. -/
def operator_types : List (String × Int) :=
  [("++", PLUSPLUS), ("+=", ASSIGN), ("--", PLUSPLUS), ("-=", ASSIGN), ("*=", ASSIGN),
   ("/=", ASSIGN), ("%=", ASSIGN), ("&&", LOGIC_AND), ("&=", ASSIGN), ("||", LOGIC_OR),
   ("|=", ASSIGN), ("^=", ASSIGN), ("!=", EQUAL), ("==", EQUAL), ("<=", COMPARE),
   (">=", COMPARE), ("<<", SHIFT), ("<<=", ASSIGN), (">>", SHIFT), (">>=", ASSIGN),
   (">>>", SHIFT), (">>>=", ASSIGN)]

/-! ## Reading the words off a run -/

/-- The variables after `k` calls of `do_update_line_count`. -/
def count_lines (k : Nat) (s : lex_state) : lex_state := Nat.iterate do_update_line_count k s

/-- The words written to the output file, in order, each with its type and text (`WRONG`
for a wrong word); the word counter lines are left out. -/
def written_words : List out_line → List (Int × List Char)
  | [] => []
  | out_line.word t w :: rest => (t, w) :: written_words rest
  | out_line.wrong w _ :: rest => (WRONG, w) :: written_words rest
  | out_line.line_word _ _ :: rest => written_words rest
  | out_line.line_words _ _ :: rest => written_words rest
  | out_line.total _ :: rest => written_words rest

/-! ## Escapes and the states inside a literal -/

/-- The rounds without reading a character that a state may still be followed by, counted
down from two: the states -1 and 1 may take two such rounds in a row (to -2 or 2, then to
0), the initial state takes none, every other state at most one (to 0). -/
def slack (n : Int) : Nat := if n = 0 then 2 else if n = -1 ∨ n = 1 then 0 else 1

/-! ## Wrong words and scans that are alike -/

/-- The records of the output file that are words: the K-V pair lines, wrong words
included, without the word counter lines. -/
def is_token : out_line → Bool
  | out_line.word _ _ => true
  | out_line.wrong _ _ => true
  | out_line.line_word _ _ => false
  | out_line.line_words _ _ => false
  | out_line.total _ => false

/-- Two sets of variables of `do_lex` that scan alike: they agree on the state, the word
buffer, the flag of `?` and the line count, and the words written with the one and with the
other are in the relation `rel`. -/
def same_scan (rel : List out_line → List out_line → Prop) (s s' : lex_state) : Prop :=
  s'.state = s.state ∧ s'.word = s.word ∧ s'.length = s.length ∧
  s'.condition_flag = s.condition_flag ∧ s'.lines = s.lines ∧ s'.overrun = s.overrun ∧
  rel (s.out.filter is_token) (s'.out.filter is_token)

/-- A relation between the words of two scans that stays when both write the same words. -/
def kept_by_writing (rel : List out_line → List out_line → Prop) : Prop :=
  ∀ a b e, rel a b → rel (a ++ e) (b ++ e)

/-- The words a scan of the source text `src` writes, as records of the output file. -/
def scan_tokens (src : List Char) : Option (List out_line) :=
  match do_lex src with
  | exec.done o => some (o.filter is_token)
  | exec.undefined => none
  | exec.starved => none

/-- The source text `w tail` is scanned as the word `l` followed by the words of `tail`:
whenever the scan of `w tail` has a defined result, so has the scan of `tail` on its own,
and the words written are `l` and then the words of `tail`; whenever the scan of `tail` has
a defined result, with room for one word more in the word counter, so has the scan of
`w tail`; and both have when the text is shorter than `BUF_SIZE - 3`. -/
def first_word (w tail : List Char) (l : out_line) : Prop :=
  (∀ ts', scan_tokens (w ++ tail) = some ts' →
    ∃ ts, scan_tokens tail = some ts ∧ ts' = l :: ts) ∧
  (∀ ts, scan_tokens tail = some ts → ts.length < INT_MAX →
    scan_tokens (w ++ tail) = some (l :: ts)) ∧
  ((w ++ tail).length + 3 < BUF_SIZE →
    ∃ ts, scan_tokens tail = some ts ∧ scan_tokens (w ++ tail) = some (l :: ts))

/-! ## The text of the output file -/

/-- The digits `fprintf` writes for `%x` with the `int` argument `n`, taken as unsigned. -/
def fmt_x (n : Int) : List Char := Nat.toDigits 16 (n % 2 ^ 32).toNat

/-- The digits `fprintf` writes for `%d` with a count `n`. -/
def fmt_d (n : Nat) : List Char := Nat.toDigits 10 n

/-- The characters `fprintf` writes for a record of the output file. -/
def render_line : out_line → List Char
  | out_line.word t w => "0x".data ++ fmt_x t ++ [TAB] ++ w ++ [LF]
  | out_line.wrong w n => "0x".data ++ fmt_x WRONG ++ [TAB] ++ w ++ " at line ".data ++ fmt_d n ++ [LF]
  | out_line.line_word n k =>
    "line ".data ++ fmt_d n ++ " has ".data ++ fmt_d k ++ " word".data ++ [LF]
  | out_line.line_words n k =>
    "line ".data ++ fmt_d n ++ " has ".data ++ fmt_d k ++ " words".data ++ [LF]
  | out_line.total k => "total ".data ++ fmt_d k ++ " words".data ++ [LF]

/-- The text of the output file `scanner_output` after the records `o` were written. -/
def scanner_output (o : List out_line) : List Char := (o.map render_line).flatten

/-- The words of an output file, spaces left out, as `get_word` is to deliver them. -/
def words_to_read : List out_line → List word_t
  | [] => []
  | out_line.word t w :: rest =>
    if t = SPACE then words_to_read rest else ⟨t, String.mk w⟩ :: words_to_read rest
  | out_line.wrong w _ :: rest => ⟨WRONG, String.mk w⟩ :: words_to_read rest
  | out_line.line_word _ _ :: rest => words_to_read rest
  | out_line.line_words _ _ :: rest => words_to_read rest
  | out_line.total _ :: rest => words_to_read rest

/-- The source text `@@@ x = 1 ;`. -/
def source_wrong_word : List Char := "@@@ x = 1 ;".data

/-- The lines of the output file that `do_lex` writes for `@@@ x = 1 ;`, as `get_word`
tells them apart. -/
def file_wrong_word : List src_line :=
  [src_line.pair WRONG "@@@", src_line.pair SPACE "", src_line.pair IDENTIFIER "x",
   src_line.pair SPACE "", src_line.pair ASSIGN "=", src_line.pair SPACE "",
   src_line.pair INT "1", src_line.pair SPACE "", src_line.pair SEMICOLON ";",
   src_line.counter]

/-! ## What holds of every round of the loop -/

/-- The types `do_lex` gives to the words it writes with `do_output_word`. -/
def word_kinds : List Int :=
  [SPACE, KEYWORD, IDENTIFIER, BOOLEAN, CHAR, INT, FLOAT, STRING, ASSIGN, CONDITION, LOGIC_OR,
   LOGIC_AND, BIT_OR, XOR, BIT_AND, EQUAL, COMPARE, SHIFT, ADD_SUB, MUL_DIV, PLUSPLUS,
   BRACKET_DOT, COMMA, BIG_BRACKET, SEMICOLON, COLON]

/-- What holds of every record `do_lex` writes: the type of a word is one of `word_kinds`,
its text is a C string (it holds no NUL), and the text of a space holds no newline. -/
def well_written : out_line → Prop
  | out_line.word t w => t ∈ word_kinds ∧ NUL ∉ w ∧ (t = SPACE → LF ∉ w)
  | out_line.wrong w _ => NUL ∉ w
  | out_line.line_word _ _ => True
  | out_line.line_words _ _ => True
  | out_line.total _ => True

/-- The states that the switch of `do_lex` handles. -/
def legal_state (n : Int) : Bool := decide (-2 ≤ n ∧ n ≤ 81)

/-- What holds of the variables of `do_lex` at every round of the loop: the state is one
that the switch handles; in the initial state the word is empty (one cell of the buffer at
most was written since it was cleared, and taken back); a space that is about to be
written holds no newline; every record written so far is `well_written`. -/
def scanning (s : lex_state) : Prop :=
  legal_state s.state = true ∧ (s.state = 0 → s.length = 0 ∧ s.word.length ≤ 1) ∧
  (s.state = 79 ∨ s.state = 80 → LF ∉ s.word) ∧ ∀ l ∈ s.out, well_written l

/-- What holds of the result of `do_state_0` on `scanning` variables `s`: when it met no
`?` the new variables are `scanning`; when it met one, the `?` is the one cell written in
the buffer; nothing was written to the output file. -/
def initial_result (s : lex_state) (r : lex_state × Bool) : Prop :=
  (r.2 = false → scanning r.1) ∧
  (r.2 = true → r.1.length = 1 ∧ r.1.word.length = 1 ∧ r.1.state = 0) ∧
  r.1.out = s.out

/-! ## Reading the output file back -/

/-- What `get_word` makes of a record of the output file when it reads the whole record as
one line: a word counter line, or the K-V pair of a word (the text of a space is not
read). -/
def line_read : out_line → src_line
  | out_line.word t w =>
    if t = SPACE then src_line.pair SPACE "" else src_line.pair t (String.mk w)
  | out_line.wrong w _ => src_line.pair WRONG (String.mk w)
  | out_line.line_word _ _ => src_line.counter
  | out_line.line_words _ _ => src_line.counter
  | out_line.total _ => src_line.counter

/-- A text that `strtok(NULL, " \t\r\n")` delivers whole: it is not empty and holds none
of the delimiters. -/
def one_field (w : List Char) : Bool := !w.isEmpty && w.all fun c => !is_blank c

/-- A record whose word is one field of its line (nothing is asked of a space, whose text
`get_word` does not read, and of a word counter line). -/
def readable : out_line → Bool
  | out_line.word t w => t == SPACE || one_field w
  | out_line.wrong w _ => one_field w
  | out_line.line_word _ _ => true
  | out_line.line_words _ _ => true
  | out_line.total _ => true

/-- The characters of the digits of a number in a base up to 16. -/
def digit_chars : List Char := "0123456789abcdef".data

/-- The source text `"a b" c`: a string constant with a blank in it, then an identifier. -/
def source_blank_string : List Char := [DQUOTE, 'a', ' ', 'b', DQUOTE, ' ', 'c']

/-- The records `do_lex` writes for `@@@ x = 1 ;`. -/
def records_wrong_word : List out_line :=
  [out_line.wrong "@@@".data 1, out_line.word SPACE " ".data, out_line.word IDENTIFIER "x".data,
   out_line.word SPACE " ".data, out_line.word ASSIGN "=".data, out_line.word SPACE " ".data,
   out_line.word INT "1".data, out_line.word SPACE " ".data, out_line.word SEMICOLON ";".data,
   out_line.total 9]

/-- The records `do_lex` writes for `"a b" c`. -/
def records_blank_string : List out_line :=
  [out_line.word STRING [DQUOTE, 'a', ' ', 'b', DQUOTE], out_line.word SPACE " ".data,
   out_line.word IDENTIFIER "c".data, out_line.total 3]

/-! ## The counters of do_lex -/

/-- A round of the loop that writes nothing and counts nothing. -/
def quiet (s s' : lex_state) : Prop :=
  s'.out = s.out ∧ s'.words = s.words ∧ s'.words_in_line = s.words_in_line ∧
  s'.lines = s.lines

/-- The record `do_update_line_count` writes for the line `n` with `k` words. -/
def line_record (n k : Nat) : out_line :=
  if k < 2 then out_line.line_word n k else out_line.line_words n k

/-- What a round of the loop does to the output file and the counters: nothing; or it
writes a word and counts it; or it counts a line; or it writes a word, counts it and counts
a line. -/
def step_effect (s s' : lex_state) : Prop :=
  quiet s s' ∨
  (∃ l, is_token l = true ∧ s'.out = s.out ++ [l] ∧ s'.words = s.words + 1 ∧
    s'.words_in_line = s.words_in_line + 1 ∧ s'.lines = s.lines) ∨
  (s'.out = s.out ++ [line_record (s.lines + 1) s.words_in_line] ∧ s'.words = s.words ∧
    s'.words_in_line = 0 ∧ s'.lines = s.lines + 1) ∨
  (∃ l, is_token l = true ∧
    s'.out = s.out ++ [l, line_record (s.lines + 1) (s.words_in_line + 1)] ∧
    s'.words = s.words + 1 ∧ s'.words_in_line = 0 ∧ s'.lines = s.lines + 1)

/-- The word counter lines of a source line. -/
def is_counter : out_line → Bool
  | out_line.word _ _ => false
  | out_line.wrong _ _ => false
  | out_line.line_word _ _ => true
  | out_line.line_words _ _ => true
  | out_line.total _ => false

/-- The number of words a word counter line tells (0 for the other records). -/
def counter_words : out_line → Nat
  | out_line.word _ _ => 0
  | out_line.wrong _ _ => 0
  | out_line.line_word _ k => k
  | out_line.line_words _ k => k
  | out_line.total _ => 0

/-- The number of words among the records, wrong words and spaces included. -/
def count_words (o : List out_line) : Nat := (o.filter is_token).length

/-- The sum of the numbers that the word counter lines of the source lines tell. -/
def line_sum (o : List out_line) : Nat := (o.map counter_words).sum

/-- The number of words written after the last word counter line of a source line. -/
def words_after_line (o : List out_line) : Nat :=
  count_words (o.reverse.takeWhile fun l => !is_counter l)

/-- The form of a word counter line of a source line: `word` for fewer than 2 words,
`words` from 2 words on. -/
def counter_form : out_line → Bool
  | out_line.word _ _ => true
  | out_line.wrong _ _ => true
  | out_line.line_word _ k => decide (k < 2)
  | out_line.line_words _ k => decide (2 ≤ k)
  | out_line.total _ => true

/-- What holds of the counters of `do_lex` at every round of the loop: `words` is the
number of words written, `words_in_line` the number of those written after the last word
counter line, every word counter line has the form that goes with its number, and no total
has been written. -/
def counted (s : lex_state) : Prop :=
  s.words = count_words s.out ∧ s.words_in_line = words_after_line s.out ∧
  s.words = line_sum s.out + s.words_in_line ∧ (∀ l ∈ s.out, counter_form l = true) ∧
  ∀ l ∈ s.out, ∀ k, l ≠ out_line.total k

/-- The source text of three lines: `x`, an empty line, and `y z`. -/
def source_three_lines : List Char := ['x', LF, LF, 'y', ' ', 'z', LF]

/-- The records `do_lex` writes for `source_three_lines`. -/
def records_three_lines : List out_line :=
  [out_line.word IDENTIFIER "x".data, out_line.word SPACE [BACKSLASH, 'n'],
   out_line.line_words 1 2, out_line.word SPACE [BACKSLASH, 'n'], out_line.line_word 2 1,
   out_line.word IDENTIFIER "y".data, out_line.word SPACE " ".data,
   out_line.word IDENTIFIER "z".data, out_line.word SPACE [BACKSLASH, 'n'],
   out_line.line_words 3 4, out_line.total 7]

/-- The source text of a line comment on the first line and the word `x` on the second. -/
def source_comment_line : List Char := ['/', '/', 'c', LF, 'x']

/-! ## The word buffer along the loop -/

/-- What a handler may do to the word buffer: it appends at most `k` cells, the cells it
writes are next to the end of the word (so `overrun` stays as it is while the word is two
cells short of the buffer), and it never lowers `overrun`. -/
def grows (k : Nat) (s s' : lex_state) : Prop :=
  s'.length ≤ s.length + k ∧ (s.length + 2 < BUF_SIZE → s'.overrun = s.overrun) ∧
  (s.overrun = true → s'.overrun = true)

/-- What a round of the loop may do to the word buffer: a round that reads a character
appends at most one cell (two in the initial state, where a tab, carriage return or
newline is written as a backslash and a letter), a round that reads none appends none;
`overrun` stays as it is while the word is two cells short of the buffer, and is never
lowered. -/
def step_bound (s : lex_state) (r : lex_state × Bool) : Prop :=
  (r.2 = true → r.1.length ≤ s.length + (if s.state = 0 then 2 else 1)) ∧
  (r.2 = false → r.1.length ≤ s.length) ∧
  (s.length + 2 < BUF_SIZE → r.1.overrun = s.overrun) ∧
  (s.overrun = true → r.1.overrun = true)

/-! ## The states inside a number -/

/-- The variables of `do_lex` that a run of the loop can reach with defined behaviour: the
initial ones, and the ones that a round of the switch makes of reached ones, whatever the
character read, as long as they are `in_bounds`. -/
inductive reachable : lex_state → Prop
  | init : reachable lex_init
  | step (c : Char) (s : lex_state) (r : lex_state × Bool) :
      reachable s → do_lex_step c s = some r → in_bounds r.1 = true → reachable r.1

end LexJava

/-! # Part II: theorems -/

namespace ParseJava

/-! ## Reading words -/

@[simp] theorem exec.done_bind {α β : Type} (a : α) (f : α → exec β) :
    (exec.done a >>= f) = f a := rfl

@[simp] theorem exec.undefined_bind {α β : Type} (f : α → exec β) :
    ((exec.undefined : exec α) >>= f) = exec.undefined := rfl

@[simp] theorem exec.starved_bind {α β : Type} (f : α → exec β) :
    ((exec.starved : exec α) >>= f) = exec.starved := rfl

@[simp] theorem exec.pure_eq {α : Type} (a : α) : (pure a : exec α) = exec.done a := rfl

theorem read_word_nil {src : List src_line} (h : tokens src = []) :
    (read_word src).1 = ⟨0, ""⟩ ∧ (read_word src).2 = [] := by
  induction src with
  | nil => simp [read_word]
  | cons l rest ih =>
    cases l with
    | counter => simpa [read_word, tokens] using ih (by simpa [tokens] using h)
    | pair k v =>
      by_cases hk : k = SPACE
      · simp [tokens, hk] at h
        simpa [read_word, hk] using ih h
      · simp [tokens, hk] at h

theorem read_word_cons {src : List src_line} {t : word_t} {ts : List word_t}
    (h : tokens src = t :: ts) :
    (read_word src).1 = t ∧ tokens (read_word src).2 = ts := by
  induction src with
  | nil => simp [tokens] at h
  | cons l rest ih =>
    cases l with
    | counter => simpa [read_word, tokens] using ih (by simpa [tokens] using h)
    | pair k v =>
      by_cases hk : k = SPACE
      · simp [tokens, hk] at h
        simpa [read_word, hk] using ih h
      · simp [tokens, hk] at h
        simp [read_word, hk, h.1, h.2]

theorem read_word_length (src : List src_line) :
    (read_word src).2.length ≤ src.length := by
  induction src with
  | nil => simp [read_word]
  | cons l rest ih =>
    cases l with
    | counter => simp only [read_word, List.length_cons]; omega
    | pair k v =>
      by_cases hk : k = SPACE
      · simp only [read_word, hk, if_true, List.length_cons]; omega
      · simp [read_word, hk]

theorem tokens_length (src : List src_line) : (tokens src).length ≤ src.length := by
  induction src with
  | nil => simp [tokens]
  | cons l rest ih =>
    cases l with
    | counter => simp only [tokens, List.length_cons]; omega
    | pair k v =>
      by_cases hk : k = SPACE
      · simp only [tokens, hk, if_true, List.length_cons]; omega
      · simp only [tokens, hk, if_false, List.length_cons]; omega

theorem pending_length (s : parser_state) : (pending s).length < budget s := by
  have := tokens_length s.src
  unfold pending budget
  split <;> simp <;> omega

/-- At end of input `get_word` yields the key 0 and the stream stays empty. -/
theorem get_word_nil {s : parser_state} (h : pending s = []) :
    ∃ s1, get_word s = (⟨0, ""⟩, s1) ∧ pending s1 = [] ∧ s1.returned.key = 0 ∧
      s1.src = [] ∧ same_machine s s1 := by
  unfold pending at h
  by_cases hk : s.returned.key = 0
  · simp [hk] at h
    obtain ⟨h1, h2⟩ := read_word_nil h
    refine ⟨{ s with src := (read_word s.src).2 }, ?_, ?_, ?_, ?_, ?_⟩
    · simp [get_word, hk, h1]
    · simp [pending, hk, h2, tokens]
    · simpa using hk
    · simpa using h2
    · simp [same_machine]
  · simp [hk] at h

/-- Otherwise `get_word` yields the first pending word and leaves the others. -/
theorem get_word_cons {s : parser_state} {t : word_t} {ts : List word_t}
    (h : pending s = t :: ts) :
    ∃ s1, get_word s = (t, s1) ∧ pending s1 = ts ∧ s1.returned.key = 0 ∧
      s1.src.length ≤ s.src.length ∧ same_machine s s1 := by
  unfold pending at h
  by_cases hk : s.returned.key = 0
  · simp [hk] at h
    obtain ⟨h1, h2⟩ := read_word_cons h
    refine ⟨{ s with src := (read_word s.src).2 }, ?_, ?_, ?_, ?_, ?_⟩
    · simp [get_word, hk, h1]
    · simp [pending, hk, h2]
    · simpa using hk
    · simpa using read_word_length s.src
    · simp [same_machine]
  · simp [hk] at h
    refine ⟨{ s with returned := ⟨0, ""⟩ }, ?_, ?_, ?_, ?_, ?_⟩
    · simp [get_word, hk, ← h.1]
    · simp [pending, h.2]
    · simp
    · simp
    · simp [same_machine]

/-- Returning a word with a nonzero key puts it in front of the pending words. -/
theorem pending_return_word {s : parser_state} {w : word_t}
    (hs : s.returned.key = 0) (hw : w.key ≠ 0) :
    pending (return_word w s) = w :: pending s := by
  simp [return_word, pending, hs, hw]

/-- Returning the end-of-input word changes nothing that can be read. -/
theorem pending_return_eof {s : parser_state} (hs : s.returned.key = 0) :
    pending (return_word ⟨0, ""⟩ s) = pending s := by
  simp [return_word, pending, hs]

/-! ## The checkers against the grammar: soundness -/

@[simp] theorem check_word_none (w : word_t) (k : Int) :
    check_word w k none = true ↔ w.key = k := by
  simp [check_word]

@[simp] theorem check_word_some (w : word_t) (k : Int) (v : String) :
    check_word w k (some v) = true ↔ w.key = k ∧ w.value = v := by
  by_cases h : w.key = k <;> simp [check_word, h]

theorem check_V_nil {s : parser_state} (h : pending s = []) :
    ∃ s1, check_V s = (0, s1) := by
  obtain ⟨s1, hg, -⟩ := get_word_nil h
  exact ⟨s1, by simp [check_V, hg, IDENTIFIER, INT]⟩

theorem check_V_cons {s : parser_state} {t : word_t} {ts : List word_t}
    (h : pending s = t :: ts) :
    ∃ s1, pending s1 = ts ∧ s1.returned.key = 0 ∧
      ((isV t ∧ check_V s = (1, s1)) ∨ (¬ isV t ∧ check_V s = (0, s1))) := by
  obtain ⟨s1, hg, hp, hr, -⟩ := get_word_cons h
  refine ⟨s1, hp, hr, ?_⟩
  by_cases h1 : t.key = IDENTIFIER
  · left; exact ⟨Or.inl h1, by simp [check_V, hg, h1]⟩
  · by_cases h2 : t.key = INT
    · left; exact ⟨Or.inr h2, by simp [check_V, hg, h1, h2]⟩
    · right; exact ⟨by simp [isV, h1, h2], by simp [check_V, hg, h1, h2]⟩

theorem check_O_nil {s : parser_state} (h : pending s = []) :
    ∃ s1, check_O s = (0, s1) := by
  obtain ⟨s1, hg, -⟩ := get_word_nil h
  exact ⟨s1, by simp [check_O, hg, COMPARE]⟩

theorem check_O_cons {s : parser_state} {t : word_t} {ts : List word_t}
    (h : pending s = t :: ts) :
    ∃ s1, pending s1 = ts ∧ s1.returned.key = 0 ∧
      ((isO t ∧ check_O s = (1, s1)) ∨ (¬ isO t ∧ check_O s = (0, s1))) := by
  obtain ⟨s1, hg, hp, hr, -⟩ := get_word_cons h
  refine ⟨s1, hp, hr, ?_⟩
  by_cases hk : t.key = COMPARE
  · by_cases h1 : t.value = "<"
    · left; exact ⟨⟨hk, Or.inl h1⟩, by simp [check_O, hg, hk, h1]⟩
    · by_cases h2 : t.value = ">"
      · left; exact ⟨⟨hk, Or.inr h2⟩, by simp [check_O, hg, hk, h1, h2]⟩
      · right; exact ⟨by simp [isO, h1, h2], by simp [check_O, hg, hk, h1, h2]⟩
  · right; exact ⟨by simp [isO, hk], by simp [check_O, hg, hk]⟩

theorem check_M_cons {s : parser_state} {t : word_t} {ts : List word_t}
    (h : pending s = t :: ts) :
    ∃ s1, pending s1 = ts ∧ s1.returned.key = 0 ∧
      ((isM t ∧ check_M s = (1, s1)) ∨ (¬ isM t ∧ check_M s = (0, s1))) := by
  obtain ⟨s1, hg, hp, hr, -⟩ := get_word_cons h
  refine ⟨s1, hp, hr, ?_⟩
  by_cases hk : t.key = MUL_DIV
  · by_cases h1 : t.value = "*"
    · left; exact ⟨⟨hk, Or.inl h1⟩, by simp [check_M, hg, hk, h1]⟩
    · by_cases h2 : t.value = "/"
      · left; exact ⟨⟨hk, Or.inr h2⟩, by simp [check_M, hg, hk, h1, h2]⟩
      · right; exact ⟨by simp [isM, h1, h2], by simp [check_M, hg, hk, h1, h2]⟩
  · right; exact ⟨by simp [isM, hk], by simp [check_M, hg, hk]⟩

theorem check_P_cons {s : parser_state} {t : word_t} {ts : List word_t}
    (h : pending s = t :: ts) :
    ∃ s1, pending s1 = ts ∧ s1.returned.key = 0 ∧
      ((isAddSub t ∧ check_P s = (1, s1)) ∨ (¬ isAddSub t ∧ check_P s = (0, s1))) := by
  obtain ⟨s1, hg, hp, hr, -⟩ := get_word_cons h
  refine ⟨s1, hp, hr, ?_⟩
  by_cases hk : t.key = ADD_SUB
  · left; exact ⟨hk, by simp [check_P, hg, hk]⟩
  · right; exact ⟨hk, by simp [check_P, hg, hk]⟩

/-- An [epsilon] choice leaves the pending words as they were. -/
theorem lookahead_kept {s : parser_state} (hg : good s) :
    ∃ w s1, get_word s = (w, s1) ∧ pending (return_word w s1) = pending s ∧
      (∀ t ts, pending s = t :: ts → w = t) ∧ (pending s = [] → w.key = 0) := by
  cases hp : pending s with
  | nil =>
    obtain ⟨s1, hgw, hp1, hr, -⟩ := get_word_nil hp
    exact ⟨_, s1, hgw, by rw [pending_return_eof hr, hp1], by simp, by simp⟩
  | cons t ts =>
    obtain ⟨s1, hgw, hp1, hr, -⟩ := get_word_cons hp
    have ht : t.key ≠ 0 := hg t (by simp [hp])
    refine ⟨t, s1, hgw, by rw [pending_return_word hr ht, hp1], ?_, by simp⟩
    intro t2 ts2 h; simp at h; exact h.1

/-- `check_T1` always returns, and a nonzero result means that a T1 has been read. -/
theorem check_T1_sound (undef : parser_state → Int) :
    ∀ (fuel : Nat) (s : parser_state), good s → (pending s).length < fuel →
      ∃ r s1, check_T1 undef fuel s = exec.done (r, s1) ∧
        (r ≠ 0 → ∃ t1, DerT1 t1 ∧ pending s = t1 ++ pending s1) := by
  intro fuel
  induction fuel with
  | zero => intro s _ h; simp at h
  | succ n ih =>
    intro s hgood hlen
    obtain ⟨w, s1, hgw, hkeep, hhead, hnil⟩ := lookahead_kept hgood
    by_cases hk : w.key = MUL_DIV
    · -- a multiplicative operator is pending
      cases hp : pending s with
      | nil => have := hnil hp; simp [hk, MUL_DIV] at this
      | cons t ts =>
        have hwt := hhead t ts hp
        subst hwt
        rw [hp] at hkeep
        obtain ⟨s3, hp3, hr3, hM⟩ := check_M_cons hkeep
        rcases hM with ⟨hm, hM⟩ | ⟨hm, hM⟩
        · cases ts with
          | nil =>
            obtain ⟨s4, hV⟩ := check_V_nil hp3
            exact ⟨0, s4, by simp [check_T1, hgw, hk, hM, hV], by simp⟩
          | cons v ts2 =>
            obtain ⟨s4, hp4, hr4, hV⟩ := check_V_cons hp3
            rcases hV with ⟨hv, hV⟩ | ⟨hv, hV⟩
            · have hg4 : good s4 := by
                intro t ht; apply hgood; rw [hp]; rw [hp4] at ht; simp [ht]
              have hl4 : (pending s4).length < n := by
                rw [hp] at hlen; rw [hp4]; simp at hlen ⊢; omega
              obtain ⟨r, s5, hrun, hder⟩ := ih s4 hg4 hl4
              by_cases hr0 : r = 0
              · exact ⟨0, s5, by simp [check_T1, hgw, hk, hM, hV, hrun, exec.bind, hr0], by simp⟩
              · refine ⟨1, s5, by simp [check_T1, hgw, hk, hM, hV, hrun, exec.bind, hr0], ?_⟩
                intro _
                obtain ⟨t1, hd, he⟩ := hder hr0
                refine ⟨w :: v :: t1, DerT1.step w v t1 hm hv hd, ?_⟩
                rw [hp4] at he
                simp [he]
            · exact ⟨0, s4, by simp [check_T1, hgw, hk, hM, hV], by simp⟩
        · exact ⟨0, s3, by simp [check_T1, hgw, hk, hM], by simp⟩
    · -- [epsilon]
      refine ⟨undef (return_word w s1), return_word w s1,
        by simp [check_T1, hgw, hk], ?_⟩
      intro _
      exact ⟨[], DerT1.eps, by simp [hkeep]⟩

theorem good_of_suffix {s s1 : parser_state} (pre : List word_t) (hg : good s)
    (h : pending s = pre ++ pending s1) : good s1 := by
  intro t ht
  apply hg
  rw [h]
  exact List.mem_append_right _ ht

theorem good_of_tail {s s1 : parser_state} {t : word_t} {ts : List word_t} (hg : good s)
    (h : pending s = t :: ts) (h1 : pending s1 = ts) : good s1 :=
  good_of_suffix [t] hg (by simp [h, h1])

/-- `check_T` always returns, and a nonzero result means that a T has been read. -/
theorem check_T_sound (undef : parser_state → Int) (s : parser_state) (hg : good s) :
    ∃ r s1, check_T undef s = exec.done (r, s1) ∧
      (r ≠ 0 → ∃ t, DerT t ∧ pending s = t ++ pending s1) := by
  cases hp : pending s with
  | nil =>
    obtain ⟨s1, hV⟩ := check_V_nil hp
    exact ⟨0, s1, by simp [check_T, hV], by simp⟩
  | cons v ts =>
    obtain ⟨s1, hp1, -, hV⟩ := check_V_cons hp
    rcases hV with ⟨hv, hV⟩ | ⟨hv, hV⟩
    · obtain ⟨r, s2, hrun, hder⟩ :=
        check_T1_sound undef (budget s1) s1 (good_of_tail hg hp hp1) (pending_length s1)
      by_cases hr0 : r = 0
      · exact ⟨0, s2, by simp [check_T, hV, hrun, exec.bind, hr0], by simp⟩
      · refine ⟨1, s2, by simp [check_T, hV, hrun, exec.bind, hr0], ?_⟩
        intro _
        obtain ⟨t1, hd, he⟩ := hder hr0
        exact ⟨v :: t1, ⟨v, t1, hv, hd, rfl⟩, by rw [← hp1, he]; simp⟩
    · exact ⟨0, s1, by simp [check_T, hV], by simp⟩

/-- `check_C1` always returns, and a nonzero result means that a C1 has been read. -/
theorem check_C1_sound (undef : parser_state → Int) :
    ∀ (fuel : Nat) (s : parser_state), good s → (pending s).length < fuel →
      ∃ r s1, check_C1 undef fuel s = exec.done (r, s1) ∧
        (r ≠ 0 → ∃ c1, DerC1 isAddSub c1 ∧ pending s = c1 ++ pending s1) := by
  intro fuel
  induction fuel with
  | zero => intro s _ h; simp at h
  | succ n ih =>
    intro s hgood hlen
    obtain ⟨w, s1, hgw, hkeep, hhead, hnil⟩ := lookahead_kept hgood
    by_cases hk : w.key = ADD_SUB
    · cases hp : pending s with
      | nil => have := hnil hp; simp [hk, ADD_SUB] at this
      | cons t ts =>
        have hwt := hhead t ts hp
        subst hwt
        rw [hp] at hkeep
        obtain ⟨s3, hp3, hr3, hP⟩ := check_P_cons hkeep
        rcases hP with ⟨hm, hP⟩ | ⟨hm, hP⟩
        · have hg3 : good s3 := good_of_tail hgood hp hp3
          obtain ⟨r, s4, hT, hderT⟩ := check_T_sound undef s3 hg3
          by_cases hr0 : r = 0
          · exact ⟨0, s4, by simp [check_C1, hgw, hk, hP, hT, exec.bind, hr0], by simp⟩
          · obtain ⟨t, hdt, het⟩ := hderT hr0
            have hg4 : good s4 := good_of_suffix _ hg3 het
            have hl4 : (pending s4).length < n := by
              rw [hp] at hlen
              have := congrArg List.length het
              rw [hp3] at this
              simp at this hlen
              omega
            obtain ⟨r2, s5, hrun, hder⟩ := ih s4 hg4 hl4
            by_cases hr2 : r2 = 0
            · exact ⟨0, s5, by simp [check_C1, hgw, hk, hP, hT, hrun, exec.bind, hr0, hr2],
                by simp⟩
            · refine ⟨1, s5, by simp [check_C1, hgw, hk, hP, hT, hrun, exec.bind, hr0, hr2], ?_⟩
              intro _
              obtain ⟨c1, hd, he⟩ := hder hr2
              refine ⟨w :: (t ++ c1), DerC1.step w t c1 hm hdt hd, ?_⟩
              rw [← hp3, het, he]
              simp
        · exact ⟨0, s3, by simp [check_C1, hgw, hk, hP], by simp⟩
    · refine ⟨undef (return_word w s1), return_word w s1,
        by simp [check_C1, hgw, hk], ?_⟩
      intro _
      exact ⟨[], DerC1.eps, by simp [hkeep]⟩

/-- `check_C` always returns, and a nonzero result means that a C has been read. -/
theorem check_C_sound (undef : parser_state → Int) (s : parser_state) (hg : good s) :
    ∃ r s1, check_C undef s = exec.done (r, s1) ∧
      (r ≠ 0 → ∃ c, DerC isAddSub c ∧ pending s = c ++ pending s1) := by
  obtain ⟨r, s1, hT, hderT⟩ := check_T_sound undef s hg
  by_cases hr0 : r = 0
  · exact ⟨0, s1, by simp [check_C, hT, exec.bind, hr0], by simp⟩
  · obtain ⟨t, hdt, het⟩ := hderT hr0
    obtain ⟨r2, s2, hrun, hder⟩ :=
      check_C1_sound undef (budget s1) s1 (good_of_suffix _ hg het) (pending_length s1)
    by_cases hr2 : r2 = 0
    · exact ⟨0, s2, by simp [check_C, hT, hrun, exec.bind, hr0, hr2], by simp⟩
    · refine ⟨1, s2, by simp [check_C, hT, hrun, exec.bind, hr0, hr2], ?_⟩
      intro _
      obtain ⟨c1, hd, he⟩ := hder hr2
      exact ⟨t ++ c1, ⟨t, c1, hdt, hd, rfl⟩, by rw [het, he]; simp⟩

/-- `check_A` always returns, and a nonzero result means that an A has been read. -/
theorem check_A_sound (undef : parser_state → Int) (s : parser_state) (hg : good s) :
    ∃ r s1, check_A undef s = exec.done (r, s1) ∧
      (r ≠ 0 → ∃ a, DerA isAddSub a ∧ pending s = a ++ pending s1) := by
  cases hp : pending s with
  | nil =>
    obtain ⟨s1, hgw, -⟩ := get_word_nil hp
    exact ⟨0, s1, by simp [check_A, hgw, IDENTIFIER], by simp⟩
  | cons x ts =>
    obtain ⟨s1, hgw, hp1, -⟩ := get_word_cons hp
    by_cases hx : x.key = IDENTIFIER
    · cases ts with
      | nil =>
        obtain ⟨s2, hgw2, -⟩ := get_word_nil hp1
        exact ⟨0, s2, by simp [check_A, hgw, hx, hgw2, ASSIGN], by simp⟩
      | cons e ts2 =>
        obtain ⟨s2, hgw2, hp2, -⟩ := get_word_cons hp1
        by_cases he : e.key = ASSIGN ∧ e.value = "="
        · obtain ⟨r, s3, hC, hder⟩ := check_C_sound undef s2
            (good_of_tail (good_of_tail hg hp hp1) hp1 hp2)
          by_cases hr0 : r = 0
          · exact ⟨0, s3, by simp [check_A, hgw, hx, hgw2, he, hC, exec.bind, hr0], by simp⟩
          · refine ⟨1, s3, by simp [check_A, hgw, hx, hgw2, he, hC, exec.bind, hr0], ?_⟩
            intro _
            obtain ⟨c, hd, hec⟩ := hder hr0
            refine ⟨x :: ⟨ASSIGN, "="⟩ :: c, ⟨x, c, hx, hd, rfl⟩, ?_⟩
            have : e = ⟨ASSIGN, "="⟩ := by
              cases e; simp at he; simp [he.1, he.2]
            rw [← hp2, hec, this]
            simp
        · refine ⟨0, s2, ?_, by simp⟩
          simp only [check_A, hgw, hgw2]
          simp [hx, he]
    · exact ⟨0, s1, by simp [check_A, hgw, hx], by simp⟩

/-- `check_E` reads three words, and a nonzero result means that they are an E. -/
theorem check_E_sound (s : parser_state) :
    ∃ r s1, check_E s = (r, s1) ∧
      (r ≠ 0 → s1.returned.key = 0 ∧ ∃ e, DerE e ∧ pending s = e ++ pending s1) := by
  cases hp : pending s with
  | nil =>
    obtain ⟨s1, hV⟩ := check_V_nil hp
    exact ⟨0, s1, by simp [check_E, hV], by simp⟩
  | cons a ts =>
    obtain ⟨s1, hp1, -, hV⟩ := check_V_cons hp
    rcases hV with ⟨ha, hV⟩ | ⟨ha, hV⟩
    · cases ts with
      | nil =>
        obtain ⟨s2, hO⟩ := check_O_nil hp1
        exact ⟨0, s2, by simp [check_E, hV, hO], by simp⟩
      | cons o ts2 =>
        obtain ⟨s2, hp2, -, hO⟩ := check_O_cons hp1
        rcases hO with ⟨ho, hO⟩ | ⟨ho, hO⟩
        · cases ts2 with
          | nil =>
            obtain ⟨s3, hV3⟩ := check_V_nil hp2
            exact ⟨0, s3, by simp [check_E, hV, hO, hV3], by simp⟩
          | cons b ts3 =>
            obtain ⟨s3, hp3, hr3, hV3⟩ := check_V_cons hp2
            rcases hV3 with ⟨hb, hV3⟩ | ⟨hb, hV3⟩
            · refine ⟨1, s3, by simp [check_E, hV, hO, hV3], ?_⟩
              intro _
              exact ⟨hr3, [a, o, b], ⟨a, o, b, ha, ho, hb, rfl⟩, by simp [hp3]⟩
            · exact ⟨0, s3, by simp [check_E, hV, hO, hV3], by simp⟩
        · exact ⟨0, s2, by simp [check_E, hV, hO], by simp⟩
    · exact ⟨0, s1, by simp [check_E, hV], by simp⟩

/-- The tail of `check_S` returns 1 or 0, and 1 means that `A ;` has been read. -/
theorem check_S_tail_sound (undef : parser_state → Int) (s : parser_state) (hg : good s) :
    ∃ r s1, check_S_tail undef s = exec.done (r, s1) ∧ (r = 1 ∨ r = 0) ∧
      (r = 1 → s1.returned.key = 0 ∧
        ∃ a, DerA isAddSub a ∧ pending s = a ++ ⟨SEMICOLON, ";"⟩ :: pending s1) := by
  obtain ⟨r, s1, hA, hder⟩ := check_A_sound undef s hg
  by_cases hr0 : r = 0
  · exact ⟨0, s1, by simp [check_S_tail, hA, exec.bind, hr0], by simp, by simp⟩
  · obtain ⟨a, hda, hea⟩ := hder hr0
    cases hp1 : pending s1 with
    | nil =>
      obtain ⟨s2, hgw, -⟩ := get_word_nil hp1
      exact ⟨0, s2, by simp [check_S_tail, hA, exec.bind, hr0, hgw, SEMICOLON], by simp,
        by simp⟩
    | cons e ts =>
      obtain ⟨s2, hgw, hp2, hr2, -⟩ := get_word_cons hp1
      by_cases he : e.key = SEMICOLON ∧ e.value = ";"
      · refine ⟨1, s2, by simp [check_S_tail, hA, exec.bind, hr0, hgw, he], by simp, ?_⟩
        intro _
        have : e = ⟨SEMICOLON, ";"⟩ := by
          cases e; simp at he; simp [he.1, he.2]
        exact ⟨hr2, a, hda, by rw [hea, hp1, hp2, this]⟩
      · refine ⟨0, s2, ?_, by simp, by simp⟩
        simp only [check_S_tail, hA, exec.bind, hgw]
        simp [hr0, he]

/-- `check_S` returns 1, 0 or -1: -1 exactly at end of input, and 1 means that one
statement has been read, with nothing left in the pushback slot. -/
theorem check_S_sound (undef : parser_state → Int) (s : parser_state) (hg : good s) :
    ∃ r s1, check_S undef s = exec.done (r, s1) ∧ (r = 1 ∨ r = 0 ∨ r = -1) ∧
      (r = -1 ↔ pending s = []) ∧ (r ≠ 0 → s1.returned.key = 0) ∧
      (r = 1 → ∃ st, DerS isAddSub st ∧ pending s = st ++ pending s1) := by
  cases hp : pending s with
  | nil =>
    obtain ⟨s1, hgw, -, hr, -⟩ := get_word_nil hp
    exact ⟨-1, s1, by simp [check_S, hgw], by simp, by simp, by simp [hr], by simp⟩
  | cons w ts =>
    obtain ⟨s1, hgw, hp1, hr1, -⟩ := get_word_cons hp
    have hw0 : w.key ≠ 0 := hg w (by simp [hp])
    by_cases hwh : w.key = KEYWORD ∧ w.value = "while"
    · -- the `while` form
      have hK : ¬ KEYWORD = 0 := by decide
      have hweq : w = ⟨KEYWORD, "while"⟩ := by
        cases w; simp at hwh; simp [hwh.1, hwh.2]
      cases ts with
      | nil =>
        obtain ⟨s2, hgw2, -⟩ := get_word_nil hp1
        exact ⟨0, s2, by simp [check_S, hgw, hw0, hK, hwh, hgw2, BRACKET_DOT], by simp, by simp,
          by simp, by simp⟩
      | cons l ts2 =>
        obtain ⟨s2, hgw2, hp2, -⟩ := get_word_cons hp1
        by_cases hl : l.key = BRACKET_DOT ∧ l.value = "("
        · have hleq : l = ⟨BRACKET_DOT, "("⟩ := by
            cases l; simp at hl; simp [hl.1, hl.2]
          obtain ⟨r, s3, hE, hderE⟩ := check_E_sound s2
          by_cases hr0 : r = 0
          · exact ⟨0, s3, by simp [check_S, hgw, hw0, hK, hwh, hgw2, hl, hE, hr0], by simp,
              by simp, by simp, by simp⟩
          · obtain ⟨hr3, e, hde, hee⟩ := hderE hr0
            cases hp3 : pending s3 with
            | nil =>
              obtain ⟨s4, hgw4, -⟩ := get_word_nil hp3
              exact ⟨0, s4, by simp [check_S, hgw, hw0, hK, hwh, hgw2, hl, hE, hr0, hgw4,
                BRACKET_DOT], by simp, by simp, by simp, by simp⟩
            | cons c ts4 =>
              obtain ⟨s4, hgw4, hp4, -⟩ := get_word_cons hp3
              by_cases hc : c.key = BRACKET_DOT ∧ c.value = ")"
              · have hceq : c = ⟨BRACKET_DOT, ")"⟩ := by
                  cases c; simp at hc; simp [hc.1, hc.2]
                have hg2 : good s2 := good_of_tail (good_of_tail hg hp hp1) hp1 hp2
                have hg3 : good s3 := good_of_suffix _ hg2 hee
                have hg4 : good s4 := good_of_tail hg3 hp3 hp4
                obtain ⟨r4, s5, hT, hr01, hder⟩ := check_S_tail_sound undef s4 hg4
                refine ⟨r4, s5, by simp [check_S, hgw, hw0, hK, hwh, hgw2, hl, hE, hr0, hgw4,
                  hc, hT], ?_, ?_, ?_, ?_⟩
                · rcases hr01 with h | h <;> simp [h]
                · rcases hr01 with h | h <;> simp [h]
                · intro h4
                  have h41 : r4 = 1 := by rcases hr01 with h | h; exact h; exact absurd h h4
                  exact (hder h41).1
                · intro h41
                  obtain ⟨-, a, hda, hea⟩ := hder h41
                  refine ⟨_, Or.inl ⟨e, a, hde, hda, rfl⟩, ?_⟩
                  rw [← hp2, hee, hp3, ← hp4, hea, hweq, hleq, hceq]
                  simp
              · refine ⟨0, s4, ?_, by simp, by simp, by simp, by simp⟩
                simp only [check_S, hgw, hgw2, hE, hgw4]
                simp [hw0, hK, hwh, hl, hr0, hc]
        · refine ⟨0, s2, ?_, by simp, by simp, by simp, by simp⟩
          simp only [check_S, hgw, hgw2]
          simp [hw0, hK, hwh, hl]
    · -- the bare assignment
      have hret : pending (return_word w s1) = w :: ts := by
        rw [pending_return_word hr1 hw0, hp1]
      have hg1 : good (return_word w s1) := by
        intro t ht; apply hg; rw [hp]; rw [hret] at ht; exact ht
      obtain ⟨r4, s5, hT, hr01, hder⟩ := check_S_tail_sound undef _ hg1
      refine ⟨r4, s5, ?_, ?_, ?_, ?_, ?_⟩
      · simp only [check_S, hgw]
        simp [hw0, hwh, hT]
      · rcases hr01 with h | h <;> simp [h]
      · rcases hr01 with h | h <;> simp [h]
      · intro h4
        have h41 : r4 = 1 := by rcases hr01 with h | h; exact h; exact absurd h h4
        exact (hder h41).1
      · intro h41
        obtain ⟨-, a, hda, hea⟩ := hder h41
        refine ⟨_, Or.inr ⟨a, hda, rfl⟩, ?_⟩
        rw [← hret, hea]
        simp

/-- The validation loop always returns 1 or 0, and 1 means that the pending words are a
concatenation of statements (with nothing left in the pushback slot). -/
theorem validate_loop_sound (undef : parser_state → Int) :
    ∀ (fuel : Nat) (s : parser_state), good s → (pending s).length < fuel →
      ∃ r s1, validate_loop undef fuel s = exec.done (r, s1) ∧ (r = 1 ∨ r = 0) ∧
        (r = 1 → DerProgram isAddSub (pending s) ∧ s1.returned.key = 0) := by
  intro fuel
  induction fuel with
  | zero => intro s _ h; simp at h
  | succ n ih =>
    intro s hg hlen
    obtain ⟨r, s1, hS, hr, hend, hret, hder⟩ := check_S_sound undef s hg
    rcases hr with h1 | h0 | hm
    · subst h1
      obtain ⟨st, hds, hes⟩ := hder rfl
      have hne : st ≠ [] := by
        rcases hds with ⟨e, a, -, -, h⟩ | ⟨a, ⟨x, c, -, -, ha⟩, h⟩
        · simp [h]
        · simp [h, ha]
      have hl1 : (pending s1).length < n := by
        have := congrArg List.length hes
        have hpos : 0 < st.length := List.length_pos.mpr hne
        simp at this
        omega
      obtain ⟨r2, s2, hrun, hr2, hder2⟩ := ih s1 (good_of_suffix _ hg hes) hl1
      refine ⟨r2, s2, by simp [validate_loop, hS, exec.bind, hrun], hr2, ?_⟩
      intro h
      obtain ⟨hd2, hk2⟩ := hder2 h
      exact ⟨by rw [hes]; exact DerProgram.cons st _ hds hd2, hk2⟩
    · subst h0
      exact ⟨0, s1, by simp [validate_loop, hS, exec.bind], by simp, by simp⟩
    · subst hm
      refine ⟨1, s1, by simp [validate_loop, hS, exec.bind], by simp, ?_⟩
      intro _
      exact ⟨by rw [hend.mp rfl]; exact DerProgram.nil, hret (by simp)⟩

/-! ## The checkers against the grammar: completeness

From here on the value found on the [epsilon] branch of `check_C1` and `check_T1` is
assumed to be nonzero. -/

theorem check_T1_complete (undef : parser_state → Int) (hu : ∀ st, undef st ≠ 0)
    {t1 : List word_t} (hd : DerT1 t1) :
    ∀ (fuel : Nat) (s : parser_state) (rest : List word_t), good s →
      pending s = t1 ++ rest → follows MUL_DIV MUL_DIV rest → (pending s).length < fuel →
      ∃ r s1, check_T1 undef fuel s = exec.done (r, s1) ∧ r ≠ 0 ∧ pending s1 = rest := by
  induction hd with
  | eps =>
    intro fuel s rest hg hp hf hlen
    cases fuel with
    | zero => simp at hlen
    | succ n =>
      obtain ⟨w, s1, hgw, hkeep, hhead, hnil⟩ := lookahead_kept hg
      have hk : ¬ w.key = MUL_DIV := by
        cases rest with
        | nil => have := hnil (by simpa using hp); simp [this, MUL_DIV]
        | cons t ts =>
          have := hhead t ts (by simpa using hp)
          subst this
          exact (hf w ts rfl).1
      exact ⟨undef (return_word w s1), return_word w s1, by simp [check_T1, hgw, hk], hu _,
        by rw [hkeep, hp]; simp⟩
  | step m v t1 hm hv _ ih =>
    intro fuel s rest hg hp hf hlen
    cases fuel with
    | zero => simp at hlen
    | succ n =>
      obtain ⟨w, s1, hgw, hkeep, hhead, -⟩ := lookahead_kept hg
      have hp' : pending s = m :: (v :: (t1 ++ rest)) := by simpa using hp
      have hwm := hhead _ _ hp'
      subst hwm
      rw [hp'] at hkeep
      obtain ⟨s3, hp3, -, hM⟩ := check_M_cons hkeep
      rcases hM with ⟨-, hM⟩ | ⟨hm', -⟩
      · obtain ⟨s4, hp4, -, hV⟩ := check_V_cons hp3
        rcases hV with ⟨-, hV⟩ | ⟨hv', -⟩
        · have hg4 : good s4 := by
            intro t ht; apply hg; rw [hp']; rw [hp4] at ht; simp [ht]
          have hl4 : (pending s4).length < n := by
            rw [hp'] at hlen; rw [hp4]; simp at hlen ⊢; omega
          obtain ⟨r, s5, hrun, hr, hp5⟩ := ih n s4 rest hg4 hp4 hf hl4
          exact ⟨1, s5, by simp [check_T1, hgw, hm.1, hM, hV, hrun, exec.bind, hr], by simp,
            hp5⟩
        · exact absurd hv hv'
      · exact absurd hm hm'

theorem check_T_complete (undef : parser_state → Int) (hu : ∀ st, undef st ≠ 0)
    {t rest : List word_t} (hd : DerT t) (s : parser_state) (hg : good s)
    (hp : pending s = t ++ rest) (hf : follows MUL_DIV MUL_DIV rest) :
    ∃ r s1, check_T undef s = exec.done (r, s1) ∧ r ≠ 0 ∧ pending s1 = rest := by
  obtain ⟨v, t1, hv, hd1, rfl⟩ := hd
  have hp' : pending s = v :: (t1 ++ rest) := by simpa using hp
  obtain ⟨s1, hp1, -, hV⟩ := check_V_cons hp'
  rcases hV with ⟨-, hV⟩ | ⟨hv', -⟩
  · obtain ⟨r, s2, hrun, hr, hp2⟩ :=
      check_T1_complete undef hu hd1 (budget s1) s1 rest (good_of_tail hg hp' hp1) hp1 hf
        (pending_length s1)
    exact ⟨1, s2, by simp [check_T, hV, hrun, exec.bind, hr], by simp, hp2⟩
  · exact absurd hv hv'

theorem check_C1_complete (undef : parser_state → Int) (hu : ∀ st, undef st ≠ 0)
    {c1 : List word_t} (hd : DerC1 isAddSub c1) :
    ∀ (fuel : Nat) (s : parser_state) (rest : List word_t), good s →
      pending s = c1 ++ rest → follows ADD_SUB MUL_DIV rest → (pending s).length < fuel →
      ∃ r s1, check_C1 undef fuel s = exec.done (r, s1) ∧ r ≠ 0 ∧ pending s1 = rest := by
  induction hd with
  | eps =>
    intro fuel s rest hg hp hf hlen
    cases fuel with
    | zero => simp at hlen
    | succ n =>
      obtain ⟨w, s1, hgw, hkeep, hhead, hnil⟩ := lookahead_kept hg
      have hk : ¬ w.key = ADD_SUB := by
        cases rest with
        | nil => have := hnil (by simpa using hp); simp [this, ADD_SUB]
        | cons t ts =>
          have := hhead t ts (by simpa using hp)
          subst this
          exact (hf w ts rfl).1
      exact ⟨undef (return_word w s1), return_word w s1, by simp [check_C1, hgw, hk], hu _,
        by rw [hkeep, hp]; simp⟩
  | step p t c1 hpp ht hc1 ih =>
    intro fuel s rest hg hp hf hlen
    cases fuel with
    | zero => simp at hlen
    | succ n =>
      obtain ⟨w, s1, hgw, hkeep, hhead, -⟩ := lookahead_kept hg
      have hp' : pending s = p :: (t ++ (c1 ++ rest)) := by simpa using hp
      have hwm := hhead _ _ hp'
      subst hwm
      rw [hp'] at hkeep
      obtain ⟨s3, hp3, -, hP⟩ := check_P_cons hkeep
      rcases hP with ⟨-, hP⟩ | ⟨hp'', -⟩
      · have hkey : w.key = ADD_SUB := hpp
        have hg3 : good s3 := good_of_tail hg hp' hp3
        -- the word after the T is a P, or the word after the whole C1
        have hfT : follows MUL_DIV MUL_DIV (c1 ++ rest) := by
          intro x xs hx
          cases hc1 with
          | eps => simp at hx; exact ⟨(hf x xs hx).2, (hf x xs hx).2⟩
          | step p2 t2 r2 hp2 _ _ =>
            simp at hx
            have : x.key = ADD_SUB := by rw [← hx.1]; exact hp2
            simp [this, ADD_SUB, MUL_DIV]
        obtain ⟨r, s4, hT, hr, hp4⟩ := check_T_complete undef hu ht s3 hg3 hp3 hfT
        have hg4 : good s4 := good_of_suffix t hg3 (by rw [hp3, hp4])
        have hl4 : (pending s4).length < n := by
          rw [hp'] at hlen; rw [hp4]; simp at hlen ⊢; omega
        obtain ⟨r2, s5, hrun, hr2, hp5⟩ := ih n s4 rest hg4 hp4 hf hl4
        exact ⟨1, s5, by simp [check_C1, hgw, hkey, hP, hT, hrun, exec.bind, hr, hr2],
          by simp, hp5⟩
      · exact absurd hpp hp''

theorem check_C_complete (undef : parser_state → Int) (hu : ∀ st, undef st ≠ 0)
    {c rest : List word_t} (hd : DerC isAddSub c) (s : parser_state) (hg : good s)
    (hp : pending s = c ++ rest) (hf : follows ADD_SUB MUL_DIV rest) :
    ∃ s1, check_C undef s = exec.done (1, s1) ∧ pending s1 = rest := by
  obtain ⟨t, c1, ht, hc1, rfl⟩ := hd
  have hp' : pending s = t ++ (c1 ++ rest) := by simpa using hp
  have hfT : follows MUL_DIV MUL_DIV (c1 ++ rest) := by
    intro x xs hx
    cases hc1 with
    | eps => simp at hx; exact ⟨(hf x xs hx).2, (hf x xs hx).2⟩
    | step p2 t2 r2 hp2 _ _ =>
      simp at hx
      have : x.key = ADD_SUB := by rw [← hx.1]; exact hp2
      simp [this, ADD_SUB, MUL_DIV]
  obtain ⟨r, s1, hT, hr, hp1⟩ := check_T_complete undef hu ht s hg hp' hfT
  have hg1 : good s1 := good_of_suffix t hg (by rw [hp', hp1])
  obtain ⟨r2, s2, hrun, hr2, hp2⟩ :=
    check_C1_complete undef hu hc1 (budget s1) s1 rest hg1 hp1 hf (pending_length s1)
  exact ⟨s2, by simp [check_C, hT, hrun, exec.bind, hr, hr2], hp2⟩

theorem check_A_complete (undef : parser_state → Int) (hu : ∀ st, undef st ≠ 0)
    {a rest : List word_t} (hd : DerA isAddSub a) (s : parser_state) (hg : good s)
    (hp : pending s = a ++ rest) (hf : follows ADD_SUB MUL_DIV rest) :
    ∃ s1, check_A undef s = exec.done (1, s1) ∧ pending s1 = rest := by
  obtain ⟨x, c, hx, hc, rfl⟩ := hd
  have hp' : pending s = x :: (⟨ASSIGN, "="⟩ :: (c ++ rest)) := by simpa using hp
  obtain ⟨s1, hgw, hp1, -⟩ := get_word_cons hp'
  obtain ⟨s2, hgw2, hp2, -⟩ := get_word_cons hp1
  have hg2 : good s2 := good_of_tail (good_of_tail hg hp' hp1) hp1 hp2
  obtain ⟨s3, hC, hp3⟩ := check_C_complete undef hu hc s2 hg2 hp2 hf
  exact ⟨s3, by simp [check_A, hgw, hx, hgw2, hC, exec.bind], hp3⟩

theorem check_E_complete {e rest : List word_t} (hd : DerE e) (s : parser_state)
    (hp : pending s = e ++ rest) :
    ∃ s1, check_E s = (1, s1) ∧ pending s1 = rest := by
  obtain ⟨a, o, b, ha, ho, hb, rfl⟩ := hd
  have hp' : pending s = a :: (o :: (b :: rest)) := by simpa using hp
  obtain ⟨s1, hp1, -, hV⟩ := check_V_cons hp'
  rcases hV with ⟨-, hV⟩ | ⟨ha', -⟩
  · obtain ⟨s2, hp2, -, hO⟩ := check_O_cons hp1
    rcases hO with ⟨-, hO⟩ | ⟨ho', -⟩
    · obtain ⟨s3, hp3, -, hV3⟩ := check_V_cons hp2
      rcases hV3 with ⟨-, hV3⟩ | ⟨hb', -⟩
      · exact ⟨s3, by simp [check_E, hV, hO, hV3], hp3⟩
      · exact absurd hb hb'
    · exact absurd ho ho'
  · exact absurd ha ha'

theorem follows_semicolon (rest : List word_t) :
    follows ADD_SUB MUL_DIV (⟨SEMICOLON, ";"⟩ :: rest) := by
  intro w ws h
  simp at h
  rw [← h.1]
  simp [SEMICOLON, ADD_SUB, MUL_DIV]

theorem check_S_tail_complete (undef : parser_state → Int) (hu : ∀ st, undef st ≠ 0)
    {a rest : List word_t} (hd : DerA isAddSub a) (s : parser_state) (hg : good s)
    (hp : pending s = a ++ ⟨SEMICOLON, ";"⟩ :: rest) :
    ∃ s1, check_S_tail undef s = exec.done (1, s1) ∧ pending s1 = rest := by
  obtain ⟨s1, hA, hp1⟩ := check_A_complete undef hu hd s hg hp (follows_semicolon rest)
  obtain ⟨s2, hgw, hp2, -⟩ := get_word_cons hp1
  exact ⟨s2, by simp [check_S_tail, hA, exec.bind, hgw], hp2⟩

theorem check_S_complete (undef : parser_state → Int) (hu : ∀ st, undef st ≠ 0)
    {st rest : List word_t} (hd : DerS isAddSub st) (s : parser_state) (hg : good s)
    (hp : pending s = st ++ rest) :
    ∃ s1, check_S undef s = exec.done (1, s1) ∧ pending s1 = rest := by
  rcases hd with ⟨e, a, he, ha, rfl⟩ | ⟨a, ha, rfl⟩
  · have hp' : pending s = ⟨KEYWORD, "while"⟩ :: (⟨BRACKET_DOT, "("⟩ ::
        (e ++ (⟨BRACKET_DOT, ")"⟩ :: (a ++ ⟨SEMICOLON, ";"⟩ :: rest)))) := by
      simpa using hp
    obtain ⟨s1, hgw, hp1, -⟩ := get_word_cons hp'
    obtain ⟨s2, hgw2, hp2, -⟩ := get_word_cons hp1
    obtain ⟨s3, hE, hp3⟩ := check_E_complete he s2 hp2
    obtain ⟨s4, hgw4, hp4, -⟩ := get_word_cons hp3
    have hg2 : good s2 := good_of_tail (good_of_tail hg hp' hp1) hp1 hp2
    have hg3 : good s3 := good_of_suffix e hg2 (by rw [hp2, hp3])
    have hg4 : good s4 := good_of_tail hg3 hp3 hp4
    obtain ⟨s5, hT, hp5⟩ := check_S_tail_complete undef hu ha s4 hg4 hp4
    exact ⟨s5, by simp [check_S, hgw, hgw2, hE, hgw4, hT, KEYWORD], hp5⟩
  · obtain ⟨x, c, hx, hc, rfl⟩ := ha
    have hp' : pending s = x :: (⟨ASSIGN, "="⟩ :: (c ++ ⟨SEMICOLON, ";"⟩ :: rest)) := by
      simpa using hp
    obtain ⟨s1, hgw, hp1, hr1, -⟩ := get_word_cons hp'
    have hx0 : x.key ≠ 0 := by rw [hx]; decide
    have hxk : ¬ x.key = KEYWORD := by rw [hx]; decide
    have hret : pending (return_word x s1) = pending s := by
      rw [pending_return_word hr1 hx0, hp1, hp']
    have hg1 : good (return_word x s1) := by
      intro t ht; apply hg; rw [← hret]; exact ht
    have hA : DerA isAddSub (x :: ⟨ASSIGN, "="⟩ :: c) := ⟨x, c, hx, hc, rfl⟩
    have hp2 : pending (return_word x s1) = (x :: ⟨ASSIGN, "="⟩ :: c) ++ ⟨SEMICOLON, ";"⟩ :: rest := by
      rw [hret, hp']; simp
    obtain ⟨s5, hT, hp5⟩ := check_S_tail_complete undef hu hA (return_word x s1) hg1 hp2
    exact ⟨s5, by simp [check_S, hgw, hx0, hxk, hT], hp5⟩

theorem DerS_ne_nil {isP : word_t → Prop} {st : List word_t} (hd : DerS isP st) : st ≠ [] := by
  rcases hd with ⟨e, a, -, -, h⟩ | ⟨a, ⟨x, c, -, -, ha⟩, h⟩
  · simp [h]
  · simp [h, ha]

theorem validate_loop_complete (undef : parser_state → Int) (hu : ∀ st, undef st ≠ 0)
    {p : List word_t} (hd : DerProgram isAddSub p) :
    ∀ (fuel : Nat) (s : parser_state), good s → pending s = p → p.length < fuel →
      ∃ s1, validate_loop undef fuel s = exec.done (1, s1) := by
  induction hd with
  | nil =>
    intro fuel s _ hp hlen
    cases fuel with
    | zero => simp at hlen
    | succ n =>
      obtain ⟨s1, hgw, -⟩ := get_word_nil hp
      exact ⟨s1, by simp [validate_loop, check_S, hgw, exec.bind]⟩
  | cons st rest hst _ ih =>
    intro fuel s hg hp hlen
    cases fuel with
    | zero => simp at hlen
    | succ n =>
      obtain ⟨s1, hS, hp1⟩ := check_S_complete undef hu hst s hg hp
      have hpos : 0 < st.length := List.length_pos.mpr (DerS_ne_nil hst)
      have hl1 : rest.length < n := by simp at hlen; omega
      obtain ⟨s2, hrun⟩ := ih n s1 (good_of_suffix st hg (by rw [hp, hp1])) hp1 hl1
      exact ⟨s2, by simp [validate_loop, hS, exec.bind, hrun]⟩

theorem pending_rewind (all : List src_line) (s : parser_state) (h : s.returned.key = 0) :
    pending (rewind all s) = tokens all := by
  simp [pending, rewind, h]

/-! ## Words of a derivation -/

theorem DerT1_words {isP Q : word_t → Prop} (hQ : terminals_have isP Q) {t : List word_t}
    (hd : DerT1 t) : ∀ w ∈ t, Q w := by
  induction hd with
  | eps => simp
  | step m v rest hm hv _ ih =>
    intro w hw
    simp at hw
    rcases hw with rfl | rfl | hw
    · exact hQ.mul_div _ hm
    · exact hQ.operand _ hv
    · exact ih w hw

theorem DerT_words {isP Q : word_t → Prop} (hQ : terminals_have isP Q) {t : List word_t}
    (hd : DerT t) : ∀ w ∈ t, Q w := by
  obtain ⟨v, rest, hv, hr, rfl⟩ := hd
  intro w hw
  simp at hw
  rcases hw with rfl | hw
  · exact hQ.operand _ hv
  · exact DerT1_words hQ hr w hw

theorem DerC1_words {isP Q : word_t → Prop} (hQ : terminals_have isP Q) {c : List word_t}
    (hd : DerC1 isP c) : ∀ w ∈ c, Q w := by
  induction hd with
  | eps => simp
  | step p t rest hp ht _ ih =>
    intro w hw
    simp at hw
    rcases hw with rfl | hw | hw
    · exact hQ.add_sub _ hp
    · exact DerT_words hQ ht w hw
    · exact ih w hw

theorem DerA_words {isP Q : word_t → Prop} (hQ : terminals_have isP Q) {a : List word_t}
    (hd : DerA isP a) : ∀ w ∈ a, Q w := by
  obtain ⟨x, c, hx, ⟨t, c1, ht, hc1, rfl⟩, rfl⟩ := hd
  intro w hw
  simp at hw
  rcases hw with rfl | rfl | hw | hw
  · exact hQ.ident _ hx
  · exact hQ.assign
  · exact DerT_words hQ ht w hw
  · exact DerC1_words hQ hc1 w hw

theorem DerE_words {isP Q : word_t → Prop} (hQ : terminals_have isP Q) {e : List word_t}
    (hd : DerE e) : ∀ w ∈ e, Q w := by
  obtain ⟨a, o, b, ha, ho, hb, rfl⟩ := hd
  intro w hw
  simp at hw
  rcases hw with rfl | rfl | rfl
  · exact hQ.operand _ ha
  · exact hQ.compare _ ho
  · exact hQ.operand _ hb

theorem DerS_words {isP Q : word_t → Prop} (hQ : terminals_have isP Q) {st : List word_t}
    (hd : DerS isP st) : ∀ w ∈ st, Q w := by
  rcases hd with ⟨e, a, he, ha, rfl⟩ | ⟨a, ha, rfl⟩
  · intro w hw
    simp at hw
    rcases hw with rfl | rfl | hw | rfl | hw | rfl
    · exact hQ.kw_while
    · exact hQ.paren_open
    · exact DerE_words hQ he w hw
    · exact hQ.paren_close
    · exact DerA_words hQ ha w hw
    · exact hQ.semicolon
  · intro w hw
    simp at hw
    rcases hw with hw | rfl
    · exact DerA_words hQ ha w hw
    · exact hQ.semicolon

/-- Every word of a derived program has every property the terminals have. -/
theorem DerProgram_words {isP Q : word_t → Prop} (hQ : terminals_have isP Q)
    {p : List word_t} (hd : DerProgram isP p) : ∀ w ∈ p, Q w := by
  induction hd with
  | nil => simp
  | cons st rest hst _ ih =>
    intro w hw
    simp at hw
    rcases hw with hw | hw
    · exact DerS_words hQ hst w hw
    · exact ih w hw

/-- In the grammar as written every word with the key `ADD_SUB` is `+` or `-`. -/
theorem terminals_plain : terminals_have isPlusMinus plain where
  operand := by
    intro w hv h; rcases hv with hv | hv <;> rw [hv] at h <;> simp [IDENTIFIER, INT, ADD_SUB] at h
  compare := by intro w ho h; rw [ho.1] at h; simp [COMPARE, ADD_SUB] at h
  mul_div := by intro w hm h; rw [hm.1] at h; simp [MUL_DIV, ADD_SUB] at h
  add_sub := by intro w hp _; exact hp.2
  ident := by intro w hx h; rw [hx] at h; simp [IDENTIFIER, ADD_SUB] at h
  kw_while := by intro h; simp [KEYWORD, ADD_SUB] at h
  paren_open := by intro h; simp [BRACKET_DOT, ADD_SUB] at h
  paren_close := by intro h; simp [BRACKET_DOT, ADD_SUB] at h
  assign := by intro h; simp [ASSIGN, ADD_SUB] at h
  semicolon := by intro h; simp [SEMICOLON, ADD_SUB] at h

/-! ## Claim C1 -/

/-- C1 (amended): for every token stream (counter lines and spaces removed, every key
nonzero), provided the value found on the [epsilon] branch of `check_C1` and `check_T1`
is nonzero, `do_validate_grammar` returns, with the result 1 or 0, and the result is 1
if and only if the stream is a concatenation of zero or more statements of the grammar
in which the terminal P of C1 is any word with the key ADD_SUB. -/
theorem C1_validate_grammar_iff (undef : parser_state → Int) (hu : ∀ st, undef st ≠ 0)
    (all : List src_line) (s0 : parser_state) (hret : s0.returned.key = 0)
    (hkeys : ∀ t ∈ tokens all, t.key ≠ 0) :
    ∃ r s1, do_validate_grammar undef all s0 = exec.done (r, s1) ∧ (r = 1 ∨ r = 0) ∧
      (r = 1 ↔ DerProgram isAddSub (tokens all)) := by
  have hp := pending_rewind all s0 hret
  have hg : good (rewind all s0) := by intro t ht; rw [hp] at ht; exact hkeys t ht
  obtain ⟨r, s1, hrun, hr, hder⟩ :=
    validate_loop_sound undef (budget (rewind all s0)) (rewind all s0) hg (pending_length _)
  refine ⟨r, s1, hrun, hr, ?_, ?_⟩
  · intro h; rw [← hp]; exact (hder h).1
  · intro hd
    obtain ⟨s2, hrun2⟩ := validate_loop_complete undef hu hd (budget (rewind all s0))
      (rewind all s0) hg hp (by rw [← hp]; exact pending_length _)
    rw [hrun2] at hrun
    simp at hrun
    exact hrun.1.symm

/-- C1, witness: the file of `x = 1 + 2 * 3 ;`. -/
theorem C1_validate_grammar_iff_witness :
    (∀ t ∈ tokens file_assign, t.key ≠ 0) ∧
    ∃ r s1, do_validate_grammar (fun _ => 1) file_assign (parser_init file_assign)
        = exec.done (r, s1) ∧ (r = 1 ∨ r = 0) ∧
      (r = 1 ↔ DerProgram isAddSub (tokens file_assign)) :=
  ⟨by decide,
   C1_validate_grammar_iff (fun _ => 1) (fun _ => one_ne_zero) file_assign
    (parser_init file_assign) rfl (by decide)⟩

/-- C1 as stated fails: a statement whose additive operator word has the text `%` is
accepted (the [epsilon] branches yielding 1), though the grammar as written, with
P -> `+` | `-`, does not derive it. -/
theorem C1_counterexample :
    (∃ s1, do_validate_grammar (fun _ => 1) file_odd_operator (parser_init file_odd_operator)
        = exec.done (1, s1)) ∧
    ¬ DerProgram isPlusMinus (tokens file_odd_operator) := by
  refine ⟨⟨_, rfl⟩, ?_⟩
  intro hd
  have := DerProgram_words terminals_plain hd ⟨ADD_SUB, "%"⟩ (by decide) rfl
  revert this
  decide

/-! ## The translator against the tree compiler -/

theorem INT_ne_REGISTER : INT ≠ REGISTER := by decide

theorem IDENTIFIER_ne_REGISTER : IDENTIFIER ≠ REGISTER := by decide

theorem IDENTIFIER_ne_INT : IDENTIFIER ≠ INT := by decide

theorem get_word_view {s : parser_state} {t : word_t} {ts ops stk : List word_t}
    {r : reg_table} {b br : Nat} {o : List asm_line}
    (h : view s = ⟨t :: ts, ops, stk, r, b, br, o⟩) :
    ∃ s1, get_word s = (t, s1) ∧ view s1 = ⟨ts, ops, stk, r, b, br, o⟩ ∧
      s1.returned.key = 0 := by
  simp only [view, machine.mk.injEq] at h
  obtain ⟨hp, h1, h2, h3, h4, h5, h6⟩ := h
  obtain ⟨s1, hg, hp1, hr, -, hm⟩ := get_word_cons hp
  obtain ⟨m1, m2, m3, m4, m5, m6⟩ := hm
  refine ⟨s1, hg, ?_, hr⟩
  simp only [view, machine.mk.injEq]
  exact ⟨hp1, m1.trans h1, m2.trans h2, m3.trans h3, m4.trans h4, m5.trans h5, m6.trans h6⟩

/-- Looking at the next word and returning it leaves the observable state as it was. -/
theorem peek_view {s : parser_state} {t : word_t} {ts ops stk : List word_t}
    {r : reg_table} {b br : Nat} {o : List asm_line}
    (h : view s = ⟨t :: ts, ops, stk, r, b, br, o⟩) (ht : t.key ≠ 0) :
    ∃ s1, get_word s = (t, s1) ∧ view (return_word t s1) = ⟨t :: ts, ops, stk, r, b, br, o⟩ := by
  obtain ⟨s1, hg, hv, hr⟩ := get_word_view h
  refine ⟨s1, hg, ?_⟩
  simp only [view, machine.mk.injEq] at hv ⊢
  obtain ⟨hp, h1, h2, h3, h4, h5, h6⟩ := hv
  refine ⟨by rw [pending_return_word hr ht, hp], ?_, ?_, ?_, ?_, ?_, ?_⟩ <;>
    simp [return_word, hr, h1, h2, h3, h4, h5, h6]

theorem translate_V_view {s : parser_state} {t : word_t} {ts ops stk : List word_t}
    {r : reg_table} {b br : Nat} {o : List asm_line}
    (h : view s = ⟨t :: ts, ops, stk, r, b, br, o⟩) (hlen : stk.length < STACK_SIZE) :
    view (translate_V s) = ⟨ts, ops, t :: stk, r, b, br, o⟩ := by
  obtain ⟨s1, hg, hv, -⟩ := get_word_view h
  simp only [view, machine.mk.injEq] at hv ⊢
  obtain ⟨hp, h1, h2, h3, h4, h5, h6⟩ := hv
  have hne : ¬ stk.length = STACK_SIZE := by omega
  simp only [pending] at hp
  simp [translate_V, hg, push_operand, hne, pending, h1, h2, h3, h4, h5, h6, hp]

theorem translate_O_P_M_view {s : parser_state} {t : word_t} {ts ops stk : List word_t}
    {r : reg_table} {b br : Nat} {o : List asm_line}
    (h : view s = ⟨t :: ts, ops, stk, r, b, br, o⟩) (hlen : ops.length < STACK_SIZE) :
    view (translate_O_P_M s) = ⟨ts, t :: ops, stk, r, b, br, o⟩ := by
  obtain ⟨s1, hg, hv, -⟩ := get_word_view h
  simp only [view, machine.mk.injEq] at hv ⊢
  obtain ⟨hp, h1, h2, h3, h4, h5, h6⟩ := hv
  have hne : ¬ ops.length = STACK_SIZE := by omega
  simp only [pending] at hp
  simp [translate_O_P_M, hg, push_operator, hne, pending, h1, h2, h3, h4, h5, h6, hp]

theorem pop_operand_view {s : parser_state} {w : word_t} {pd ops stk : List word_t}
    {r : reg_table} {b br : Nat} {o : List asm_line}
    (h : view s = ⟨pd, ops, w :: stk, r, b, br, o⟩) :
    ∃ s1, pop_operand s = (some w, s1) ∧ view s1 = ⟨pd, ops, stk, r, b, br, o⟩ := by
  simp only [view, machine.mk.injEq] at h
  obtain ⟨hp, h1, h2, h3, h4, h5, h6⟩ := h
  refine ⟨{ s with operands := stk }, by simp [pop_operand, h2], ?_⟩
  simp only [view, machine.mk.injEq]
  exact ⟨by simpa [pending] using hp, h1, trivial, h3, h4, h5, h6⟩

theorem pop_operator_view {s : parser_state} {w : word_t} {pd ops stk : List word_t}
    {r : reg_table} {b br : Nat} {o : List asm_line}
    (h : view s = ⟨pd, w :: ops, stk, r, b, br, o⟩) :
    ∃ s1, pop_operator s = (some w, s1) ∧ view s1 = ⟨pd, ops, stk, r, b, br, o⟩ := by
  simp only [view, machine.mk.injEq] at h
  obtain ⟨hp, h1, h2, h3, h4, h5, h6⟩ := h
  refine ⟨{ s with operators := ops }, by simp [pop_operator, h1], ?_⟩
  simp only [view, machine.mk.injEq]
  exact ⟨by simpa [pending] using hp, trivial, h2, h3, h4, h5, h6⟩

/-- The multiply/divide operation: what it emits and how it leaves the registers. -/
theorem reduce_T1_run (s : parser_state) (p a : Int) (acc m v : word_t)
    (hp : p = 0 ∨ p = 1 ∨ p = 2 ∨ p = 3)
    (hregs : s.registers = regs_of p a)
    (hacc : (a = 0 ∧ acc.key ≠ REGISTER) ∨ (a = fresh p ∧ acc = ⟨REGISTER, reg_name (fresh p)⟩))
    (hm : isM m) (hv : isV v)
    (hlen : s.operands.length < STACK_SIZE) :
    reduce_T1 acc (some m) (some v) s = exec.done
      { s with registers := regs_of p (fresh p),
               operands := ⟨REGISTER, reg_name (fresh p)⟩ :: s.operands,
               out := s.out ++ mul_code (fresh p) acc m v } := by
  have hlen' : ¬ s.operands.length = STACK_SIZE := by omega
  obtain ⟨hmk, hmv⟩ := hm
  rcases hacc with ⟨rfl, hk⟩ | ⟨rfl, rfl⟩
  · rcases hp with rfl | rfl | rfl | rfl <;>
    rcases hv with hv | hv <;>
    rcases hmv with hmv | hmv <;>
    simp [reduce_T1, hregs, regs_of, fresh, reg_name, get_register_name, get_register_no,
      alloc_accumulator, alloc_register, free_register, register_name, popped, emit,
      push_operand, mul_code, exec.bind, hk, hv, hmk, hmv, hlen', INT_ne_REGISTER,
      IDENTIFIER_ne_REGISTER, IDENTIFIER_ne_INT]
  · rcases hp with rfl | rfl | rfl | rfl <;>
    rcases hv with hv | hv <;>
    rcases hmv with hmv | hmv <;>
    simp [reduce_T1, hregs, regs_of, fresh, reg_name, get_register_name, get_register_no,
      alloc_accumulator, alloc_register, free_register, register_name, popped, emit,
      push_operand, mul_code, exec.bind, hv, hmk, hmv, hlen', INT_ne_REGISTER,
      IDENTIFIER_ne_REGISTER, IDENTIFIER_ne_INT]

theorem reduce_T1_view {s : parser_state} {p a : Int} {acc m v : word_t}
    {pd ops stk : List word_t} {b br : Nat} {o : List asm_line}
    (h : view s = ⟨pd, ops, stk, regs_of p a, b, br, o⟩)
    (hp : p = 0 ∨ p = 1 ∨ p = 2 ∨ p = 3)
    (hacc : (a = 0 ∧ acc.key ≠ REGISTER) ∨ (a = fresh p ∧ acc = ⟨REGISTER, reg_name (fresh p)⟩))
    (hm : isM m) (hv : isV v)
    (hlen : stk.length < STACK_SIZE) :
    ∃ s1, reduce_T1 acc (some m) (some v) s = exec.done s1 ∧
      view s1 = ⟨pd, ops, ⟨REGISTER, reg_name (fresh p)⟩ :: stk, regs_of p (fresh p), b, br,
        o ++ mul_code (fresh p) acc m v⟩ := by
  simp only [view, machine.mk.injEq] at h
  obtain ⟨hpd, h1, h2, h3, h4, h5, h6⟩ := h
  refine ⟨_, reduce_T1_run s p a acc m v hp h3 hacc hm hv (by rw [h2]; exact hlen), ?_⟩
  simp only [view, machine.mk.injEq]
  exact ⟨by simpa [pending] using hpd, h1, by rw [h2], trivial, h4, h5, by rw [h6]⟩

/-- `translate_T1` on the pairs M V of a term emits the code of the pairs and leaves the
operand that stands for the value on the stack. -/
theorem translate_T1_run (p : Int) (hp : p = 0 ∨ p = 1 ∨ p = 2 ∨ p = 3)
    (rest ops stk : List word_t) (b br : Nat)
    (hstop : stops MUL_DIV MUL_DIV rest) (hops : ops.length < STACK_SIZE)
    (hstk : stk.length + 1 < STACK_SIZE) :
    ∀ (ps : List (word_t × word_t)) (fuel : Nat) (s : parser_state) (acc : word_t) (a : Int)
      (o : List asm_line),
      (∀ mv ∈ ps, isM mv.1 ∧ isV mv.2) →
      view s = ⟨pairs_words ps ++ rest, ops, acc :: stk, regs_of p a, b, br, o⟩ →
      ((a = 0 ∧ acc.key ≠ REGISTER) ∨ (a = fresh p ∧ acc = ⟨REGISTER, reg_name (fresh p)⟩)) →
      (pairs_words ps ++ rest).length < fuel →
      ∃ s1, translate_T1 fuel s = exec.done s1 ∧
        view s1 = ⟨rest, ops, pairs_result (fresh p) acc ps :: stk,
          regs_of p (pairs_reg a (fresh p) ps), b, br, o ++ pairs_code (fresh p) acc ps⟩ := by
  intro ps
  induction ps with
  | nil =>
    intro fuel s acc a o _ hv _ hlen
    cases fuel with
    | zero => simp at hlen
    | succ n =>
      obtain ⟨w, ws, rfl, hw0, hwk, -⟩ := hstop
      have hv' : view s = ⟨w :: ws, ops, acc :: stk, regs_of p a, b, br, o⟩ := by
        simpa [pairs_words] using hv
      obtain ⟨s1, hg, hback⟩ := peek_view hv' hw0
      exact ⟨return_word w s1, by simp [translate_T1, hg, hwk],
        by simpa [pairs_result, pairs_reg, pairs_code] using hback⟩
  | cons mv ps ih =>
    intro fuel s acc a o hwf hv hacc hlen
    obtain ⟨m, v⟩ := mv
    cases fuel with
    | zero => simp at hlen
    | succ n =>
      have hm : isM m := (hwf (m, v) (by simp)).1
      have hvk : isV v := (hwf (m, v) (by simp)).2
      have hm0 : m.key ≠ 0 := by rw [hm.1]; decide
      have hv' : view s = ⟨m :: v :: (pairs_words ps ++ rest), ops, acc :: stk,
          regs_of p a, b, br, o⟩ := by
        simpa [pairs_words] using hv
      obtain ⟨s1, hg, hback⟩ := peek_view hv' hm0
      have h2 := translate_O_P_M_view hback hops
      have h3 := translate_V_view h2 hstk
      obtain ⟨s4, hpop3, h4⟩ := pop_operand_view h3
      obtain ⟨s5, hpop2, h5⟩ := pop_operator_view h4
      obtain ⟨s6, hpop1, h6⟩ := pop_operand_view h5
      obtain ⟨s7, hred, h7⟩ := reduce_T1_view h6 hp hacc hm hvk (by omega)
      have hlen' : (pairs_words ps ++ rest).length < n := by
        simp [pairs_words] at hlen ⊢; omega
      obtain ⟨s8, hrun, h8⟩ := ih n s7 ⟨REGISTER, reg_name (fresh p)⟩ (fresh p)
        (o ++ mul_code (fresh p) acc m v)
        (fun x hx => hwf x (by simp [hx])) h7 (Or.inr ⟨rfl, rfl⟩) hlen'
      refine ⟨s8, ?_, ?_⟩
      · simp [translate_T1, hg, hm.1, hpop3, hpop2, hpop1, hred, exec.bind, hrun]
      · rw [h8]
        cases ps <;> simp [pairs_result, pairs_reg, pairs_code]

/-- `translate_T` on a term emits the code of the term. -/
theorem translate_T_run (p : Int) (hp : p = 0 ∨ p = 1 ∨ p = 2 ∨ p = 3)
    (t : term_t) (rest ops stk : List word_t) (b br : Nat) (o : List asm_line)
    (s : parser_state)
    (hwf : t.valid)
    (hstop : stops MUL_DIV MUL_DIV rest) (hops : ops.length < STACK_SIZE)
    (hstk : stk.length + 1 < STACK_SIZE)
    (hv : view s = ⟨t.words ++ rest, ops, stk, regs_of p 0, b, br, o⟩) :
    ∃ s1, translate_T s = exec.done s1 ∧
      view s1 = ⟨rest, ops, t.result p :: stk, regs_of p (t.reg p), b, br, o ++ t.code p⟩ := by
  have hv' : view s = ⟨t.first :: (pairs_words t.rest ++ rest), ops, stk, regs_of p 0, b, br,
      o⟩ := by
    simpa [term_t.words] using hv
  have h1 := translate_V_view hv' (by omega)
  have hk : t.first.key ≠ REGISTER := by
    rcases hwf.1 with h | h <;> rw [h] <;> decide
  have hlen : (pairs_words t.rest ++ rest).length < budget (translate_V s) := by
    have := pending_length (translate_V s)
    have hpd : pending (translate_V s) = pairs_words t.rest ++ rest := by
      have := congrArg machine.pend h1
      simpa [view] using this
    rw [hpd] at this
    exact this
  obtain ⟨s2, hrun, h2⟩ := translate_T1_run p hp rest ops stk b br hstop hops hstk t.rest
    (budget (translate_V s)) (translate_V s) t.first 0 o hwf.2 h1 (Or.inl ⟨rfl, hk⟩) hlen
  exact ⟨s2, by simp [translate_T, hrun], by simpa [term_t.result, term_t.reg, term_t.code] using h2⟩

/-- The add/subtract operation: what it emits and how it leaves the registers. -/
theorem reduce_C1_run (s : parser_state) (c rt : Int) (acc pm w3 : word_t)
    (hregs : s.registers = regs_of c rt)
    (hacc : (c = 0 ∧ acc.key ≠ REGISTER) ∨
      ((c = 1 ∨ c = 2 ∨ c = 3) ∧ acc = ⟨REGISTER, reg_name c⟩))
    (hw3 : (rt = 0 ∧ w3.key ≠ REGISTER) ∨ (rt = fresh c ∧ w3 = ⟨REGISTER, reg_name (fresh c)⟩))
    (hpm : isPlusMinus pm)
    (hlen : s.operands.length < STACK_SIZE) :
    reduce_C1 acc (some pm) (some w3) s = exec.done
      { s with registers := regs_of (if c = 0 then fresh rt else c) 0,
               operands := ⟨REGISTER, reg_name (if c = 0 then fresh rt else c)⟩ :: s.operands,
               out := s.out ++
                 ((if c = 0 then
                    [asm_line.binary "mov" (reg_name (if c = 0 then fresh rt else c)) acc.value]
                   else []) ++
                  [asm_line.binary (if pm.value = "+" then "add" else "sub")
                    (reg_name (if c = 0 then fresh rt else c)) w3.value]) } := by
  have hlen' : ¬ s.operands.length = STACK_SIZE := by omega
  obtain ⟨hpk, hpv⟩ := hpm
  have hsub : ¬ "-" = "+" := by decide
  rcases hacc with ⟨rfl, hk⟩ | ⟨hc, rfl⟩
  · rcases hw3 with ⟨rfl, hk3⟩ | ⟨rfl, rfl⟩
    · rcases hpv with hpv | hpv <;>
      simp [reduce_C1, hregs, regs_of, fresh, reg_name, get_register_name, get_register_no,
        alloc_register, free_register, register_name, popped, emit,
        push_operand, exec.bind, hk, hk3, hpk, hpv, hlen', hsub]
    · rcases hpv with hpv | hpv <;>
      simp [reduce_C1, hregs, regs_of, fresh, reg_name, get_register_name, get_register_no,
        alloc_register, free_register, register_name, popped, emit,
        push_operand, exec.bind, hk, hpk, hpv, hlen', hsub]
  · rcases hw3 with ⟨rfl, hk3⟩ | ⟨rfl, rfl⟩
    · rcases hc with rfl | rfl | rfl <;>
      rcases hpv with hpv | hpv <;>
      simp [reduce_C1, hregs, regs_of, fresh, reg_name, get_register_name, get_register_no,
        alloc_register, free_register, register_name, popped, emit,
        push_operand, exec.bind, hk3, hpk, hpv, hlen', hsub]
    · rcases hc with rfl | rfl | rfl <;>
      rcases hpv with hpv | hpv <;>
      simp [reduce_C1, hregs, regs_of, fresh, reg_name, get_register_name, get_register_no,
        alloc_register, free_register, register_name, popped, emit,
        push_operand, exec.bind, hpk, hpv, hlen', hsub]

theorem reduce_C1_view {s : parser_state} {c : Int} (acc pm : word_t) {t : term_t}
    {pd ops stk : List word_t} {b br : Nat} {o : List asm_line}
    (h : view s = ⟨pd, ops, stk, regs_of c (t.reg c), b, br, o⟩)
    (hacc : (c = 0 ∧ acc.key ≠ REGISTER) ∨
      ((c = 1 ∨ c = 2 ∨ c = 3) ∧ acc = ⟨REGISTER, reg_name c⟩))
    (ht : t.valid) (hpm : isPlusMinus pm)
    (hlen : stk.length < STACK_SIZE) :
    ∃ s1, reduce_C1 acc (some pm) (some (t.result c)) s = exec.done s1 ∧
      view s1 = ⟨pd, ops, ⟨REGISTER, reg_name (sum_reg c t)⟩ :: stk, regs_of (sum_reg c t) 0,
        b, br, o ++ ((if c = 0 then [asm_line.binary "mov" (reg_name (sum_reg c t)) acc.value]
            else []) ++
          [asm_line.binary (if pm.value = "+" then "add" else "sub") (reg_name (sum_reg c t))
            (t.result c).value])⟩ := by
  simp only [view, machine.mk.injEq] at h
  obtain ⟨hpd, h1, h2, h3, h4, h5, h6⟩ := h
  have hw3 : (t.reg c = 0 ∧ (t.result c).key ≠ REGISTER) ∨
      (t.reg c = fresh c ∧ t.result c = ⟨REGISTER, reg_name (fresh c)⟩) := by
    unfold term_t.reg term_t.result
    cases t.rest with
    | nil =>
      left
      refine ⟨rfl, ?_⟩
      simp only [pairs_result]
      rcases ht.1 with h | h <;> rw [h] <;> decide
    | cons x xs => right; exact ⟨rfl, rfl⟩
  have hsum : (if c = 0 then fresh (t.reg c) else c) = sum_reg c t := by
    unfold sum_reg
    by_cases hc : c = 0
    · subst hc; simp
    · simp [hc]
  refine ⟨_, reduce_C1_run s c (t.reg c) acc pm (t.result c) h3 hacc hw3 hpm
    (by rw [h2]; exact hlen), ?_⟩
  simp only [view, machine.mk.injEq, hsum]
  exact ⟨by simpa [pending] using hpd, h1, by rw [h2], trivial, h4, h5, by rw [h6]⟩

theorem regs_of_comm (p k : Int) : regs_of p k = regs_of k p := by
  simp [regs_of, or_comm]

theorem sum_reg_cases (c : Int) (t : term_t) (hc : c = 0 ∨ c = 1 ∨ c = 2 ∨ c = 3) :
    sum_reg c t = 1 ∨ sum_reg c t = 2 ∨ sum_reg c t = 3 := by
  unfold sum_reg term_t.reg
  rcases hc with rfl | rfl | rfl | rfl
  · cases t.rest <;> simp [pairs_reg, fresh]
  · simp
  · simp
  · simp

theorem term_words_ne_nil (t : term_t) : t.words ≠ [] := by simp [term_t.words]

/-- `translate_C1` on the pairs P T of an expression emits the code of the pairs and
leaves the operand that stands for the value on the stack. -/
theorem translate_C1_run (rest ops stk : List word_t) (b br : Nat)
    (hstop : stops ADD_SUB MUL_DIV rest) (hops : ops.length + 1 < STACK_SIZE)
    (hstk : stk.length + 2 < STACK_SIZE) :
    ∀ (ps : List (word_t × term_t)) (fuel : Nat) (s : parser_state) (acc : word_t) (c : Int)
      (o : List asm_line),
      (∀ pt ∈ ps, isPlusMinus pt.1 ∧ pt.2.valid) →
      view s = ⟨tail_words ps ++ rest, ops, acc :: stk, regs_of c 0, b, br, o⟩ →
      ((c = 0 ∧ acc.key ≠ REGISTER) ∨
        ((c = 1 ∨ c = 2 ∨ c = 3) ∧ acc = ⟨REGISTER, reg_name c⟩)) →
      (tail_words ps ++ rest).length < fuel →
      ∃ s1, translate_C1 fuel s = exec.done s1 ∧
        view s1 = ⟨rest, ops, tail_result c acc ps :: stk, regs_of (tail_reg c ps) 0, b, br,
          o ++ tail_code c acc ps⟩ := by
  intro ps
  induction ps with
  | nil =>
    intro fuel s acc c o _ hv _ hlen
    cases fuel with
    | zero => simp at hlen
    | succ n =>
      obtain ⟨w, ws, rfl, hw0, hwk, -⟩ := hstop
      have hv' : view s = ⟨w :: ws, ops, acc :: stk, regs_of c 0, b, br, o⟩ := by
        simpa [tail_words] using hv
      obtain ⟨s1, hg, hback⟩ := peek_view hv' hw0
      exact ⟨return_word w s1, by simp [translate_C1, hg, hwk],
        by simpa [tail_result, tail_reg, tail_code] using hback⟩
  | cons pt ps ih =>
    intro fuel s acc c o hwf hv hacc hlen
    obtain ⟨pm, t⟩ := pt
    cases fuel with
    | zero => simp at hlen
    | succ n =>
      have hpm : isPlusMinus pm := (hwf (pm, t) (by simp)).1
      have ht : t.valid := (hwf (pm, t) (by simp)).2
      have hpm0 : pm.key ≠ 0 := by rw [hpm.1]; decide
      have hc : c = 0 ∨ c = 1 ∨ c = 2 ∨ c = 3 := by
        rcases hacc with ⟨h, -⟩ | ⟨h, -⟩
        · exact Or.inl h
        · exact Or.inr h
      have hv' : view s = ⟨pm :: (t.words ++ (tail_words ps ++ rest)), ops, acc :: stk,
          regs_of c 0, b, br, o⟩ := by
        simpa [tail_words] using hv
      obtain ⟨s1, hg, hback⟩ := peek_view hv' hpm0
      have h2 := translate_O_P_M_view hback (by omega)
      -- the word after the term is the next P, or the word after the whole C1
      have hstopT : stops MUL_DIV MUL_DIV (tail_words ps ++ rest) := by
        cases ps with
        | nil => obtain ⟨w, ws, rfl, hw0, -, hwm⟩ := hstop; exact ⟨w, ws, by simp [tail_words], hw0, hwm, hwm⟩
        | cons pt2 ps2 =>
          obtain ⟨pm2, t2⟩ := pt2
          have h2k : pm2.key = ADD_SUB := (hwf (pm2, t2) (by simp)).1.1
          exact ⟨pm2, t2.words ++ tail_words ps2 ++ rest, by simp [tail_words],
            by rw [h2k]; decide, by rw [h2k]; decide, by rw [h2k]; decide⟩
      obtain ⟨s3, hT, h3⟩ := translate_T_run c hc t (tail_words ps ++ rest) (pm :: ops)
        (acc :: stk) b br o (translate_O_P_M (return_word pm s1)) ht hstopT
        (by simp; omega) (by simp; omega) h2
      obtain ⟨s4, hpop3, h4⟩ := pop_operand_view h3
      obtain ⟨s5, hpop2, h5⟩ := pop_operator_view h4
      obtain ⟨s6, hpop1, h6⟩ := pop_operand_view h5
      obtain ⟨s7, hred, h7⟩ := reduce_C1_view acc pm h6 hacc ht hpm (by omega)
      have hlen' : (tail_words ps ++ rest).length < n := by
        have := term_words_ne_nil t
        have hpos : 0 < t.words.length := List.length_pos.mpr this
        simp [tail_words] at hlen ⊢; omega
      obtain ⟨s8, hrun, h8⟩ := ih n s7 ⟨REGISTER, reg_name (sum_reg c t)⟩ (sum_reg c t) _
        (fun x hx => hwf x (by simp [hx])) h7 (Or.inr ⟨sum_reg_cases c t hc, rfl⟩) hlen'
      refine ⟨s8, ?_, ?_⟩
      · simp [translate_C1, hg, hpm.1, hT, hpop3, hpop2, hpop1, hred, exec.bind, hrun]
      · rw [h8]
        simp [tail_result, tail_reg, tail_code, add_code]

/-- The operand left by the code of an expression is a register exactly when a register
is busy afterwards, and that register is the busy one. -/
theorem tail_result_cases :
    ∀ (ps : List (word_t × term_t)) (c : Int) (acc : word_t),
      ((c = 0 ∧ acc.key ≠ REGISTER) ∨
        ((c = 1 ∨ c = 2 ∨ c = 3) ∧ acc = ⟨REGISTER, reg_name c⟩)) →
      ((tail_reg c ps = 0 ∧ (tail_result c acc ps).key ≠ REGISTER) ∨
        ((tail_reg c ps = 1 ∨ tail_reg c ps = 2 ∨ tail_reg c ps = 3) ∧
          tail_result c acc ps = ⟨REGISTER, reg_name (tail_reg c ps)⟩)) := by
  intro ps
  induction ps with
  | nil => intro c acc h; simpa [tail_reg, tail_result] using h
  | cons pt ps ih =>
    intro c acc h
    obtain ⟨pm, t⟩ := pt
    have hc : c = 0 ∨ c = 1 ∨ c = 2 ∨ c = 3 := by
      rcases h with ⟨h, -⟩ | ⟨h, -⟩
      · exact Or.inl h
      · exact Or.inr h
    simpa [tail_reg, tail_result] using
      ih (sum_reg c t) ⟨REGISTER, reg_name (sum_reg c t)⟩ (Or.inr ⟨sum_reg_cases c t hc, rfl⟩)

/-- `translate_C` on an expression emits the code of the expression. -/
theorem translate_C_run (e : expr_t) (rest ops stk : List word_t) (b br : Nat)
    (o : List asm_line) (s : parser_state) (hwf : e.valid)
    (hstop : stops ADD_SUB MUL_DIV rest) (hops : ops.length + 1 < STACK_SIZE)
    (hstk : stk.length + 2 < STACK_SIZE)
    (hv : view s = ⟨e.words ++ rest, ops, stk, regs_of 0 0, b, br, o⟩) :
    ∃ s1, translate_C s = exec.done s1 ∧
      view s1 = ⟨rest, ops, e.result :: stk, regs_of (tail_reg (e.first.reg 0) e.rest) 0, b, br,
        o ++ e.code⟩ := by
  have hv' : view s = ⟨e.first.words ++ (tail_words e.rest ++ rest), ops, stk, regs_of 0 0,
      b, br, o⟩ := by
    simpa [expr_t.words] using hv
  have hstopT : stops MUL_DIV MUL_DIV (tail_words e.rest ++ rest) := by
    cases he : e.rest with
    | nil => obtain ⟨w, ws, rfl, hw0, -, hwm⟩ := hstop; exact ⟨w, ws, by simp [tail_words], hw0, hwm, hwm⟩
    | cons pt2 ps2 =>
      obtain ⟨pm2, t2⟩ := pt2
      have h2k : pm2.key = ADD_SUB := (hwf.2 (pm2, t2) (by simp [he])).1.1
      exact ⟨pm2, t2.words ++ tail_words ps2 ++ rest, by simp [tail_words],
        by rw [h2k]; decide, by rw [h2k]; decide, by rw [h2k]; decide⟩
  obtain ⟨s1, hT, h1⟩ := translate_T_run 0 (Or.inl rfl) e.first (tail_words e.rest ++ rest) ops
    stk b br o s hwf.1 hstopT (by omega) (by omega) hv'
  rw [regs_of_comm] at h1
  have hacc : (e.first.reg 0 = 0 ∧ (e.first.result 0).key ≠ REGISTER) ∨
      ((e.first.reg 0 = 1 ∨ e.first.reg 0 = 2 ∨ e.first.reg 0 = 3) ∧
        e.first.result 0 = ⟨REGISTER, reg_name (e.first.reg 0)⟩) := by
    unfold term_t.reg term_t.result
    cases e.first.rest with
    | nil =>
      left
      refine ⟨rfl, ?_⟩
      simp only [pairs_result]
      rcases hwf.1.1 with h | h <;> rw [h] <;> decide
    | cons x xs => right; exact ⟨Or.inl rfl, rfl⟩
  have hlen : (tail_words e.rest ++ rest).length < budget s1 := by
    have := pending_length s1
    have hpd : pending s1 = tail_words e.rest ++ rest := by
      have := congrArg machine.pend h1
      simpa [view] using this
    rw [hpd] at this
    exact this
  obtain ⟨s2, hrun, h2⟩ := translate_C1_run rest ops stk b br hstop hops hstk e.rest
    (budget s1) s1 (e.first.result 0) (e.first.reg 0) _ hwf.2 h1 hacc hlen
  refine ⟨s2, by simp [translate_C, hT, exec.bind, hrun], ?_⟩
  rw [h2]
  simp [expr_t.result, expr_t.code]

/-- `translate_A` on the assignment `x = e` emits the code of the assignment and leaves
the stacks and the register table as it found them. -/
theorem translate_A_run (x q : word_t) (e : expr_t) (rest ops stk : List word_t) (b br : Nat)
    (o : List asm_line) (s : parser_state) (hwf : e.valid)
    (hstop : stops ADD_SUB MUL_DIV rest) (hops : ops.length + 1 < STACK_SIZE)
    (hstk : stk.length + 2 < STACK_SIZE)
    (hv : view s = ⟨x :: q :: (e.words ++ rest), ops, stk, regs_of 0 0, b, br, o⟩) :
    ∃ s1, translate_A s = exec.done s1 ∧
      view s1 = ⟨rest, ops, stk, regs_of 0 0, b, br, o ++ assign_code x e⟩ := by
  obtain ⟨s1, hg1, h1, -⟩ := get_word_view hv
  obtain ⟨s2, hg2, h2, -⟩ := get_word_view h1
  obtain ⟨s3, hC, h3⟩ := translate_C_run e rest ops stk b br o s2 hwf hstop hops hstk h2
  obtain ⟨s4, hpop, h4⟩ := pop_operand_view h3
  have hres := tail_result_cases e.rest (e.first.reg 0) (e.first.result 0) (by
    unfold term_t.reg term_t.result
    cases e.first.rest with
    | nil =>
      left
      refine ⟨rfl, ?_⟩
      simp only [pairs_result]
      rcases hwf.1.1 with h | h <;> rw [h] <;> decide
    | cons y ys => right; exact ⟨Or.inl rfl, rfl⟩)
  simp only [view, machine.mk.injEq] at h4
  obtain ⟨hpd, k1, k2, k3, k4, k5, k6⟩ := h4
  have hpd' : pending (emit (asm_line.binary "mov" x.value e.result.value) s4) = rest := by
    simpa [pending, emit] using hpd
  rcases hres with ⟨hr0, hkey⟩ | ⟨hr, hreg⟩
  · -- the value is a source operand
    have hkey' : ¬ e.result.key = REGISTER := hkey
    refine ⟨emit (asm_line.binary "mov" x.value e.result.value) s4, ?_, ?_⟩
    · simp [translate_A, hg1, hg2, hC, exec.bind, hpop, hkey']
    · simp only [view, machine.mk.injEq]
      refine ⟨hpd', k1, k2, ?_, k4, k5, ?_⟩
      · rw [hr0] at k3; simpa [emit] using k3
      · simp [emit, k6, assign_code]
  · -- the value is in a register, which is released
    have hreg' : e.result = ⟨REGISTER, reg_name (tail_reg (e.first.reg 0) e.rest)⟩ := hreg
    refine ⟨free_register (get_register_no e.result.value)
      (emit (asm_line.binary "mov" x.value e.result.value) s4), ?_, ?_⟩
    · have : e.result.key = REGISTER := by rw [hreg']
      simp [translate_A, hg1, hg2, hC, exec.bind, hpop, this]
    · simp only [view, machine.mk.injEq]
      refine ⟨?_, ?_, ?_, ?_, ?_, ?_, ?_⟩
      · rw [← hpd']
        simp only [free_register]
        split_ifs <;> simp [pending]
      · simp only [free_register]; split_ifs <;> simpa [emit] using k1
      · simp only [free_register]; split_ifs <;> simpa [emit] using k2
      · rw [hreg']
        rcases hr with h | h | h <;>
          simp [h, regs_of, reg_name, get_register_name, get_register_no, free_register,
            emit, k3]
      · simp only [free_register]; split_ifs <;> simpa [emit] using k4
      · simp only [free_register]; split_ifs <;> simpa [emit] using k5
      · simp only [free_register]
        split_ifs <;> simp [emit, k6, assign_code]

/-- `translate_S` on the statement `x = e ;` emits the code of the assignment, returns 0
and leaves the stacks, the register table and the label counters as it found them. -/
theorem translate_S_assign (x : word_t) (e : expr_t) (rest ops stk : List word_t) (b br : Nat)
    (o : List asm_line) (s : parser_state) (hx : x.key = IDENTIFIER) (hwf : e.valid)
    (hops : ops.length + 1 < STACK_SIZE) (hstk : stk.length + 2 < STACK_SIZE)
    (hv : view s = ⟨x :: ⟨ASSIGN, "="⟩ :: (e.words ++ ⟨SEMICOLON, ";"⟩ :: rest), ops, stk,
      regs_of 0 0, b, br, o⟩) :
    ∃ s1, translate_S s = exec.done (0, s1) ∧
      view s1 = ⟨rest, ops, stk, regs_of 0 0, b, br, o ++ assign_code x e⟩ ∧
      s1.returned.key = 0 := by
  have hx0 : x.key ≠ 0 := by rw [hx]; decide
  have hxk : ¬ x.key = KEYWORD := by rw [hx]; decide
  have hxc : ¬ x.key = COMPARE := by rw [hx]; decide
  obtain ⟨s1, hg1, hback⟩ := peek_view hv hx0
  have hstop : stops ADD_SUB MUL_DIV (⟨SEMICOLON, ";"⟩ :: rest) :=
    ⟨_, _, rfl, by decide, by decide, by decide⟩
  obtain ⟨s2, hA, h2⟩ := translate_A_run x ⟨ASSIGN, "="⟩ e _ ops stk b br o _ hwf hstop hops hstk
    hback
  obtain ⟨s3, hg3, h3, hr3⟩ := get_word_view h2
  exact ⟨s3, by simp [translate_S, hg1, hx0, hxk, hxc, exec.bind, hA, hg3], h3, hr3⟩

/-! ## Running the emitted code -/

theorem not_register_name {n : String} (h : get_register_no n = -1) :
    n ≠ "eax" ∧ n ≠ "ebx" ∧ n ≠ "ecx" ∧ n ≠ "edx" := by
  unfold get_register_no at h
  refine ⟨?_, ?_, ?_, ?_⟩ <;> intro hn <;> subst hn <;> simp at h

theorem run_asm_append (lit : String → Int) (σ : String → Int) (c1 c2 : List asm_line) :
    run_asm lit σ (c1 ++ c2) = run_asm lit (run_asm lit σ c1) c2 := by
  simp [run_asm, List.foldl_append]

/-- The value of a source operand depends on the variables only. -/
theorem operand_value_agree (lit : String → Int) {σ τ : String → Int} {v : word_t}
    (hv : is_operand v) (h : ∀ n, get_register_no n = -1 → τ n = σ n) :
    operand_value lit τ v.value = operand_value lit σ v.value := by
  rcases hv with ⟨-, hl⟩ | ⟨-, hl, hr⟩
  · simp [operand_value, hl]
  · simp [operand_value, hl, h _ hr]

theorem lit_eax : is_literal "eax" = false := by decide

theorem lit_ebx : is_literal "ebx" = false := by decide

theorem lit_ecx : is_literal "ecx" = false := by decide

theorem lit_edx : is_literal "edx" = false := by decide

/-- Meaning of one multiply/divide operation. -/
theorem run_mul_code (lit : String → Int) (σ : String → Int) (k : Int)
    (hk : k = 1 ∨ k = 2 ∨ k = 3) (acc m v : word_t) (hm : isM m) (hv : is_operand v) :
    run_asm lit σ (mul_code k acc m v) (reg_name k) =
        (if m.value = "*" then operand_value lit σ acc.value * operand_value lit σ v.value
         else operand_value lit σ acc.value / operand_value lit σ v.value) ∧
      ∀ n, n ≠ "eax" → n ≠ reg_name k → run_asm lit σ (mul_code k acc m v) n = σ n := by
  have hdiv : ¬ "/" = "*" := by decide
  rcases hv with ⟨hvk, hl⟩ | ⟨hvk, hl, hr⟩
  · rcases hk with rfl | rfl | rfl <;> rcases hm.2 with hmv | hmv <;>
    · refine ⟨?_, ?_⟩
      · simp [mul_code, run_asm, step_asm, store_set, operand_value, reg_name,
          get_register_name, lit_eax, lit_ebx, lit_ecx, lit_edx, hvk, hl, hmv, hdiv]
      · intro n h1 h2
        simp [reg_name, get_register_name] at h2
        simp [mul_code, run_asm, step_asm, store_set, operand_value, reg_name,
          get_register_name, lit_eax, lit_ebx, lit_ecx, lit_edx, hvk, hl, hmv, hdiv, h1, h2]
  · obtain ⟨n1, n2, n3, n4⟩ := not_register_name hr
    have hvk' : ¬ v.key = INT := by rw [hvk]; decide
    rcases hk with rfl | rfl | rfl <;> rcases hm.2 with hmv | hmv <;>
    · refine ⟨?_, ?_⟩
      · simp [mul_code, run_asm, step_asm, store_set, operand_value, reg_name,
          get_register_name, lit_eax, lit_ebx, lit_ecx, lit_edx, hvk', hl, hmv, hdiv, n1, n2, n3, n4]
      · intro n h1 h2
        simp [reg_name, get_register_name] at h2
        simp [mul_code, run_asm, step_asm, store_set, operand_value, reg_name,
          get_register_name, lit_eax, lit_ebx, lit_ecx, lit_edx, hvk', hl, hmv, hdiv, h1, h2]

theorem lit_reg_name {k : Int} (hk : k = 1 ∨ k = 2 ∨ k = 3) : is_literal (reg_name k) = false := by
  rcases hk with rfl | rfl | rfl <;> decide

theorem reg_name_ne_eax {k : Int} (hk : k = 1 ∨ k = 2 ∨ k = 3) : reg_name k ≠ "eax" := by
  rcases hk with rfl | rfl | rfl <;> decide

theorem reg_name_is_register {k : Int} (hk : k = 1 ∨ k = 2 ∨ k = 3) {n : String}
    (hn : get_register_no n = -1) : n ≠ reg_name k := by
  obtain ⟨-, n2, n3, n4⟩ := not_register_name hn
  rcases hk with rfl | rfl | rfl <;> simpa [reg_name, get_register_name]

theorem pairs_result_reg (k : Int) (ps : List (word_t × word_t)) :
    pairs_result k ⟨REGISTER, reg_name k⟩ ps = ⟨REGISTER, reg_name k⟩ := by
  cases ps <;> rfl

/-- Meaning of the code of the pairs M V of a term. -/
theorem run_pairs_code (lit : String → Int) (k : Int) (hk : k = 1 ∨ k = 2 ∨ k = 3) :
    ∀ (ps : List (word_t × word_t)) (acc : word_t) (σ : String → Int),
      (∀ mv ∈ ps, isM mv.1 ∧ is_operand mv.2) →
      operand_value lit (run_asm lit σ (pairs_code k acc ps)) (pairs_result k acc ps).value =
          ps.foldl (mul_step lit σ) (operand_value lit σ acc.value) ∧
        ∀ n, n ≠ "eax" → n ≠ reg_name k → run_asm lit σ (pairs_code k acc ps) n = σ n := by
  intro ps
  induction ps with
  | nil => intro acc σ _; simp [pairs_code, pairs_result, run_asm]
  | cons mv ps ih =>
    intro acc σ hwf
    obtain ⟨m, v⟩ := mv
    obtain ⟨hm, hv⟩ := hwf (m, v) (by simp)
    obtain ⟨hval, hframe⟩ := run_mul_code lit σ k hk acc m v hm hv
    obtain ⟨ihval, ihframe⟩ := ih ⟨REGISTER, reg_name k⟩ (run_asm lit σ (mul_code k acc m v))
      (fun x hx => hwf x (by simp [hx]))
    have hagree : ∀ n, get_register_no n = -1 →
        run_asm lit σ (mul_code k acc m v) n = σ n := fun n hn =>
      hframe n (not_register_name hn).1 (reg_name_is_register hk hn)
    refine ⟨?_, ?_⟩
    · simp only [pairs_code, run_asm_append, pairs_result]
      rw [pairs_result_reg] at ihval
      rw [ihval]
      simp only [List.foldl_cons]
      have h1 : operand_value lit (run_asm lit σ (mul_code k acc m v)) (reg_name k) =
          mul_step lit σ (operand_value lit σ acc.value) (m, v) := by
        have h0 : operand_value lit (run_asm lit σ (mul_code k acc m v)) (reg_name k) =
            run_asm lit σ (mul_code k acc m v) (reg_name k) := by
          simp [operand_value, lit_reg_name hk]
        rw [h0, hval]
        rfl
      rw [h1]
      apply List.foldl_ext
      intro a mv hmv
      simp only [mul_step]
      rw [operand_value_agree lit (hwf mv (by simp [hmv])).2 hagree]
    · intro n h1 h2
      simp only [pairs_code, run_asm_append]
      rw [ihframe n h1 h2, hframe n h1 h2]

/-- A term over source operands is a term of the grammar. -/
theorem term_wf_valid {t : term_t} (h : t.wf) : t.valid := by
  have hop : ∀ v, is_operand v → isV v := by
    intro v hv
    rcases hv with ⟨h, -⟩ | ⟨h, -⟩
    · exact Or.inr h
    · exact Or.inl h
  exact ⟨hop _ h.1, fun mv hmv => ⟨(h.2 mv hmv).1, hop _ (h.2 mv hmv).2⟩⟩

/-- An expression over source operands is an expression of the grammar. -/
theorem expr_wf_valid {e : expr_t} (h : e.wf) : e.valid :=
  ⟨term_wf_valid h.1, fun pt hpt => ⟨(h.2 pt hpt).1, term_wf_valid (h.2 pt hpt).2⟩⟩

/-- Meaning of the code of a term: its result operand holds the value of the term, and
nothing but eax and the register taken for the term is changed. -/
theorem run_term_code (lit : String → Int) (p : Int) (hp : p = 0 ∨ p = 1 ∨ p = 2 ∨ p = 3)
    (t : term_t) (ht : t.wf) (σ : String → Int) :
    operand_value lit (run_asm lit σ (t.code p)) (t.result p).value = t.value lit σ ∧
      ∀ n, n ≠ "eax" → n ≠ reg_name (fresh p) → run_asm lit σ (t.code p) n = σ n := by
  have hk : fresh p = 1 ∨ fresh p = 2 ∨ fresh p = 3 := by
    rcases hp with rfl | rfl | rfl | rfl <;> simp [fresh]
  exact run_pairs_code lit (fresh p) hk t.rest t.first σ ht.2

/-- The value of a term depends on the variables only. -/
theorem term_value_agree (lit : String → Int) {σ τ : String → Int} {t : term_t}
    (ht : t.wf) (h : ∀ n, get_register_no n = -1 → τ n = σ n) :
    t.value lit τ = t.value lit σ := by
  unfold term_t.value
  rw [operand_value_agree lit ht.1 h]
  apply List.foldl_ext
  intro a mv hmv
  simp only [mul_step]
  rw [operand_value_agree lit (ht.2 mv hmv).2 h]

theorem run_asm_cons (lit : String → Int) (σ : String → Int) (l : asm_line)
    (ls : List asm_line) : run_asm lit σ (l :: ls) = run_asm lit (step_asm lit σ l) ls := rfl

theorem run_asm_nil (lit : String → Int) (σ : String → Int) : run_asm lit σ [] = σ := rfl

theorem step_mov (lit : String → Int) (σ : String → Int) (d o : String) :
    step_asm lit σ (asm_line.binary "mov" d o) = store_set σ d (operand_value lit σ o) := by
  simp [step_asm]

theorem step_add_sub (lit : String → Int) (σ : String → Int) (pm : word_t) (d o : String) :
    step_asm lit σ (asm_line.binary (if pm.value = "+" then "add" else "sub") d o) =
      store_set σ d (if pm.value = "+" then σ d + operand_value lit σ o
        else σ d - operand_value lit σ o) := by
  by_cases h : pm.value = "+" <;> simp [step_asm, h]

theorem operand_value_reg (lit : String → Int) (σ : String → Int) {k : Int}
    (hk : k = 1 ∨ k = 2 ∨ k = 3) : operand_value lit σ (reg_name k) = σ (reg_name k) := by
  simp [operand_value, lit_reg_name hk]

theorem store_set_self (σ : String → Int) (d : String) (x : Int) : store_set σ d x d = x := by
  simp [store_set]

theorem store_set_other (σ : String → Int) (d : String) (x : Int) {n : String} (h : n ≠ d) :
    store_set σ d x n = σ n := by
  simp [store_set, h]

/-- Meaning of one add/subtract operation: the register of the sum holds the value so far
plus or minus the value of the term, and no variable is changed. -/
theorem run_add_code (lit : String → Int) (c : Int) (acc pm : word_t) (t : term_t)
    (σ : String → Int)
    (hacc : (c = 0 ∧ is_operand acc) ∨
      ((c = 1 ∨ c = 2 ∨ c = 3) ∧ acc = ⟨REGISTER, reg_name c⟩))
    (ht : t.wf) :
    run_asm lit σ (add_code c acc pm t) (reg_name (sum_reg c t)) =
        add_step lit σ (operand_value lit σ acc.value) (pm, t) ∧
      ∀ n, get_register_no n = -1 → run_asm lit σ (add_code c acc pm t) n = σ n := by
  have hc : c = 0 ∨ c = 1 ∨ c = 2 ∨ c = 3 := by
    rcases hacc with ⟨h, -⟩ | ⟨h, -⟩
    · exact Or.inl h
    · exact Or.inr h
  obtain ⟨hval, hframe⟩ := run_term_code lit c hc t ht σ
  have hagree : ∀ n, get_register_no n = -1 → run_asm lit σ (t.code c) n = σ n := by
    intro n hn
    have hk : fresh c = 1 ∨ fresh c = 2 ∨ fresh c = 3 := by
      rcases hc with rfl | rfl | rfl | rfl <;> simp [fresh]
    exact hframe n (not_register_name hn).1 (reg_name_is_register hk hn)
  have hr1 : reg_name 1 = "ebx" := rfl
  have hr2 : reg_name 2 = "ecx" := rfl
  rcases hacc with ⟨rfl, hop⟩ | ⟨hc3, rfl⟩
  · -- the value so far is a source operand, moved to a register first
    have hacc1 : operand_value lit (run_asm lit σ (t.code 0)) acc.value =
        operand_value lit σ acc.value := operand_value_agree lit hop hagree
    cases hrest : t.rest with
    | nil =>
      have hres : t.result 0 = t.first := by simp [term_t.result, hrest, pairs_result]
      have hs : sum_reg 0 t = 1 := by simp [sum_reg, term_t.reg, hrest, pairs_reg, fresh]
      have hcode : t.code 0 = [] := by simp [term_t.code, hrest, pairs_code]
      have hvalue : t.value lit σ = operand_value lit σ t.first.value := by
        simp [term_t.value, hrest]
      have hfirst : ∀ X, operand_value lit (store_set σ "ebx" X) t.first.value =
          operand_value lit σ t.first.value := by
        intro X
        apply operand_value_agree lit ht.1
        intro n hn
        exact store_set_other σ "ebx" X (not_register_name hn).2.1
      refine ⟨?_, ?_⟩
      · simp only [add_code, hs, hcode, hres, if_true, List.nil_append, List.cons_append,
          run_asm_cons, run_asm_nil, step_mov, step_add_sub, hr1, store_set_self, hfirst,
          add_step, hvalue]
      · intro n hn
        have hne : n ≠ "ebx" := (not_register_name hn).2.1
        simp only [add_code, hs, hcode, hres, if_true, List.nil_append, List.cons_append,
          run_asm_cons, run_asm_nil, step_mov, step_add_sub, hr1, store_set_other _ _ _ hne]
    | cons x xs =>
      have hres : t.result 0 = ⟨REGISTER, "ebx"⟩ := by
        simp [term_t.result, hrest, pairs_result, fresh, reg_name, get_register_name]
      have hs : sum_reg 0 t = 2 := by simp [sum_reg, term_t.reg, hrest, pairs_reg, fresh]
      rw [hres] at hval
      have hebx : ∀ X, operand_value lit
          (store_set (run_asm lit σ (t.code 0)) "ecx" X) "ebx" = t.value lit σ := by
        intro X
        rw [← hval]
        simp only [operand_value, lit_ebx]
        simp [store_set]
      refine ⟨?_, ?_⟩
      · simp only [add_code, hs, hres, if_true, List.append_assoc, List.cons_append,
          List.nil_append, run_asm_append, run_asm_cons, run_asm_nil, step_mov, step_add_sub,
          hr2, store_set_self, hebx, hacc1, add_step]
      · intro n hn
        have hne : n ≠ "ecx" := (not_register_name hn).2.2.1
        simp only [add_code, hs, hres, if_true, List.append_assoc, List.cons_append,
          List.nil_append, run_asm_append, run_asm_cons, run_asm_nil, step_mov, step_add_sub,
          hr2, store_set_other _ _ _ hne, hagree n hn]
  · -- the value so far is in the register `c`
    have hs : sum_reg c t = c := by
      rcases hc3 with rfl | rfl | rfl <;> simp [sum_reg]
    have hc0 : ¬ c = 0 := by rcases hc3 with rfl | rfl | rfl <;> decide
    have hkeep : run_asm lit σ (t.code c) (reg_name c) = σ (reg_name c) := by
      apply hframe _ (reg_name_ne_eax hc3)
      rcases hc3 with rfl | rfl | rfl <;> decide
    refine ⟨?_, ?_⟩
    · simp only [add_code, hs, hc0, if_false, List.append_assoc, List.nil_append,
        run_asm_append, run_asm_cons, run_asm_nil, step_add_sub, store_set_self, hkeep, hval,
        add_step, operand_value_reg lit σ hc3]
    · intro n hn
      have hne : n ≠ reg_name c := reg_name_is_register hc3 hn
      simp only [add_code, hs, hc0, if_false, List.append_assoc, List.nil_append,
        run_asm_append, run_asm_cons, run_asm_nil, step_add_sub, store_set_other _ _ _ hne,
        hagree n hn]

/-- Meaning of the code of the pairs P T of an expression. -/
theorem run_tail_code (lit : String → Int) :
    ∀ (ps : List (word_t × term_t)) (c : Int) (acc : word_t) (σ : String → Int),
      ((c = 0 ∧ is_operand acc) ∨
        ((c = 1 ∨ c = 2 ∨ c = 3) ∧ acc = ⟨REGISTER, reg_name c⟩)) →
      (∀ pt ∈ ps, isPlusMinus pt.1 ∧ pt.2.wf) →
      operand_value lit (run_asm lit σ (tail_code c acc ps)) (tail_result c acc ps).value =
          ps.foldl (add_step lit σ) (operand_value lit σ acc.value) ∧
        ∀ n, get_register_no n = -1 → run_asm lit σ (tail_code c acc ps) n = σ n := by
  intro ps
  induction ps with
  | nil => intro c acc σ _ _; simp [tail_code, tail_result, run_asm]
  | cons pt ps ih =>
    intro c acc σ hacc hwf
    obtain ⟨pm, t⟩ := pt
    have ht : t.wf := (hwf (pm, t) (by simp)).2
    have hc : c = 0 ∨ c = 1 ∨ c = 2 ∨ c = 3 := by
      rcases hacc with ⟨h, -⟩ | ⟨h, -⟩
      · exact Or.inl h
      · exact Or.inr h
    have hs := sum_reg_cases c t hc
    obtain ⟨hval, hagree⟩ := run_add_code lit c acc pm t σ hacc ht
    obtain ⟨ihval, ihagree⟩ := ih (sum_reg c t) ⟨REGISTER, reg_name (sum_reg c t)⟩
      (run_asm lit σ (add_code c acc pm t)) (Or.inr ⟨hs, rfl⟩)
      (fun x hx => hwf x (by simp [hx]))
    refine ⟨?_, ?_⟩
    · simp only [tail_code, tail_result, run_asm_append, List.foldl_cons]
      rw [ihval, operand_value_reg lit _ hs, hval]
      apply List.foldl_ext
      intro a pt hpt
      simp only [add_step]
      rw [term_value_agree lit (hwf pt (by simp [hpt])).2 hagree]
    · intro n hn
      simp only [tail_code, run_asm_append]
      rw [ihagree n hn, hagree n hn]

/-- Meaning of the code of an expression: its result operand holds the value of the
expression, and no variable is changed. -/
theorem run_expr_code (lit : String → Int) (e : expr_t) (he : e.wf) (σ : String → Int) :
    operand_value lit (run_asm lit σ e.code) e.result.value = e.value lit σ ∧
      ∀ n, get_register_no n = -1 → run_asm lit σ e.code n = σ n := by
  obtain ⟨hval, hframe⟩ := run_term_code lit 0 (Or.inl rfl) e.first he.1 σ
  have hagree : ∀ n, get_register_no n = -1 → run_asm lit σ (e.first.code 0) n = σ n := by
    intro n hn
    exact hframe n (not_register_name hn).1 (by
      have := (not_register_name hn).2.1
      simpa [fresh, reg_name, get_register_name] using this)
  have hacc : (e.first.reg 0 = 0 ∧ is_operand (e.first.result 0)) ∨
      ((e.first.reg 0 = 1 ∨ e.first.reg 0 = 2 ∨ e.first.reg 0 = 3) ∧
        e.first.result 0 = ⟨REGISTER, reg_name (e.first.reg 0)⟩) := by
    unfold term_t.reg term_t.result
    cases e.first.rest with
    | nil => left; exact ⟨rfl, he.1.1⟩
    | cons x xs => right; exact ⟨Or.inl rfl, rfl⟩
  obtain ⟨tval, tagree⟩ := run_tail_code lit e.rest (e.first.reg 0) (e.first.result 0)
    (run_asm lit σ (e.first.code 0)) hacc he.2
  refine ⟨?_, ?_⟩
  · simp only [expr_t.code, expr_t.result, run_asm_append, expr_t.value]
    rw [tval, hval]
    apply List.foldl_ext
    intro a pt hpt
    simp only [add_step]
    rw [term_value_agree lit (he.2 pt hpt).2 hagree]
  · intro n hn
    simp only [expr_t.code, run_asm_append]
    rw [tagree n hn, hagree n hn]

/-- Meaning of the code of an assignment. -/
theorem run_assign_code (lit : String → Int) (x : word_t) (e : expr_t) (he : e.wf)
    (σ : String → Int) :
    run_asm lit σ (assign_code x e) x.value = e.value lit σ ∧
      ∀ n, get_register_no n = -1 → n ≠ x.value → run_asm lit σ (assign_code x e) n = σ n := by
  obtain ⟨hval, hagree⟩ := run_expr_code lit e he σ
  refine ⟨?_, ?_⟩
  · simp only [assign_code, run_asm_append, run_asm_cons, run_asm_nil, step_mov,
      store_set_self, hval]
  · intro n hn hx
    simp only [assign_code, run_asm_append, run_asm_cons, run_asm_nil, step_mov,
      store_set_other _ _ _ hx, hagree n hn]

/-- The observable part of a state with an empty pushback slot, empty stacks and an
all-free register table. -/
theorem view_of_fresh_state {s : parser_state} (hret : s.returned.key = 0)
    (hops : s.operators = []) (hstk : s.operands = [])
    (hregs : s.registers = ⟨false, false, false, false⟩) :
    view s = ⟨tokens s.src, [], [], regs_of 0 0, s.begin_counter, s.branch_counter, s.out⟩ := by
  simp [view, pending, hret, hops, hstk, hregs, regs_of]

/-! ## Derivations and syntax trees

The syntax trees are the derivations of the grammar as written: the words of every valid
tree are derived, and every derived list of words is the words of a valid tree. -/

theorem DerT1_pairs {t1 : List word_t} (hd : DerT1 t1) :
    ∃ ps : List (word_t × word_t), (∀ mv ∈ ps, isM mv.1 ∧ isV mv.2) ∧ t1 = pairs_words ps := by
  induction hd with
  | eps => exact ⟨[], by simp, rfl⟩
  | step m v rest hm hv _ ih =>
    obtain ⟨ps, hps, rfl⟩ := ih
    refine ⟨(m, v) :: ps, ?_, rfl⟩
    intro mv hmv
    simp at hmv
    rcases hmv with rfl | hmv
    · exact ⟨hm, hv⟩
    · exact hps mv hmv

theorem pairs_DerT1 : ∀ ps : List (word_t × word_t),
    (∀ mv ∈ ps, isM mv.1 ∧ isV mv.2) → DerT1 (pairs_words ps) := by
  intro ps
  induction ps with
  | nil => intro _; exact DerT1.eps
  | cons mv ps ih =>
    intro h
    obtain ⟨m, v⟩ := mv
    exact DerT1.step m v _ (h (m, v) (by simp)).1 (h (m, v) (by simp)).2
      (ih (fun x hx => h x (by simp [hx])))

/-- The terms of the grammar are the words of the valid term trees. -/
theorem DerT_iff_tree (ts : List word_t) :
    DerT ts ↔ ∃ t : term_t, t.valid ∧ ts = t.words := by
  constructor
  · rintro ⟨v, rest, hv, hr, rfl⟩
    obtain ⟨ps, hps, rfl⟩ := DerT1_pairs hr
    exact ⟨⟨v, ps⟩, ⟨hv, hps⟩, rfl⟩
  · rintro ⟨t, ht, rfl⟩
    exact ⟨t.first, pairs_words t.rest, ht.1, pairs_DerT1 t.rest ht.2, rfl⟩

theorem DerC1_tail {c1 : List word_t} (hd : DerC1 isPlusMinus c1) :
    ∃ ps : List (word_t × term_t), (∀ pt ∈ ps, isPlusMinus pt.1 ∧ pt.2.valid) ∧
      c1 = tail_words ps := by
  induction hd with
  | eps => exact ⟨[], by simp, rfl⟩
  | step p t rest hp ht _ ih =>
    obtain ⟨ps, hps, rfl⟩ := ih
    obtain ⟨tr, htr, rfl⟩ := (DerT_iff_tree t).mp ht
    refine ⟨(p, tr) :: ps, ?_, rfl⟩
    intro pt hpt
    simp at hpt
    rcases hpt with rfl | hpt
    · exact ⟨hp, htr⟩
    · exact hps pt hpt

theorem tail_DerC1 : ∀ ps : List (word_t × term_t),
    (∀ pt ∈ ps, isPlusMinus pt.1 ∧ pt.2.valid) → DerC1 isPlusMinus (tail_words ps) := by
  intro ps
  induction ps with
  | nil => intro _; exact DerC1.eps
  | cons pt ps ih =>
    intro h
    obtain ⟨p, t⟩ := pt
    exact DerC1.step p _ _ (h (p, t) (by simp)).1
      ((DerT_iff_tree _).mpr ⟨t, (h (p, t) (by simp)).2, rfl⟩)
      (ih (fun x hx => h x (by simp [hx])))

/-- The arithmetic expressions of the grammar are the words of the valid trees. -/
theorem DerC_iff_tree (ts : List word_t) :
    DerC isPlusMinus ts ↔ ∃ e : expr_t, e.valid ∧ ts = e.words := by
  constructor
  · rintro ⟨t, rest, ht, hr, rfl⟩
    obtain ⟨tr, htr, rfl⟩ := (DerT_iff_tree t).mp ht
    obtain ⟨ps, hps, rfl⟩ := DerC1_tail hr
    exact ⟨⟨tr, ps⟩, ⟨htr, hps⟩, rfl⟩
  · rintro ⟨e, he, rfl⟩
    exact ⟨e.first.words, tail_words e.rest, (DerT_iff_tree _).mpr ⟨e.first, he.1, rfl⟩,
      tail_DerC1 e.rest he.2, rfl⟩

/-- The assignments of the grammar are `x = e` for an identifier x and a valid tree e. -/
theorem DerA_iff_tree (ts : List word_t) :
    DerA isPlusMinus ts ↔
      ∃ (x : word_t) (e : expr_t), x.key = IDENTIFIER ∧ e.valid ∧
        ts = x :: ⟨ASSIGN, "="⟩ :: e.words := by
  constructor
  · rintro ⟨x, c, hx, hc, rfl⟩
    obtain ⟨e, he, rfl⟩ := (DerC_iff_tree c).mp hc
    exact ⟨x, e, hx, he, rfl⟩
  · rintro ⟨x, e, hx, he, rfl⟩
    exact ⟨x, e.words, hx, (DerC_iff_tree _).mpr ⟨e, he, rfl⟩, rfl⟩

/-! ## Claim C2 -/

/-- C2: translation preserves the meaning of expressions. For every grammar-valid
assignment `x = C ;` over integer literals and identifiers not named as a register,
translated by `translate_S` from a state with an empty pushback slot, empty stacks and an
all-free register table, the translator returns 0 and the instructions it emits, executed
in order from any store, leave x equal to the value of C (with `*` and `/` binding tighter
than `+` and `-`, all four left-associative) and every other source variable unchanged. -/
theorem C2_translation_preserves_meaning (lit : String → Int) (x : word_t) (e : expr_t)
    (rest : List word_t) (s : parser_state)
    (hx : x.key = IDENTIFIER) (he : e.wf)
    (hret : s.returned.key = 0) (hops : s.operators = []) (hstk : s.operands = [])
    (hregs : s.registers = ⟨false, false, false, false⟩)
    (hsrc : tokens s.src = x :: ⟨ASSIGN, "="⟩ :: (e.words ++ ⟨SEMICOLON, ";"⟩ :: rest)) :
    ∃ s1 code, translate_S s = exec.done (0, s1) ∧ s1.out = s.out ++ code ∧
      ∀ σ : String → Int,
        run_asm lit σ code x.value = e.value lit σ ∧
        ∀ y, get_register_no y = -1 → y ≠ x.value → run_asm lit σ code y = σ y := by
  have hv := view_of_fresh_state hret hops hstk hregs
  rw [hsrc] at hv
  obtain ⟨s1, hrun, hv1, -⟩ := translate_S_assign x e rest [] [] s.begin_counter
    s.branch_counter s.out s hx (expr_wf_valid he) (by decide) (by decide) hv
  refine ⟨s1, assign_code x e, hrun, ?_, fun σ => run_assign_code lit x e he σ⟩
  have := congrArg machine.out hv1
  simpa [view] using this

/-- C2, witness: the statement `x = a * b - 6 / c ;`. -/
theorem C2_translation_preserves_meaning_witness :
    tree_mixed.wf ∧
    ∃ s1 code, translate_S (parser_init file_mixed) = exec.done (0, s1) ∧
      s1.out = (parser_init file_mixed).out ++ code ∧
      ∀ σ : String → Int,
        run_asm (fun _ => 6) σ code "x" = tree_mixed.value (fun _ => 6) σ ∧
        ∀ y, get_register_no y = -1 → y ≠ "x" → run_asm (fun _ => 6) σ code y = σ y := by
  have hwf : tree_mixed.wf := by
    refine ⟨⟨Or.inr ⟨rfl, by decide, by decide⟩, ?_⟩, ?_⟩
    · intro mv hmv
      simp [tree_mixed] at hmv
      subst hmv
      exact ⟨⟨rfl, Or.inl rfl⟩, Or.inr ⟨rfl, by decide, by decide⟩⟩
    · intro pt hpt
      simp [tree_mixed] at hpt
      subst hpt
      refine ⟨⟨rfl, Or.inr rfl⟩, Or.inl ⟨rfl, by decide⟩, ?_⟩
      intro mv hmv
      simp at hmv
      subst hmv
      exact ⟨⟨rfl, Or.inr rfl⟩, Or.inr ⟨rfl, by decide, by decide⟩⟩
  exact ⟨hwf, C2_translation_preserves_meaning (fun _ => 6) ⟨IDENTIFIER, "x"⟩ tree_mixed []
    (parser_init file_mixed) rfl hwf rfl rfl rfl rfl (by decide)⟩

/-! ## The while statement -/

@[simp] theorem emit_begin_counter (l : asm_line) (s : parser_state) :
    (emit l s).begin_counter = s.begin_counter := rfl

@[simp] theorem emit_branch_counter (l : asm_line) (s : parser_state) :
    (emit l s).branch_counter = s.branch_counter := rfl

theorem emit_view {s : parser_state} {pd ops stk : List word_t} {r : reg_table} {b br : Nat}
    {o : List asm_line} (l : asm_line) (h : view s = ⟨pd, ops, stk, r, b, br, o⟩) :
    view (emit l s) = ⟨pd, ops, stk, r, b, br, o ++ [l]⟩ := by
  simp only [view, machine.mk.injEq] at h ⊢
  obtain ⟨hp, h1, h2, h3, h4, h5, h6⟩ := h
  exact ⟨by simpa [pending, emit] using hp, h1, h2, h3, h4, h5, by simp [emit, h6]⟩

/-- `translate_E` on `a op b` emits the comparison of the two operands in source order
and leaves the operator on the operator stack. -/
theorem translate_E_view {s : parser_state} {a op b : word_t} {ts ops stk : List word_t}
    {r : reg_table} {bc br : Nat} {o : List asm_line}
    (h : view s = ⟨a :: op :: b :: ts, ops, stk, r, bc, br, o⟩)
    (hops : ops.length < STACK_SIZE) (hstk : stk.length + 1 < STACK_SIZE) :
    ∃ s1, translate_E s = exec.done s1 ∧
      view s1 = ⟨ts, op :: ops, stk, r, bc, br, o ++ [asm_line.binary "cmp" a.value b.value]⟩ := by
  have h1 := translate_V_view h (by omega)
  have h2 := translate_O_P_M_view h1 hops
  have h3 := translate_V_view h2 (by simp; omega)
  obtain ⟨s4, hpop2, h4⟩ := pop_operand_view h3
  obtain ⟨s5, hpop1, h5⟩ := pop_operand_view h4
  exact ⟨_, by simp [translate_E, hpop2, hpop1, popped, exec.bind], emit_view _ h5⟩

theorem emit_branch_view {s : parser_state} {pd ops stk : List word_t} {r : reg_table}
    {b br : Nat} {o : List asm_line} (op : word_t)
    (hop : op.value = "<" ∨ op.value = ">")
    (h : view s = ⟨pd, ops, stk, r, b, br, o⟩) :
    view (emit_branch op.value s) = ⟨pd, ops, stk, r, b, br + 1,
      o ++ [asm_line.jump (if op.value = "<" then "jl" else "jg") "true" (br + 1),
            asm_line.jump (if op.value = "<" then "jge" else "jle") "false" (br + 1)]⟩ := by
  simp only [view, machine.mk.injEq] at h ⊢
  obtain ⟨hp, h1, h2, h3, h4, h5, h6⟩ := h
  have hgt : ¬ ">" = "<" := by decide
  rcases hop with hlt | hgt'
  · simp only [emit_branch, hlt, if_true]
    exact ⟨by simpa [pending, emit] using hp, h1, h2, h3, h4, by simp [emit, h5],
      by simp [emit, h6, h5]⟩
  · simp only [emit_branch, hgt', hgt, if_false, if_true]
    exact ⟨by simpa [pending, emit] using hp, h1, h2, h3, h4, by simp [emit, h5],
      by simp [emit, h6, h5]⟩

/-- `translate_S` on the statement `while ( a op b ) x = e ;`. -/
theorem translate_S_while (a op b x : word_t) (e : expr_t) (lp rp : word_t)
    (rest ops stk : List word_t) (bc br : Nat) (o : List asm_line) (s : parser_state)
    (hop : isO op) (hwf : e.valid)
    (hops : ops.length + 1 < STACK_SIZE) (hstk : stk.length + 2 < STACK_SIZE)
    (hv : view s = ⟨⟨KEYWORD, "while"⟩ :: lp :: a :: op :: b :: rp :: x :: ⟨ASSIGN, "="⟩ ::
      (e.words ++ ⟨SEMICOLON, ";"⟩ :: rest), ops, stk, regs_of 0 0, bc, br, o⟩) :
    ∃ s1, translate_S s = exec.done (0, s1) ∧
      view s1 = ⟨rest, ops, stk, regs_of 0 0, bc + 1, br + 1,
        o ++ (asm_line.label "begin" (bc + 1) :: asm_line.binary "cmp" a.value b.value ::
          asm_line.jump (if op.value = "<" then "jl" else "jg") "true" (br + 1) ::
          asm_line.jump (if op.value = "<" then "jge" else "jle") "false" (br + 1) ::
          asm_line.label "true" (br + 1) ::
          (assign_code x e ++
            [asm_line.jump "jmp" "begin" (bc + 1), asm_line.label "false" (br + 1)]))⟩ ∧
      s1.returned.key = 0 := by
  obtain ⟨s1, hg1, h1, -⟩ := get_word_view hv
  -- generate label S.begin
  have h2 : view (emit (asm_line.label "begin" (s1.begin_counter + 1))
      { s1 with begin_counter := s1.begin_counter + 1 }) =
      ⟨lp :: a :: op :: b :: rp :: x :: ⟨ASSIGN, "="⟩ :: (e.words ++ ⟨SEMICOLON, ";"⟩ :: rest),
        ops, stk, regs_of 0 0, bc + 1, br, o ++ [asm_line.label "begin" (bc + 1)]⟩ := by
    simp only [view, machine.mk.injEq] at h1 ⊢
    obtain ⟨hp, k1, k2, k3, k4, k5, k6⟩ := h1
    exact ⟨by simpa [pending, emit] using hp, k1, k2, k3, by simp [emit, k4], k5,
      by simp [emit, k6, k4]⟩
  obtain ⟨s3, hg3, h3, -⟩ := get_word_view h2
  obtain ⟨s4, hE, h4⟩ := translate_E_view h3 (by omega) (by omega)
  obtain ⟨s5, hg5, h5, -⟩ := get_word_view h4
  obtain ⟨s6, hpop, h6⟩ := pop_operator_view h5
  have h7 := emit_branch_view op hop.2 h6
  have h8 := emit_view (asm_line.label "true" (br + 1)) h7
  have hbr : (emit_branch op.value s6).branch_counter = br + 1 := by
    have := congrArg machine.branch_counter h7
    simpa [view] using this
  have hstop : stops ADD_SUB MUL_DIV (⟨SEMICOLON, ";"⟩ :: rest) :=
    ⟨_, _, rfl, by decide, by decide, by decide⟩
  obtain ⟨s9, hA, h9⟩ := translate_A_run x ⟨ASSIGN, "="⟩ e _ ops stk (bc + 1) (br + 1) _ _ hwf
    hstop hops hstk h8
  have hbc9 : s9.begin_counter = bc + 1 := by
    have := congrArg machine.begin_counter h9
    simpa [view] using this
  have hbr9 : s9.branch_counter = br + 1 := by
    have := congrArg machine.branch_counter h9
    simpa [view] using this
  have h10 := emit_view (asm_line.jump "jmp" "begin" (bc + 1)) h9
  have h11 := emit_view (asm_line.label "false" (br + 1)) h10
  obtain ⟨s12, hg12, h12, hr12⟩ := get_word_view h11
  have hbc1 : s1.begin_counter = bc := by
    have := congrArg machine.begin_counter h1
    simpa [view] using this
  refine ⟨s12, ?_, ?_, hr12⟩
  · have hkw : ¬ ((⟨KEYWORD, "while"⟩ : word_t).key = 0) := by decide
    have hcw : check_word ⟨KEYWORD, "while"⟩ KEYWORD (some "while") = true := by decide
    simp only [translate_S, hg1, hkw, hcw, if_true, if_false, emit_begin_counter,
      emit_branch_counter, hg3, hE, exec.bind, hg5, hpop, Option.getD_some, hbr, hA, hop.1,
      hbc9, hbr9, hg12]
  · rw [h12]
    simp

/-! ## Claim C3 -/

/-- C3: for every grammar-valid statement `while ( a op b ) x = e ;` with op `<` or `>`
that is the N-th while statement translated (both label counters at N - 1, here `n`),
`translate_S` returns 0 and emits, in exactly this order: the label `begin_N:`,
`cmp a, b` with the operands in source order, `jl true_N` and `jge false_N` when op is `<`
(`jg true_N` and `jle false_N` when op is `>`), the label `true_N:`, the instructions of
the body (`assign_code x e`, what `translate_A` emits for it), `jmp begin_N` and the label
`false_N:`. -/
theorem C3_while_statement (a op b x : word_t) (e : expr_t) (rest : List word_t) (n : Nat)
    (s : parser_state)
    (_ha : isV a) (hop : isO op) (_hb : isV b) (_hx : x.key = IDENTIFIER) (he : e.valid)
    (hret : s.returned.key = 0) (hops : s.operators = []) (hstk : s.operands = [])
    (hregs : s.registers = ⟨false, false, false, false⟩)
    (hbc : s.begin_counter = n) (hbr : s.branch_counter = n)
    (hsrc : tokens s.src = ⟨KEYWORD, "while"⟩ :: ⟨BRACKET_DOT, "("⟩ :: a :: op :: b ::
      ⟨BRACKET_DOT, ")"⟩ :: x :: ⟨ASSIGN, "="⟩ :: (e.words ++ ⟨SEMICOLON, ";"⟩ :: rest)) :
    ∃ s1, translate_S s = exec.done (0, s1) ∧
      s1.out = s.out ++
        ([asm_line.label "begin" (n + 1),
          asm_line.binary "cmp" a.value b.value,
          asm_line.jump (if op.value = "<" then "jl" else "jg") "true" (n + 1),
          asm_line.jump (if op.value = "<" then "jge" else "jle") "false" (n + 1),
          asm_line.label "true" (n + 1)] ++
         assign_code x e ++
         [asm_line.jump "jmp" "begin" (n + 1), asm_line.label "false" (n + 1)]) := by
  have hv := view_of_fresh_state hret hops hstk hregs
  rw [hsrc, hbc, hbr] at hv
  obtain ⟨s1, hrun, hv1, -⟩ := translate_S_while a op b x e _ _ rest [] [] n n s.out s hop he
    (by decide) (by decide) hv
  refine ⟨s1, hrun, ?_⟩
  have := congrArg machine.out hv1
  simpa [view] using this

/-- C3, witness: `while ( i < 10 ) i = i + 1 ;` as the first while statement yields
begin_1:, cmp i, 10, jl true_1, jge false_1, true_1:, mov ebx, i, add ebx, 1, mov i, ebx,
jmp begin_1, false_1:. -/
theorem C3_while_statement_witness :
    (isV ⟨IDENTIFIER, "i"⟩ ∧ isO ⟨COMPARE, "<"⟩ ∧ isV ⟨INT, "10"⟩ ∧ tree_increment.valid) ∧
    (∃ s1, translate_S (parser_init file_while) = exec.done (0, s1) ∧
      s1.out = (parser_init file_while).out ++
        ([asm_line.label "begin" (0 + 1),
          asm_line.binary "cmp" "i" "10",
          asm_line.jump (if (⟨COMPARE, "<"⟩ : word_t).value = "<" then "jl" else "jg") "true" (0 + 1),
          asm_line.jump (if (⟨COMPARE, "<"⟩ : word_t).value = "<" then "jge" else "jle") "false" (0 + 1),
          asm_line.label "true" (0 + 1)] ++
         assign_code ⟨IDENTIFIER, "i"⟩ tree_increment ++
         [asm_line.jump "jmp" "begin" (0 + 1), asm_line.label "false" (0 + 1)])) ∧
    ([asm_line.label "begin" 1, asm_line.binary "cmp" "i" "10", asm_line.jump "jl" "true" 1,
      asm_line.jump "jge" "false" 1, asm_line.label "true" 1] ++
      assign_code ⟨IDENTIFIER, "i"⟩ tree_increment ++
      [asm_line.jump "jmp" "begin" 1, asm_line.label "false" 1] =
     [asm_line.label "begin" 1, asm_line.binary "cmp" "i" "10", asm_line.jump "jl" "true" 1,
      asm_line.jump "jge" "false" 1, asm_line.label "true" 1,
      asm_line.binary "mov" "ebx" "i", asm_line.binary "add" "ebx" "1",
      asm_line.binary "mov" "i" "ebx",
      asm_line.jump "jmp" "begin" 1, asm_line.label "false" 1]) := by
  have hV1 : isV ⟨IDENTIFIER, "i"⟩ := Or.inl rfl
  have hV2 : isV ⟨INT, "10"⟩ := Or.inr rfl
  have hO : isO ⟨COMPARE, "<"⟩ := ⟨rfl, Or.inl rfl⟩
  have hwf : tree_increment.valid := by
    refine ⟨⟨Or.inl rfl, by intro mv hmv; simp [tree_increment] at hmv⟩, ?_⟩
    intro pt hpt
    simp [tree_increment] at hpt
    subst hpt
    exact ⟨⟨rfl, Or.inl rfl⟩, Or.inr rfl, by intro mv hmv; simp at hmv⟩
  exact ⟨⟨hV1, hO, hV2, hwf⟩,
    C3_while_statement ⟨IDENTIFIER, "i"⟩ ⟨COMPARE, "<"⟩ ⟨INT, "10"⟩ ⟨IDENTIFIER, "i"⟩
      tree_increment [] 0 (parser_init file_while) hV1 hO hV2 rfl hwf rfl rfl rfl rfl rfl rfl
      (by decide),
    by decide⟩

/-! ## Claim C4 -/

/-- C4: for every assignment `x = a + b * c ;` where a and b are identifiers or integer
literals and c is an integer literal, translated from a state with an empty pushback
slot, empty stacks and an all-free register table, the output is exactly
mov eax, b; mov ebx, c; mul ebx; mov ebx, eax; mov ecx, a; add ecx, ebx; mov x, ecx:
the multiplication is fully reduced before the first instruction of the addition. -/
theorem C4_multiplication_first (x a b c : word_t) (rest : List word_t) (s : parser_state)
    (hx : x.key = IDENTIFIER) (ha : isV a) (hb : isV b) (hc : c.key = INT)
    (hret : s.returned.key = 0) (hops : s.operators = []) (hstk : s.operands = [])
    (hregs : s.registers = ⟨false, false, false, false⟩)
    (hsrc : tokens s.src = x :: ⟨ASSIGN, "="⟩ :: a :: ⟨ADD_SUB, "+"⟩ :: b :: ⟨MUL_DIV, "*"⟩ ::
      c :: ⟨SEMICOLON, ";"⟩ :: rest) :
    ∃ s1, translate_S s = exec.done (0, s1) ∧
      s1.out = s.out ++
        [asm_line.binary "mov" "eax" b.value,
         asm_line.binary "mov" "ebx" c.value,
         asm_line.unary "mul" "ebx",
         asm_line.binary "mov" "ebx" "eax",
         asm_line.binary "mov" "ecx" a.value,
         asm_line.binary "add" "ecx" "ebx",
         asm_line.binary "mov" x.value "ecx"] := by
  have hv := view_of_fresh_state hret hops hstk hregs
  rw [hsrc] at hv
  have hwf : expr_t.valid ⟨⟨a, []⟩, [(⟨ADD_SUB, "+"⟩, ⟨b, [(⟨MUL_DIV, "*"⟩, c)]⟩)]⟩ := by
    refine ⟨⟨ha, by intro mv hmv; simp at hmv⟩, ?_⟩
    intro pt hpt
    simp at hpt
    subst hpt
    refine ⟨⟨rfl, Or.inl rfl⟩, hb, ?_⟩
    intro mv hmv
    simp at hmv
    subst hmv
    exact ⟨⟨rfl, Or.inl rfl⟩, Or.inr hc⟩
  obtain ⟨s1, hrun, hv1, -⟩ := translate_S_assign x
    ⟨⟨a, []⟩, [(⟨ADD_SUB, "+"⟩, ⟨b, [(⟨MUL_DIV, "*"⟩, c)]⟩)]⟩ rest [] [] s.begin_counter
    s.branch_counter s.out s hx hwf (by decide) (by decide)
    (by simpa [expr_t.words, term_t.words, tail_words, pairs_words] using hv)
  refine ⟨s1, hrun, ?_⟩
  have := congrArg machine.out hv1
  simp only [view] at this
  rw [this]
  simp [assign_code, expr_t.code, expr_t.result, term_t.code, term_t.result, term_t.reg,
    tail_code, tail_result, add_code, sum_reg, pairs_code, pairs_result, pairs_reg, mul_code,
    fresh, reg_name, get_register_name, hc]

/-- C4, witness: `x = 1 + 2 * 3 ;`. -/
theorem C4_multiplication_first_witness :
    (isV ⟨INT, "1"⟩ ∧ isV ⟨INT, "2"⟩) ∧
    ∃ s1, translate_S (parser_init file_assign) = exec.done (0, s1) ∧
      s1.out = (parser_init file_assign).out ++
        [asm_line.binary "mov" "eax" "2",
         asm_line.binary "mov" "ebx" "3",
         asm_line.unary "mul" "ebx",
         asm_line.binary "mov" "ebx" "eax",
         asm_line.binary "mov" "ecx" "1",
         asm_line.binary "add" "ecx" "ebx",
         asm_line.binary "mov" "x" "ecx"] :=
  ⟨⟨Or.inr rfl, Or.inr rfl⟩,
   C4_multiplication_first ⟨IDENTIFIER, "x"⟩ ⟨INT, "1"⟩ ⟨INT, "2"⟩ ⟨INT, "3"⟩ []
    (parser_init file_assign) rfl (Or.inr rfl) (Or.inr rfl) rfl rfl rfl rfl rfl (by decide)⟩

/-! ## Claim C5 -/

/-- Whatever the reading of P by its key, no terminal of the grammar is a refused word. -/
theorem terminals_not_refused : terminals_have isAddSub (fun w => ¬ refused w) where
  operand := by
    intro w hv h
    rcases hv with hv | hv <;> rcases h with ⟨h, -⟩ | ⟨h, -⟩ <;> rw [hv] at h <;>
      simp [IDENTIFIER, INT, COMPARE, MUL_DIV] at h
  compare := by
    intro w ho h
    rcases h with ⟨-, h⟩ | ⟨h, -⟩
    · rcases ho.2 with h1 | h1 <;> rw [h1] at h <;> simp at h
    · rw [ho.1] at h; simp [COMPARE, MUL_DIV] at h
  mul_div := by
    intro w hm h
    rcases h with ⟨h, -⟩ | ⟨-, h⟩
    · rw [hm.1] at h; simp [COMPARE, MUL_DIV] at h
    · rcases hm.2 with h1 | h1 <;> rw [h1] at h <;> simp at h
  add_sub := by
    intro w hp h
    have hk : w.key = ADD_SUB := hp
    rcases h with ⟨h, -⟩ | ⟨h, -⟩ <;> rw [hk] at h <;> simp [ADD_SUB, COMPARE, MUL_DIV] at h
  ident := by
    intro w hx h
    rcases h with ⟨h, -⟩ | ⟨h, -⟩ <;> rw [hx] at h <;> simp [IDENTIFIER, COMPARE, MUL_DIV] at h
  kw_while := by intro h; rcases h with ⟨h, -⟩ | ⟨h, -⟩ <;> simp [KEYWORD, COMPARE, MUL_DIV] at h
  paren_open := by
    intro h; rcases h with ⟨h, -⟩ | ⟨h, -⟩ <;> simp [BRACKET_DOT, COMPARE, MUL_DIV] at h
  paren_close := by
    intro h; rcases h with ⟨h, -⟩ | ⟨h, -⟩ <;> simp [BRACKET_DOT, COMPARE, MUL_DIV] at h
  assign := by intro h; rcases h with ⟨h, -⟩ | ⟨h, -⟩ <;> simp [ASSIGN, COMPARE, MUL_DIV] at h
  semicolon := by
    intro h; rcases h with ⟨h, -⟩ | ⟨h, -⟩ <;> simp [SEMICOLON, COMPARE, MUL_DIV] at h

/-- The lexical validation loop always returns, with an empty pushback slot. -/
theorem validate_lex_loop_total :
    ∀ (fuel : Nat) (s : parser_state), (pending s).length < fuel →
      ∃ r s1, validate_lex_loop fuel s = exec.done (r, s1) ∧ s1.returned.key = 0 := by
  intro fuel
  induction fuel with
  | zero => intro s h; simp at h
  | succ n ih =>
    intro s hlen
    cases hp : pending s with
    | nil =>
      obtain ⟨s1, hg, -, hr, -⟩ := get_word_nil hp
      exact ⟨1, s1, by simp [validate_lex_loop, hg], hr⟩
    | cons t ts =>
      obtain ⟨s1, hg, hp1, hr, -⟩ := get_word_cons hp
      by_cases h0 : t.key = 0
      · exact ⟨1, s1, by simp [validate_lex_loop, hg, h0], hr⟩
      · by_cases hbad : t.key ≤ WRONG ∨ t.key > COLON ∨ (t.key > BRACKET_DOT ∧ t.key < COMMA)
        · exact ⟨0, s1, by simp only [validate_lex_loop, hg]; simp [h0, hbad], hr⟩
        · have hl : (pending s1).length < n := by
            rw [hp] at hlen; rw [hp1]; simp at hlen; omega
          obtain ⟨r, s2, hrun, hr2⟩ := ih s1 hl
          exact ⟨r, s2, by simp only [validate_lex_loop, hg]; simp [h0, hbad, hrun], hr2⟩

/-- C5: every token stream (every key nonzero) that contains, anywhere, a comparison word
`<=` or `>=` or a multiplicative word `%` is rejected by `do_validate_grammar` (it returns
0), whatever the value found on the [epsilon] branches; and `main` then exits with status
1 without running the translation pass: the output file is never opened. -/
theorem C5_refused_words_rejected (undef : parser_state → Int) (all : List src_line)
    (hkeys : ∀ t ∈ tokens all, t.key ≠ 0) (hbad : ∃ t ∈ tokens all, refused t) :
    (∀ s0 : parser_state, s0.returned.key = 0 →
      ∃ s1, do_validate_grammar undef all s0 = exec.done (0, s1)) ∧
    main undef all = exec.done (1, none) := by
  have hrej : ∀ s0 : parser_state, s0.returned.key = 0 →
      ∃ s1, do_validate_grammar undef all s0 = exec.done (0, s1) := by
    intro s0 hret
    have hp := pending_rewind all s0 hret
    have hg : good (rewind all s0) := by intro t ht; rw [hp] at ht; exact hkeys t ht
    obtain ⟨r, s1, hrun, hr, hder⟩ :=
      validate_loop_sound undef (budget (rewind all s0)) (rewind all s0) hg (pending_length _)
    rcases hr with h1 | h0
    · exfalso
      obtain ⟨t, ht, hrt⟩ := hbad
      have hd := (hder h1).1
      rw [hp] at hd
      exact DerProgram_words terminals_not_refused hd t ht hrt
    · exact ⟨s1, by rw [← h0]; exact hrun⟩
  refine ⟨hrej, ?_⟩
  obtain ⟨r, s1, hlex, hr1⟩ := validate_lex_loop_total (budget (rewind all (parser_init all)))
    (rewind all (parser_init all)) (pending_length _)
  have hlex' : do_validate_lex all (parser_init all) = exec.done (r, s1) := hlex
  by_cases hr0 : r = 0
  · simp [main, hlex', exec.bind, hr0]
  · obtain ⟨s2, hgr⟩ := hrej s1 hr1
    simp [main, hlex', exec.bind, hr0, hgr]

/-- C5, witness: the words of `x <= 1 ;`. -/
theorem C5_refused_words_rejected_witness :
    ((∀ t ∈ tokens file_less_equal, t.key ≠ 0) ∧ ∃ t ∈ tokens file_less_equal, refused t) ∧
    (∀ s0 : parser_state, s0.returned.key = 0 →
      ∃ s1, do_validate_grammar (fun _ => 1) file_less_equal s0 = exec.done (0, s1)) ∧
    main (fun _ => 1) file_less_equal = exec.done (1, none) :=
  have hbad : ∃ t ∈ tokens file_less_equal, refused t :=
    ⟨⟨COMPARE, "<="⟩, by decide, Or.inl ⟨rfl, Or.inl rfl⟩⟩
  ⟨⟨by decide, hbad⟩, C5_refused_words_rejected (fun _ => 1) file_less_equal (by decide) hbad⟩

/-! ## Claim C18 -/

/-- The loop of `do_validate_lex` returns 0 at the first word with the key `WRONG`, when
no key before it is 0. -/
theorem validate_lex_loop_wrong :
    ∀ (pre : List word_t) (fuel : Nat) (s : parser_state) (w : word_t) (post : List word_t),
      pending s = pre ++ w :: post → (∀ t ∈ pre, t.key ≠ 0) → w.key = WRONG →
      (pending s).length < fuel →
      ∃ s1, validate_lex_loop fuel s = exec.done (0, s1) := by
  intro pre
  induction pre with
  | nil =>
    intro fuel s w post hp _ hw hlen
    cases fuel with
    | zero => simp at hlen
    | succ n =>
      obtain ⟨s1, hg, -, -, -⟩ := get_word_cons (by simpa using hp)
      refine ⟨s1, ?_⟩
      simp only [validate_lex_loop, hg, hw]
      simp [WRONG]
  | cons t pre ih =>
    intro fuel s w post hp hpre hw hlen
    cases fuel with
    | zero => simp at hlen
    | succ n =>
      obtain ⟨s1, hg, hp1, -, -⟩ := get_word_cons (by simpa using hp)
      have h0 : t.key ≠ 0 := hpre t (by simp)
      by_cases hbad : t.key ≤ WRONG ∨ t.key > COLON ∨ (t.key > BRACKET_DOT ∧ t.key < COMMA)
      · exact ⟨s1, by simp only [validate_lex_loop, hg]; simp [h0, hbad]⟩
      · have hl : (pending s1).length < n := by
          rw [hp] at hlen; rw [hp1]; simp at hlen ⊢; omega
        obtain ⟨s2, hrun⟩ := ih n s1 w post hp1 (fun x hx => hpre x (by simp [hx])) hw hl
        exact ⟨s2, by simp only [validate_lex_loop, hg]; simp [h0, hbad, hrun]⟩

/-- C18 as amended: a wrong word stops the parser stage. For every file with a word of
the key `WRONG` (0x101) among its words, no key before it being 0, `do_validate_lex`
returns 0 and `main` exits with the status 1 before the grammar validation and the
translation: the output file is never opened and nothing is emitted, whatever statements
follow the wrong word. -/
theorem C18_wrong_word_fails_validation (undef : parser_state → Int) (all : List src_line)
    (pre post : List word_t) (w : word_t) (h : tokens all = pre ++ w :: post)
    (hpre : ∀ t ∈ pre, t.key ≠ 0) (hw : w.key = WRONG) :
    (∃ s1, do_validate_lex all (parser_init all) = exec.done (0, s1)) ∧
    main undef all = exec.done (1, none) := by
  have hp : pending (rewind all (parser_init all)) = pre ++ w :: post := by
    rw [pending_rewind all _ rfl, h]
  obtain ⟨s1, hs1⟩ := validate_lex_loop_wrong pre (budget (rewind all (parser_init all)))
    (rewind all (parser_init all)) w post hp hpre hw (pending_length _)
  refine ⟨⟨s1, hs1⟩, ?_⟩
  have hv : do_validate_lex all (parser_init all) = exec.done (0, s1) := hs1
  simp [main, hv, exec.bind]

/-! ## Claim C20 -/

/-- The loop of `get_word` skips word counter lines and spaces. -/
theorem read_word_skips :
    ∀ (skipped : List src_line) (rest : List src_line),
      (∀ l ∈ skipped, l = src_line.counter ∨ ∃ v, l = src_line.pair SPACE v) →
      read_word (skipped ++ rest) = read_word rest := by
  intro skipped
  induction skipped with
  | nil => intro rest _; rfl
  | cons l ls ih =>
    intro rest h
    have hls : ∀ x ∈ ls, x = src_line.counter ∨ ∃ v, x = src_line.pair SPACE v :=
      fun x hx => h x (by simp [hx])
    rcases h l (by simp) with rfl | ⟨v, rfl⟩
    · simp only [List.cons_append, read_word]
      exact ih rest hls
    · simp only [List.cons_append, read_word, if_true]
      exact ih rest hls

theorem read_word_not_space : ∀ src : List src_line, (read_word src).1.key ≠ SPACE := by
  intro src
  induction src with
  | nil => simp [read_word, SPACE]
  | cons l ls ih =>
    cases l with
    | counter => simpa [read_word] using ih
    | pair k v =>
      by_cases hk : k = SPACE
      · simpa [read_word, hk] using ih
      · simp [read_word, hk]

/-- C20: `get_word` never returns a word counter line or a space. With an empty pushback
slot: (1) when the lines still to be read start with word counter lines and spaces only,
followed by a K-V pair line whose key is not `SPACE`, it returns the key and the value of
that line and the file stands behind it; (2) when only word counter lines and spaces are
left, it returns the key 0 with an empty value, at the end of the file; (3) the key it
returns is never `SPACE`. A line is a word counter line for `get_word` when its first
field is `line` or `total`, and a space when `strtol` reads the key 0x102 from it. -/
theorem C20_get_word_skips (s : parser_state) (h : s.returned.key = 0) :
    (∀ (skipped rest : List src_line) (k : Int) (v : String),
      s.src = skipped ++ src_line.pair k v :: rest →
      (∀ l ∈ skipped, l = src_line.counter ∨ ∃ v', l = src_line.pair SPACE v') → k ≠ SPACE →
      get_word s = (⟨k, v⟩, { s with src := rest })) ∧
    ((∀ l ∈ s.src, l = src_line.counter ∨ ∃ v', l = src_line.pair SPACE v') →
      get_word s = (⟨0, ""⟩, { s with src := [] })) ∧
    (get_word s).1.key ≠ SPACE ∧
    (∀ (buffer word rest : List Char), strtok (c_string buffer) = some (word, rest) →
      ((word = "line".data ∨ word = "total".data) → parse_line buffer = exec.done src_line.counter) ∧
      (¬ (word = "line".data ∨ word = "total".data) → strtol16 word = SPACE →
        parse_line buffer = exec.done (src_line.pair SPACE "")) ∧
      (∀ value rest', ¬ (word = "line".data ∨ word = "total".data) → strtol16 word ≠ SPACE →
        strtok rest = some (value, rest') →
        parse_line buffer = exec.done (src_line.pair (strtol16 word) (String.mk value)))) := by
  have hk : ¬ s.returned.key ≠ 0 := by simpa using h
  refine ⟨?_, ?_, ?_, ?_⟩
  · intro skipped rest k v hsrc hskip hne
    have hr : read_word s.src = (⟨k, v⟩, rest) := by
      rw [hsrc, read_word_skips skipped _ hskip]
      simp [read_word, hne]
    simp only [get_word, if_neg hk, hr]
  · intro hall
    have hr : read_word s.src = (⟨0, ""⟩, []) := by
      have := read_word_skips s.src [] hall
      rw [List.append_nil] at this
      rw [this]
      rfl
    simp only [get_word, if_neg hk, hr]
  · simp only [get_word, if_neg hk]
    exact read_word_not_space s.src
  · intro buffer word rest hb
    refine ⟨?_, ?_, ?_⟩
    · intro hw
      simp only [parse_line, hb, if_pos hw]
    · intro hw hsp
      simp only [parse_line, hb, if_neg hw, if_pos hsp]
    · intro value rest' hw hsp hv
      simp only [parse_line, hb, if_neg hw, if_neg hsp, hv]

/-- C20, witness: in front of the file `line 1 has 2 words`, a space, `0x104 x` the word
`x` is returned; the three lines are read from their text. -/
theorem C20_get_word_skips_witness :
    ((parser_init [src_line.counter, src_line.pair SPACE "", src_line.pair IDENTIFIER "x"]
        ).returned.key = 0 ∧
      (∀ l ∈ [src_line.counter, src_line.pair SPACE ""],
        l = src_line.counter ∨ ∃ v', l = src_line.pair SPACE v') ∧ IDENTIFIER ≠ SPACE) ∧
    get_word (parser_init
        [src_line.counter, src_line.pair SPACE "", src_line.pair IDENTIFIER "x"]) =
      (⟨IDENTIFIER, "x"⟩,
       { parser_init [src_line.counter, src_line.pair SPACE "", src_line.pair IDENTIFIER "x"]
         with src := [] }) ∧
    parse_file "line 1 has 2 words\n0x102\t \n0x104\tx\n".data =
      exec.done [src_line.counter, src_line.pair SPACE "", src_line.pair IDENTIFIER "x"] :=
  ⟨⟨rfl, by simp, by decide⟩,
   (C20_get_word_skips
      (parser_init [src_line.counter, src_line.pair SPACE "", src_line.pair IDENTIFIER "x"])
      rfl).1 [src_line.counter, src_line.pair SPACE ""] [] IDENTIFIER "x" rfl (by simp)
      (by decide),
   by decide⟩

/-! ## Reading a text line by line -/

theorem takeWhile_not_blank (a b : List Char) (ha : ∀ c ∈ a, is_blank c = false)
    (hb : b = [] ∨ ∃ d r, b = d :: r ∧ is_blank d = true) :
    (a ++ b).takeWhile (fun x => !is_blank x) = a ∧
    (a ++ b).dropWhile (fun x => !is_blank x) = b := by
  induction a with
  | nil =>
    rcases hb with rfl | ⟨d, r, rfl, hd⟩
    · exact ⟨rfl, rfl⟩
    · simp [List.takeWhile, List.dropWhile, hd]
  | cons x a ih =>
    have hx : is_blank x = false := ha x (by simp)
    obtain ⟨i1, i2⟩ := ih (fun c hc => ha c (by simp [hc]))
    simp only [List.cons_append, List.takeWhile_cons, List.dropWhile_cons, hx, Bool.not_false,
      if_true]
    exact ⟨by rw [i1], i2⟩

/-- The first field of a C string that starts with characters other than the delimiters. -/
theorem strtok_token (a b : List Char) (hne : a ≠ []) (ha : ∀ c ∈ a, is_blank c = false)
    (hb : b = [] ∨ ∃ d r, b = d :: r ∧ is_blank d = true) :
    strtok (a ++ b) = some (a, b.drop 1) := by
  obtain ⟨i1, i2⟩ := takeWhile_not_blank a b ha hb
  cases a with
  | nil => exact absurd rfl hne
  | cons x a =>
    have hx : is_blank x = false := ha x (by simp)
    simp only [List.cons_append] at i1 i2
    simp only [strtok, List.cons_append, List.dropWhile_cons, hx, Bool.false_eq_true, if_false,
      i1, i2]

theorem c_string_eq_self (w : List Char) (h : Char.ofNat 0 ∉ w) : c_string w = w := by
  simp only [c_string]
  rw [List.takeWhile_eq_self_iff]
  intro x hx
  simp only [ne_eq, decide_eq_true_eq]
  exact fun hx0 => h (hx0 ▸ hx)

theorem fgets_chars_line :
    ∀ (l rest : List Char) (k : Nat), Char.ofNat 10 ∉ l → l.length < k →
      fgets_chars k (l ++ Char.ofNat 10 :: rest) = (l ++ [Char.ofNat 10], rest) := by
  intro l
  induction l with
  | nil =>
    intro rest k _ hk
    cases k with
    | zero => simp at hk
    | succ k => simp [fgets_chars]
  | cons x l ih =>
    intro rest k hl hk
    cases k with
    | zero => simp at hk
    | succ k =>
      have hx : x ≠ Char.ofNat 10 := fun h => hl (by simp [h])
      have hl' : Char.ofNat 10 ∉ l := fun h => hl (by simp [h])
      have i := ih rest k hl' (by simpa using hk)
      rw [List.cons_append, fgets_chars, if_neg hx, i]
      rfl

/-- A line that fits the buffer is read whole by `fgets`, with its newline. -/
theorem fgets_line (l rest : List Char) (hl : Char.ofNat 10 ∉ l) (hk : l.length + 1 < BUF_SIZE) :
    fgets BUF_SIZE (l ++ Char.ofNat 10 :: rest) = some (l ++ [Char.ofNat 10], rest) := by
  have h := fgets_chars_line l rest (BUF_SIZE - 1) hl (by omega)
  cases l with
  | nil => simp only [List.nil_append] at h ⊢; simp only [fgets, h]
  | cons x l => simp only [List.cons_append] at h ⊢; simp only [fgets, h]

/-- The lines of a text made of lines that fit the buffer: `fgets` delivers them one by
one. -/
theorem file_lines_of_lines :
    ∀ (ls : List (List Char)) (fuel : Nat), ls.length ≤ fuel →
      (∀ l ∈ ls, ∃ body, l = body ++ [Char.ofNat 10] ∧ Char.ofNat 10 ∉ body ∧
        body.length + 1 < BUF_SIZE) →
      file_lines fuel ls.flatten = ls := by
  intro ls
  induction ls with
  | nil =>
    intro fuel _ _
    cases fuel <;> simp [file_lines, fgets]
  | cons l ls ih =>
    intro fuel hf hl
    cases fuel with
    | zero => simp at hf
    | succ fuel =>
      obtain ⟨body, rfl, h1, h2⟩ := hl l (by simp)
      have hrest := ih fuel (by simpa using hf) (fun x hx => hl x (by simp [hx]))
      simp only [List.flatten_cons, List.append_assoc, List.singleton_append,
        file_lines, fgets_line body _ h1 h2]
      rw [hrest]

theorem length_le_flatten :
    ∀ (ls : List (List Char)), (∀ l ∈ ls, l ≠ []) → ls.length ≤ ls.flatten.length := by
  intro ls
  induction ls with
  | nil => intro _; simp
  | cons l ls ih =>
    intro h
    have h1 : 0 < l.length := List.length_pos.2 (h l (by simp))
    have h2 := ih (fun x hx => h x (by simp [hx]))
    simp only [List.flatten_cons, List.length_append, List.length_cons]
    omega

/-! ## Claim C21 -/

/-- The loop of `do_validate_lex` returns 1 exactly when every word in front of the first
key 0 passes the range test. -/
theorem validate_lex_loop_result :
    ∀ (fuel : Nat) (s : parser_state), (pending s).length < fuel →
      ∃ s1, validate_lex_loop fuel s = exec.done
        (if ((pending s).takeWhile fun w => decide (w.key ≠ 0)).all
            (fun w => key_in_range w.key) then 1 else 0, s1) := by
  intro fuel
  induction fuel with
  | zero => intro s h; simp at h
  | succ n ih =>
    intro s hlen
    cases hp : pending s with
    | nil =>
      obtain ⟨s1, hg, -, -, -⟩ := get_word_nil hp
      exact ⟨s1, by simp [validate_lex_loop, hg]⟩
    | cons t ts =>
      obtain ⟨s1, hg, hp1, -, -⟩ := get_word_cons hp
      by_cases h0 : t.key = 0
      · exact ⟨s1, by simp [validate_lex_loop, hg, h0]⟩
      · by_cases hbad : t.key ≤ WRONG ∨ t.key > COLON ∨ (t.key > BRACKET_DOT ∧ t.key < COMMA)
        · refine ⟨s1, ?_⟩
          have hk : key_in_range t.key = false := by simp [key_in_range, hbad]
          simp only [validate_lex_loop, hg]
          simp [h0, hbad, hk]
        · have hl : (pending s1).length < n := by
            rw [hp] at hlen; rw [hp1]; simp at hlen; omega
          obtain ⟨s2, hrun⟩ := ih s1 hl
          refine ⟨s2, ?_⟩
          have hk : key_in_range t.key = true := by simp [key_in_range, hbad]
          simp only [validate_lex_loop, hg]
          rw [hp1] at hrun
          simp [h0, hbad, hk, hrun]

/-- The keys that pass the range test of `do_validate_lex` are the tags of the token kinds
other than Malformed and the keys 0x10a..0x10f. -/
theorem key_in_range_tags (k : Int) :
    key_in_range k = (token_kind_tag k || decide (0x10a ≤ k ∧ k ≤ 0x10f)) := by
  simp only [key_in_range, token_kind_tag, WRONG, COLON, BRACKET_DOT, COMMA]
  by_cases h1 : k ≤ 0x101 ∨ k > 0x123 ∨ (k > 0x11d ∧ k < 0x120)
  · have h2 : ¬ ((0x102 ≤ k ∧ k ≤ 0x109) ∨ (0x110 ≤ k ∧ k ≤ 0x11d) ∨
        (0x120 ≤ k ∧ k ≤ 0x123)) := by omega
    have h3 : ¬ (0x10a ≤ k ∧ k ≤ 0x10f) := by omega
    simp [h1, h2, h3]
  · by_cases h3 : 0x10a ≤ k ∧ k ≤ 0x10f
    · simp [h1, h3]
    · have h2 : (0x102 ≤ k ∧ k ≤ 0x109) ∨ (0x110 ≤ k ∧ k ≤ 0x11d) ∨
          (0x120 ≤ k ∧ k ≤ 0x123) := by omega
      simp [h1, h2]

/-- C21, amended: for every file, `do_validate_lex` returns, and it returns 1 exactly when
every word in front of the first word whose key reads as 0 (spaces and word counter lines
left out, as `get_word` skips them) has a key that is the tag of a token kind other than
Malformed or one of 0x10a..0x10f; it returns 0 as soon as it meets, in front of the first
key 0, a key at or below 0x101, above 0x123, or one of 0x11e and 0x11f. -/
theorem C21_validate_lex_checks_range (all : List src_line) :
    ∃ s1, do_validate_lex all (parser_init all) = exec.done
      (if (checked_words all).all
          (fun w => token_kind_tag w.key || decide (0x10a ≤ w.key ∧ w.key ≤ 0x10f))
        then 1 else 0, s1) := by
  have hp : pending (rewind all (parser_init all)) = tokens all :=
    pending_rewind all _ rfl
  obtain ⟨s1, h⟩ := validate_lex_loop_result (budget (rewind all (parser_init all)))
    (rewind all (parser_init all)) (pending_length _)
  rw [hp] at h
  refine ⟨s1, ?_⟩
  have hfun : (fun w : word_t => key_in_range w.key) =
      fun w => token_kind_tag w.key || decide (0x10a ≤ w.key ∧ w.key ≤ 0x10f) :=
    funext fun w => key_in_range_tags w.key
  rw [← hfun]
  exact h

/-- C21, witness: the file of `x = a * b - 6 / c ;` is found valid, every key in it being
the tag of a token kind. -/
theorem C21_validate_lex_checks_range_witness :
    (checked_words file_mixed).all
      (fun w => token_kind_tag w.key || decide (0x10a ≤ w.key ∧ w.key ≤ 0x10f)) = true ∧
    ∃ s1, do_validate_lex file_mixed (parser_init file_mixed) = exec.done
      (if (checked_words file_mixed).all
          (fun w => token_kind_tag w.key || decide (0x10a ≤ w.key ∧ w.key ≤ 0x10f))
        then 1 else 0, s1) :=
  ⟨by decide, C21_validate_lex_checks_range file_mixed⟩

/-- C21 as stated fails: the key 0x10a is the tag of no token kind, and the file whose one
word has that key is found valid. A line whose first field is no hexadecimal number reads
as the key 0 and ends the pass with the result 1: the wrong word on the line behind it is
not looked at. -/
theorem C21_counterexample :
    token_kind_tag 0x10a = false ∧
    (do_validate_lex file_gap_tag (parser_init file_gap_tag)).bind
      (fun r => exec.done r.1) = exec.done 1 ∧
    parse_file text_no_tag = exec.done [src_line.pair 0 "q", src_line.pair WRONG "w"] ∧
    ((parse_file text_no_tag).bind fun all =>
      (do_validate_lex all (parser_init all)).bind fun r => exec.done r.1) = exec.done 1 := by
  refine ⟨by decide, by decide, by decide, by decide⟩

/-! ## Claim C29 -/

/-- C29: the register allocator. (1) `alloc_register` returns the lowest index among 1, 2, 3
whose slot is free and marks exactly that slot busy; when the three slots are busy it
returns -1 and changes nothing; it never returns 0 and never changes slot 0.
(2) `alloc_accumulator` returns 0 and marks slot 0 busy when slot 0 is free, and else returns
-1 and changes nothing. (3) `free_register n` marks slot `n` free for `0 ≤ n ≤ 3`, the other
slots unchanged; it changes nothing when slot `n` is free already and for every `n` outside
0..3. Nothing but the register table is changed by any of them. -/
theorem C29_register_allocator (s : parser_state) :
    ((∀ n : Int, 1 ≤ n → n ≤ 3 → slot s.registers n = false →
        (∀ m : Int, 1 ≤ m → m < n → slot s.registers m = true) →
        alloc_register s = (n, { s with registers := set_slot s.registers n true })) ∧
      ((∀ m : Int, 1 ≤ m → m ≤ 3 → slot s.registers m = true) → alloc_register s = (-1, s)) ∧
      (alloc_register s).1 ≠ 0 ∧
      slot (alloc_register s).2.registers 0 = slot s.registers 0) ∧
    ((slot s.registers 0 = false →
        alloc_accumulator s = (0, { s with registers := set_slot s.registers 0 true })) ∧
      (slot s.registers 0 = true → alloc_accumulator s = (-1, s))) ∧
    ((∀ n : Int, 0 ≤ n → n ≤ 3 →
        free_register n s = { s with registers := set_slot s.registers n false } ∧
        ∀ m : Int, m ≠ n → slot (free_register n s).registers m = slot s.registers m) ∧
      (∀ n : Int, slot s.registers n = false → free_register n s = s) ∧
      (∀ n : Int, n < 0 ∨ 3 < n → free_register n s = s)) := by
  obtain ⟨src, ret, ops, stk, ⟨r0, r1, r2, r3⟩, bc, br, out⟩ := s
  have hcases : ∀ n : Int, 0 ≤ n → n ≤ 3 → n = 0 ∨ n = 1 ∨ n = 2 ∨ n = 3 := by
    intro n h0 h3; omega
  refine ⟨⟨?_, ?_, ?_, ?_⟩, ⟨?_, ?_⟩, ?_, ?_, ?_⟩
  · intro n h1 h3 hfree hbusy
    rcases hcases n (by omega) h3 with rfl | rfl | rfl | rfl
    · omega
    · simp only [slot] at hfree
      simp at hfree
      subst hfree
      simp [alloc_register, set_slot]
    · have hb1 := hbusy 1 (by decide) (by decide)
      simp only [slot] at hfree hb1
      simp at hfree hb1
      subst hfree hb1
      simp [alloc_register, set_slot]
    · have hb1 := hbusy 1 (by decide) (by decide)
      have hb2 := hbusy 2 (by decide) (by decide)
      simp only [slot] at hfree hb1 hb2
      simp at hfree hb1 hb2
      subst hfree hb1 hb2
      simp [alloc_register, set_slot]
  · intro hbusy
    have hb1 := hbusy 1 (by decide) (by decide)
    have hb2 := hbusy 2 (by decide) (by decide)
    have hb3 := hbusy 3 (by decide) (by decide)
    simp only [slot] at hb1 hb2 hb3
    simp at hb1 hb2 hb3
    subst hb1 hb2 hb3
    simp [alloc_register]
  · cases r1 <;> cases r2 <;> cases r3 <;> simp [alloc_register]
  · cases r1 <;> cases r2 <;> cases r3 <;> simp [alloc_register, slot]
  · intro h
    simp only [slot] at h
    simp at h
    subst h
    simp [alloc_accumulator, set_slot]
  · intro h
    simp only [slot] at h
    simp at h
    subst h
    simp [alloc_accumulator]
  · intro n h0 h3
    rcases hcases n h0 h3 with rfl | rfl | rfl | rfl
    · refine ⟨by simp [free_register, set_slot], ?_⟩
      intro m hm
      simp [free_register, slot, hm]
    · refine ⟨by simp [free_register, set_slot], ?_⟩
      intro m hm
      simp only [free_register, slot]
      by_cases h0 : m = 0
      · simp [h0]
      · simp [h0, hm]
    · refine ⟨by simp [free_register, set_slot], ?_⟩
      intro m hm
      simp only [free_register, slot]
      by_cases h0 : m = 0
      · simp [h0]
      · by_cases h1 : m = 1
        · simp [h1]
        · simp [h0, h1, hm]
    · refine ⟨by simp [free_register, set_slot], ?_⟩
      intro m hm
      simp only [free_register, slot]
      by_cases h0 : m = 0
      · simp [h0]
      · by_cases h1 : m = 1
        · simp [h1]
        · by_cases h2 : m = 2
          · simp [h2]
          · simp [h0, h1, h2, hm]
  · intro n hfree
    simp only [slot] at hfree
    simp only [free_register]
    split_ifs at hfree ⊢ <;> simp_all
  · intro n hn
    have h0 : ¬ n = 0 := by omega
    have h1 : ¬ n = 1 := by omega
    have h2 : ¬ n = 2 := by omega
    have h3 : ¬ n = 3 := by omega
    simp [free_register, h0, h1, h2, h3]

/-- C29, witness: with ebx busy and the other registers free, `alloc_register` returns 2
(ecx), `alloc_accumulator` returns 0, `free_register 1` frees ebx, and `free_register 2`
and `free_register 4` change nothing. -/
theorem C29_register_allocator_witness :
    alloc_register state_ebx_busy =
      (2, { state_ebx_busy with registers := ⟨false, true, true, false⟩ }) ∧
    alloc_accumulator state_ebx_busy =
      (0, { state_ebx_busy with registers := ⟨true, true, false, false⟩ }) ∧
    free_register 1 state_ebx_busy =
      { state_ebx_busy with registers := ⟨false, false, false, false⟩ } ∧
    free_register 2 state_ebx_busy = state_ebx_busy ∧
    free_register 4 state_ebx_busy = state_ebx_busy :=
  ⟨(C29_register_allocator state_ebx_busy).1.1 2 (by decide) (by decide) (by decide)
      (by decide),
   (C29_register_allocator state_ebx_busy).2.1.1 (by decide),
   ((C29_register_allocator state_ebx_busy).2.2.1 1 (by decide) (by decide)).1,
   (C29_register_allocator state_ebx_busy).2.2.2.1 2 (by decide),
   (C29_register_allocator state_ebx_busy).2.2.2.2 4 (by decide)⟩

/-! ## Claim C30 -/

/-- C30: the translator is back in its initial state after every statement. For every
statement `st` of the grammar (S -> `while` `(` E `)` A `;` | A `;`) at the head of the
pending words, `translate_S` started with an empty pushback slot, empty operator and operand
stacks and an all-free register table returns 0 with both stacks empty, the four registers
free, the pushback slot empty, and the words behind the statement still to be read. -/
theorem C30_translator_returns_to_initial_state (st rest : List word_t) (s : parser_state)
    (hS : DerS isPlusMinus st)
    (hret : s.returned.key = 0) (hops : s.operators = []) (hstk : s.operands = [])
    (hregs : s.registers = ⟨false, false, false, false⟩)
    (hsrc : tokens s.src = st ++ rest) :
    ∃ s1, translate_S s = exec.done (0, s1) ∧ s1.operators = [] ∧ s1.operands = [] ∧
      s1.registers = ⟨false, false, false, false⟩ ∧ s1.returned.key = 0 ∧
      pending s1 = rest := by
  have hv := view_of_fresh_state hret hops hstk hregs
  rw [hsrc] at hv
  have hfree : regs_of 0 0 = ⟨false, false, false, false⟩ := by decide
  rcases hS with ⟨e, a, hE, hA, rfl⟩ | ⟨a, hA, rfl⟩
  · obtain ⟨a1, op, b1, -, hop, -, rfl⟩ := hE
    obtain ⟨x, tr, -, htr, rfl⟩ := (DerA_iff_tree a).mp hA
    have hv' : view s = ⟨⟨KEYWORD, "while"⟩ :: ⟨BRACKET_DOT, "("⟩ :: a1 :: op :: b1 ::
        ⟨BRACKET_DOT, ")"⟩ :: x :: ⟨ASSIGN, "="⟩ :: (tr.words ++ ⟨SEMICOLON, ";"⟩ :: rest),
        [], [], regs_of 0 0, s.begin_counter, s.branch_counter, s.out⟩ := by
      simpa using hv
    obtain ⟨s1, hrun, hv1, hr1⟩ := translate_S_while a1 op b1 x tr _ _ rest [] []
      s.begin_counter s.branch_counter s.out s hop htr (by decide) (by decide) hv'
    simp only [view, machine.mk.injEq] at hv1
    obtain ⟨k0, k1, k2, k3, -⟩ := hv1
    exact ⟨s1, hrun, k1, k2, by rw [k3, hfree], hr1, k0⟩
  · obtain ⟨x, tr, hx, htr, rfl⟩ := (DerA_iff_tree a).mp hA
    have hv' : view s = ⟨x :: ⟨ASSIGN, "="⟩ :: (tr.words ++ ⟨SEMICOLON, ";"⟩ :: rest),
        [], [], regs_of 0 0, s.begin_counter, s.branch_counter, s.out⟩ := by
      simpa using hv
    obtain ⟨s1, hrun, hv1, hr1⟩ := translate_S_assign x tr rest [] [] s.begin_counter
      s.branch_counter s.out s hx htr (by decide) (by decide) hv'
    simp only [view, machine.mk.injEq] at hv1
    obtain ⟨k0, k1, k2, k3, -⟩ := hv1
    exact ⟨s1, hrun, k1, k2, by rw [k3, hfree], hr1, k0⟩

/-- C30, witness: the statement `while ( i < 10 ) i = i + 1 ;`. -/
theorem C30_translator_returns_to_initial_state_witness :
    DerS isPlusMinus (tokens file_while) ∧
    ∃ s1, translate_S (parser_init file_while) = exec.done (0, s1) ∧ s1.operators = [] ∧
      s1.operands = [] ∧ s1.registers = ⟨false, false, false, false⟩ ∧
      s1.returned.key = 0 ∧ pending s1 = [] := by
  have hwf : tree_increment.valid := by
    refine ⟨⟨Or.inl rfl, by intro mv hmv; simp [tree_increment] at hmv⟩, ?_⟩
    intro pt hpt
    simp [tree_increment] at hpt
    subst hpt
    exact ⟨⟨rfl, Or.inl rfl⟩, Or.inr rfl, by intro mv hmv; simp at hmv⟩
  have hA : DerA isPlusMinus (⟨IDENTIFIER, "i"⟩ :: ⟨ASSIGN, "="⟩ :: tree_increment.words) :=
    (DerA_iff_tree _).mpr ⟨⟨IDENTIFIER, "i"⟩, tree_increment, rfl, hwf, rfl⟩
  have hE : DerE [⟨IDENTIFIER, "i"⟩, ⟨COMPARE, "<"⟩, ⟨INT, "10"⟩] :=
    ⟨_, _, _, Or.inl rfl, ⟨rfl, Or.inl rfl⟩, Or.inr rfl, rfl⟩
  have hS : DerS isPlusMinus (tokens file_while) :=
    Or.inl ⟨_, _, hE, hA, by decide⟩
  exact ⟨hS, C30_translator_returns_to_initial_state (tokens file_while) [] (parser_init file_while)
    hS rfl rfl rfl rfl (by rw [List.append_nil]; rfl)⟩

/-! ## Claim C32 -/

/-- A run of two sequenced steps that is done went through a first step that is done. -/
theorem bind_done {α β : Type} {x : exec α} {f : α → exec β} {b : β}
    (h : x.bind f = exec.done b) : ∃ a, x = exec.done a ∧ f a = exec.done b := by
  cases x with
  | done a => exact ⟨a, rfl, h⟩
  | undefined => simp [exec.bind] at h
  | starved => simp [exec.bind] at h

/-- After `get_word` the pushback slot is empty. -/
theorem get_word_slot (s : parser_state) : (get_word s).2.returned.key = 0 := by
  unfold get_word
  split_ifs with h
  · rfl
  · simpa using h

/-- The tail of `check_S` returns 0 or 1. -/
theorem check_S_tail_result (undef : parser_state → Int) (s s1 : parser_state) (r : Int)
    (h : check_S_tail undef s = exec.done (r, s1)) : r = 0 ∨ r = 1 := by
  unfold check_S_tail at h
  obtain ⟨⟨ra, sa⟩, -, h⟩ := bind_done h
  simp only at h
  split_ifs at h <;> simp only [exec.done.injEq, Prod.mk.injEq] at h
  · exact Or.inl h.1.symm
  · exact Or.inr h.1.symm
  · exact Or.inl h.1.symm

/-- When `check_S` returns -1 the pushback slot is empty. -/
theorem check_S_eof_slot (undef : parser_state → Int) (s s1 : parser_state)
    (h : check_S undef s = exec.done (-1, s1)) : s1.returned.key = 0 := by
  unfold check_S at h
  simp only at h
  split_ifs at h
  · simp only [exec.done.injEq, Prod.mk.injEq, true_and] at h
    rw [← h]
    exact get_word_slot s
  all_goals first
    | (simp only [exec.done.injEq, Prod.mk.injEq] at h; exact absurd h.1 (by decide))
    | (rcases check_S_tail_result _ _ _ _ h with h0 | h0 <;> exact absurd h0 (by decide))

/-- When the loop of `do_validate_grammar` returns 1 the pushback slot is empty. -/
theorem validate_loop_slot (undef : parser_state → Int) :
    ∀ (fuel : Nat) (s s1 : parser_state),
      validate_loop undef fuel s = exec.done (1, s1) → s1.returned.key = 0 := by
  intro fuel
  induction fuel with
  | zero => intro s s1 h; simp [validate_loop] at h
  | succ n ih =>
    intro s s1 h
    rw [validate_loop] at h
    obtain ⟨⟨r, s2⟩, hS, h⟩ := bind_done h
    simp only at h
    split_ifs at h with h0 hm
    · simp at h
    · simp only [exec.done.injEq, Prod.mk.injEq, true_and] at h
      subst h; subst hm
      exact check_S_eof_slot undef s s2 hS
    · exact ih s2 s1 h

/-- C32: whenever `do_validate_grammar` returns 1, whatever the pushback slot held when
it was called, the slot is empty on return; so after the `rewind` of `do_parse` the words
to be delivered are those of the whole file, and the first `get_word` of the translation
pass reads the first word of the file. -/
theorem C32_pushback_empty_after_validation (undef : parser_state → Int)
    (all : List src_line) (s s1 : parser_state)
    (h : do_validate_grammar undef all s = exec.done (1, s1)) :
    s1.returned.key = 0 ∧ pending (rewind all s1) = tokens all ∧
    get_word (rewind all s1) = ((read_word all).1, { s1 with src := (read_word all).2 }) := by
  have hk := validate_loop_slot undef _ _ s1 h
  refine ⟨hk, pending_rewind all s1 hk, ?_⟩
  simp [get_word, rewind, hk]

/-- C32 on the file of `x = 1 + 2 * 3 ;`: the first word read again is `x`. -/
theorem C32_pushback_empty_after_validation_witness :
    ∃ s1, do_validate_grammar (fun _ => 1) file_assign (parser_init file_assign)
        = exec.done (1, s1) ∧
      s1.returned.key = 0 ∧ pending (rewind file_assign s1) = tokens file_assign ∧
      get_word (rewind file_assign s1)
        = ((read_word file_assign).1, { s1 with src := (read_word file_assign).2 }) ∧
      (read_word file_assign).1 = ⟨IDENTIFIER, "x"⟩ :=
  ⟨_, rfl, (C32_pushback_empty_after_validation (fun _ => 1) file_assign
      (parser_init file_assign) _ rfl).1,
    (C32_pushback_empty_after_validation (fun _ => 1) file_assign
      (parser_init file_assign) _ rfl).2.1,
    (C32_pushback_empty_after_validation (fun _ => 1) file_assign
      (parser_init file_assign) _ rfl).2.2, rfl⟩

/-! ## Claim C35 -/

theorem additive_tree_words (v0 : word_t) (ps : List (word_t × word_t)) :
    (additive_tree v0 ps).words = v0 :: pairs_words ps := by
  simp only [additive_tree, expr_t.words, term_t.words, pairs_words, List.cons_append,
    List.nil_append, List.cons.injEq, true_and]
  induction ps with
  | nil => rfl
  | cons p ps ih =>
    obtain ⟨m, v⟩ := p
    simp only [List.map_cons, tail_words, term_t.words, pairs_words, List.cons_append,
      List.nil_append, ih]

theorem additive_tree_valid (v0 : word_t) (ps : List (word_t × word_t)) (hv0 : isV v0)
    (hps : ∀ p ∈ ps, isPlusMinus p.1 ∧ isV p.2) : (additive_tree v0 ps).valid := by
  refine ⟨⟨hv0, by simp [additive_tree]⟩, ?_⟩
  intro pt hpt
  simp only [additive_tree, List.mem_map] at hpt
  obtain ⟨p, hp, rfl⟩ := hpt
  exact ⟨(hps p hp).1, (hps p hp).2, by simp⟩

/-- The code of the pairs of an additive expression once the sum is held by ebx. -/
theorem additive_tail_code (acc : word_t) (ps : List (word_t × word_t)) :
    tail_code 1 acc (ps.map fun p => (p.1, (⟨p.2, []⟩ : term_t))) = additive_lines ps ∧
    tail_result 1 ⟨REGISTER, "ebx"⟩ (ps.map fun p => (p.1, (⟨p.2, []⟩ : term_t)))
      = ⟨REGISTER, "ebx"⟩ := by
  induction ps generalizing acc with
  | nil => exact ⟨rfl, rfl⟩
  | cons p ps ih =>
    obtain ⟨m, v⟩ := p
    have hs : sum_reg 1 (⟨v, []⟩ : term_t) = 1 := rfl
    have hn : reg_name 1 = "ebx" := rfl
    constructor
    · simp only [List.map_cons, tail_code, hs, hn, (ih ⟨REGISTER, "ebx"⟩).1, additive_lines]
      rfl
    · simp only [List.map_cons, tail_result, hs, hn, (ih ⟨REGISTER, "ebx"⟩).2]

/-- The code of a purely additive assignment with at least one operator. -/
theorem additive_assign_code (x v0 : word_t) (p : word_t × word_t)
    (ps : List (word_t × word_t)) :
    assign_code x (additive_tree v0 (p :: ps)) =
      asm_line.binary "mov" "ebx" v0.value :: (additive_lines (p :: ps) ++
        [asm_line.binary "mov" x.value "ebx"]) := by
  obtain ⟨m, v⟩ := p
  have hs : sum_reg 0 (⟨v, []⟩ : term_t) = 1 := rfl
  have hn : reg_name 1 = "ebx" := rfl
  have h0 : (⟨v0, []⟩ : term_t).reg 0 = 0 := rfl
  have hr : (⟨v0, []⟩ : term_t).result 0 = v0 := rfl
  have hc : (⟨v0, []⟩ : term_t).code 0 = [] := rfl
  simp only [assign_code, expr_t.code, expr_t.result, additive_tree, List.map_cons, tail_code,
    tail_result, h0, hr, hc, hs, hn, (additive_tail_code ⟨REGISTER, "ebx"⟩ ps).1,
    (additive_tail_code ⟨REGISTER, "ebx"⟩ ps).2, additive_lines]
  rfl

/-- C35: for every purely additive assignment `x = v0 op1 v1 ... opn vn ;` with n ≥ 1 (x an
identifier, every `vi` an identifier or an integer constant, every `opi` the word `+` or
`-`), `translate_S` from a state with an empty pushback slot, empty stacks and an all-free
register table returns 0, and what it appends to the output is exactly `mov ebx, v0`, then
one line `add ebx, vi` or `sub ebx, vi` for each i in order, then `mov x, ebx`. -/
theorem C35_additive_assignment_code (x v0 : word_t) (ps : List (word_t × word_t))
    (rest : List word_t) (s : parser_state)
    (hx : x.key = IDENTIFIER) (hv0 : isV v0) (hps : ∀ p ∈ ps, isPlusMinus p.1 ∧ isV p.2)
    (hn : ps ≠ [])
    (hret : s.returned.key = 0) (hops : s.operators = []) (hstk : s.operands = [])
    (hregs : s.registers = ⟨false, false, false, false⟩)
    (hsrc : tokens s.src = x :: ⟨ASSIGN, "="⟩ :: v0 :: (pairs_words ps ++
      ⟨SEMICOLON, ";"⟩ :: rest)) :
    ∃ s1, translate_S s = exec.done (0, s1) ∧
      s1.out = s.out ++ (asm_line.binary "mov" "ebx" v0.value ::
        (ps.map (fun p => asm_line.binary (if p.1.value = "+" then "add" else "sub") "ebx"
          p.2.value) ++ [asm_line.binary "mov" x.value "ebx"])) := by
  have hv := view_of_fresh_state hret hops hstk hregs
  rw [hsrc] at hv
  have hw : x :: ⟨ASSIGN, "="⟩ :: v0 :: (pairs_words ps ++ ⟨SEMICOLON, ";"⟩ :: rest) =
      x :: ⟨ASSIGN, "="⟩ :: ((additive_tree v0 ps).words ++ ⟨SEMICOLON, ";"⟩ :: rest) := by
    rw [additive_tree_words]; rfl
  rw [hw] at hv
  obtain ⟨s1, hrun, h1, -⟩ := translate_S_assign x (additive_tree v0 ps) rest [] [] _ _ _ s hx
    (additive_tree_valid v0 ps hv0 hps) (by decide) (by decide) hv
  refine ⟨s1, hrun, ?_⟩
  have ho := congrArg machine.out h1
  simp only [view] at ho
  rw [ho]
  cases ps with
  | nil => exact absurd rfl hn
  | cons p ps => rw [additive_assign_code]; rfl

/-- C35 on the file of `x = a + 1 - b ;`. -/
theorem C35_additive_assignment_code_witness :
    ∃ s1, translate_S (parser_init
        [src_line.pair IDENTIFIER "x", src_line.pair ASSIGN "=", src_line.pair IDENTIFIER "a",
         src_line.pair ADD_SUB "+", src_line.pair INT "1", src_line.pair ADD_SUB "-",
         src_line.pair IDENTIFIER "b", src_line.pair SEMICOLON ";"]) = exec.done (0, s1) ∧
      s1.out = [] ++ (asm_line.binary "mov" "ebx" "a" ::
        ([asm_line.binary "add" "ebx" "1", asm_line.binary "sub" "ebx" "b"] ++
          [asm_line.binary "mov" "x" "ebx"])) :=
  C35_additive_assignment_code ⟨IDENTIFIER, "x"⟩ ⟨IDENTIFIER, "a"⟩
    [(⟨ADD_SUB, "+"⟩, ⟨INT, "1"⟩), (⟨ADD_SUB, "-"⟩, ⟨IDENTIFIER, "b"⟩)] [] _ rfl
    (Or.inl rfl)
    (by
      intro p hp
      simp only [List.mem_cons, List.mem_singleton, List.not_mem_nil, or_false] at hp
      rcases hp with rfl | rfl
      · exact ⟨⟨rfl, Or.inl rfl⟩, Or.inr rfl⟩
      · exact ⟨⟨rfl, Or.inr rfl⟩, Or.inl rfl⟩)
    (by simp) rfl rfl rfl rfl rfl

/-! ## Claim C34 -/

theorem framed_append {ids : List String} {a b : List asm_line} (ha : framed ids a)
    (hb : framed ids b) : framed ids (a ++ b) := by
  induction ha with
  | nil => exact hb
  | plain l rest hl _ ih => exact framed.plain l _ hl ih
  | by_name k x m o rest hk hm ho _ ih => exact framed.by_name k x m o _ hk hm ho ih
  | by_register k x m lit rest hk hm _ ih => exact framed.by_register k x m lit _ hk hm ih

theorem framed_plain {ids : List String} (l : asm_line) (hl : l.is_unary = false) :
    framed ids [l] := framed.plain l [] hl framed.nil

theorem fresh_cases (p : Int) : fresh p = 1 ∨ fresh p = 2 ∨ fresh p = 3 := by
  unfold fresh
  split_ifs
  · exact Or.inr (Or.inl rfl)
  · exact Or.inl rfl

theorem mem_identifiers {ws : List word_t} {v : word_t} (hv : v ∈ ws)
    (hk : v.key = IDENTIFIER) : v.value ∈ identifiers ws := by
  simp only [identifiers, List.mem_map, List.mem_filter, decide_eq_true_eq]
  exact ⟨v, ⟨hv, hk⟩, rfl⟩

/-- The code of one multiply/divide operation is framed. -/
theorem framed_mul_code {ids : List String} (k : Int) (acc m v : word_t)
    (hk : k = 1 ∨ k = 2 ∨ k = 3) (hv : isV v) (hid : v.key = IDENTIFIER → v.value ∈ ids) :
    framed ids (mul_code k acc m v) := by
  have hm : ((if m.value = "*" then "mul" else "div") = "mul" ∨
      (if m.value = "*" then "mul" else "div") = "div") := by
    split_ifs
    · exact Or.inl rfl
    · exact Or.inr rfl
  unfold mul_code
  rcases hv with hv | hv
  · have hn : ¬ v.key = INT := by rw [hv]; decide
    simp only [hn, if_false, List.append_nil, List.singleton_append]
    exact framed.by_name k _ _ _ [] hk hm (hid hv) framed.nil
  · simp only [hv, if_true, List.singleton_append, List.cons_append, List.nil_append]
    exact framed.by_register k _ _ _ [] hk hm framed.nil

theorem framed_pairs_code {ids : List String} (k : Int) (hk : k = 1 ∨ k = 2 ∨ k = 3) :
    ∀ (ps : List (word_t × word_t)) (acc : word_t),
      (∀ mv ∈ ps, isM mv.1 ∧ isV mv.2) →
      (∀ mv ∈ ps, mv.2.key = IDENTIFIER → mv.2.value ∈ ids) →
      framed ids (pairs_code k acc ps) := by
  intro ps
  induction ps with
  | nil => intro _ _ _; exact framed.nil
  | cons mv ps ih =>
    intro acc hps hid
    obtain ⟨m, v⟩ := mv
    simp only [pairs_code]
    exact framed_append
      (framed_mul_code k acc m v hk (hps (m, v) (by simp)).2 (hid (m, v) (by simp)))
      (ih _ (fun q hq => hps q (by simp [hq])) (fun q hq => hid q (by simp [hq])))

theorem framed_term_code {ids : List String} (p : Int) (t : term_t) (ht : t.valid)
    (hid : t.named ids) : framed ids (t.code p) :=
  framed_pairs_code (fresh p) (fresh_cases p) t.rest t.first ht.2 hid

theorem framed_tail_code {ids : List String} :
    ∀ (ps : List (word_t × term_t)) (c : Int) (acc : word_t),
      (∀ pt ∈ ps, isPlusMinus pt.1 ∧ pt.2.valid) → (∀ pt ∈ ps, pt.2.named ids) →
      framed ids (tail_code c acc ps) := by
  intro ps
  induction ps with
  | nil => intro _ _ _ _; exact framed.nil
  | cons pt ps ih =>
    intro c acc hps hid
    obtain ⟨pm, t⟩ := pt
    simp only [tail_code, add_code]
    refine framed_append (framed_append (framed_append
      (framed_term_code c t (hps (pm, t) (by simp)).2 (hid (pm, t) (by simp))) ?_)
      (framed_plain _ rfl))
      (ih _ _ (fun q hq => hps q (by simp [hq])) (fun q hq => hid q (by simp [hq])))
    split_ifs
    · exact framed_plain _ rfl
    · exact framed.nil

theorem mem_pairs_words {ps : List (word_t × word_t)} {mv : word_t × word_t} (h : mv ∈ ps) :
    mv.2 ∈ pairs_words ps := by
  induction ps with
  | nil => simp at h
  | cons q ps ih =>
    obtain ⟨m, v⟩ := q
    simp only [List.mem_cons] at h
    rcases h with rfl | h
    · simp [pairs_words]
    · simp [pairs_words, ih h]

theorem term_named_words (t : term_t) : t.named (identifiers t.words) := by
  intro mv hmv hk
  exact mem_identifiers (by simp [term_t.words, mem_pairs_words hmv]) hk

theorem term_named_mono {ids ids2 : List String} {t : term_t} (h : t.named ids)
    (hsub : ∀ x ∈ ids, x ∈ ids2) : t.named ids2 :=
  fun mv hmv hk => hsub _ (h mv hmv hk)

theorem identifiers_append (a b : List word_t) :
    identifiers (a ++ b) = identifiers a ++ identifiers b := by
  simp [identifiers]

theorem identifiers_cons (w : word_t) (a : List word_t) :
    ∀ x ∈ identifiers a, x ∈ identifiers (w :: a) := by
  intro x hx
  simp only [identifiers, List.mem_map, List.mem_filter, decide_eq_true_eq] at hx ⊢
  obtain ⟨v, ⟨hv, hk⟩, rfl⟩ := hx
  exact ⟨v, ⟨List.mem_cons_of_mem _ hv, hk⟩, rfl⟩

theorem tail_named_words :
    ∀ (ps : List (word_t × term_t)), ∀ pt ∈ ps, pt.2.named (identifiers (tail_words ps)) := by
  intro ps
  induction ps with
  | nil => intro pt h; simp at h
  | cons q ps ih =>
    intro pt hpt
    obtain ⟨pm, t⟩ := q
    simp only [List.mem_cons] at hpt
    rcases hpt with rfl | hpt
    · refine term_named_mono (term_named_words _) ?_
      intro x hx
      apply identifiers_cons
      rw [identifiers_append]
      exact List.mem_append_left _ hx
    · refine term_named_mono (ih pt hpt) ?_
      intro x hx
      simp only [tail_words]
      apply identifiers_cons
      rw [identifiers_append]
      exact List.mem_append_right _ hx

/-- The code of an assignment is framed, with the identifiers of its expression. -/
theorem framed_assign_code (x : word_t) (e : expr_t) (he : e.valid) :
    framed (identifiers e.words) (assign_code x e) := by
  unfold assign_code expr_t.code
  refine framed_append (framed_append (framed_term_code 0 e.first he.1 ?_)
    (framed_tail_code e.rest _ _ he.2 ?_)) (framed_plain _ rfl)
  · refine term_named_mono (term_named_words _) ?_
    intro y hy
    rw [expr_t.words, identifiers_append]
    exact List.mem_append_left _ hy
  · intro pt hpt
    refine term_named_mono (tail_named_words e.rest pt hpt) ?_
    intro y hy
    rw [expr_t.words, identifiers_append]
    exact List.mem_append_right _ hy

theorem framed_mono {ids ids2 : List String} (hsub : ∀ x ∈ ids, x ∈ ids2)
    {code : List asm_line} (h : framed ids code) : framed ids2 code := by
  induction h with
  | nil => exact framed.nil
  | plain l rest hl _ ih => exact framed.plain l _ hl ih
  | by_name k x m o rest hk hm ho _ ih => exact framed.by_name k x m o _ hk hm (hsub o ho) ih
  | by_register k x m lit rest hk hm _ ih => exact framed.by_register k x m lit _ hk hm ih

/-- C34: `mul` and `div` never get an integer literal, and stand between a move into eax
and a move out of eax. For every statement `st` of the grammar translated by `translate_S`
from a state with an empty pushback slot, empty stacks and an all-free register table, the
lines written are `framed`: the operand of every `mul`/`div` is the text of an identifier
of the statement or one of ebx, ecx, edx into which the line before has moved the operand;
before that stands a move into eax, and right after the `mul`/`div` a move of eax into one
of ebx, ecx, edx. And for every multiply/divide operation `reduce_T1` on the first operand
`acc`, the operator `m` and the second operand `v`, in a register table with eax free: the
lines written are `mov eax, acc`, the move of `v` into the free register when `v` is an
integer constant, the `mul`/`div`, and the move of eax into the free register; afterwards
eax is free and the free register is the operand pushed as the result. -/
theorem C34_mul_div_framing (st rest : List word_t) (s : parser_state)
    (hS : DerS isPlusMinus st)
    (hret : s.returned.key = 0) (hops : s.operators = []) (hstk : s.operands = [])
    (hregs : s.registers = ⟨false, false, false, false⟩)
    (hsrc : tokens s.src = st ++ rest) :
    (∃ s1 code, translate_S s = exec.done (0, s1) ∧ s1.out = s.out ++ code ∧
      framed (identifiers st) code) ∧
    ∀ (t : parser_state) (p a : Int) (acc m v : word_t),
      (p = 0 ∨ p = 1 ∨ p = 2 ∨ p = 3) → t.registers = regs_of p a →
      ((a = 0 ∧ acc.key ≠ REGISTER) ∨ (a = fresh p ∧ acc = ⟨REGISTER, reg_name (fresh p)⟩)) →
      isM m → isV v → t.operands.length < STACK_SIZE →
      ∃ t1, reduce_T1 acc (some m) (some v) t = exec.done t1 ∧
        t1.out = t.out ++ ([asm_line.binary "mov" "eax" acc.value] ++
          (if v.key = INT then [asm_line.binary "mov" (reg_name (fresh p)) v.value] else []) ++
          [asm_line.unary (if m.value = "*" then "mul" else "div")
            (if v.key = INT then reg_name (fresh p) else v.value)] ++
          [asm_line.binary "mov" (reg_name (fresh p)) "eax"]) ∧
        t1.registers.r0 = false ∧
        t1.operands = ⟨REGISTER, reg_name (fresh p)⟩ :: t.operands ∧
        (fresh p = 1 ∨ fresh p = 2 ∨ fresh p = 3) := by
  constructor
  · have hv := view_of_fresh_state hret hops hstk hregs
    rw [hsrc] at hv
    rcases hS with ⟨e, a, hE, hA, rfl⟩ | ⟨a, hA, rfl⟩
    · obtain ⟨a1, op, b1, -, hop, -, rfl⟩ := hE
      obtain ⟨x, tr, -, htr, rfl⟩ := (DerA_iff_tree a).mp hA
      have hv' : view s = ⟨⟨KEYWORD, "while"⟩ :: ⟨BRACKET_DOT, "("⟩ :: a1 :: op :: b1 ::
          ⟨BRACKET_DOT, ")"⟩ :: x :: ⟨ASSIGN, "="⟩ :: (tr.words ++ ⟨SEMICOLON, ";"⟩ :: rest),
          [], [], regs_of 0 0, s.begin_counter, s.branch_counter, s.out⟩ := by
        simpa using hv
      obtain ⟨s1, hrun, hv1, -⟩ := translate_S_while a1 op b1 x tr _ _ rest [] []
        s.begin_counter s.branch_counter s.out s hop htr (by decide) (by decide) hv'
      have ho := congrArg machine.out hv1
      simp only [view] at ho
      refine ⟨s1, _, hrun, ho, ?_⟩
      refine framed.plain _ _ rfl (framed.plain _ _ rfl (framed.plain _ _ rfl
        (framed.plain _ _ rfl (framed.plain _ _ rfl (framed_append ?_
          (framed.plain _ _ rfl (framed_plain _ rfl)))))))
      refine framed_mono ?_ (framed_assign_code x tr htr)
      intro y hy
      have h8 : ∀ (w1 w2 w3 w4 w5 w6 w7 w8 : word_t) (l : List word_t),
          y ∈ identifiers l →
          y ∈ identifiers (w1 :: w2 :: w3 :: w4 :: w5 :: w6 :: w7 :: w8 :: l) := by
        intro w1 w2 w3 w4 w5 w6 w7 w8 l h
        repeat apply identifiers_cons
        exact h
      have : y ∈ identifiers (tr.words ++ [⟨SEMICOLON, ";"⟩]) := by
        rw [identifiers_append]; exact List.mem_append_left _ hy
      simpa using h8 _ _ _ _ _ _ _ _ _ this
    · obtain ⟨x, tr, hx, htr, rfl⟩ := (DerA_iff_tree a).mp hA
      have hv' : view s = ⟨x :: ⟨ASSIGN, "="⟩ :: (tr.words ++ ⟨SEMICOLON, ";"⟩ :: rest),
          [], [], regs_of 0 0, s.begin_counter, s.branch_counter, s.out⟩ := by
        simpa using hv
      obtain ⟨s1, hrun, hv1, -⟩ := translate_S_assign x tr rest [] [] s.begin_counter
        s.branch_counter s.out s hx htr (by decide) (by decide) hv'
      have ho := congrArg machine.out hv1
      simp only [view] at ho
      refine ⟨s1, _, hrun, ho, ?_⟩
      refine framed_mono ?_ (framed_assign_code x tr htr)
      intro y hy
      have : y ∈ identifiers (tr.words ++ [⟨SEMICOLON, ";"⟩]) := by
        rw [identifiers_append]; exact List.mem_append_left _ hy
      have := identifiers_cons x _ y (identifiers_cons ⟨ASSIGN, "="⟩ _ y this)
      simpa using this
  · intro t p a acc m v hp hr hacc hm hv hlen
    refine ⟨_, reduce_T1_run t p a acc m v hp hr hacc hm hv hlen, ?_, rfl, rfl, fresh_cases p⟩
    simp only [mul_code]

theorem tree_mixed_valid : tree_mixed.valid := by
  refine ⟨⟨Or.inl rfl, ?_⟩, ?_⟩
  · intro mv hmv
    simp [tree_mixed] at hmv
    subst hmv
    exact ⟨⟨rfl, Or.inl rfl⟩, Or.inl rfl⟩
  · intro pt hpt
    simp [tree_mixed] at hpt
    subst hpt
    refine ⟨⟨rfl, Or.inr rfl⟩, Or.inr rfl, ?_⟩
    intro mv hmv
    simp at hmv
    subst hmv
    exact ⟨⟨rfl, Or.inr rfl⟩, Or.inl rfl⟩

/-- The words of the file of `x = a * b - 6 / c ;` are a statement of the grammar. -/
theorem statement_mixed : DerS isPlusMinus (tokens file_mixed) :=
  Or.inr ⟨_, (DerA_iff_tree _).mpr ⟨⟨IDENTIFIER, "x"⟩, tree_mixed, rfl, tree_mixed_valid, rfl⟩,
    by decide⟩

/-- C34 on the statement `x = a * b - 6 / c ;`. -/
theorem C34_mul_div_framing_witness :
    DerS isPlusMinus (tokens file_mixed) ∧
    ∃ s1 code, translate_S (parser_init file_mixed) = exec.done (0, s1) ∧
      s1.out = (parser_init file_mixed).out ++ code ∧
      framed (identifiers (tokens file_mixed)) code :=
  ⟨statement_mixed, (C34_mul_div_framing (tokens file_mixed) [] (parser_init file_mixed)
    statement_mixed rfl rfl rfl rfl (by rw [List.append_nil]; rfl)).1⟩

/-! ## Claim C31 -/

theorem labels_of_append (a b : List asm_line) :
    labels_of (a ++ b) = labels_of a ++ labels_of b := by
  simp [labels_of, List.filterMap_append]

theorem jumps_of_append (a b : List asm_line) :
    jumps_of (a ++ b) = jumps_of a ++ jumps_of b := by
  simp [jumps_of, List.filterMap_append]

theorem labels_of_plain (code : List asm_line) (h : ∀ l ∈ code, l.is_plain = true) :
    labels_of code = [] ∧ jumps_of code = [] := by
  induction code with
  | nil => exact ⟨rfl, rfl⟩
  | cons l code ih =>
    have hl := h l (by simp)
    obtain ⟨i1, i2⟩ := ih (fun x hx => h x (by simp [hx]))
    cases l with
    | label name n => simp [asm_line.is_plain] at hl
    | jump m t n => simp [asm_line.is_plain] at hl
    | binary m d o => exact ⟨by simpa [labels_of] using i1, by simpa [jumps_of] using i2⟩
    | unary m o => exact ⟨by simpa [labels_of] using i1, by simpa [jumps_of] using i2⟩

theorem plain_mul_code (k : Int) (acc m v : word_t) :
    ∀ l ∈ mul_code k acc m v, l.is_plain = true := by
  intro l hl
  unfold mul_code at hl
  split_ifs at hl <;> simp at hl <;> rcases hl with rfl | rfl | rfl | rfl <;> rfl

theorem plain_pairs_code (k : Int) :
    ∀ (ps : List (word_t × word_t)) (acc : word_t), ∀ l ∈ pairs_code k acc ps,
      l.is_plain = true := by
  intro ps
  induction ps with
  | nil => intro _ l hl; simp [pairs_code] at hl
  | cons mv ps ih =>
    intro acc l hl
    obtain ⟨m, v⟩ := mv
    simp only [pairs_code, List.mem_append] at hl
    rcases hl with hl | hl
    · exact plain_mul_code _ _ _ _ l hl
    · exact ih _ l hl

theorem plain_tail_code :
    ∀ (ps : List (word_t × term_t)) (c : Int) (acc : word_t), ∀ l ∈ tail_code c acc ps,
      l.is_plain = true := by
  intro ps
  induction ps with
  | nil => intro _ _ l hl; simp [tail_code] at hl
  | cons pt ps ih =>
    intro c acc l hl
    obtain ⟨pm, t⟩ := pt
    simp only [tail_code, add_code, term_t.code, List.mem_append] at hl
    rcases hl with ((hl | hl) | hl) | hl
    · exact plain_pairs_code _ _ _ l hl
    · split_ifs at hl
      · simp at hl; subst hl; rfl
      · simp at hl
    · simp at hl; subst hl; rfl
    · exact ih _ _ l hl

/-- The code of an assignment holds no label and no jump. -/
theorem plain_assign_code (x : word_t) (e : expr_t) :
    ∀ l ∈ assign_code x e, l.is_plain = true := by
  intro l hl
  simp only [assign_code, expr_t.code, term_t.code, List.mem_append] at hl
  rcases hl with (hl | hl) | hl
  · exact plain_pairs_code _ _ _ l hl
  · exact plain_tail_code _ _ _ l hl
  · simp at hl; subst hl; rfl

theorem labels_of_stmt (n : Nat) (st : stmt_t) :
    labels_of (st.code n) =
      (List.range st.loops).flatMap (fun i => [("begin", n + i + 1), ("true", n + i + 1),
        ("false", n + i + 1)]) ∧
    jumps_of (st.code n) =
      (List.range st.loops).flatMap (fun i => [("true", n + i + 1), ("false", n + i + 1),
        ("begin", n + i + 1)]) := by
  cases st with
  | assign x e =>
    simpa [stmt_t.code, stmt_t.loops] using labels_of_plain _ (plain_assign_code x e)
  | loop a op b x e =>
    obtain ⟨h1, h2⟩ := labels_of_plain _ (plain_assign_code x e)
    constructor
    · simp only [stmt_t.code, stmt_t.loops, labels_of_append, h1]
      simp [labels_of, while_head, while_foot, List.range_succ]
    · simp only [stmt_t.code, stmt_t.loops, jumps_of_append, h2]
      simp [jumps_of, while_head, while_foot, List.range_succ]

theorem range_flatMap_add {α : Type} (f : Nat → List α) (a b : Nat) :
    (List.range (a + b)).flatMap f =
      (List.range a).flatMap f ++ (List.range b).flatMap (fun i => f (a + i)) := by
  induction b with
  | zero => simp
  | succ b ih =>
    rw [← Nat.add_assoc, List.range_succ, List.flatMap_append, ih, List.range_succ,
      List.flatMap_append]
    simp

/-- The labels that the code of a list of statements defines and jumps to: those of the
loops numbered from `n + 1` on, in order. -/
theorem labels_of_program :
    ∀ (ss : List stmt_t) (n : Nat),
      labels_of (program_code n ss) =
        (List.range (program_loops ss)).flatMap (fun i => [("begin", n + i + 1),
          ("true", n + i + 1), ("false", n + i + 1)]) ∧
      jumps_of (program_code n ss) =
        (List.range (program_loops ss)).flatMap (fun i => [("true", n + i + 1),
          ("false", n + i + 1), ("begin", n + i + 1)]) := by
  intro ss
  induction ss with
  | nil => intro n; exact ⟨rfl, rfl⟩
  | cons st ss ih =>
    intro n
    obtain ⟨h1, h2⟩ := labels_of_stmt n st
    obtain ⟨i1, i2⟩ := ih (n + st.loops)
    have hc : program_loops (st :: ss) = st.loops + program_loops ss := by
      simp [program_loops, Nat.add_comm]
    constructor
    · rw [program_code, labels_of_append, h1, i1, hc, range_flatMap_add]
      simp only [Nat.add_assoc]
    · rw [program_code, jumps_of_append, h2, i2, hc, range_flatMap_add]
      simp only [Nat.add_assoc]

theorem loop_labels_nodup (k : Nat) :
    ((List.range k).flatMap (fun i => [("begin", 0 + i + 1), ("true", 0 + i + 1),
      ("false", 0 + i + 1)])).Nodup := by
  rw [List.nodup_flatMap]
  constructor
  · intro i _
    simp
  · apply List.Pairwise.imp_of_mem _ (List.nodup_range k)
    intro a b _ _ hab
    simp only [Function.onFun, List.disjoint_cons_left, List.mem_cons, Prod.mk.injEq,
      List.mem_singleton, List.disjoint_nil_left, and_true]
    refine ⟨?_, ?_, ?_⟩ <;> simp <;> omega

theorem stmt_words_ne_nil (st : stmt_t) : 0 < st.words.length := by
  cases st <;> simp [stmt_t.words]

theorem program_words_length (ss : List stmt_t) : ss.length ≤ (program_words ss).length := by
  induction ss with
  | nil => simp
  | cons st ss ih =>
    have := stmt_words_ne_nil st
    simp only [program_words, List.length_cons, List.length_append]
    omega

/-- Every statement of the grammar is the words of a valid statement tree. -/
theorem DerS_tree {st : List word_t} (h : DerS isPlusMinus st) :
    ∃ t : stmt_t, t.valid ∧ st = t.words := by
  rcases h with ⟨e, a, hE, hA, rfl⟩ | ⟨a, hA, rfl⟩
  · obtain ⟨a1, op, b1, ha1, hop, hb1, rfl⟩ := hE
    obtain ⟨x, tr, hx, htr, rfl⟩ := (DerA_iff_tree a).mp hA
    exact ⟨stmt_t.loop a1 op b1 x tr, ⟨ha1, hop, hb1, hx, htr⟩, by simp [stmt_t.words]⟩
  · obtain ⟨x, tr, hx, htr, rfl⟩ := (DerA_iff_tree a).mp hA
    exact ⟨stmt_t.assign x tr, ⟨hx, htr⟩, by simp [stmt_t.words]⟩

/-- Every program of the grammar is the words of a list of valid statement trees. -/
theorem DerProgram_trees {ts : List word_t} (h : DerProgram isPlusMinus ts) :
    ∃ ss : List stmt_t, (∀ st ∈ ss, st.valid) ∧ ts = program_words ss := by
  induction h with
  | nil => exact ⟨[], by simp, rfl⟩
  | cons st rest hst _ ih =>
    obtain ⟨ss, hss, rfl⟩ := ih
    obtain ⟨t, ht, rfl⟩ := DerS_tree hst
    refine ⟨t :: ss, ?_, rfl⟩
    intro q hq
    simp only [List.mem_cons] at hq
    rcases hq with rfl | hq
    · exact ht
    · exact hss q hq

/-- The loop of `do_parse` on the words of a list of valid statements: it translates them
all, the two label counters going up by one at every `while`, and returns at the end of
the words. -/
theorem parse_loop_run :
    ∀ (ss : List stmt_t) (fuel : Nat) (s : parser_state) (n : Nat) (o : List asm_line),
      (∀ st ∈ ss, st.valid) →
      view s = ⟨program_words ss, [], [], regs_of 0 0, n, n, o⟩ →
      ss.length < fuel →
      ∃ s1, parse_loop fuel s = exec.done s1 ∧
        view s1 = ⟨[], [], [], regs_of 0 0, n + program_loops ss, n + program_loops ss,
          o ++ program_code n ss⟩ := by
  intro ss
  induction ss with
  | nil =>
    intro fuel s n o _ hv hlen
    cases fuel with
    | zero => simp at hlen
    | succ f =>
      simp only [view, machine.mk.injEq, program_words] at hv
      obtain ⟨hp, h1, h2, h3, h4, h5, h6⟩ := hv
      obtain ⟨s1, hgw, hp1, -, -, m1, m2, m3, m4, m5, m6⟩ := get_word_nil hp
      refine ⟨s1, by simp [parse_loop, translate_S, hgw, exec.bind], ?_⟩
      simp only [view, machine.mk.injEq, program_loops, program_code, List.append_nil,
        Nat.add_zero]
      exact ⟨hp1, m1.trans h1, m2.trans h2, m3.trans h3, m4.trans h4, m5.trans h5, m6.trans h6⟩
  | cons st ss ih =>
    intro fuel s n o hval hv hlen
    cases fuel with
    | zero => simp at hlen
    | succ f =>
      have hst := hval st (by simp)
      have hss : ∀ q ∈ ss, q.valid := fun q hq => hval q (by simp [hq])
      have hf : ss.length < f := by simpa using hlen
      cases st with
      | assign x e =>
        obtain ⟨hx, he⟩ := hst
        have hv' : view s = ⟨x :: ⟨ASSIGN, "="⟩ :: (e.words ++ ⟨SEMICOLON, ";"⟩ ::
            program_words ss), [], [], regs_of 0 0, n, n, o⟩ := by
          simpa [program_words, stmt_t.words] using hv
        obtain ⟨s1, hrun, h1, -⟩ := translate_S_assign x e _ [] [] n n o s hx he
          (by decide) (by decide) hv'
        obtain ⟨s2, hloop, h2⟩ := ih f s1 n _ hss h1 hf
        refine ⟨s2, by simp [parse_loop, hrun, exec.bind, hloop], ?_⟩
        rw [h2]
        simp [program_loops, program_code, stmt_t.loops, stmt_t.code]
      | loop a op b x e =>
        obtain ⟨-, hop, -, -, he⟩ := hst
        have hv' : view s = ⟨⟨KEYWORD, "while"⟩ :: ⟨BRACKET_DOT, "("⟩ :: a :: op :: b ::
            ⟨BRACKET_DOT, ")"⟩ :: x :: ⟨ASSIGN, "="⟩ :: (e.words ++ ⟨SEMICOLON, ";"⟩ ::
            program_words ss), [], [], regs_of 0 0, n, n, o⟩ := by
          simpa [program_words, stmt_t.words] using hv
        obtain ⟨s1, hrun, h1, -⟩ := translate_S_while a op b x e _ _ _ [] [] n n o s hop he
          (by decide) (by decide) hv'
        obtain ⟨s2, hloop, h2⟩ := ih f s1 (n + 1) _ hss h1 hf
        refine ⟨s2, by simp [parse_loop, hrun, exec.bind, hloop], ?_⟩
        rw [h2]
        simp [program_loops, program_code, stmt_t.loops, stmt_t.code, while_head, while_foot]
        omega

theorem program_loops_append (pre post : List stmt_t) :
    program_loops (pre ++ post) = program_loops pre + program_loops post := by
  induction pre with
  | nil => simp [program_loops]
  | cons st pre ih =>
    rw [List.cons_append, program_loops, program_loops, ih]
    omega

/-- The code of a list of statements, around one of them. -/
theorem program_code_append (pre : List stmt_t) :
    ∀ (n : Nat) (post : List stmt_t),
      program_code n (pre ++ post) =
        program_code n pre ++ program_code (n + program_loops pre) post := by
  induction pre with
  | nil => intro n post; simp [program_code, program_loops]
  | cons st pre ih =>
    intro n post
    rw [List.cons_append, program_code, program_code, program_loops, ih, List.append_assoc,
      Nat.add_assoc, Nat.add_comm st.loops]

/-- The file of `while ( i < 10 ) i = i + 1 ;` holds a statement of the grammar. -/
theorem statement_while : DerS isPlusMinus (tokens file_while) := by
  have hwf : tree_increment.valid := by
    refine ⟨⟨Or.inl rfl, by intro mv hmv; simp [tree_increment] at hmv⟩, ?_⟩
    intro pt hpt
    simp [tree_increment] at hpt
    subst hpt
    exact ⟨⟨rfl, Or.inl rfl⟩, Or.inr rfl, by intro mv hmv; simp at hmv⟩
  have hA : DerA isPlusMinus (⟨IDENTIFIER, "i"⟩ :: ⟨ASSIGN, "="⟩ :: tree_increment.words) :=
    (DerA_iff_tree _).mpr ⟨⟨IDENTIFIER, "i"⟩, tree_increment, rfl, hwf, rfl⟩
  have hE : DerE [⟨IDENTIFIER, "i"⟩, ⟨COMPARE, "<"⟩, ⟨INT, "10"⟩] :=
    ⟨_, _, _, Or.inl rfl, ⟨rfl, Or.inl rfl⟩, Or.inr rfl, rfl⟩
  exact Or.inl ⟨_, _, hE, hA, by decide⟩

/-- The file of a loop and an assignment holds a program of the grammar. -/
theorem program_loop_assign : DerProgram isPlusMinus (tokens file_loop_assign) := by
  have h : tokens file_loop_assign = tokens file_while ++ (tokens file_mixed ++ []) := by
    decide
  rw [h]
  exact DerProgram.cons _ _ statement_while (DerProgram.cons _ _ statement_mixed DerProgram.nil)

/-- C31: the labels of the loops. For every file whose words are a program of the grammar,
`do_parse` started with an empty pushback slot, empty stacks, an all-free register table
and both label counters at 0 returns, having written the code of the statements in source
order, both counters standing at the number of `while` statements. The labels defined are
`begin_k`, `true_k`, `false_k` for k = 1, 2, .. in this order, none of them twice, and the
jumps go to `true_k`, `false_k`, `begin_k` in this order. For each statement of the
program, the code is written with the counters at the number of `while` statements before
it: an assignment defines no label, has no jump and leaves the counters; the k-th `while`
statement defines and jumps to the labels of the number k only. -/
theorem C31_label_numbering (all : List src_line) (s0 : parser_state)
    (hprog : DerProgram isPlusMinus (tokens all))
    (hret : s0.returned.key = 0) (hops : s0.operators = []) (hstk : s0.operands = [])
    (hregs : s0.registers = ⟨false, false, false, false⟩)
    (hb : s0.begin_counter = 0) (hbr : s0.branch_counter = 0) :
    ∃ ss s1 code, (∀ st ∈ ss, st.valid) ∧ tokens all = program_words ss ∧
      do_parse all s0 = exec.done s1 ∧ s1.out = s0.out ++ code ∧ code = program_code 0 ss ∧
      s1.begin_counter = program_loops ss ∧ s1.branch_counter = program_loops ss ∧
      labels_of code = (List.range (program_loops ss)).flatMap (fun i =>
        [("begin", 0 + i + 1), ("true", 0 + i + 1), ("false", 0 + i + 1)]) ∧
      (labels_of code).Nodup ∧
      jumps_of code = (List.range (program_loops ss)).flatMap (fun i =>
        [("true", 0 + i + 1), ("false", 0 + i + 1), ("begin", 0 + i + 1)]) ∧
      ∀ pre st post, ss = pre ++ st :: post →
        code = program_code 0 pre ++ (st.code (program_loops pre) ++
          program_code (program_loops pre + st.loops) post) ∧
        (st.loops = 0 → labels_of (st.code (program_loops pre)) = [] ∧
          jumps_of (st.code (program_loops pre)) = []) ∧
        (st.loops = 1 →
          labels_of (st.code (program_loops pre)) =
            [("begin", program_loops pre + 1), ("true", program_loops pre + 1),
             ("false", program_loops pre + 1)] ∧
          jumps_of (st.code (program_loops pre)) =
            [("true", program_loops pre + 1), ("false", program_loops pre + 1),
             ("begin", program_loops pre + 1)]) := by
  obtain ⟨ss, hss, hw⟩ := DerProgram_trees hprog
  have hv : view (rewind all s0) = ⟨program_words ss, [], [], regs_of 0 0, 0, 0, s0.out⟩ := by
    have := view_of_fresh_state (s := rewind all s0) hret hops hstk hregs
    rw [this, ← hw]
    simp [rewind, hb, hbr]
  have hlen : ss.length < budget (rewind all s0) := by
    have h1 := program_words_length ss
    have h2 := tokens_length all
    rw [hw] at h2
    simp only [budget, rewind]
    omega
  obtain ⟨s1, hrun, h1⟩ := parse_loop_run ss _ _ 0 s0.out hss hv hlen
  simp only [view, machine.mk.injEq, Nat.zero_add] at h1
  obtain ⟨-, -, -, -, k4, k5, k6⟩ := h1
  obtain ⟨hl, hj⟩ := labels_of_program ss 0
  refine ⟨ss, s1, program_code 0 ss, hss, hw, hrun, k6, rfl, k4, k5, hl, ?_, hj, ?_⟩
  · rw [hl]; exact loop_labels_nodup _
  · intro pre st post hsplit
    have hc := program_code_append pre 0 (st :: post)
    simp only [Nat.zero_add, program_code] at hc
    refine ⟨by rw [hsplit]; exact hc, ?_, ?_⟩
    · intro h0
      have := labels_of_stmt (program_loops pre) st
      simpa [h0] using this
    · intro h1
      have := labels_of_stmt (program_loops pre) st
      simpa [h1, List.range_succ] using this

/-- C31 on the file of `while ( i < 10 ) i = i + 1 ; x = a * b - 6 / c ;`. -/
theorem C31_label_numbering_witness :
    DerProgram isPlusMinus (tokens file_loop_assign) ∧
    ∃ ss s1 code, (∀ st ∈ ss, st.valid) ∧ tokens file_loop_assign = program_words ss ∧
      do_parse file_loop_assign (parser_init file_loop_assign) = exec.done s1 ∧
      s1.out = (parser_init file_loop_assign).out ++ code ∧ code = program_code 0 ss ∧
      s1.begin_counter = program_loops ss ∧ s1.branch_counter = program_loops ss ∧
      labels_of code = (List.range (program_loops ss)).flatMap (fun i =>
        [("begin", 0 + i + 1), ("true", 0 + i + 1), ("false", 0 + i + 1)]) ∧
      (labels_of code).Nodup ∧
      jumps_of code = (List.range (program_loops ss)).flatMap (fun i =>
        [("true", 0 + i + 1), ("false", 0 + i + 1), ("begin", 0 + i + 1)]) ∧
      ∀ pre st post, ss = pre ++ st :: post →
        code = program_code 0 pre ++ (st.code (program_loops pre) ++
          program_code (program_loops pre + st.loops) post) ∧
        (st.loops = 0 → labels_of (st.code (program_loops pre)) = [] ∧
          jumps_of (st.code (program_loops pre)) = []) ∧
        (st.loops = 1 →
          labels_of (st.code (program_loops pre)) =
            [("begin", program_loops pre + 1), ("true", program_loops pre + 1),
             ("false", program_loops pre + 1)] ∧
          jumps_of (st.code (program_loops pre)) =
            [("true", program_loops pre + 1), ("false", program_loops pre + 1),
             ("begin", program_loops pre + 1)]) :=
  ⟨program_loop_assign, C31_label_numbering file_loop_assign (parser_init file_loop_assign)
    program_loop_assign rfl rfl rfl rfl rfl rfl⟩

/-! ## The translators under watch

Each watched translator is done only if no push, pop or allocation in it went beyond the
bounds; whenever it is done, the translator itself is done with the same state. -/

theorem refines_refl {α : Type} (a : exec α) : refines a a := fun _ h => h

theorem refines_undefined {α : Type} (b : exec α) : refines exec.undefined b := by
  intro r h; cases h

theorem refines_bind {α β : Type} {a b : exec α} {f g : α → exec β} (h : refines a b)
    (hf : ∀ x, refines (f x) (g x)) : refines (a.bind f) (b.bind g) := by
  intro r hr
  cases a with
  | done x =>
    rw [h x rfl]
    exact hf x r hr
  | undefined => simp [exec.bind] at hr
  | starved => simp [exec.bind] at hr

/-- A watched step against the unwatched one, whose result is used as it is. -/
theorem refines_step {α β : Type} {a : exec α} {v : α} {f : α → exec β} {b : exec β}
    (h : refines a (exec.done v)) (hf : refines (f v) b) : refines (a.bind f) b := by
  intro r hr
  cases a with
  | done x =>
    have hx := h x rfl
    simp only [exec.done.injEq] at hx
    subst hx
    exact hf r hr
  | undefined => simp [exec.bind] at hr
  | starved => simp [exec.bind] at hr

theorem refines_ite {α : Type} {c : Prop} [Decidable c] {a1 a2 b1 b2 : exec α}
    (h1 : refines a1 b1) (h2 : refines a2 b2) :
    refines (if c then a1 else a2) (if c then b1 else b2) := by
  split_ifs
  · exact h1
  · exact h2

theorem strict_push_operand_refines (w : word_t) (s : parser_state) :
    refines (strict_push_operand w s) (exec.done (push_operand w s)) := by
  unfold strict_push_operand
  split_ifs
  · exact refines_refl _
  · exact refines_undefined _

theorem strict_push_operator_refines (w : word_t) (s : parser_state) :
    refines (strict_push_operator w s) (exec.done (push_operator w s)) := by
  unfold strict_push_operator
  split_ifs
  · exact refines_refl _
  · exact refines_undefined _

theorem strict_pop_operand_refines (s : parser_state) :
    refines (strict_pop_operand s) (exec.done (pop_operand s)) := by
  unfold strict_pop_operand
  split_ifs
  · exact refines_undefined _
  · exact refines_refl _

theorem strict_pop_operator_refines (s : parser_state) :
    refines (strict_pop_operator s) (exec.done (pop_operator s)) := by
  unfold strict_pop_operator
  split_ifs
  · exact refines_undefined _
  · exact refines_refl _

theorem strict_alloc_register_refines (s : parser_state) :
    refines (strict_alloc_register s) (exec.done (alloc_register s)) := by
  unfold strict_alloc_register
  split_ifs
  · exact refines_refl _
  · exact refines_undefined _

theorem strict_alloc_accumulator_refines (s : parser_state) :
    refines (strict_alloc_accumulator s) (exec.done (alloc_accumulator s)) := by
  unfold strict_alloc_accumulator
  split_ifs
  · exact refines_undefined _
  · exact refines_refl _

theorem strict_translate_V_refines (s : parser_state) :
    refines (strict_translate_V s) (exec.done (translate_V s)) := by
  unfold strict_translate_V translate_V
  exact strict_push_operand_refines _ _

theorem strict_translate_O_P_M_refines (s : parser_state) :
    refines (strict_translate_O_P_M s) (exec.done (translate_O_P_M s)) := by
  unfold strict_translate_O_P_M translate_O_P_M
  exact strict_push_operator_refines _ _

theorem strict_reduce_T1_refines (word : word_t) (w2 w3 : Option word_t) (s : parser_state) :
    refines (strict_reduce_T1 word w2 w3 s) (reduce_T1 word w2 w3 s) := by
  unfold strict_reduce_T1 reduce_T1
  refine refines_bind ?_ ?_
  · refine refines_ite ?_ (refines_refl _)
    refine refines_step (strict_alloc_accumulator_refines s) ?_
    exact refines_refl _
  · intro x1
    dsimp only
    refine refines_bind (refines_refl _) ?_
    intro word3
    refine refines_bind ?_ ?_
    · refine refines_ite ?_ (refines_refl _)
      refine refines_step (strict_alloc_register_refines _) ?_
      exact refines_refl _
    · intro x2
      dsimp only
      refine refines_bind (refines_refl _) ?_
      intro word2
      dsimp only
      refine refines_step (strict_alloc_register_refines _) ?_
      dsimp only
      refine refines_bind (refines_refl _) ?_
      intro name
      dsimp only
      refine refines_bind (refines_refl _) ?_
      intro s4
      exact strict_push_operand_refines _ _

theorem strict_translate_T1_refines :
    ∀ (fuel : Nat) (s : parser_state),
      refines (strict_translate_T1 fuel s) (translate_T1 fuel s) := by
  intro fuel
  induction fuel with
  | zero => intro s; exact refines_refl _
  | succ n ih =>
    intro s
    unfold strict_translate_T1 translate_T1
    dsimp only
    refine refines_ite ?_ (refines_refl _)
    refine refines_step (strict_translate_O_P_M_refines _) ?_
    refine refines_step (strict_translate_V_refines _) ?_
    refine refines_step (strict_pop_operand_refines _) ?_
    dsimp only
    refine refines_step (strict_pop_operator_refines _) ?_
    dsimp only
    refine refines_step (strict_pop_operand_refines _) ?_
    dsimp only
    exact refines_bind (strict_reduce_T1_refines _ _ _ _) (fun x => ih x)

theorem strict_translate_T_refines (s : parser_state) :
    refines (strict_translate_T s) (translate_T s) := by
  unfold strict_translate_T translate_T
  exact refines_step (strict_translate_V_refines _) (strict_translate_T1_refines _ _)

theorem strict_reduce_C1_refines (word : word_t) (w2 w3 : Option word_t) (s : parser_state) :
    refines (strict_reduce_C1 word w2 w3 s) (reduce_C1 word w2 w3 s) := by
  unfold strict_reduce_C1 reduce_C1
  refine refines_bind ?_ ?_
  · refine refines_ite ?_ (refines_refl _)
    refine refines_step (strict_alloc_register_refines s) ?_
    exact refines_refl _
  · intro x1
    dsimp only
    refine refines_bind (refines_refl _) ?_
    intro word2
    refine refines_bind (refines_refl _) ?_
    intro word3
    dsimp only
    exact strict_push_operand_refines _ _

theorem strict_translate_C1_refines :
    ∀ (fuel : Nat) (s : parser_state),
      refines (strict_translate_C1 fuel s) (translate_C1 fuel s) := by
  intro fuel
  induction fuel with
  | zero => intro s; exact refines_refl _
  | succ n ih =>
    intro s
    unfold strict_translate_C1 translate_C1
    dsimp only
    refine refines_ite ?_ (refines_refl _)
    refine refines_step (strict_translate_O_P_M_refines _) ?_
    refine refines_bind (strict_translate_T_refines _) ?_
    intro s2
    refine refines_step (strict_pop_operand_refines _) ?_
    dsimp only
    refine refines_step (strict_pop_operator_refines _) ?_
    dsimp only
    refine refines_step (strict_pop_operand_refines _) ?_
    dsimp only
    exact refines_bind (strict_reduce_C1_refines _ _ _ _) (fun x => ih x)

theorem strict_translate_C_refines (s : parser_state) :
    refines (strict_translate_C s) (translate_C s) := by
  unfold strict_translate_C translate_C
  exact refines_bind (strict_translate_T_refines _) (fun x => strict_translate_C1_refines _ x)

theorem strict_translate_A_refines (s : parser_state) :
    refines (strict_translate_A s) (translate_A s) := by
  unfold strict_translate_A translate_A
  dsimp only
  refine refines_bind (strict_translate_C_refines _) ?_
  intro s2
  refine refines_step (strict_pop_operand_refines _) ?_
  exact refines_refl _

theorem strict_translate_E_refines (s : parser_state) :
    refines (strict_translate_E s) (translate_E s) := by
  unfold strict_translate_E translate_E
  refine refines_step (strict_translate_V_refines _) ?_
  refine refines_step (strict_translate_O_P_M_refines _) ?_
  refine refines_step (strict_translate_V_refines _) ?_
  refine refines_step (strict_pop_operand_refines _) ?_
  dsimp only
  refine refines_step (strict_pop_operand_refines _) ?_
  exact refines_refl _

theorem strict_translate_S_refines (s : parser_state) :
    refines (strict_translate_S s) (translate_S s) := by
  unfold strict_translate_S translate_S
  dsimp only
  refine refines_ite (refines_refl _) ?_
  refine refines_bind ?_ ?_
  · refine refines_ite ?_ (refines_refl _)
    refine refines_bind (strict_translate_E_refines _) ?_
    intro s2
    dsimp only
    refine refines_step (strict_pop_operator_refines _) ?_
    exact refines_refl _
  · intro x
    exact refines_bind (strict_translate_A_refines _) (fun y => refines_refl _)

theorem strict_parse_loop_refines :
    ∀ (fuel : Nat) (s : parser_state),
      refines (strict_parse_loop fuel s) (parse_loop fuel s) := by
  intro fuel
  induction fuel with
  | zero => intro s; exact refines_refl _
  | succ n ih =>
    intro s
    unfold strict_parse_loop parse_loop
    refine refines_bind (strict_translate_S_refines _) ?_
    intro x
    exact refines_ite (refines_refl _) (ih _)

/-- Whenever the watched `do_parse` is done, `do_parse` is done with the same state. -/
theorem strict_do_parse_refines (all : List src_line) (s : parser_state) :
    refines (strict_do_parse all s) (do_parse all s) :=
  strict_parse_loop_refines _ _

theorem view_of_shape {s : parser_state} {pd ops stk : List word_t} {r : reg_table}
    (h : shape s = (pd, ops, stk, r)) :
    view s = ⟨pd, ops, stk, r, s.begin_counter, s.branch_counter, s.out⟩ := by
  simp only [shape, Prod.mk.injEq] at h
  obtain ⟨h1, h2, h3, h4⟩ := h
  simp only [view, machine.mk.injEq]
  exact ⟨h1, h2, h3, h4, trivial, trivial, trivial⟩

theorem shape_of_view {s : parser_state} {pd ops stk : List word_t} {r : reg_table}
    {b br : Nat} {o : List asm_line} (h : view s = ⟨pd, ops, stk, r, b, br, o⟩) :
    shape s = (pd, ops, stk, r) := by
  simp only [view, machine.mk.injEq] at h
  obtain ⟨h1, h2, h3, h4, -⟩ := h
  simp only [shape, Prod.mk.injEq]
  exact ⟨h1, h2, h3, h4⟩

theorem get_word_shape {s : parser_state} {t : word_t} {ts ops stk : List word_t}
    {r : reg_table} (h : shape s = (t :: ts, ops, stk, r)) :
    ∃ s1, get_word s = (t, s1) ∧ shape s1 = (ts, ops, stk, r) ∧ s1.returned.key = 0 := by
  obtain ⟨s1, hg, hv, hr⟩ := get_word_view (view_of_shape h)
  exact ⟨s1, hg, shape_of_view hv, hr⟩

theorem peek_shape {s : parser_state} {t : word_t} {ts ops stk : List word_t}
    {r : reg_table} (h : shape s = (t :: ts, ops, stk, r)) (ht : t.key ≠ 0) :
    ∃ s1, get_word s = (t, s1) ∧ shape (return_word t s1) = (t :: ts, ops, stk, r) := by
  obtain ⟨s1, hg, hv⟩ := peek_view (view_of_shape h) ht
  exact ⟨s1, hg, shape_of_view hv⟩

theorem strict_translate_V_shape {s : parser_state} {t : word_t} {ts ops stk : List word_t}
    {r : reg_table} (h : shape s = (t :: ts, ops, stk, r)) (hlen : stk.length < 3) :
    ∃ s1, strict_translate_V s = exec.done s1 ∧ shape s1 = (ts, ops, t :: stk, r) := by
  have hv := translate_V_view (view_of_shape h) (by have : STACK_SIZE = 512 := rfl; omega)
  obtain ⟨s1, hg, h1, -⟩ := get_word_shape h
  simp only [shape, Prod.mk.injEq] at h1
  refine ⟨translate_V s, ?_, shape_of_view hv⟩
  simp [strict_translate_V, translate_V, hg, strict_push_operand, h1.2.2.1, hlen]

theorem strict_translate_O_P_M_shape {s : parser_state} {t : word_t}
    {ts ops stk : List word_t} {r : reg_table} (h : shape s = (t :: ts, ops, stk, r))
    (hlen : ops.length < 2) :
    ∃ s1, strict_translate_O_P_M s = exec.done s1 ∧ shape s1 = (ts, t :: ops, stk, r) := by
  have hv := translate_O_P_M_view (view_of_shape h) (by have : STACK_SIZE = 512 := rfl; omega)
  obtain ⟨s1, hg, h1, -⟩ := get_word_shape h
  simp only [shape, Prod.mk.injEq] at h1
  refine ⟨translate_O_P_M s, ?_, shape_of_view hv⟩
  simp [strict_translate_O_P_M, translate_O_P_M, hg, strict_push_operator, h1.2.1, hlen]

theorem strict_pop_operand_shape {s : parser_state} {w : word_t} {pd ops stk : List word_t}
    {r : reg_table} (h : shape s = (pd, ops, w :: stk, r)) :
    ∃ s1, strict_pop_operand s = exec.done (some w, s1) ∧ shape s1 = (pd, ops, stk, r) := by
  obtain ⟨s1, hp, hv⟩ := pop_operand_view (view_of_shape h)
  simp only [shape, Prod.mk.injEq] at h
  exact ⟨s1, by simp [strict_pop_operand, h.2.2.1, hp], shape_of_view hv⟩

theorem strict_pop_operator_shape {s : parser_state} {w : word_t} {pd ops stk : List word_t}
    {r : reg_table} (h : shape s = (pd, w :: ops, stk, r)) :
    ∃ s1, strict_pop_operator s = exec.done (some w, s1) ∧ shape s1 = (pd, ops, stk, r) := by
  obtain ⟨s1, hp, hv⟩ := pop_operator_view (view_of_shape h)
  simp only [shape, Prod.mk.injEq] at h
  exact ⟨s1, by simp [strict_pop_operator, h.2.1, hp], shape_of_view hv⟩

/-- The multiply/divide operation under watch: no allocation fails, and the registers are
left as by `reduce_T1`. -/
theorem strict_reduce_T1_run (s : parser_state) (p a : Int) (acc m v : word_t)
    (hp : p = 0 ∨ p = 1 ∨ p = 2 ∨ p = 3)
    (hregs : s.registers = regs_of p a)
    (hacc : (a = 0 ∧ acc.key ≠ REGISTER) ∨ (a = fresh p ∧ acc = ⟨REGISTER, reg_name (fresh p)⟩))
    (hm : isM m) (hv : isV v)
    (hlen : s.operands.length < 3) :
    strict_reduce_T1 acc (some m) (some v) s = exec.done
      { s with registers := regs_of p (fresh p),
               operands := ⟨REGISTER, reg_name (fresh p)⟩ :: s.operands,
               out := s.out ++ mul_code (fresh p) acc m v } := by
  have hlen' : ¬ s.operands.length = STACK_SIZE := by
    have : STACK_SIZE = 512 := rfl
    omega
  obtain ⟨hmk, hmv⟩ := hm
  rcases hacc with ⟨rfl, hk⟩ | ⟨rfl, rfl⟩
  · rcases hp with rfl | rfl | rfl | rfl <;>
    rcases hv with hv | hv <;>
    rcases hmv with hmv | hmv <;>
    simp [strict_reduce_T1, strict_alloc_accumulator, strict_alloc_register, busy_count,
      strict_push_operand, hlen,
      hregs, regs_of, fresh, reg_name, get_register_name, get_register_no,
      alloc_accumulator, alloc_register, free_register, register_name, popped, emit,
      push_operand, mul_code, exec.bind, hk, hv, hmk, hmv, hlen', INT_ne_REGISTER,
      IDENTIFIER_ne_REGISTER, IDENTIFIER_ne_INT]
  · rcases hp with rfl | rfl | rfl | rfl <;>
    rcases hv with hv | hv <;>
    rcases hmv with hmv | hmv <;>
    simp [strict_reduce_T1, strict_alloc_accumulator, strict_alloc_register, busy_count,
      strict_push_operand, hlen,
      hregs, regs_of, fresh, reg_name, get_register_name, get_register_no,
      alloc_accumulator, alloc_register, free_register, register_name, popped, emit,
      push_operand, mul_code, exec.bind, hv, hmk, hmv, hlen', INT_ne_REGISTER,
      IDENTIFIER_ne_REGISTER, IDENTIFIER_ne_INT]

theorem strict_reduce_T1_shape {s : parser_state} {p a : Int} {acc m v : word_t}
    {pd ops stk : List word_t}
    (h : shape s = (pd, ops, stk, regs_of p a))
    (hp : p = 0 ∨ p = 1 ∨ p = 2 ∨ p = 3)
    (hacc : (a = 0 ∧ acc.key ≠ REGISTER) ∨ (a = fresh p ∧ acc = ⟨REGISTER, reg_name (fresh p)⟩))
    (hm : isM m) (hv : isV v) (hlen : stk.length < 3) :
    ∃ s1, strict_reduce_T1 acc (some m) (some v) s = exec.done s1 ∧
      shape s1 = (pd, ops, ⟨REGISTER, reg_name (fresh p)⟩ :: stk, regs_of p (fresh p)) := by
  simp only [shape, Prod.mk.injEq] at h
  obtain ⟨h1, h2, h3, h4⟩ := h
  refine ⟨_, strict_reduce_T1_run s p a acc m v hp h4 hacc hm hv (by rw [h3]; exact hlen), ?_⟩
  simp only [shape, Prod.mk.injEq]
  exact ⟨by simpa [pending] using h1, h2, by rw [h3], trivial⟩

/-- `translate_T1` under watch on the pairs M V of a term. -/
theorem strict_translate_T1_shape (p : Int) (hp : p = 0 ∨ p = 1 ∨ p = 2 ∨ p = 3)
    (rest ops stk : List word_t)
    (hstop : stops MUL_DIV MUL_DIV rest) (hops : ops.length < 2)
    (hstk : stk.length + 1 < 3) :
    ∀ (ps : List (word_t × word_t)) (fuel : Nat) (s : parser_state) (acc : word_t) (a : Int),
      (∀ mv ∈ ps, isM mv.1 ∧ isV mv.2) →
      shape s = (pairs_words ps ++ rest, ops, acc :: stk, regs_of p a) →
      ((a = 0 ∧ acc.key ≠ REGISTER) ∨ (a = fresh p ∧ acc = ⟨REGISTER, reg_name (fresh p)⟩)) →
      (pairs_words ps ++ rest).length < fuel →
      ∃ s1, strict_translate_T1 fuel s = exec.done s1 ∧
        shape s1 = (rest, ops, pairs_result (fresh p) acc ps :: stk,
          regs_of p (pairs_reg a (fresh p) ps)) := by
  intro ps
  induction ps with
  | nil =>
    intro fuel s acc a _ hv _ hlen
    cases fuel with
    | zero => simp at hlen
    | succ n =>
      obtain ⟨w, ws, rfl, hw0, hwk, -⟩ := hstop
      have hv' : shape s = (w :: ws, ops, acc :: stk, regs_of p a) := by
        simpa [pairs_words] using hv
      obtain ⟨s1, hg, hback⟩ := peek_shape hv' hw0
      exact ⟨return_word w s1, by simp [strict_translate_T1, hg, hwk],
        by simpa [pairs_result, pairs_reg] using hback⟩
  | cons mv ps ih =>
    intro fuel s acc a hwf hv hacc hlen
    obtain ⟨m, v⟩ := mv
    cases fuel with
    | zero => simp at hlen
    | succ n =>
      have hm : isM m := (hwf (m, v) (by simp)).1
      have hvk : isV v := (hwf (m, v) (by simp)).2
      have hm0 : m.key ≠ 0 := by rw [hm.1]; decide
      have hv' : shape s = (m :: v :: (pairs_words ps ++ rest), ops, acc :: stk,
          regs_of p a) := by
        simpa [pairs_words] using hv
      obtain ⟨s1, hg, hback⟩ := peek_shape hv' hm0
      obtain ⟨s2, hO, h2⟩ := strict_translate_O_P_M_shape hback hops
      obtain ⟨s3, hV, h3⟩ := strict_translate_V_shape h2 (by simpa using hstk)
      obtain ⟨s4, hpop3, h4⟩ := strict_pop_operand_shape h3
      obtain ⟨s5, hpop2, h5⟩ := strict_pop_operator_shape h4
      obtain ⟨s6, hpop1, h6⟩ := strict_pop_operand_shape h5
      obtain ⟨s7, hred, h7⟩ := strict_reduce_T1_shape h6 hp hacc hm hvk (by omega)
      have hlen' : (pairs_words ps ++ rest).length < n := by
        simp [pairs_words] at hlen ⊢; omega
      obtain ⟨s8, hrun, h8⟩ := ih n s7 ⟨REGISTER, reg_name (fresh p)⟩ (fresh p)
        (fun x hx => hwf x (by simp [hx])) h7 (Or.inr ⟨rfl, rfl⟩) hlen'
      refine ⟨s8, ?_, ?_⟩
      · simp [strict_translate_T1, hg, hm.1, hO, hV, hpop3, hpop2, hpop1, hred, exec.bind, hrun]
      · rw [h8]
        cases ps <;> simp [pairs_result, pairs_reg]

/-- `translate_T` under watch on a term. -/
theorem strict_translate_T_shape (p : Int) (hp : p = 0 ∨ p = 1 ∨ p = 2 ∨ p = 3)
    (t : term_t) (rest ops stk : List word_t) (s : parser_state)
    (hwf : t.valid)
    (hstop : stops MUL_DIV MUL_DIV rest) (hops : ops.length < 2)
    (hstk : stk.length + 1 < 3)
    (hv : shape s = (t.words ++ rest, ops, stk, regs_of p 0)) :
    ∃ s1, strict_translate_T s = exec.done s1 ∧
      shape s1 = (rest, ops, t.result p :: stk, regs_of p (t.reg p)) := by
  have hv' : shape s = (t.first :: (pairs_words t.rest ++ rest), ops, stk, regs_of p 0) := by
    simpa [term_t.words] using hv
  obtain ⟨s1, hV, h1⟩ := strict_translate_V_shape hv' (by omega)
  have hk : t.first.key ≠ REGISTER := by
    rcases hwf.1 with h | h <;> rw [h] <;> decide
  have hlen : (pairs_words t.rest ++ rest).length < budget s1 := by
    have := pending_length s1
    have hpd : pending s1 = pairs_words t.rest ++ rest := by
      have := congrArg Prod.fst h1
      simpa [shape] using this
    rw [hpd] at this
    exact this
  obtain ⟨s2, hrun, h2⟩ := strict_translate_T1_shape p hp rest ops stk hstop hops hstk t.rest
    (budget s1) s1 t.first 0 hwf.2 h1 (Or.inl ⟨rfl, hk⟩) hlen
  exact ⟨s2, by simp [strict_translate_T, hV, exec.bind, hrun],
    by simpa [term_t.result, term_t.reg] using h2⟩

/-- The add/subtract operation under watch, for any operator word of the key ADD_SUB: no
allocation fails, and the sum is left in a register on the stack. -/
theorem strict_reduce_C1_run (s : parser_state) (c rt : Int) (acc pm w3 : word_t)
    (hregs : s.registers = regs_of c rt)
    (hacc : (c = 0 ∧ acc.key ≠ REGISTER) ∨
      ((c = 1 ∨ c = 2 ∨ c = 3) ∧ acc = ⟨REGISTER, reg_name c⟩))
    (hw3 : (rt = 0 ∧ w3.key ≠ REGISTER) ∨ (rt = fresh c ∧ w3 = ⟨REGISTER, reg_name (fresh c)⟩))
    (hpm : isAddSub pm)
    (hlen : s.operands.length < 3) :
    ∃ s1, strict_reduce_C1 acc (some pm) (some w3) s = exec.done s1 ∧
      s1.registers = regs_of (if c = 0 then fresh rt else c) 0 ∧
      s1.operands = ⟨REGISTER, reg_name (if c = 0 then fresh rt else c)⟩ :: s.operands ∧
      s1.operators = s.operators ∧ s1.src = s.src ∧ s1.returned = s.returned := by
  have hlen' : ¬ s.operands.length = STACK_SIZE := by
    have : STACK_SIZE = 512 := rfl
    omega
  have hpk : pm.key = ADD_SUB := hpm
  rcases hacc with ⟨rfl, hk⟩ | ⟨hc, rfl⟩
  · rcases hw3 with ⟨rfl, hk3⟩ | ⟨rfl, rfl⟩
    · by_cases h1 : pm.value = "+" <;> by_cases h2 : pm.value = "-" <;>
      simp [strict_reduce_C1, strict_alloc_register, busy_count, strict_push_operand, hlen,
        hregs, regs_of, fresh, reg_name, get_register_name, get_register_no,
        alloc_register, free_register, register_name, popped, emit, check_word,
        push_operand, exec.bind, hk, hk3, hpk, h1, h2, hlen']
    · by_cases h1 : pm.value = "+" <;> by_cases h2 : pm.value = "-" <;>
      simp [strict_reduce_C1, strict_alloc_register, busy_count, strict_push_operand, hlen,
        hregs, regs_of, fresh, reg_name, get_register_name, get_register_no,
        alloc_register, free_register, register_name, popped, emit, check_word,
        push_operand, exec.bind, hk, hpk, h1, h2, hlen']
  · rcases hw3 with ⟨rfl, hk3⟩ | ⟨rfl, rfl⟩
    · rcases hc with rfl | rfl | rfl <;>
      by_cases h1 : pm.value = "+" <;> by_cases h2 : pm.value = "-" <;>
      simp [strict_reduce_C1, strict_alloc_register, busy_count, strict_push_operand, hlen,
        hregs, regs_of, fresh, reg_name, get_register_name, get_register_no,
        alloc_register, free_register, register_name, popped, emit, check_word,
        push_operand, exec.bind, hk3, hpk, h1, h2, hlen']
    · rcases hc with rfl | rfl | rfl <;>
      by_cases h1 : pm.value = "+" <;> by_cases h2 : pm.value = "-" <;>
      simp [strict_reduce_C1, strict_alloc_register, busy_count, strict_push_operand, hlen,
        hregs, regs_of, fresh, reg_name, get_register_name, get_register_no,
        alloc_register, free_register, register_name, popped, emit, check_word,
        push_operand, exec.bind, hpk, h1, h2, hlen']

theorem strict_reduce_C1_shape {s : parser_state} {c : Int} (acc pm : word_t) {t : term_t}
    {pd ops stk : List word_t}
    (h : shape s = (pd, ops, stk, regs_of c (t.reg c)))
    (hacc : (c = 0 ∧ acc.key ≠ REGISTER) ∨
      ((c = 1 ∨ c = 2 ∨ c = 3) ∧ acc = ⟨REGISTER, reg_name c⟩))
    (ht : t.valid) (hpm : isAddSub pm)
    (hlen : stk.length < 3) :
    ∃ s1, strict_reduce_C1 acc (some pm) (some (t.result c)) s = exec.done s1 ∧
      shape s1 = (pd, ops, ⟨REGISTER, reg_name (sum_reg c t)⟩ :: stk,
        regs_of (sum_reg c t) 0) := by
  simp only [shape, Prod.mk.injEq] at h
  obtain ⟨hpd, h1, h2, h3⟩ := h
  have hw3 : (t.reg c = 0 ∧ (t.result c).key ≠ REGISTER) ∨
      (t.reg c = fresh c ∧ t.result c = ⟨REGISTER, reg_name (fresh c)⟩) := by
    unfold term_t.reg term_t.result
    cases t.rest with
    | nil =>
      left
      refine ⟨rfl, ?_⟩
      simp only [pairs_result]
      rcases ht.1 with h | h <;> rw [h] <;> decide
    | cons x xs => right; exact ⟨rfl, rfl⟩
  have hsum : (if c = 0 then fresh (t.reg c) else c) = sum_reg c t := by
    unfold sum_reg
    by_cases hc : c = 0
    · subst hc; simp
    · simp [hc]
  obtain ⟨s1, hrun, k1, k2, k3, k4, k5⟩ := strict_reduce_C1_run s c (t.reg c) acc pm
    (t.result c) h3 hacc hw3 hpm (by rw [h2]; exact hlen)
  refine ⟨s1, hrun, ?_⟩
  simp only [shape, Prod.mk.injEq]
  rw [hsum] at k1 k2
  exact ⟨by rw [← hpd]; simp [pending, k4, k5], by rw [k3, h1], by rw [k2, h2], k1⟩

/-- `translate_C1` under watch on the pairs P T of an expression. -/
theorem strict_translate_C1_shape (rest ops stk : List word_t)
    (hstop : stops ADD_SUB MUL_DIV rest) (hops : ops.length + 1 < 2)
    (hstk : stk.length + 2 < 3) :
    ∀ (ps : List (word_t × term_t)) (fuel : Nat) (s : parser_state) (acc : word_t) (c : Int),
      (∀ pt ∈ ps, isAddSub pt.1 ∧ pt.2.valid) →
      shape s = (tail_words ps ++ rest, ops, acc :: stk, regs_of c 0) →
      ((c = 0 ∧ acc.key ≠ REGISTER) ∨
        ((c = 1 ∨ c = 2 ∨ c = 3) ∧ acc = ⟨REGISTER, reg_name c⟩)) →
      (tail_words ps ++ rest).length < fuel →
      ∃ s1, strict_translate_C1 fuel s = exec.done s1 ∧
        shape s1 = (rest, ops, tail_result c acc ps :: stk, regs_of (tail_reg c ps) 0) := by
  intro ps
  induction ps with
  | nil =>
    intro fuel s acc c _ hv _ hlen
    cases fuel with
    | zero => simp at hlen
    | succ n =>
      obtain ⟨w, ws, rfl, hw0, hwk, -⟩ := hstop
      have hv' : shape s = (w :: ws, ops, acc :: stk, regs_of c 0) := by
        simpa [tail_words] using hv
      obtain ⟨s1, hg, hback⟩ := peek_shape hv' hw0
      exact ⟨return_word w s1, by simp [strict_translate_C1, hg, hwk],
        by simpa [tail_result, tail_reg] using hback⟩
  | cons pt ps ih =>
    intro fuel s acc c hwf hv hacc hlen
    obtain ⟨pm, t⟩ := pt
    cases fuel with
    | zero => simp at hlen
    | succ n =>
      have hpm : isAddSub pm := (hwf (pm, t) (by simp)).1
      have hpk : pm.key = ADD_SUB := hpm
      have ht : t.valid := (hwf (pm, t) (by simp)).2
      have hpm0 : pm.key ≠ 0 := by rw [hpk]; decide
      have hc : c = 0 ∨ c = 1 ∨ c = 2 ∨ c = 3 := by
        rcases hacc with ⟨h, -⟩ | ⟨h, -⟩
        · exact Or.inl h
        · exact Or.inr h
      have hv' : shape s = (pm :: (t.words ++ (tail_words ps ++ rest)), ops, acc :: stk,
          regs_of c 0) := by
        simpa [tail_words] using hv
      obtain ⟨s1, hg, hback⟩ := peek_shape hv' hpm0
      obtain ⟨s2, hO, h2⟩ := strict_translate_O_P_M_shape hback (by omega)
      have hstopT : stops MUL_DIV MUL_DIV (tail_words ps ++ rest) := by
        cases ps with
        | nil =>
          obtain ⟨w, ws, rfl, hw0, -, hwm⟩ := hstop
          exact ⟨w, ws, by simp [tail_words], hw0, hwm, hwm⟩
        | cons pt2 ps2 =>
          obtain ⟨pm2, t2⟩ := pt2
          have h2k : pm2.key = ADD_SUB := (hwf (pm2, t2) (by simp)).1
          exact ⟨pm2, t2.words ++ tail_words ps2 ++ rest, by simp [tail_words],
            by rw [h2k]; decide, by rw [h2k]; decide, by rw [h2k]; decide⟩
      obtain ⟨s3, hT, h3⟩ := strict_translate_T_shape c hc t (tail_words ps ++ rest) (pm :: ops)
        (acc :: stk) s2 ht hstopT (by simp; omega) (by simp; omega) h2
      obtain ⟨s4, hpop3, h4⟩ := strict_pop_operand_shape h3
      obtain ⟨s5, hpop2, h5⟩ := strict_pop_operator_shape h4
      obtain ⟨s6, hpop1, h6⟩ := strict_pop_operand_shape h5
      obtain ⟨s7, hred, h7⟩ := strict_reduce_C1_shape acc pm h6 hacc ht hpm (by omega)
      have hlen' : (tail_words ps ++ rest).length < n := by
        have := term_words_ne_nil t
        have hpos : 0 < t.words.length := List.length_pos.mpr this
        simp [tail_words] at hlen ⊢; omega
      obtain ⟨s8, hrun, h8⟩ := ih n s7 ⟨REGISTER, reg_name (sum_reg c t)⟩ (sum_reg c t)
        (fun x hx => hwf x (by simp [hx])) h7 (Or.inr ⟨sum_reg_cases c t hc, rfl⟩) hlen'
      refine ⟨s8, ?_, ?_⟩
      · simp [strict_translate_C1, hg, hpk, hO, hT, hpop3, hpop2, hpop1, hred, exec.bind, hrun]
      · rw [h8]
        simp [tail_result, tail_reg]

/-- The operand left for an expression is a register exactly when a register is busy
afterwards. -/
theorem first_result_cases (t : term_t) (ht : t.valid) :
    (t.reg 0 = 0 ∧ (t.result 0).key ≠ REGISTER) ∨
      ((t.reg 0 = 1 ∨ t.reg 0 = 2 ∨ t.reg 0 = 3) ∧
        t.result 0 = ⟨REGISTER, reg_name (t.reg 0)⟩) := by
  unfold term_t.reg term_t.result
  cases t.rest with
  | nil =>
    left
    refine ⟨rfl, ?_⟩
    simp only [pairs_result]
    rcases ht.1 with h | h <;> rw [h] <;> decide
  | cons x xs => right; exact ⟨Or.inl rfl, rfl⟩

/-- `translate_C` under watch on an expression. -/
theorem strict_translate_C_shape (e : expr_t) (rest ops stk : List word_t)
    (s : parser_state) (hwf : e.accepted)
    (hstop : stops ADD_SUB MUL_DIV rest) (hops : ops.length + 1 < 2)
    (hstk : stk.length + 2 < 3)
    (hv : shape s = (e.words ++ rest, ops, stk, regs_of 0 0)) :
    ∃ s1, strict_translate_C s = exec.done s1 ∧
      shape s1 = (rest, ops, tail_result (e.first.reg 0) (e.first.result 0) e.rest :: stk,
        regs_of (tail_reg (e.first.reg 0) e.rest) 0) := by
  have hv' : shape s = (e.first.words ++ (tail_words e.rest ++ rest), ops, stk,
      regs_of 0 0) := by
    simpa [expr_t.words] using hv
  have hstopT : stops MUL_DIV MUL_DIV (tail_words e.rest ++ rest) := by
    cases he : e.rest with
    | nil =>
      obtain ⟨w, ws, rfl, hw0, -, hwm⟩ := hstop
      exact ⟨w, ws, by simp [tail_words], hw0, hwm, hwm⟩
    | cons pt2 ps2 =>
      obtain ⟨pm2, t2⟩ := pt2
      have h2k : pm2.key = ADD_SUB := (hwf.2 (pm2, t2) (by simp [he])).1
      exact ⟨pm2, t2.words ++ tail_words ps2 ++ rest, by simp [tail_words],
        by rw [h2k]; decide, by rw [h2k]; decide, by rw [h2k]; decide⟩
  obtain ⟨s1, hT, h1⟩ := strict_translate_T_shape 0 (Or.inl rfl) e.first
    (tail_words e.rest ++ rest) ops stk s hwf.1 hstopT (by omega) (by omega) hv'
  rw [regs_of_comm] at h1
  have hlen : (tail_words e.rest ++ rest).length < budget s1 := by
    have := pending_length s1
    have hpd : pending s1 = tail_words e.rest ++ rest := by
      have := congrArg Prod.fst h1
      simpa [shape] using this
    rw [hpd] at this
    exact this
  obtain ⟨s2, hrun, h2⟩ := strict_translate_C1_shape rest ops stk hstop hops hstk e.rest
    (budget s1) s1 (e.first.result 0) (e.first.reg 0) hwf.2 h1
    (first_result_cases e.first hwf.1) hlen
  exact ⟨s2, by simp [strict_translate_C, hT, exec.bind, hrun], h2⟩

theorem shape_emit (l : asm_line) (s : parser_state) : shape (emit l s) = shape s := rfl

theorem shape_free_register {s : parser_state} {pd ops stk : List word_t} {r : reg_table}
    (no : Int) (h : shape s = (pd, ops, stk, r)) :
    shape (free_register no s) = (pd, ops, stk, (free_register no s).registers) := by
  simp only [shape, Prod.mk.injEq] at h ⊢
  obtain ⟨h1, h2, h3, -⟩ := h
  unfold free_register
  split_ifs <;> exact ⟨h1, h2, h3, trivial⟩

/-- `translate_A` under watch on the assignment of an expression. -/
theorem strict_translate_A_shape (x q : word_t) (e : expr_t) (rest ops stk : List word_t)
    (s : parser_state) (hwf : e.accepted)
    (hstop : stops ADD_SUB MUL_DIV rest) (hops : ops.length + 1 < 2)
    (hstk : stk.length + 2 < 3)
    (hv : shape s = (x :: q :: (e.words ++ rest), ops, stk, regs_of 0 0)) :
    ∃ s1, strict_translate_A s = exec.done s1 ∧ shape s1 = (rest, ops, stk, regs_of 0 0) := by
  obtain ⟨s1, hg1, h1, -⟩ := get_word_shape hv
  obtain ⟨s2, hg2, h2, -⟩ := get_word_shape h1
  obtain ⟨s3, hC, h3⟩ := strict_translate_C_shape e rest ops stk s2 hwf hstop hops hstk h2
  obtain ⟨s4, hpop, h4⟩ := strict_pop_operand_shape h3
  have hres := tail_result_cases e.rest (e.first.reg 0) (e.first.result 0)
    (first_result_cases e.first hwf.1)
  have h5 : shape (emit (asm_line.binary "mov" x.value
      (tail_result (e.first.reg 0) (e.first.result 0) e.rest).value) s4) =
      (rest, ops, stk, regs_of (tail_reg (e.first.reg 0) e.rest) 0) := by
    rw [shape_emit]; exact h4
  rcases hres with ⟨hr0, hkey⟩ | ⟨hr, hreg⟩
  · have hkey' : ¬ (tail_result (e.first.reg 0) (e.first.result 0) e.rest).key = REGISTER :=
      hkey
    refine ⟨emit (asm_line.binary "mov" x.value
      (tail_result (e.first.reg 0) (e.first.result 0) e.rest).value) s4, ?_, ?_⟩
    · simp [strict_translate_A, hg1, hg2, hC, exec.bind, hpop, hkey']
    · rw [h5, hr0]
  · have hk : (tail_result (e.first.reg 0) (e.first.result 0) e.rest).key = REGISTER := by
      rw [hreg]
    refine ⟨free_register (get_register_no
      (tail_result (e.first.reg 0) (e.first.result 0) e.rest).value)
      (emit (asm_line.binary "mov" x.value
        (tail_result (e.first.reg 0) (e.first.result 0) e.rest).value) s4), ?_, ?_⟩
    · simp [strict_translate_A, hg1, hg2, hC, exec.bind, hpop, hk]
    · rw [shape_free_register _ h5]
      simp only [Prod.mk.injEq, true_and]
      have hs4 : s4.registers = regs_of (tail_reg (e.first.reg 0) e.rest) 0 := by
        have := congrArg (fun q => q.2.2.2) h4
        simpa [shape] using this
      rw [hreg]
      rcases hr with h | h | h <;>
        simp [h, regs_of, reg_name, get_register_name, get_register_no, free_register,
          emit, hs4]

/-- `translate_E` under watch on `a op b`. -/
theorem strict_translate_E_shape {s : parser_state} {a op b : word_t}
    {ts ops stk : List word_t} {r : reg_table}
    (h : shape s = (a :: op :: b :: ts, ops, stk, r))
    (hops : ops.length < 2) (hstk : stk.length + 1 < 3) :
    ∃ s1, strict_translate_E s = exec.done s1 ∧ shape s1 = (ts, op :: ops, stk, r) := by
  obtain ⟨s1, hV1, h1⟩ := strict_translate_V_shape h (by omega)
  obtain ⟨s2, hO, h2⟩ := strict_translate_O_P_M_shape h1 hops
  obtain ⟨s3, hV2, h3⟩ := strict_translate_V_shape h2 (by simpa using hstk)
  obtain ⟨s4, hpop2, h4⟩ := strict_pop_operand_shape h3
  obtain ⟨s5, hpop1, h5⟩ := strict_pop_operand_shape h4
  exact ⟨emit (asm_line.binary "cmp" a.value b.value) s5,
    by simp [strict_translate_E, hV1, hO, hV2, hpop2, hpop1, popped, exec.bind],
    by rw [shape_emit]; exact h5⟩

theorem DerC1_tail_accepted {c1 : List word_t} (hd : DerC1 isAddSub c1) :
    ∃ ps : List (word_t × term_t), (∀ pt ∈ ps, isAddSub pt.1 ∧ pt.2.valid) ∧
      c1 = tail_words ps := by
  induction hd with
  | eps => exact ⟨[], by simp, rfl⟩
  | step p t rest hp ht _ ih =>
    obtain ⟨ps, hps, rfl⟩ := ih
    obtain ⟨tr, htr, rfl⟩ := (DerT_iff_tree t).mp ht
    refine ⟨(p, tr) :: ps, ?_, rfl⟩
    intro pt hpt
    simp at hpt
    rcases hpt with rfl | hpt
    · exact ⟨hp, htr⟩
    · exact hps pt hpt

/-- Every assignment that the checker accepts is `x = e` for an identifier x and an
accepted tree e. -/
theorem DerA_accepted {ts : List word_t} (h : DerA isAddSub ts) :
    ∃ (x : word_t) (e : expr_t), x.key = IDENTIFIER ∧ e.accepted ∧
      ts = x :: ⟨ASSIGN, "="⟩ :: e.words := by
  obtain ⟨x, c, hx, ⟨t, rest, ht, hr, rfl⟩, rfl⟩ := h
  obtain ⟨tr, htr, rfl⟩ := (DerT_iff_tree t).mp ht
  obtain ⟨ps, hps, rfl⟩ := DerC1_tail_accepted hr
  exact ⟨x, ⟨tr, ps⟩, hx, ⟨htr, hps⟩, rfl⟩

theorem shape_emit_branch (v : String) (s : parser_state) :
    shape (emit_branch v s) = shape s := by
  unfold emit_branch
  split_ifs <;> rfl

/-- The watched `translate_S` on a statement that the checker accepts: no push, pop or
allocation fails; it returns 0, has read the statement and no more, and leaves the stacks
empty and the registers free. -/
theorem strict_translate_S_shape (st rest : List word_t) (s : parser_state)
    (hS : DerS isAddSub st)
    (hv : shape s = (st ++ rest, [], [], regs_of 0 0)) :
    ∃ s1, strict_translate_S s = exec.done (0, s1) ∧
      shape s1 = (rest, [], [], regs_of 0 0) ∧ s1.returned.key = 0 := by
  have hstop : stops ADD_SUB MUL_DIV (⟨SEMICOLON, ";"⟩ :: rest) :=
    ⟨_, _, rfl, by decide, by decide, by decide⟩
  rcases hS with ⟨e, a, hE, hA, rfl⟩ | ⟨a, hA, rfl⟩
  · obtain ⟨a1, op, b1, -, hop, -, rfl⟩ := hE
    obtain ⟨x, tr, -, htr, rfl⟩ := DerA_accepted hA
    have hv' : shape s = (⟨KEYWORD, "while"⟩ :: ⟨BRACKET_DOT, "("⟩ :: a1 :: op :: b1 ::
        ⟨BRACKET_DOT, ")"⟩ :: x :: ⟨ASSIGN, "="⟩ :: (tr.words ++ ⟨SEMICOLON, ";"⟩ :: rest),
        [], [], regs_of 0 0) := by
      simpa using hv
    obtain ⟨s1, hg1, h1, -⟩ := get_word_shape hv'
    have h2 : shape (emit (asm_line.label "begin" (s1.begin_counter + 1))
        { s1 with begin_counter := s1.begin_counter + 1 }) =
        (⟨BRACKET_DOT, "("⟩ :: a1 :: op :: b1 :: ⟨BRACKET_DOT, ")"⟩ :: x :: ⟨ASSIGN, "="⟩ ::
          (tr.words ++ ⟨SEMICOLON, ";"⟩ :: rest), [], [], regs_of 0 0) := h1
    obtain ⟨s3, hg3, h3, -⟩ := get_word_shape h2
    obtain ⟨s4, hE, h4⟩ := strict_translate_E_shape h3 (by decide) (by decide)
    obtain ⟨s5, hg5, h5, -⟩ := get_word_shape h4
    obtain ⟨s6, hpop, h6⟩ := strict_pop_operator_shape h5
    have h8 : shape (emit (asm_line.label "true" (emit_branch op.value s6).branch_counter)
        (emit_branch op.value s6)) =
        (x :: ⟨ASSIGN, "="⟩ :: (tr.words ++ ⟨SEMICOLON, ";"⟩ :: rest), [], [], regs_of 0 0) := by
      rw [shape_emit, shape_emit_branch]; exact h6
    obtain ⟨s9, hA9, h9⟩ := strict_translate_A_shape x ⟨ASSIGN, "="⟩ tr _ [] [] _ htr hstop
      (by decide) (by decide) h8
    have h11 : shape (emit (asm_line.label "false" s9.branch_counter)
        (emit (asm_line.jump "jmp" "begin" s9.begin_counter) s9)) =
        (⟨SEMICOLON, ";"⟩ :: rest, [], [], regs_of 0 0) := h9
    obtain ⟨s12, hg12, h12, hr12⟩ := get_word_shape h11
    refine ⟨s12, ?_, h12, hr12⟩
    have hkw : ¬ ((⟨KEYWORD, "while"⟩ : word_t).key = 0) := by decide
    have hcw : check_word ⟨KEYWORD, "while"⟩ KEYWORD (some "while") = true := by decide
    simp only [strict_translate_S, hg1, hkw, hcw, if_true, if_false, emit_begin_counter,
      emit_branch_counter, hg3, hE, exec.bind, hg5, hpop, Option.getD_some, hA9, hop.1,
      hg12]
  · obtain ⟨x, tr, hx, htr, rfl⟩ := DerA_accepted hA
    have hv' : shape s = (x :: ⟨ASSIGN, "="⟩ :: (tr.words ++ ⟨SEMICOLON, ";"⟩ :: rest),
        [], [], regs_of 0 0) := by
      simpa using hv
    have hx0 : x.key ≠ 0 := by rw [hx]; decide
    have hxk : ¬ x.key = KEYWORD := by rw [hx]; decide
    have hxc : ¬ x.key = COMPARE := by rw [hx]; decide
    obtain ⟨s1, hg1, hback⟩ := peek_shape hv' hx0
    obtain ⟨s2, hA2, h2⟩ := strict_translate_A_shape x ⟨ASSIGN, "="⟩ tr _ [] [] _ htr hstop
      (by decide) (by decide) hback
    obtain ⟨s3, hg3, h3, hr3⟩ := get_word_shape h2
    exact ⟨s3, by simp [strict_translate_S, hg1, hx0, hxk, hxc, exec.bind, hA2, hg3, check_word],
      h3, hr3⟩

/-- The watched loop of `do_parse` on a program that the checker accepts. -/
theorem strict_parse_loop_run {p : List word_t} (hd : DerProgram isAddSub p) :
    ∀ (fuel : Nat) (s : parser_state),
      shape s = (p, [], [], regs_of 0 0) → p.length < fuel →
      ∃ s1, strict_parse_loop fuel s = exec.done s1 ∧ shape s1 = ([], [], [], regs_of 0 0) := by
  induction hd with
  | nil =>
    intro fuel s hv hlen
    cases fuel with
    | zero => simp at hlen
    | succ n =>
      have hp : pending s = [] := by
        have := congrArg Prod.fst hv
        simpa [shape] using this
      obtain ⟨s1, hgw, hp1, -, -, m1, m2, m3, -⟩ := get_word_nil hp
      refine ⟨s1, by simp [strict_parse_loop, strict_translate_S, hgw, exec.bind], ?_⟩
      simp only [shape, Prod.mk.injEq] at hv ⊢
      exact ⟨hp1, m1.trans hv.2.1, m2.trans hv.2.2.1, m3.trans hv.2.2.2⟩
  | cons st rest hst _ ih =>
    intro fuel s hv hlen
    cases fuel with
    | zero => simp at hlen
    | succ n =>
      obtain ⟨s1, hrun, h1, -⟩ := strict_translate_S_shape st rest s hst hv
      have hpos : 0 < st.length := by
        rcases hst with ⟨e, a, -, -, rfl⟩ | ⟨a, -, rfl⟩ <;> simp
      have hlen' : rest.length < n := by
        simp only [List.length_append] at hlen
        omega
      obtain ⟨s2, hloop, h2⟩ := ih n s1 h1 hlen'
      exact ⟨s2, by simp [strict_parse_loop, hrun, exec.bind, hloop], h2⟩

/-! ## Claims C36 and C37 -/

theorem DerC1_mono {isP isQ : word_t → Prop} (h : ∀ w, isP w → isQ w) {c1 : List word_t}
    (hd : DerC1 isP c1) : DerC1 isQ c1 := by
  induction hd with
  | eps => exact DerC1.eps
  | step p t rest hp ht _ ih => exact DerC1.step p t rest (h p hp) ht ih

theorem DerA_mono {isP isQ : word_t → Prop} (h : ∀ w, isP w → isQ w) {a : List word_t}
    (hd : DerA isP a) : DerA isQ a := by
  obtain ⟨x, c, hx, ⟨t, rest, ht, hr, rfl⟩, rfl⟩ := hd
  exact ⟨x, _, hx, ⟨t, rest, ht, DerC1_mono h hr, rfl⟩, rfl⟩

theorem DerS_mono {isP isQ : word_t → Prop} (h : ∀ w, isP w → isQ w) {st : List word_t}
    (hd : DerS isP st) : DerS isQ st := by
  rcases hd with ⟨e, a, hE, hA, rfl⟩ | ⟨a, hA, rfl⟩
  · exact Or.inl ⟨e, a, hE, DerA_mono h hA, rfl⟩
  · exact Or.inr ⟨a, DerA_mono h hA, rfl⟩

/-- A program of the grammar as written is a program as the checker accepts it. -/
theorem DerProgram_mono {isP isQ : word_t → Prop} (h : ∀ w, isP w → isQ w)
    {p : List word_t} (hd : DerProgram isP p) : DerProgram isQ p := by
  induction hd with
  | nil => exact DerProgram.nil
  | cons st rest hst _ ih => exact DerProgram.cons st rest (DerS_mono h hst) ih

theorem plus_minus_add_sub (w : word_t) (h : isPlusMinus w) : isAddSub w := h.1

theorem shape_of_fresh_state {s : parser_state} (hret : s.returned.key = 0)
    (hops : s.operators = []) (hstk : s.operands = [])
    (hregs : s.registers = ⟨false, false, false, false⟩) :
    shape s = (tokens s.src, [], [], regs_of 0 0) :=
  shape_of_view (view_of_fresh_state hret hops hstk hregs)

/-- C36: no resource operation fails on valid input. For every statement `st` that the
checker accepts (a statement of the grammar, P any word of the key ADD_SUB), of any length,
at the head of the words to be read, `translate_S` under watch, started with an empty
pushback slot, empty stacks and an all-free register table, is done with the result 0, and
`translate_S` is done with the same state: all along, every push met at most 2 operands or
at most 1 operator on its stack (so the operand stack never holds more than 3 words and the
operator stack never more than 2), every pop met a stack that is not empty, every call of
`alloc_register` met at most one of ebx, ecx, edx busy (so it succeeds, and at most two of
them are busy at any time), and every call of `alloc_accumulator`, at the start of a
multiply/divide operation, met eax free. At the end both stacks are empty and the four
registers free. The same holds of `do_parse` on every file whose words are a program that
the checker accepts. -/
theorem C36_no_resource_failure (st rest : List word_t) (s : parser_state)
    (hS : DerS isAddSub st)
    (hret : s.returned.key = 0) (hops : s.operators = []) (hstk : s.operands = [])
    (hregs : s.registers = ⟨false, false, false, false⟩)
    (hsrc : tokens s.src = st ++ rest) :
    (∃ s1, strict_translate_S s = exec.done (0, s1) ∧ translate_S s = exec.done (0, s1) ∧
      s1.operators = [] ∧ s1.operands = [] ∧
      s1.registers = ⟨false, false, false, false⟩) ∧
    ∀ (all : List src_line) (s0 : parser_state), DerProgram isAddSub (tokens all) →
      s0.returned.key = 0 → s0.operators = [] → s0.operands = [] →
      s0.registers = ⟨false, false, false, false⟩ →
      ∃ s1, strict_do_parse all s0 = exec.done s1 ∧ do_parse all s0 = exec.done s1 ∧
        s1.operators = [] ∧ s1.operands = [] ∧
        s1.registers = ⟨false, false, false, false⟩ := by
  constructor
  · have hv := shape_of_fresh_state hret hops hstk hregs
    rw [hsrc] at hv
    obtain ⟨s1, hrun, h1, -⟩ := strict_translate_S_shape st rest s hS hv
    simp only [shape, Prod.mk.injEq] at h1
    exact ⟨s1, hrun, strict_translate_S_refines s _ hrun, h1.2.1, h1.2.2.1, h1.2.2.2⟩
  · intro all s0 hprog hret0 hops0 hstk0 hregs0
    have hv : shape (rewind all s0) = (tokens all, [], [], regs_of 0 0) :=
      shape_of_fresh_state (s := rewind all s0) hret0 hops0 hstk0 hregs0
    have hlen : (tokens all).length < budget (rewind all s0) := by
      have := tokens_length all
      simp only [budget, rewind]
      omega
    obtain ⟨s1, hrun, h1⟩ := strict_parse_loop_run hprog _ _ hv hlen
    simp only [shape, Prod.mk.injEq] at h1
    exact ⟨s1, hrun, strict_do_parse_refines all s0 s1 hrun, h1.2.1, h1.2.2.1, h1.2.2.2⟩

/-- C36 on the statement `x = a * b - 6 / c ;`, and on the file of
`while ( i < 10 ) i = i + 1 ; x = a * b - 6 / c ;`. -/
theorem C36_no_resource_failure_witness :
    DerS isAddSub (tokens file_mixed) ∧
    (∃ s1, strict_translate_S (parser_init file_mixed) = exec.done (0, s1) ∧
      translate_S (parser_init file_mixed) = exec.done (0, s1) ∧
      s1.operators = [] ∧ s1.operands = [] ∧
      s1.registers = ⟨false, false, false, false⟩) ∧
    DerProgram isAddSub (tokens file_loop_assign) ∧
    ∃ s1, strict_do_parse file_loop_assign (parser_init file_loop_assign) = exec.done s1 ∧
      do_parse file_loop_assign (parser_init file_loop_assign) = exec.done s1 ∧
      s1.operators = [] ∧ s1.operands = [] ∧
      s1.registers = ⟨false, false, false, false⟩ :=
  ⟨DerS_mono plus_minus_add_sub statement_mixed,
   (C36_no_resource_failure (tokens file_mixed) [] (parser_init file_mixed)
    (DerS_mono plus_minus_add_sub statement_mixed) rfl rfl rfl rfl
    (by rw [List.append_nil]; rfl)).1,
   DerProgram_mono plus_minus_add_sub program_loop_assign,
   (C36_no_resource_failure (tokens file_mixed) [] (parser_init file_mixed)
    (DerS_mono plus_minus_add_sub statement_mixed) rfl rfl rfl rfl
    (by rw [List.append_nil]; rfl)).2 file_loop_assign (parser_init file_loop_assign)
    (DerProgram_mono plus_minus_add_sub program_loop_assign) rfl rfl rfl rfl⟩

theorem same_machine_refl (s : parser_state) : same_machine s s :=
  ⟨rfl, rfl, rfl, rfl, rfl, rfl⟩

theorem same_machine_trans {a b c : parser_state} (h1 : same_machine a b)
    (h2 : same_machine b c) : same_machine a c :=
  ⟨h2.1.trans h1.1, h2.2.1.trans h1.2.1, h2.2.2.1.trans h1.2.2.1,
   h2.2.2.2.1.trans h1.2.2.2.1, h2.2.2.2.2.1.trans h1.2.2.2.2.1,
   h2.2.2.2.2.2.trans h1.2.2.2.2.2⟩

/-- The checker's reading leaves the stacks, the registers, the counters and the output. -/
theorem get_word_frame (s : parser_state) : same_machine s (get_word s).2 := by
  unfold get_word
  split_ifs <;> exact ⟨rfl, rfl, rfl, rfl, rfl, rfl⟩

theorem return_word_frame (w : word_t) (s : parser_state) :
    same_machine s (return_word w s) := by
  unfold return_word
  split_ifs <;> exact ⟨rfl, rfl, rfl, rfl, rfl, rfl⟩

theorem check_V_frame (s : parser_state) : same_machine s (check_V s).2 := by
  unfold check_V
  dsimp only
  split_ifs <;> exact get_word_frame s

theorem check_O_frame (s : parser_state) : same_machine s (check_O s).2 := by
  unfold check_O
  dsimp only
  split_ifs <;> exact get_word_frame s

theorem check_P_frame (s : parser_state) : same_machine s (check_P s).2 := by
  unfold check_P
  dsimp only
  split_ifs <;> exact get_word_frame s

theorem check_M_frame (s : parser_state) : same_machine s (check_M s).2 := by
  unfold check_M
  dsimp only
  split_ifs <;> exact get_word_frame s

theorem check_T1_frame (undef : parser_state → Int) :
    ∀ (fuel : Nat) (s s1 : parser_state) (r : Int),
      check_T1 undef fuel s = exec.done (r, s1) → same_machine s s1 := by
  intro fuel
  induction fuel with
  | zero => intro s s1 r h; simp [check_T1] at h
  | succ n ih =>
    intro s s1 r h
    unfold check_T1 at h
    dsimp only at h
    have h0 := get_word_frame s
    have h1 := return_word_frame (get_word s).1 (get_word s).2
    have h2 := check_M_frame (return_word (get_word s).1 (get_word s).2)
    have h3 := check_V_frame (check_M (return_word (get_word s).1 (get_word s).2)).2
    have h01 := same_machine_trans h0 h1
    have h012 := same_machine_trans h01 h2
    have h0123 := same_machine_trans h012 h3
    split_ifs at h
    · simp only [exec.done.injEq, Prod.mk.injEq] at h; rw [← h.2]; exact h012
    · simp only [exec.done.injEq, Prod.mk.injEq] at h; rw [← h.2]; exact h0123
    · obtain ⟨⟨r2, s2⟩, hrec, h⟩ := bind_done h
      have h4 := ih _ s2 r2 hrec
      dsimp only at h
      split_ifs at h <;>
        (simp only [exec.done.injEq, Prod.mk.injEq] at h; rw [← h.2];
         exact same_machine_trans h0123 h4)
    · simp only [exec.done.injEq, Prod.mk.injEq] at h; rw [← h.2]; exact h01

theorem check_T_frame (undef : parser_state → Int) (s s1 : parser_state) (r : Int)
    (h : check_T undef s = exec.done (r, s1)) : same_machine s s1 := by
  unfold check_T at h
  dsimp only at h
  have h0 := check_V_frame s
  split_ifs at h
  · simp only [exec.done.injEq, Prod.mk.injEq] at h; rw [← h.2]; exact h0
  · obtain ⟨⟨r2, s2⟩, hrec, h⟩ := bind_done h
    have h4 := check_T1_frame undef _ _ s2 r2 hrec
    dsimp only at h
    split_ifs at h <;>
      (simp only [exec.done.injEq, Prod.mk.injEq] at h; rw [← h.2];
       exact same_machine_trans h0 h4)

theorem check_C1_frame (undef : parser_state → Int) :
    ∀ (fuel : Nat) (s s1 : parser_state) (r : Int),
      check_C1 undef fuel s = exec.done (r, s1) → same_machine s s1 := by
  intro fuel
  induction fuel with
  | zero => intro s s1 r h; simp [check_C1] at h
  | succ n ih =>
    intro s s1 r h
    unfold check_C1 at h
    dsimp only at h
    have h0 := get_word_frame s
    have h1 := return_word_frame (get_word s).1 (get_word s).2
    have h2 := check_P_frame (return_word (get_word s).1 (get_word s).2)
    have h01 := same_machine_trans h0 h1
    have h012 := same_machine_trans h01 h2
    split_ifs at h
    · simp only [exec.done.injEq, Prod.mk.injEq] at h; rw [← h.2]; exact h012
    · obtain ⟨⟨r2, s2⟩, hT, h⟩ := bind_done h
      have h3 := check_T_frame undef _ s2 r2 hT
      dsimp only at h
      split_ifs at h
      · simp only [exec.done.injEq, Prod.mk.injEq] at h; rw [← h.2]
        exact same_machine_trans h012 h3
      · obtain ⟨⟨r3, s3⟩, hrec, h⟩ := bind_done h
        have h4 := ih _ s3 r3 hrec
        dsimp only at h
        split_ifs at h <;>
          (simp only [exec.done.injEq, Prod.mk.injEq] at h; rw [← h.2];
           exact same_machine_trans (same_machine_trans h012 h3) h4)
    · simp only [exec.done.injEq, Prod.mk.injEq] at h; rw [← h.2]; exact h01

theorem check_C_frame (undef : parser_state → Int) (s s1 : parser_state) (r : Int)
    (h : check_C undef s = exec.done (r, s1)) : same_machine s s1 := by
  unfold check_C at h
  obtain ⟨⟨r2, s2⟩, hT, h⟩ := bind_done h
  have h0 := check_T_frame undef _ s2 r2 hT
  dsimp only at h
  split_ifs at h
  · simp only [exec.done.injEq, Prod.mk.injEq] at h; rw [← h.2]; exact h0
  · obtain ⟨⟨r3, s3⟩, hrec, h⟩ := bind_done h
    have h4 := check_C1_frame undef _ _ s3 r3 hrec
    dsimp only at h
    split_ifs at h <;>
      (simp only [exec.done.injEq, Prod.mk.injEq] at h; rw [← h.2];
       exact same_machine_trans h0 h4)

theorem check_A_frame (undef : parser_state → Int) (s s1 : parser_state) (r : Int)
    (h : check_A undef s = exec.done (r, s1)) : same_machine s s1 := by
  unfold check_A at h
  dsimp only at h
  have h0 := get_word_frame s
  have h1 := get_word_frame (get_word s).2
  have h01 := same_machine_trans h0 h1
  split_ifs at h <;> first
    | (simp only [exec.done.injEq, Prod.mk.injEq] at h; rw [← h.2]
       first | exact h0 | exact h01)
    | (obtain ⟨⟨r2, s2⟩, hC, h⟩ := bind_done h
       have h3 := check_C_frame undef _ s2 r2 hC
       dsimp only at h
       split_ifs at h <;>
         (simp only [exec.done.injEq, Prod.mk.injEq] at h; rw [← h.2];
          exact same_machine_trans h01 h3))

theorem check_E_frame (s : parser_state) : same_machine s (check_E s).2 := by
  unfold check_E
  dsimp only
  have h0 := check_V_frame s
  have h1 := check_O_frame (check_V s).2
  have h2 := check_V_frame (check_O (check_V s).2).2
  split_ifs
  · exact h0
  · exact same_machine_trans h0 h1
  · exact same_machine_trans (same_machine_trans h0 h1) h2
  · exact same_machine_trans (same_machine_trans h0 h1) h2

theorem check_S_tail_frame (undef : parser_state → Int) (s s1 : parser_state) (r : Int)
    (h : check_S_tail undef s = exec.done (r, s1)) : same_machine s s1 := by
  unfold check_S_tail at h
  obtain ⟨⟨r2, s2⟩, hA, h⟩ := bind_done h
  have h0 := check_A_frame undef _ s2 r2 hA
  have h1 := get_word_frame s2
  dsimp only at h
  split_ifs at h <;>
    (simp only [exec.done.injEq, Prod.mk.injEq] at h; rw [← h.2]
     first | exact h0 | exact same_machine_trans h0 h1)

theorem check_S_frame (undef : parser_state → Int) (s s1 : parser_state) (r : Int)
    (h : check_S undef s = exec.done (r, s1)) : same_machine s s1 := by
  unfold check_S at h
  dsimp only at h
  have h0 := get_word_frame s
  have h1 := get_word_frame (get_word s).2
  have h01 := same_machine_trans h0 h1
  have h2 := check_E_frame (get_word (get_word s).2).2
  have h012 := same_machine_trans h01 h2
  have h3 := get_word_frame (check_E (get_word (get_word s).2).2).2
  have h0123 := same_machine_trans h012 h3
  have hr := return_word_frame (get_word s).1 (get_word s).2
  split_ifs at h <;> first
    | (simp only [exec.done.injEq, Prod.mk.injEq] at h; rw [← h.2]
       first | exact h0 | exact h01 | exact h012 | exact h0123)
    | exact same_machine_trans h0123 (check_S_tail_frame undef _ s1 r h)
    | exact same_machine_trans (same_machine_trans h0 hr) (check_S_tail_frame undef _ s1 r h)

/-- The checking pass leaves the stacks, the registers, the counters and the output as it
found them. -/
theorem validate_loop_frame (undef : parser_state → Int) :
    ∀ (fuel : Nat) (s s1 : parser_state) (r : Int),
      validate_loop undef fuel s = exec.done (r, s1) → same_machine s s1 := by
  intro fuel
  induction fuel with
  | zero => intro s s1 r h; simp [validate_loop] at h
  | succ n ih =>
    intro s s1 r h
    rw [validate_loop] at h
    obtain ⟨⟨r2, s2⟩, hS, h⟩ := bind_done h
    have h0 := check_S_frame undef s s2 r2 hS
    dsimp only at h
    split_ifs at h
    · simp only [exec.done.injEq, Prod.mk.injEq] at h; rw [← h.2]; exact h0
    · simp only [exec.done.injEq, Prod.mk.injEq] at h; rw [← h.2]; exact h0
    · exact same_machine_trans h0 (ih s2 s1 r h)

/-- What `get_word` yields depends on the pending words only: their head, or the word of
key 0 when none is left; the tail is left pending, behind an empty pushback slot. -/
theorem get_word_pending (s : parser_state) :
    ∃ w s1, get_word s = (w, s1) ∧ s1.returned.key = 0 ∧ same_machine s s1 ∧
      ((pending s = [] ∧ w = ⟨0, ""⟩ ∧ pending s1 = []) ∨ pending s = w :: pending s1) := by
  cases hp : pending s with
  | nil =>
    obtain ⟨s1, hg, hp1, hr, -, hm⟩ := get_word_nil hp
    exact ⟨_, s1, hg, hr, hm, Or.inl ⟨rfl, rfl, hp1⟩⟩
  | cons t ts =>
    obtain ⟨s1, hg, hp1, hr, -, hm⟩ := get_word_cons hp
    exact ⟨t, s1, hg, hr, hm, Or.inr (by rw [hp1])⟩

/-- The pending words after a word is returned to an empty pushback slot: a word of
key 0 is lost. -/
theorem pending_return_any {s : parser_state} (hs : s.returned.key = 0) (w : word_t) :
    pending (return_word w s) = if w.key = 0 then pending s else w :: pending s := by
  by_cases hw : w.key = 0
  · simp [return_word, pending, hs, hw]
  · simp [return_word, pending, hs, hw]

/-- A lookahead of the translator at the position of a lookahead of the checker reads the
same word and leaves the same words pending. -/
theorem peek_follows {c t : parser_state} {ops stk : List word_t} {r : reg_table}
    {w : word_t} {c1 : parser_state}
    (hv : shape t = (pending c, ops, stk, r)) (hg : get_word c = (w, c1)) :
    ∃ t1, get_word t = (w, t1) ∧
      shape (return_word w t1) = (pending (return_word w c1), ops, stk, r) := by
  obtain ⟨w1, c2, hgc, hrc, -, hc⟩ := get_word_pending c
  rw [hg] at hgc
  simp only [Prod.mk.injEq] at hgc
  obtain ⟨rfl, rfl⟩ := hgc
  obtain ⟨w2, t1, hgt, hrt, hmt, ht⟩ := get_word_pending t
  simp only [shape, Prod.mk.injEq] at hv
  obtain ⟨hp, h1, h2, h3⟩ := hv
  have hfr := return_word_frame w t1
  have hsame : w2 = w ∧ pending t1 = pending c1 := by
    rcases hc with ⟨hc0, hw, hc1⟩ | hc
    · rcases ht with ⟨-, hw2, ht1⟩ | ht
      · exact ⟨by rw [hw2, hw], by rw [ht1, hc1]⟩
      · rw [hp, hc0] at ht; simp at ht
    · rcases ht with ⟨ht0, -, -⟩ | ht
      · rw [hp, hc] at ht0; simp at ht0
      · rw [hp, hc] at ht
        simp only [List.cons.injEq] at ht
        exact ⟨ht.1.symm, ht.2.symm⟩
  obtain ⟨rfl, hpt⟩ := hsame
  refine ⟨t1, hgt, ?_⟩
  simp only [shape, Prod.mk.injEq]
  refine ⟨?_, ?_, ?_, ?_⟩
  · rw [pending_return_any hrt, pending_return_any hrc, hpt]
  · rw [hfr.1, hmt.1, h1]
  · rw [hfr.2.1, hmt.2.1, h2]
  · rw [hfr.2.2.1, hmt.2.2.1, h3]

/-- The words pending after a lookahead are a final segment of those before. -/
theorem peek_suffix {c c1 : parser_state} {w : word_t} (hg : get_word c = (w, c1)) :
    ∃ pre, pending c = pre ++ pending (return_word w c1) := by
  obtain ⟨w1, c2, hgc, hrc, -, hc⟩ := get_word_pending c
  rw [hg] at hgc
  simp only [Prod.mk.injEq] at hgc
  obtain ⟨rfl, rfl⟩ := hgc
  rw [pending_return_any hrc]
  rcases hc with ⟨hc0, hw, hc1⟩ | hc
  · refine ⟨[], ?_⟩
    rw [hw, if_pos rfl, hc0, hc1]
    rfl
  · split_ifs
    · exact ⟨[w], by rw [hc]; rfl⟩
    · exact ⟨[], by rw [hc]; rfl⟩

theorem check_V_accepts {c c1 : parser_state} {r : Int} (h : check_V c = (r, c1))
    (hr : r ≠ 0) : ∃ v, isV v ∧ pending c = v :: pending c1 ∧ c1.returned.key = 0 := by
  cases hp : pending c with
  | nil =>
    obtain ⟨s1, hV⟩ := check_V_nil hp
    rw [hV] at h
    simp only [Prod.mk.injEq] at h
    exact absurd h.1.symm hr
  | cons v ts =>
    obtain ⟨s1, hp1, hr1, hV⟩ := check_V_cons hp
    rcases hV with ⟨hv, hV⟩ | ⟨-, hV⟩
    · rw [hV] at h
      simp only [Prod.mk.injEq] at h
      rw [← h.2]
      exact ⟨v, hv, by rw [hp1], hr1⟩
    · rw [hV] at h
      simp only [Prod.mk.injEq] at h
      exact absurd h.1.symm hr

theorem check_M_accepts {c c1 : parser_state} {r : Int} (h : check_M c = (r, c1))
    (hr : r ≠ 0) (hne : pending c ≠ []) :
    ∃ m, isM m ∧ pending c = m :: pending c1 ∧ c1.returned.key = 0 := by
  cases hp : pending c with
  | nil => exact absurd hp hne
  | cons v ts =>
    obtain ⟨s1, hp1, hr1, hV⟩ := check_M_cons hp
    rcases hV with ⟨hv, hV⟩ | ⟨-, hV⟩
    · rw [hV] at h
      simp only [Prod.mk.injEq] at h
      rw [← h.2]
      exact ⟨v, hv, by rw [hp1], hr1⟩
    · rw [hV] at h
      simp only [Prod.mk.injEq] at h
      exact absurd h.1.symm hr

theorem check_P_accepts {c c1 : parser_state} {r : Int} (h : check_P c = (r, c1))
    (hr : r ≠ 0) (hne : pending c ≠ []) :
    ∃ m, isAddSub m ∧ pending c = m :: pending c1 ∧ c1.returned.key = 0 := by
  cases hp : pending c with
  | nil => exact absurd hp hne
  | cons v ts =>
    obtain ⟨s1, hp1, hr1, hV⟩ := check_P_cons hp
    rcases hV with ⟨hv, hV⟩ | ⟨-, hV⟩
    · rw [hV] at h
      simp only [Prod.mk.injEq] at h
      rw [← h.2]
      exact ⟨v, hv, by rw [hp1], hr1⟩
    · rw [hV] at h
      simp only [Prod.mk.injEq] at h
      exact absurd h.1.symm hr

/-- A lookahead that finds a word of a nonzero key leaves the pending words. -/
theorem peek_real {c c1 : parser_state} {w : word_t} (hg : get_word c = (w, c1))
    (hw : w.key ≠ 0) : pending (return_word w c1) = pending c ∧ pending c = w :: pending c1 := by
  obtain ⟨w1, c2, hgc, hrc, -, hc⟩ := get_word_pending c
  rw [hg] at hgc
  simp only [Prod.mk.injEq] at hgc
  obtain ⟨rfl, rfl⟩ := hgc
  rcases hc with ⟨-, hw0, -⟩ | hc
  · rw [hw0] at hw; exact absurd rfl hw
  · rw [pending_return_any hrc, if_neg hw, hc]
    exact ⟨rfl, rfl⟩

/-- The translator follows the checker through the pairs M V of a term: wherever
`check_T1` returns a nonzero result, the watched `translate_T1` at the same words is done,
has read the same words, and leaves one operand on the stack. -/
theorem follow_T1 (undef : parser_state → Int) (p : Int) (hp : p = 0 ∨ p = 1 ∨ p = 2 ∨ p = 3)
    (ops stk : List word_t) (hops : ops.length < 2) (hstk : stk.length + 1 < 3) :
    ∀ (n : Nat) (c c1 : parser_state) (r : Int) (fuel : Nat) (t : parser_state)
      (acc : word_t) (a : Int),
      check_T1 undef n c = exec.done (r, c1) → r ≠ 0 →
      shape t = (pending c, ops, acc :: stk, regs_of p a) →
      ((a = 0 ∧ acc.key ≠ REGISTER) ∨ (a = fresh p ∧ acc = ⟨REGISTER, reg_name (fresh p)⟩)) →
      (pending c).length < fuel →
      ∃ t1 acc1 a1, strict_translate_T1 fuel t = exec.done t1 ∧
        shape t1 = (pending c1, ops, acc1 :: stk, regs_of p a1) ∧
        ((a1 = 0 ∧ acc1.key ≠ REGISTER) ∨
          (a1 = fresh p ∧ acc1 = ⟨REGISTER, reg_name (fresh p)⟩)) ∧
        ∃ pre, pending c = pre ++ pending c1 := by
  intro n
  induction n with
  | zero => intro c c1 r fuel t acc a h; simp [check_T1] at h
  | succ n ih =>
    intro c c1 r fuel t acc a h hr hv hacc hlen
    cases fuel with
    | zero => simp at hlen
    | succ f =>
      rcases hgw : get_word c with ⟨w, c'⟩
      by_cases hk : w.key = MUL_DIV
      · have hw0 : w.key ≠ 0 := by rw [hk]; decide
        obtain ⟨hkeep, hpc⟩ := peek_real hgw hw0
        rcases hM : check_M (return_word w c') with ⟨r1, c3⟩
        by_cases hr1 : r1 = 0
        · simp [check_T1, hgw, hk, hM, hr1] at h
          exact absurd h.1.symm hr
        obtain ⟨m, hm, hpm, -⟩ := check_M_accepts hM hr1 (by rw [hkeep, hpc]; simp)
        rw [hkeep, hpc] at hpm
        simp only [List.cons.injEq] at hpm
        obtain ⟨rfl, hp3⟩ := hpm
        rcases hV : check_V c3 with ⟨r2, c4⟩
        by_cases hr2 : r2 = 0
        · simp [check_T1, hgw, hk, hM, hr1, hV, hr2] at h
          exact absurd h.1.symm hr
        obtain ⟨v, hvk, hp4, -⟩ := check_V_accepts hV hr2
        cases hrec : check_T1 undef n c4 with
        | undefined => simp [check_T1, hgw, hk, hM, hr1, hV, hr2, hrec, exec.bind] at h
        | starved => simp [check_T1, hgw, hk, hM, hr1, hV, hr2, hrec, exec.bind] at h
        | done x =>
          obtain ⟨r3, c5⟩ := x
          by_cases hr3 : r3 = 0
          · simp [check_T1, hgw, hk, hM, hr1, hV, hr2, hrec, exec.bind, hr3] at h
            exact absurd h.1.symm hr
          simp [check_T1, hgw, hk, hM, hr1, hV, hr2, hrec, exec.bind, hr3] at h
          obtain ⟨-, rfl⟩ := h
          -- the translator
          have hpc2 : pending c = w :: v :: pending c4 := by rw [hpc, hp3, hp4]
          rw [hpc2] at hv
          obtain ⟨s1, hg, hback⟩ := peek_shape hv hw0
          obtain ⟨s2, hO, h2⟩ := strict_translate_O_P_M_shape hback hops
          obtain ⟨s3, hV3, h3⟩ := strict_translate_V_shape h2 (by simpa using hstk)
          obtain ⟨s4, hpop3, h4⟩ := strict_pop_operand_shape h3
          obtain ⟨s5, hpop2, h5⟩ := strict_pop_operator_shape h4
          obtain ⟨s6, hpop1, h6⟩ := strict_pop_operand_shape h5
          obtain ⟨s7, hred, h7⟩ := strict_reduce_T1_shape h6 hp hacc hm hvk (by omega)
          have hlen' : (pending c4).length < f := by
            rw [hpc2] at hlen; simp at hlen; omega
          obtain ⟨t1, acc1, a1, hrun, h8, hacc1, pre, hpre⟩ := ih c4 c5 r3 f s7
            ⟨REGISTER, reg_name (fresh p)⟩ (fresh p) hrec hr3 h7 (Or.inr ⟨rfl, rfl⟩) hlen'
          refine ⟨t1, acc1, a1, ?_, h8, hacc1, w :: v :: pre, by rw [hpc2, hpre]; rfl⟩
          simp [strict_translate_T1, hg, hk, hO, hV3, hpop3, hpop2, hpop1, hred, exec.bind, hrun]
      · -- [epsilon]
        simp [check_T1, hgw, hk] at h
        obtain ⟨-, rfl⟩ := h
        obtain ⟨t1, hgt, ht1⟩ := peek_follows hv hgw
        exact ⟨return_word w t1, acc, a, by simp [strict_translate_T1, hgt, hk], ht1, hacc,
          peek_suffix hgw⟩

/-- The translator follows the checker through a term. -/
theorem follow_T (undef : parser_state → Int) (p : Int) (hp : p = 0 ∨ p = 1 ∨ p = 2 ∨ p = 3)
    (ops stk : List word_t) (hops : ops.length < 2) (hstk : stk.length + 1 < 3)
    (c c1 : parser_state) (r : Int) (t : parser_state)
    (h : check_T undef c = exec.done (r, c1)) (hr : r ≠ 0)
    (hv : shape t = (pending c, ops, stk, regs_of p 0)) :
    ∃ t1 acc1 a1, strict_translate_T t = exec.done t1 ∧
      shape t1 = (pending c1, ops, acc1 :: stk, regs_of p a1) ∧
      ((a1 = 0 ∧ acc1.key ≠ REGISTER) ∨
        (a1 = fresh p ∧ acc1 = ⟨REGISTER, reg_name (fresh p)⟩)) ∧
      ∃ pre, pending c = pre ++ pending c1 ∧ pre ≠ [] := by
  rcases hV : check_V c with ⟨r1, c2⟩
  by_cases hr1 : r1 = 0
  · simp [check_T, hV, hr1] at h
    exact absurd h.1.symm hr
  obtain ⟨v, hvk, hp2, -⟩ := check_V_accepts hV hr1
  cases hrec : check_T1 undef (budget c2) c2 with
  | undefined => simp [check_T, hV, hr1, hrec, exec.bind] at h
  | starved => simp [check_T, hV, hr1, hrec, exec.bind] at h
  | done x =>
    obtain ⟨r3, c5⟩ := x
    by_cases hr3 : r3 = 0
    · simp [check_T, hV, hr1, hrec, exec.bind, hr3] at h
      exact absurd h.1.symm hr
    simp [check_T, hV, hr1, hrec, exec.bind, hr3] at h
    obtain ⟨-, rfl⟩ := h
    rw [hp2] at hv
    obtain ⟨s1, hV1, h1⟩ := strict_translate_V_shape hv (by omega)
    have hk : v.key ≠ REGISTER := by
      rcases hvk with h | h <;> rw [h] <;> decide
    have hlen : (pending c2).length < budget s1 := by
      have := pending_length s1
      have hpd : pending s1 = pending c2 := by
        have := congrArg Prod.fst h1
        simpa [shape] using this
      rw [hpd] at this
      exact this
    obtain ⟨t1, acc1, a1, hrun, h8, hacc1, pre, hpre⟩ := follow_T1 undef p hp ops stk hops hstk
      (budget c2) c2 c5 r3 (budget s1) s1 v 0 hrec hr3 h1 (Or.inl ⟨rfl, hk⟩) hlen
    exact ⟨t1, acc1, a1, by simp [strict_translate_T, hV1, exec.bind, hrun], h8, hacc1,
      v :: pre, by rw [hp2, hpre]; rfl, by simp⟩

/-- The translator follows the checker through the pairs P T of an expression. -/
theorem follow_C1 (undef : parser_state → Int) (ops stk : List word_t)
    (hops : ops.length + 1 < 2) (hstk : stk.length + 2 < 3) :
    ∀ (n : Nat) (c c1 : parser_state) (r : Int) (fuel : Nat) (t : parser_state)
      (acc : word_t) (k : Int),
      check_C1 undef n c = exec.done (r, c1) → r ≠ 0 →
      shape t = (pending c, ops, acc :: stk, regs_of k 0) →
      ((k = 0 ∧ acc.key ≠ REGISTER) ∨
        ((k = 1 ∨ k = 2 ∨ k = 3) ∧ acc = ⟨REGISTER, reg_name k⟩)) →
      (pending c).length < fuel →
      ∃ t1 acc1 k1, strict_translate_C1 fuel t = exec.done t1 ∧
        shape t1 = (pending c1, ops, acc1 :: stk, regs_of k1 0) ∧
        ((k1 = 0 ∧ acc1.key ≠ REGISTER) ∨
          ((k1 = 1 ∨ k1 = 2 ∨ k1 = 3) ∧ acc1 = ⟨REGISTER, reg_name k1⟩)) ∧
        ∃ pre, pending c = pre ++ pending c1 := by
  intro n
  induction n with
  | zero => intro c c1 r fuel t acc k h; simp [check_C1] at h
  | succ n ih =>
    intro c c1 r fuel t acc k h hr hv hacc hlen
    cases fuel with
    | zero => simp at hlen
    | succ f =>
      rcases hgw : get_word c with ⟨w, c'⟩
      by_cases hk : w.key = ADD_SUB
      · have hw0 : w.key ≠ 0 := by rw [hk]; decide
        obtain ⟨hkeep, hpc⟩ := peek_real hgw hw0
        rcases hP : check_P (return_word w c') with ⟨r1, c3⟩
        by_cases hr1 : r1 = 0
        · simp [check_C1, hgw, hk, hP, hr1] at h
          exact absurd h.1.symm hr
        obtain ⟨m, hm, hpm, -⟩ := check_P_accepts hP hr1 (by rw [hkeep, hpc]; simp)
        rw [hkeep, hpc] at hpm
        simp only [List.cons.injEq] at hpm
        obtain ⟨rfl, hp3⟩ := hpm
        cases hT : check_T undef c3 with
        | undefined => simp [check_C1, hgw, hk, hP, hr1, hT, exec.bind] at h
        | starved => simp [check_C1, hgw, hk, hP, hr1, hT, exec.bind] at h
        | done x =>
          obtain ⟨r2, c4⟩ := x
          by_cases hr2 : r2 = 0
          · simp [check_C1, hgw, hk, hP, hr1, hT, exec.bind, hr2] at h
            exact absurd h.1.symm hr
          cases hrec : check_C1 undef n c4 with
          | undefined => simp [check_C1, hgw, hk, hP, hr1, hT, hr2, hrec, exec.bind] at h
          | starved => simp [check_C1, hgw, hk, hP, hr1, hT, hr2, hrec, exec.bind] at h
          | done y =>
            obtain ⟨r3, c5⟩ := y
            by_cases hr3 : r3 = 0
            · simp [check_C1, hgw, hk, hP, hr1, hT, hr2, hrec, exec.bind, hr3] at h
              exact absurd h.1.symm hr
            simp [check_C1, hgw, hk, hP, hr1, hT, hr2, hrec, exec.bind, hr3] at h
            obtain ⟨-, rfl⟩ := h
            -- the translator
            have hc : k = 0 ∨ k = 1 ∨ k = 2 ∨ k = 3 := by
              rcases hacc with ⟨h, -⟩ | ⟨h, -⟩
              · exact Or.inl h
              · exact Or.inr h
            have hpc2 : pending c = w :: pending c3 := by rw [hpc, hp3]
            rw [hpc2] at hv
            obtain ⟨s1, hg, hback⟩ := peek_shape hv hw0
            obtain ⟨s2, hO, h2⟩ := strict_translate_O_P_M_shape hback (by omega)
            obtain ⟨s3, accT, aT, hTt, h3, haccT, preT, hpreT, hneT⟩ := follow_T undef k hc
              (w :: ops) (acc :: stk) (by simp; omega) (by simp; omega) c3 c4 r2 s2 hT hr2 h2
            obtain ⟨s4, hpop3, h4⟩ := strict_pop_operand_shape h3
            obtain ⟨s5, hpop2, h5⟩ := strict_pop_operator_shape h4
            obtain ⟨s6, hpop1, h6⟩ := strict_pop_operand_shape h5
            simp only [shape, Prod.mk.injEq] at h6
            obtain ⟨g1, g2, g3, g4⟩ := h6
            obtain ⟨s7, hred, k1, k2, k3, k4, k5⟩ := strict_reduce_C1_run s6 k aT acc w accT
              g4 hacc haccT hm (by rw [g3]; omega)
            have h7 : shape s7 = (pending c4, ops,
                ⟨REGISTER, reg_name (if k = 0 then fresh aT else k)⟩ :: stk,
                regs_of (if k = 0 then fresh aT else k) 0) := by
              simp only [shape, Prod.mk.injEq]
              exact ⟨by rw [← g1]; simp [pending, k4, k5], by rw [k3, g2], by rw [k2, g3], k1⟩
            have hk1 : (if k = 0 then fresh aT else k) = 1 ∨ (if k = 0 then fresh aT else k) = 2
                ∨ (if k = 0 then fresh aT else k) = 3 := by
              split_ifs with h0
              · exact fresh_cases aT
              · rcases hc with h | h
                · exact absurd h h0
                · exact h
            have hlen' : (pending c4).length < f := by
              rw [hpc2, hpreT] at hlen
              have : 0 < preT.length := List.length_pos.mpr hneT
              simp at hlen
              omega
            obtain ⟨t1, acc1, kk, hrun, h8, hacc1, pre, hpre⟩ := ih c4 c5 r3 f s7 _ _ hrec hr3
              h7 (Or.inr ⟨hk1, rfl⟩) hlen'
            refine ⟨t1, acc1, kk, ?_, h8, hacc1, w :: (preT ++ pre),
              by rw [hpc2, hpreT, hpre]; simp⟩
            simp [strict_translate_C1, hg, hk, hO, hTt, hpop3, hpop2, hpop1, hred, exec.bind,
              hrun]
      · -- [epsilon]
        simp [check_C1, hgw, hk] at h
        obtain ⟨-, rfl⟩ := h
        obtain ⟨t1, hgt, ht1⟩ := peek_follows hv hgw
        exact ⟨return_word w t1, acc, k, by simp [strict_translate_C1, hgt, hk], ht1, hacc,
          peek_suffix hgw⟩

/-- The translator follows the checker through an expression. -/
theorem follow_C (undef : parser_state → Int) (ops stk : List word_t)
    (hops : ops.length + 1 < 2) (hstk : stk.length + 2 < 3)
    (c c1 : parser_state) (r : Int) (t : parser_state)
    (h : check_C undef c = exec.done (r, c1)) (hr : r ≠ 0)
    (hv : shape t = (pending c, ops, stk, regs_of 0 0)) :
    ∃ t1 acc1 k1, strict_translate_C t = exec.done t1 ∧
      shape t1 = (pending c1, ops, acc1 :: stk, regs_of k1 0) ∧
      ((k1 = 0 ∧ acc1.key ≠ REGISTER) ∨
        ((k1 = 1 ∨ k1 = 2 ∨ k1 = 3) ∧ acc1 = ⟨REGISTER, reg_name k1⟩)) ∧
      ∃ pre, pending c = pre ++ pending c1 := by
  cases hT : check_T undef c with
  | undefined => simp [check_C, hT, exec.bind] at h
  | starved => simp [check_C, hT, exec.bind] at h
  | done x =>
    obtain ⟨r2, c4⟩ := x
    by_cases hr2 : r2 = 0
    · simp [check_C, hT, exec.bind, hr2] at h
      exact absurd h.1.symm hr
    cases hrec : check_C1 undef (budget c4) c4 with
    | undefined => simp [check_C, hT, hr2, hrec, exec.bind] at h
    | starved => simp [check_C, hT, hr2, hrec, exec.bind] at h
    | done y =>
      obtain ⟨r3, c5⟩ := y
      by_cases hr3 : r3 = 0
      · simp [check_C, hT, hr2, hrec, exec.bind, hr3] at h
        exact absurd h.1.symm hr
      simp [check_C, hT, hr2, hrec, exec.bind, hr3] at h
      obtain ⟨-, rfl⟩ := h
      obtain ⟨s1, accT, aT, hTt, h1, haccT, preT, hpreT, -⟩ := follow_T undef 0 (Or.inl rfl)
        ops stk (by omega) (by omega) c c4 r2 t hT hr2 hv
      rw [regs_of_comm] at h1
      have hacc : (aT = 0 ∧ accT.key ≠ REGISTER) ∨
          ((aT = 1 ∨ aT = 2 ∨ aT = 3) ∧ accT = ⟨REGISTER, reg_name aT⟩) := by
        rcases haccT with h | ⟨h1, h2⟩
        · exact Or.inl h
        · right
          have hf : fresh 0 = 1 := rfl
          rw [hf] at h1 h2
          exact ⟨Or.inl h1, by rw [h2, h1]⟩
      have hlen : (pending c4).length < budget s1 := by
        have := pending_length s1
        have hpd : pending s1 = pending c4 := by
          have := congrArg Prod.fst h1
          simpa [shape] using this
        rw [hpd] at this
        exact this
      obtain ⟨t1, acc1, k1, hrun, h8, hacc1, pre, hpre⟩ := follow_C1 undef ops stk hops hstk
        (budget c4) c4 c5 r3 (budget s1) s1 accT aT hrec hr3 h1 hacc hlen
      exact ⟨t1, acc1, k1, by simp [strict_translate_C, hTt, exec.bind, hrun], h8, hacc1,
        preT ++ pre, by rw [hpreT, hpre]; simp⟩

/-- A word that `check_word` finds to be the word of key `k` and text `v`. -/
theorem check_word_eq {w : word_t} {k : Int} {v : String}
    (h : w.key = k ∧ w.value = v) : w = ⟨k, v⟩ := by
  cases w
  simp only at h
  simp [h.1, h.2]

/-- The translator follows the checker through an assignment. -/
theorem follow_A (undef : parser_state → Int) (ops stk : List word_t)
    (hops : ops.length + 1 < 2) (hstk : stk.length + 2 < 3)
    (c c1 : parser_state) (r : Int) (t : parser_state)
    (h : check_A undef c = exec.done (r, c1)) (hr : r ≠ 0)
    (hv : shape t = (pending c, ops, stk, regs_of 0 0)) :
    ∃ t1, strict_translate_A t = exec.done t1 ∧
      shape t1 = (pending c1, ops, stk, regs_of 0 0) ∧
      ∃ pre, pending c = pre ++ pending c1 := by
  rcases hg1 : get_word c with ⟨x, c'⟩
  by_cases hx : x.key = IDENTIFIER
  swap
  · simp [check_A, hg1, hx] at h
    exact absurd h.1.symm hr
  have hx0 : x.key ≠ 0 := by rw [hx]; decide
  obtain ⟨-, hpc⟩ := peek_real hg1 hx0
  rcases hg2 : get_word c' with ⟨e, c''⟩
  by_cases he : e.key = ASSIGN ∧ e.value = "="
  swap
  · simp only [check_A, hg1, hg2] at h
    simp [hx, he] at h
    exact absurd h.1.symm hr
  have he0 : e.key ≠ 0 := by rw [he.1]; decide
  obtain ⟨-, hpc'⟩ := peek_real hg2 he0
  cases hC : check_C undef c'' with
  | undefined => simp [check_A, hg1, hx, hg2, he, hC, exec.bind] at h
  | starved => simp [check_A, hg1, hx, hg2, he, hC, exec.bind] at h
  | done y =>
    obtain ⟨r3, c5⟩ := y
    by_cases hr3 : r3 = 0
    · simp [check_A, hg1, hx, hg2, he, hC, exec.bind, hr3] at h
      exact absurd h.1.symm hr
    simp [check_A, hg1, hx, hg2, he, hC, exec.bind, hr3] at h
    obtain ⟨-, rfl⟩ := h
    -- the translator
    rw [hpc, hpc'] at hv
    obtain ⟨s1, hgt1, h1, -⟩ := get_word_shape hv
    obtain ⟨s2, hgt2, h2, -⟩ := get_word_shape h1
    obtain ⟨s3, acc1, k1, hCt, h3, hacc, pre, hpre⟩ := follow_C undef ops stk hops hstk c'' c5
      r3 s2 hC hr3 h2
    obtain ⟨s4, hpop, h4⟩ := strict_pop_operand_shape h3
    have h5 : shape (emit (asm_line.binary "mov" x.value acc1.value) s4) =
        (pending c5, ops, stk, regs_of k1 0) := by
      rw [shape_emit]; exact h4
    have hsuf : ∃ pre, pending c = pre ++ pending c5 :=
      ⟨x :: e :: pre, by rw [hpc, hpc', hpre]; rfl⟩
    rcases hacc with ⟨hk0, hkey⟩ | ⟨hk, hreg⟩
    · have hkey' : ¬ acc1.key = REGISTER := hkey
      refine ⟨emit (asm_line.binary "mov" x.value acc1.value) s4, ?_, ?_, hsuf⟩
      · simp [strict_translate_A, hgt1, hgt2, hCt, exec.bind, hpop, hkey']
      · rw [h5, hk0]
    · have hkr : acc1.key = REGISTER := by rw [hreg]
      refine ⟨free_register (get_register_no acc1.value)
        (emit (asm_line.binary "mov" x.value acc1.value) s4), ?_, ?_, hsuf⟩
      · simp [strict_translate_A, hgt1, hgt2, hCt, exec.bind, hpop, hkr]
      · rw [shape_free_register _ h5]
        simp only [Prod.mk.injEq, true_and]
        have hs4 : s4.registers = regs_of k1 0 := by
          have := congrArg (fun q => q.2.2.2) h4
          simpa [shape] using this
        rw [hreg]
        rcases hk with h | h | h <;>
          simp [h, regs_of, reg_name, get_register_name, get_register_no, free_register,
            emit, hs4]

/-- The translator follows the checker through a boolean expression. -/
theorem follow_E (c c1 : parser_state) (r : Int) (t : parser_state)
    (ops stk : List word_t) (rg : reg_table)
    (h : check_E c = (r, c1)) (hr : r ≠ 0)
    (hv : shape t = (pending c, ops, stk, rg))
    (hops : ops.length < 2) (hstk : stk.length + 1 < 3) :
    ∃ t1 op, strict_translate_E t = exec.done t1 ∧ shape t1 = (pending c1, op :: ops, stk, rg) ∧
      isO op ∧ ∃ pre, pending c = pre ++ pending c1 := by
  obtain ⟨r', c1', hE, hder⟩ := check_E_sound c
  rw [h] at hE
  simp only [Prod.mk.injEq] at hE
  obtain ⟨rfl, rfl⟩ := hE
  obtain ⟨-, e, ⟨a, o, b, -, ho, -, rfl⟩, hpe⟩ := hder hr
  rw [hpe] at hv
  have hv' : shape t = (a :: o :: b :: pending c1, ops, stk, rg) := by simpa using hv
  obtain ⟨t1, hrun, h1⟩ := strict_translate_E_shape hv' hops hstk
  exact ⟨t1, o, hrun, h1, ho, [a, o, b], hpe⟩

/-- The translator follows the checker through the assignment of a statement, up to the
`;` that ends it. -/
theorem follow_S_tail (undef : parser_state → Int) (c c1 : parser_state) (r : Int)
    (t : parser_state)
    (h : check_S_tail undef c = exec.done (r, c1)) (hr : r ≠ 0)
    (hv : shape t = (pending c, [], [], regs_of 0 0)) :
    ∃ t1, strict_translate_A t = exec.done t1 ∧
      shape t1 = (⟨SEMICOLON, ";"⟩ :: pending c1, [], [], regs_of 0 0) ∧
      c1.returned.key = 0 ∧ r = 1 ∧
      ∃ pre, pending c = pre ++ ⟨SEMICOLON, ";"⟩ :: pending c1 := by
  cases hA : check_A undef c with
  | undefined => simp [check_S_tail, hA, exec.bind] at h
  | starved => simp [check_S_tail, hA, exec.bind] at h
  | done y =>
    obtain ⟨r3, c5⟩ := y
    by_cases hr3 : r3 = 0
    · simp [check_S_tail, hA, exec.bind, hr3] at h
      exact absurd h.1.symm hr
    rcases hg : get_word c5 with ⟨e, c6⟩
    by_cases he : e.key = SEMICOLON ∧ e.value = ";"
    swap
    · simp only [check_S_tail, hA, exec.bind, hg] at h
      simp [hr3, he] at h
      exact absurd h.1.symm hr
    simp [check_S_tail, hA, exec.bind, hr3, hg, he] at h
    obtain ⟨hr1, rfl⟩ := h
    have he0 : e.key ≠ 0 := by rw [he.1]; decide
    obtain ⟨-, hpc⟩ := peek_real hg he0
    have heq := check_word_eq he
    subst heq
    obtain ⟨t1, hrun, h1, pre, hpre⟩ := follow_A undef [] [] (by decide) (by decide) c c5 r3 t
      hA hr3 hv
    have hslot : c6.returned.key = 0 := by
      have := get_word_slot c5
      rw [hg] at this
      exact this
    exact ⟨t1, hrun, by rw [h1, hpc], hslot, hr1.symm, pre, by rw [hpre, hpc]⟩

/-- The translator follows the checker through a statement: wherever `check_S` returns 1,
the watched `translate_S` at the same words is done with the result 0 and has read the
same words, which end with `;`. -/
theorem follow_S (undef : parser_state → Int) (c c1 : parser_state) (r : Int)
    (t : parser_state)
    (h : check_S undef c = exec.done (r, c1)) (hr : r ≠ 0) (hm : r ≠ -1)
    (hv : shape t = (pending c, [], [], regs_of 0 0)) :
    ∃ t1, strict_translate_S t = exec.done (0, t1) ∧
      shape t1 = (pending c1, [], [], regs_of 0 0) ∧ t1.returned.key = 0 ∧
      c1.returned.key = 0 ∧ r = 1 ∧
      ∃ pre, pending c = pre ++ ⟨SEMICOLON, ";"⟩ :: pending c1 := by
  rcases hg1 : get_word c with ⟨w, c'⟩
  by_cases hw0 : w.key = 0
  · simp [check_S, hg1, hw0] at h
    exact absurd h.1.symm hm
  obtain ⟨hkeep, hpc⟩ := peek_real hg1 hw0
  by_cases hwh : w.key = KEYWORD ∧ w.value = "while"
  · have hweq := check_word_eq hwh
    subst hweq
    have hK : ¬ KEYWORD = 0 := by decide
    rcases hg2 : get_word c' with ⟨l, c2⟩
    by_cases hl : l.key = BRACKET_DOT ∧ l.value = "("
    swap
    · simp only [check_S, hg1, hg2] at h
      simp [hl, hK] at h
      exact absurd h.1.symm hr
    have hl0 : l.key ≠ 0 := by rw [hl.1]; decide
    obtain ⟨-, hpc2⟩ := peek_real hg2 hl0
    rcases hE : check_E c2 with ⟨rE, c3⟩
    by_cases hrE : rE = 0
    · simp only [check_S, hg1, hg2, hE] at h
      simp [hl, hrE, hK] at h
      exact absurd h.1.symm hr
    rcases hg4 : get_word c3 with ⟨q, c4⟩
    by_cases hq : q.key = BRACKET_DOT ∧ q.value = ")"
    swap
    · simp only [check_S, hg1, hg2, hE, hg4] at h
      simp [hl, hrE, hq, hK] at h
      exact absurd h.1.symm hr
    have hq0 : q.key ≠ 0 := by rw [hq.1]; decide
    obtain ⟨-, hpc4⟩ := peek_real hg4 hq0
    have hT : check_S_tail undef c4 = exec.done (r, c1) := by
      simp only [check_S, hg1, hg2, hE, hg4] at h
      simpa [hl, hrE, hq, hK] using h
    -- the translator
    rw [hpc, hpc2] at hv
    obtain ⟨s1, hgt1, h1, -⟩ := get_word_shape hv
    have h2 : shape (emit (asm_line.label "begin" (s1.begin_counter + 1))
        { s1 with begin_counter := s1.begin_counter + 1 }) =
        (l :: pending c2, [], [], regs_of 0 0) := h1
    obtain ⟨s3, hgt3, h3, -⟩ := get_word_shape h2
    obtain ⟨s4, op, hEt, h4, hop, preE, hpreE⟩ := follow_E c2 c3 rE s3 [] [] _ hE hrE h3
      (by decide) (by decide)
    rw [hpc4] at h4
    obtain ⟨s5, hgt5, h5, -⟩ := get_word_shape h4
    obtain ⟨s6, hpop, h6⟩ := strict_pop_operator_shape h5
    have h8 : shape (emit (asm_line.label "true" (emit_branch op.value s6).branch_counter)
        (emit_branch op.value s6)) = (pending c4, [], [], regs_of 0 0) := by
      rw [shape_emit, shape_emit_branch]; exact h6
    obtain ⟨s9, hA9, h9, hslot, hr1, pre, hpre⟩ := follow_S_tail undef c4 c1 r _ hT hr h8
    have h11 : shape (emit (asm_line.label "false" s9.branch_counter)
        (emit (asm_line.jump "jmp" "begin" s9.begin_counter) s9)) =
        (⟨SEMICOLON, ";"⟩ :: pending c1, [], [], regs_of 0 0) := h9
    obtain ⟨s12, hg12, h12, hr12⟩ := get_word_shape h11
    refine ⟨s12, ?_, h12, hr12, hslot, hr1, ⟨KEYWORD, "while"⟩ :: l :: (preE ++ q :: pre), ?_⟩
    · have hkw : ¬ ((⟨KEYWORD, "while"⟩ : word_t).key = 0) := by decide
      have hcw : check_word ⟨KEYWORD, "while"⟩ KEYWORD (some "while") = true := by decide
      simp only [strict_translate_S, hgt1, hkw, hcw, if_true, if_false, emit_begin_counter,
        emit_branch_counter, hgt3, hEt, exec.bind, hgt5, hpop, Option.getD_some, hA9, hop.1,
        hg12]
    · rw [hpc, hpc2, hpreE, hpc4, hpre]
      simp
  · have hT : check_S_tail undef (return_word w c') = exec.done (r, c1) := by
      simp only [check_S, hg1] at h
      simpa [hw0, hwh] using h
    obtain ⟨s1, hgt1, hback⟩ := peek_follows hv hg1
    obtain ⟨s2, hA2, h2, hslot, hr1, pre, hpre⟩ := follow_S_tail undef _ c1 r _ hT hr hback
    obtain ⟨s3, hg3, h3, hr3⟩ := get_word_shape h2
    refine ⟨s3, ?_, h3, hr3, hslot, hr1, pre, by rw [← hkeep, hpre]⟩
    -- the first word is the identifier of the assignment: it is no comparison operator
    have hxc : ¬ w.key = COMPARE := by
      intro hc
      -- `check_A` refuses a word that is not an identifier
      rcases hgg : get_word (return_word w c') with ⟨x, c''⟩
      have hx : x = w := by
        obtain ⟨w1, cc, hgc, -, -, hcc⟩ := get_word_pending (return_word w c')
        rw [hgg] at hgc
        simp only [Prod.mk.injEq] at hgc
        obtain ⟨rfl, rfl⟩ := hgc
        rw [hkeep, hpc] at hcc
        rcases hcc with ⟨h0, -⟩ | hcc
        · simp at h0
        · simp only [List.cons.injEq] at hcc
          exact hcc.1.symm
      subst hx
      have hnid : ¬ x.key = IDENTIFIER := by rw [hc]; decide
      cases hA : check_A undef (return_word x c') with
      | undefined => simp [check_S_tail, hA, exec.bind] at hT
      | starved => simp [check_S_tail, hA, exec.bind] at hT
      | done y =>
        have hA' := hA
        simp [check_A, hgg, hnid] at hA'
        rw [← hA'] at hA
        simp [check_S_tail, hA, exec.bind] at hT
        exact hr hT.1.symm
    simp [strict_translate_S, hgt1, hw0, hwh, hxc, exec.bind, hA2, hg3, check_word]

/-- Where `check_S` finds no word, so does `translate_S`, and both leave the same words. -/
theorem follow_stop (undef : parser_state → Int) (c c1 t : parser_state)
    (h : check_S undef c = exec.done (-1, c1))
    (hv : shape t = (pending c, [], [], regs_of 0 0)) :
    (get_word c).1.key = 0 ∧
    ∃ t1, strict_translate_S t = exec.done (-1, t1) ∧
      shape t1 = (pending c1, [], [], regs_of 0 0) ∧
      (pending c = [] → pending c1 = []) ∧
      (pending c = [] ∨ ∃ w ws, pending c = w :: ws ∧ w.key = 0) := by
  obtain ⟨w, c', hgc, -, -, hc⟩ := get_word_pending c
  by_cases hw0 : w.key = 0
  swap
  · exfalso
    by_cases hwh : w.key = KEYWORD ∧ w.value = "while"
    · have hK : ¬ KEYWORD = 0 := by decide
      have hweq := check_word_eq hwh
      subst hweq
      rcases hg2 : get_word c' with ⟨l, c2⟩
      by_cases hl : l.key = BRACKET_DOT ∧ l.value = "("
      swap
      · simp only [check_S, hgc, hg2] at h
        simp [hl, hK] at h
      rcases hE : check_E c2 with ⟨rE, c3⟩
      by_cases hrE : rE = 0
      · simp only [check_S, hgc, hg2, hE] at h
        simp [hl, hrE, hK] at h
      rcases hg4 : get_word c3 with ⟨q, c4⟩
      by_cases hq : q.key = BRACKET_DOT ∧ q.value = ")"
      swap
      · simp only [check_S, hgc, hg2, hE, hg4] at h
        simp [hl, hrE, hq, hK] at h
      have hT : check_S_tail undef c4 = exec.done (-1, c1) := by
        simp only [check_S, hgc, hg2, hE, hg4] at h
        simpa [hl, hrE, hq, hK] using h
      rcases check_S_tail_result undef _ _ _ hT with h0 | h0 <;> exact absurd h0 (by decide)
    · have hT : check_S_tail undef (return_word w c') = exec.done (-1, c1) := by
        simp only [check_S, hgc] at h
        simpa [hw0, hwh] using h
      rcases check_S_tail_result undef _ _ _ hT with h0 | h0 <;> exact absurd h0 (by decide)
  have hc1 : c1 = c' := by
    simp [check_S, hgc, hw0] at h
    exact h.symm
  subst hc1
  obtain ⟨w2, t1, hgt, -, hmt, ht⟩ := get_word_pending t
  simp only [shape, Prod.mk.injEq] at hv
  obtain ⟨hp, h1, h2, h3⟩ := hv
  have hsame : w2 = w ∧ pending t1 = pending c1 := by
    rcases hc with ⟨hc0, hw, hc1⟩ | hc
    · rcases ht with ⟨-, hw2, ht1⟩ | ht
      · exact ⟨by rw [hw2, hw], by rw [ht1, hc1]⟩
      · rw [hp, hc0] at ht; simp at ht
    · rcases ht with ⟨ht0, -, -⟩ | ht
      · rw [hp, hc] at ht0; simp at ht0
      · rw [hp, hc] at ht
        simp only [List.cons.injEq] at ht
        exact ⟨ht.1.symm, ht.2.symm⟩
  obtain ⟨rfl, hpt⟩ := hsame
  refine ⟨by rw [hgc]; exact hw0, t1, by simp [strict_translate_S, hgt, hw0], ?_, ?_, ?_⟩
  · simp only [shape, Prod.mk.injEq]
    exact ⟨hpt, hmt.1.trans h1, hmt.2.1.trans h2, hmt.2.2.1.trans h3⟩
  · intro h0
    rcases hc with ⟨-, -, hc1⟩ | hc
    · exact hc1
    · rw [h0] at hc; simp at hc
  · rcases hc with ⟨hc0, -, -⟩ | hc
    · exact Or.inl hc0
    · exact Or.inr ⟨w2, _, hc, hw0⟩

/-- The checking pass, when it accepts, and the translation pass go through the same
words, call by call, and stop at the same word. -/
theorem lockstep_run (undef : parser_state → Int) :
    ∀ (n : Nat) (c cend : parser_state) (fuel : Nat) (t : parser_state),
      validate_loop undef n c = exec.done (1, cend) →
      shape t = (pending c, [], [], regs_of 0 0) → (pending c).length < fuel →
      ∃ (sts : List (List word_t)) (tend : parser_state) (rest : List word_t),
        lockstep undef sts c t ∧ strict_parse_loop fuel t = exec.done tend ∧
        shape tend = (pending cend, [], [], regs_of 0 0) ∧
        pending c = sts.flatten ++ rest ∧
        (rest = [] ∨ ∃ w ws, rest = w :: ws ∧ w.key = 0) ∧
        (rest = [] → pending cend = []) := by
  intro n
  induction n with
  | zero => intro c cend fuel t h; simp [validate_loop] at h
  | succ n ih =>
    intro c cend fuel t h hv hlen
    cases fuel with
    | zero => simp at hlen
    | succ f =>
      rw [validate_loop] at h
      obtain ⟨⟨r, c1⟩, hS, h⟩ := bind_done h
      simp only at h
      by_cases hr0 : r = 0
      · simp [hr0] at h
      by_cases hrm : r = -1
      · subst hrm
        simp at h
        subst h
        obtain ⟨hkey, t1, hrun, h1, hnil, hrest⟩ := follow_stop undef c c1 t hS hv
        have hpt : pending t = pending c := by
          have := congrArg Prod.fst hv
          simpa [shape] using this
        have hpt1 : pending t1 = pending c1 := by
          have := congrArg Prod.fst h1
          simpa [shape] using this
        refine ⟨[], t1, pending c, ?_, ?_, h1, by simp, hrest, hnil⟩
        · exact lockstep.stop c t c1 t1 hpt hkey hS (strict_translate_S_refines t _ hrun) hpt1
        · simp [strict_parse_loop, hrun, exec.bind]
      · simp only [hr0, hrm, if_false] at h
        obtain ⟨t1, hrun, h1, hslot1, hslot, hr1, pre, hpre⟩ := follow_S undef c c1 r t hS hr0
          hrm hv
        subst hr1
        have hpt1 : pending t1 = pending c1 := by
          have := congrArg Prod.fst h1
          simpa [shape] using this
        have hpt : pending t = (pre ++ [⟨SEMICOLON, ";"⟩]) ++ pending t1 := by
          have := congrArg Prod.fst hv
          rw [hpt1]
          simpa [shape, hpre] using this
        have hpc : pending c = (pre ++ [⟨SEMICOLON, ";"⟩]) ++ pending c1 := by
          rw [hpre]; simp
        have hlen' : (pending c1).length < f := by
          rw [hpre] at hlen
          simp at hlen
          omega
        obtain ⟨sts, tend, rest, hlock, hloop, hend, hfl, hrest, hnil⟩ := ih c1 cend f t1 h h1
          hlen'
        refine ⟨(pre ++ [⟨SEMICOLON, ";"⟩]) :: sts, tend, rest, ?_, ?_, hend, ?_, hrest, hnil⟩
        · exact lockstep.step pre sts c t c1 t1 hS (strict_translate_S_refines t _ hrun) hpc hpt
            hslot hslot1 hlock
        · simp [strict_parse_loop, hrun, exec.bind, hloop]
        · rw [List.flatten_cons, hpc, hfl]; simp

/-- The entries of two passes in step, on words with nonzero keys, are statements as the
checker accepts them. -/
theorem lockstep_statements (undef : parser_state → Int) {sts : List (List word_t)}
    {c t : parser_state} (h : lockstep undef sts c t) (hg : good c) :
    ∀ st ∈ sts, DerS isAddSub st := by
  induction h with
  | stop c t c1 t1 _ _ _ _ _ => intro st hst; simp at hst
  | step st sts c t c1 t1 hS _ hpc _ _ _ _ ih =>
    obtain ⟨r, s1, hS', -, -, -, hder⟩ := check_S_sound undef c hg
    rw [hS] at hS'
    simp only [exec.done.injEq, Prod.mk.injEq] at hS'
    obtain ⟨rfl, rfl⟩ := hS'
    obtain ⟨st', hd, hst'⟩ := hder rfl
    have heq : st' = st ++ [⟨SEMICOLON, ";"⟩] := by
      rw [hpc] at hst'
      exact (List.append_cancel_right hst').symm
    intro q hq
    simp only [List.mem_cons] at hq
    rcases hq with rfl | hq
    · rw [← heq]; exact hd
    · exact ih (good_of_suffix _ hg hpc) q hq

/-- C37: the translator reads what the checker read. For every file that
`do_validate_grammar`, called with an empty pushback slot, empty stacks and an all-free
register table, accepts (result 1), the translation pass started from the state the checker
left goes in step with the checking pass: call by call, `check_S` returned 1 and
`translate_S` returns 0, both having read exactly the same words, up to a `;`, and left the
pushback slot empty; then both find no word at the same place and return -1. So `do_parse`
translates as many statements as were validated, in the order of the file, and returns
where the checker stopped, the same words left. What was read is a beginning of the words
of the file, and what follows is nothing or starts with a word of key 0, which `get_word`
yields at the end of the file. When every key of the file is nonzero, as in what the
scanner writes, all the words were read, no word is left, and what each pair of calls read
is a statement of the grammar (P any word of the key ADD_SUB). -/
theorem C37_translator_follows_checker (undef : parser_state → Int) (all : List src_line)
    (s0 sv : parser_state)
    (hret : s0.returned.key = 0) (hops : s0.operators = []) (hstk : s0.operands = [])
    (hregs : s0.registers = ⟨false, false, false, false⟩)
    (hacc : do_validate_grammar undef all s0 = exec.done (1, sv)) :
    ∃ (sts : List (List word_t)) (s2 : parser_state) (rest : List word_t),
      lockstep undef sts (rewind all s0) (rewind all sv) ∧
      do_parse all sv = exec.done s2 ∧ pending s2 = pending sv ∧
      tokens all = sts.flatten ++ rest ∧
      (rest = [] ∨ ∃ w ws, rest = w :: ws ∧ w.key = 0) ∧
      ((∀ w ∈ tokens all, w.key ≠ 0) →
        sts.flatten = tokens all ∧ pending s2 = [] ∧ ∀ st ∈ sts, DerS isAddSub st) := by
  have hp := pending_rewind all s0 hret
  have hsv : sv.returned.key = 0 := validate_loop_slot undef _ _ sv hacc
  obtain ⟨f1, f2, f3, -⟩ := validate_loop_frame undef _ _ sv 1 hacc
  have hv : shape (rewind all sv) = (pending (rewind all s0), [], [], regs_of 0 0) := by
    rw [hp]
    exact shape_of_fresh_state (s := rewind all sv) hsv (f1.trans hops) (f2.trans hstk)
      (f3.trans hregs)
  have hlen : (pending (rewind all s0)).length < budget (rewind all sv) := by
    have := tokens_length all
    rw [hp]
    simp only [budget, rewind]
    omega
  obtain ⟨sts, s2, rest, hlock, hrun, h2, hfl, hrest, hnil⟩ := lockstep_run undef _
    (rewind all s0) sv _ (rewind all sv) hacc hv hlen
  have hp2 : pending s2 = pending sv := by
    have := congrArg Prod.fst h2
    simpa [shape] using this
  rw [hp] at hfl
  refine ⟨sts, s2, rest, hlock, strict_do_parse_refines all sv s2 hrun, hp2, hfl, hrest, ?_⟩
  intro hkeys
  have hr : rest = [] := by
    rcases hrest with h | ⟨w, ws, h, hw⟩
    · exact h
    · exact absurd hw (hkeys w (by rw [hfl, h]; simp))
  have hg : good (rewind all s0) := by intro t ht; rw [hp] at ht; exact hkeys t ht
  refine ⟨by rw [hfl, hr, List.append_nil], by rw [hp2]; exact hnil hr,
    lockstep_statements undef hlock hg⟩

/-- C37 on the file of `x = 1 + 2 * 3 ;`, and on a file in which a line with the key 0
stands between two statements: both passes stop in front of the second. -/
theorem C37_translator_follows_checker_witness :
    (∃ sv, do_validate_grammar (fun _ => 1) file_assign (parser_init file_assign)
        = exec.done (1, sv) ∧
      ∃ (sts : List (List word_t)) (s2 : parser_state) (rest : List word_t),
        lockstep (fun _ => 1) sts (rewind file_assign (parser_init file_assign))
          (rewind file_assign sv) ∧
        do_parse file_assign sv = exec.done s2 ∧ pending s2 = pending sv ∧
        tokens file_assign = sts.flatten ++ rest ∧
        (rest = [] ∨ ∃ w ws, rest = w :: ws ∧ w.key = 0) ∧
        ((∀ w ∈ tokens file_assign, w.key ≠ 0) →
          sts.flatten = tokens file_assign ∧ pending s2 = [] ∧
          ∀ st ∈ sts, DerS isAddSub st)) ∧
    (∃ sv, do_validate_grammar (fun _ => 1) file_cut (parser_init file_cut)
        = exec.done (1, sv) ∧
      ∃ (sts : List (List word_t)) (s2 : parser_state) (rest : List word_t),
        lockstep (fun _ => 1) sts (rewind file_cut (parser_init file_cut))
          (rewind file_cut sv) ∧
        do_parse file_cut sv = exec.done s2 ∧ pending s2 = pending sv ∧
        tokens file_cut = sts.flatten ++ rest ∧
        (rest = [] ∨ ∃ w ws, rest = w :: ws ∧ w.key = 0) ∧
        ((∀ w ∈ tokens file_cut, w.key ≠ 0) →
          sts.flatten = tokens file_cut ∧ pending s2 = [] ∧
          ∀ st ∈ sts, DerS isAddSub st)) :=
  ⟨⟨_, rfl,
    C37_translator_follows_checker (fun _ => 1) file_assign (parser_init file_assign) _
      rfl rfl rfl rfl rfl⟩,
   ⟨_, rfl,
    C37_translator_follows_checker (fun _ => 1) file_cut (parser_init file_cut) _
      rfl rfl rfl rfl rfl⟩⟩

/-! ## Claim C33 -/

end ParseJava

namespace LexJava

open ParseJava

/-! ## Claim C6 -/

/-- C6: `do_judgement` classifies a word as BOOLEAN exactly when it is `true` or `false`,
as KEYWORD exactly when it is one of the 48 strings of the keyword table, and as
IDENTIFIER exactly when it is neither; the three classes are mutually exclusive, since
the three results are different keys. -/
theorem C6_do_judgement (w : List Char) :
    (do_judgement w = BOOLEAN ↔ (w = "true".data ∨ w = "false".data)) ∧
    (do_judgement w = KEYWORD ↔ w ∈ keywords) ∧
    (do_judgement w = IDENTIFIER ↔ (¬ (w = "true".data ∨ w = "false".data) ∧ w ∉ keywords)) ∧
    keywords.length = 48 ∧
    (BOOLEAN ≠ KEYWORD ∧ BOOLEAN ≠ IDENTIFIER ∧ KEYWORD ≠ IDENTIFIER) := by
  have hany : (keywords.any (fun k => decide (w = k)) = true) ↔ w ∈ keywords := by
    simp [List.any_eq_true]
  have hb : ∀ v, (v = "true".data ∨ v = "false".data) → v ∉ keywords := by
    intro v hv
    rcases hv with rfl | rfl <;> decide
  have hBK : BOOLEAN ≠ KEYWORD := by decide
  have hBI : BOOLEAN ≠ IDENTIFIER := by decide
  have hKI : KEYWORD ≠ IDENTIFIER := by decide
  by_cases h1 : w = "true".data ∨ w = "false".data
  · have hj : do_judgement w = BOOLEAN := by simp [do_judgement, h1]
    rw [hj]
    refine ⟨?_, ?_, ?_, by decide, hBK, hBI, hKI⟩
    · exact ⟨fun _ => h1, fun _ => rfl⟩
    · exact ⟨fun h => absurd h hBK, fun h => absurd h (hb w h1)⟩
    · exact ⟨fun h => absurd h hBI, fun h => absurd h1 h.1⟩
  · by_cases h2 : w ∈ keywords
    · have hj : do_judgement w = KEYWORD := by
        unfold do_judgement
        rw [if_neg h1, if_pos (hany.mpr h2)]
      rw [hj]
      refine ⟨?_, ?_, ?_, by decide, hBK, hBI, hKI⟩
      · exact ⟨fun h => absurd h.symm hBK, fun h => absurd h h1⟩
      · exact ⟨fun _ => h2, fun _ => rfl⟩
      · exact ⟨fun h => absurd h hKI, fun h => absurd h2 h.2⟩
    · have hj : do_judgement w = IDENTIFIER := by
        unfold do_judgement
        rw [if_neg h1, if_neg (fun h => h2 (hany.mp h))]
      rw [hj]
      refine ⟨?_, ?_, ?_, by decide, hBK, hBI, hKI⟩
      · exact ⟨fun h => absurd h.symm hBI, fun h => absurd h h1⟩
      · exact ⟨fun h => absurd h.symm hKI, fun h => absurd h h2⟩
      · exact ⟨fun _ => ⟨h1, h2⟩, fun _ => rfl⟩

/-! ## Scanning an identifier or keyword -/

theorem word_char_ne_NUL {c : Char} (h : is_word_char c = true) : c ≠ NUL := by
  intro hc
  subst hc
  revert h
  decide

theorem word_start_is_word_char {c : Char} (h : is_word_start c = true) :
    is_word_char c = true := by
  simp only [is_word_start, Bool.or_eq_true] at h
  simp only [is_word_char, Bool.or_eq_true]
  rcases h with ((h | h) | h) | h
  · exact Or.inl (Or.inl (Or.inl (Or.inl h)))
  · exact Or.inl (Or.inl (Or.inl (Or.inr h)))
  · exact Or.inl (Or.inr h)
  · exact Or.inr h

theorem cstr_eq_self {w : List Char} (h : ∀ c ∈ w, c ≠ NUL) : cstr w = w := by
  simp only [cstr]
  rw [List.takeWhile_eq_self_iff]
  intro x hx
  simpa using h x hx

theorem buf_write_end (w : List Char) (c : Char) : buf_write w w.length c = w ++ [c] := by
  simp [buf_write]

/-- Appending a character to a buffer whose cells are all counted by `length`. -/
theorem push_full (c : Char) (s : lex_state) (hl : s.length = s.word.length)
    (hb : s.length + 1 < BUF_SIZE) :
    push c s = { s with word := s.word ++ [c], length := s.length + 1 } := by
  have hn : decide (BUF_SIZE ≤ s.length + 1) = false := by
    simp only [decide_eq_false_iff_not]; omega
  simp only [push, store, hn, Bool.or_false]
  rw [hl, buf_write_end]

/-- A round of the loop that advances to the next character. -/
theorem loop_advance (fuel : Nat) (c : Char) (cs : List Char) (s s1 : lex_state)
    (h : do_lex_step c s = some (s1, true)) :
    do_lex_loop (fuel + 1) (c :: cs) s = do_lex_loop fuel cs s1 := by
  simp [do_lex_loop, h]

/-- A round of the loop that looks at the same character again. -/
theorem loop_again (fuel : Nat) (c : Char) (cs : List Char) (s s1 : lex_state)
    (h : do_lex_step c s = some (s1, false)) :
    do_lex_loop (fuel + 1) (c :: cs) s = do_lex_loop fuel (c :: cs) s1 := by
  simp [do_lex_loop, h]

theorem step_state_0 (c : Char) (s : lex_state) (hst : s.state = 0) :
    do_lex_step c s =
      (let r := do_state_0 c s
       if r.2 then
         if ¬ r.1.condition_flag then
           some (store (r.1.length - 1) NUL
             { r.1 with condition_flag := true, length := r.1.length - 1 }, true)
         else some (goto (-1) r.1, true)
       else some (r.1, true)) := by
  rw [do_lex_step, hst]
  rfl

theorem step_state_1 (c : Char) (s : lex_state) (hst : s.state = 1) :
    do_lex_step c s = some ((do_state_1 c s).1, !(do_state_1 c s).2) := by
  rw [do_lex_step, hst]
  rfl

theorem step_state_2 (c : Char) (s : lex_state) (hst : s.state = 2) :
    do_lex_step c s = some (accept (do_judgement (cstr s.word)) s, false) := by
  rw [do_lex_step, hst]
  rfl

/-- Inside a word, the characters of the word are appended one by one. -/
theorem scan_word_chars :
    ∀ (cs : List Char) (s : lex_state) (tail : List Char) (fuel : Nat),
      s.state = 1 → s.length = s.word.length → s.length + cs.length < BUF_SIZE →
      (∀ c ∈ cs, is_word_char c = true) →
      do_lex_loop (fuel + cs.length) (cs ++ tail) s =
        do_lex_loop fuel tail
          { s with word := s.word ++ cs, length := s.length + cs.length } := by
  intro cs
  induction cs with
  | nil => intro s tail fuel _ _ _ _; simp
  | cons c cs ih =>
    intro s tail fuel hst hl hb hw
    have hc : is_word_char c = true := hw c (by simp)
    have hstep : do_lex_step c s = some (push c s, true) := by
      rw [step_state_1 c s hst]
      simp [do_state_1, hc]
    have hb' : s.length + cs.length + 1 < BUF_SIZE := by
      simp only [List.length_cons] at hb; omega
    have hpush := push_full c s hl (by omega)
    have hfuel : fuel + (c :: cs).length = (fuel + cs.length) + 1 := by
      simp only [List.length_cons]; omega
    have hih := ih { s with word := s.word ++ [c], length := s.length + 1 } tail fuel hst
      (by simp [hl]) (by show s.length + 1 + cs.length < BUF_SIZE; omega)
      (fun x hx => hw x (by simp [hx]))
    rw [hfuel, List.cons_append, loop_advance _ _ _ _ _ hstep, hpush, hih]
    simp [Nat.add_assoc, Nat.add_comm 1]

/-- The rounds of a word: for every word `c0 cs` matching `[A-Za-z_$][A-Za-z0-9_$]*`,
shorter than the word buffer, scanned from the initial DFA state with a cleared buffer and
followed by any character `d` outside `[A-Za-z0-9_$]`, the loop writes exactly one record
for the word, with the whole word as its text and the type `do_judgement` gives it, and is
back in the initial state in front of `d`: the scan of `c0 cs d rest` goes on as the scan
of `d rest` after that single record. -/
theorem scan_word (c0 d : Char) (cs rest : List Char) (s : lex_state) (fuel : Nat)
    (h0 : is_word_start c0 = true) (hcs : ∀ c ∈ cs, is_word_char c = true)
    (hlen : (c0 :: cs).length < BUF_SIZE) (hd : is_word_char d = false)
    (hst : s.state = 0) (hw : s.word = []) (hl : s.length = 0) :
    do_lex_loop (fuel + (c0 :: cs).length + 2) ((c0 :: cs) ++ d :: rest) s =
      do_lex_loop fuel (d :: rest)
        { s with out := s.out ++ [out_line.word (do_judgement (c0 :: cs)) (c0 :: cs)],
                 words := s.words + 1, words_in_line := s.words_in_line + 1 } := by
  have hlen' : cs.length + 1 < BUF_SIZE := by simpa using hlen
  have hstep0 : do_lex_step c0 s = some (goto 1 (push c0 s), true) := by
    rw [step_state_0 c0 s hst]
    simp [do_state_0, h0]
  have hpush0 : push c0 s = { s with word := [c0], length := 1 } := by
    have := push_full c0 s (by simp [hl, hw]) (by simp [hl, BUF_SIZE])
    simpa [hw, hl] using this
  have hfuel : fuel + (c0 :: cs).length + 2 = (fuel + 2 + cs.length) + 1 := by
    simp only [List.length_cons]; omega
  rw [hfuel, List.cons_append, loop_advance _ _ _ _ _ hstep0, hpush0,
    scan_word_chars cs _ (d :: rest) (fuel + 2) rfl rfl
      (by simp only [goto, List.length_singleton]; omega) hcs]
  -- the character after the word ends it
  have hnul : ∀ c ∈ c0 :: cs, c ≠ NUL := by
    intro c hc
    simp at hc
    rcases hc with rfl | hc
    · exact word_char_ne_NUL (word_start_is_word_char h0)
    · exact word_char_ne_NUL (hcs c hc)
  have hstr : cstr (c0 :: cs) = c0 :: cs := cstr_eq_self hnul
  have hstepd : ∀ t : lex_state, t.state = 1 → do_lex_step d t = some (goto 2 t, false) := by
    intro t ht
    rw [step_state_1 d t ht]
    simp [do_state_1, hd]
  rw [loop_again _ _ _ _ _ (hstepd _ rfl), loop_again _ _ _ _ _ (step_state_2 d _ rfl)]
  congr 1
  simp only [goto, accept, do_clear, do_update_word_count, do_output_word, List.singleton_append,
    hstr]
  cases s
  simp_all

/-! ## Claim C8 -/

/-- C8: operator maximal munch. Each operator of more than one character, scanned from
the initial state and followed by a space, yields exactly one word that is not a space,
of the type listed for it: PLUSPLUS for `++` and `--`, ASSIGN for the operators ending in
an assigning `=`, LOGIC_AND for `&&`, LOGIC_OR for `||`, EQUAL for `!=` and `==`, COMPARE
for `<=` and `>=`, SHIFT for `<<`, `>>` and `>>>`. -/
theorem C8_operator_maximal_munch :
    ∀ p ∈ operator_types, scan_types (p.1.data ++ [' ']) = some [p.2] := by
  decide

/-- C8, witness: `>>>=` yields exactly one word (ASSIGN), not four. -/
theorem C8_operator_maximal_munch_witness :
    (">>>=", ASSIGN) ∈ operator_types ∧ scan_types (">>>=".data ++ [' ']) = some [ASSIGN] :=
  ⟨by decide, C8_operator_maximal_munch (">>>=", ASSIGN) (by decide)⟩

/-! ## Claim C9 -/

/-- C9 fails on the code: the handlers of states 62 and 66/68 store a repeated `<` or `>`
at `word[*length]` without moving `length`, so the next character overwrites it. The
words written for `<<=`, `>>=`, `>>>` and `>>>=` carry the texts `<=`, `>=`, `>>` and
`>=`, not the operators as written in the source. -/
theorem C9_operator_text_overwritten :
    do_lex "<<= ".data = exec.done
      [out_line.word ASSIGN "<=".data, out_line.word SPACE " ".data, out_line.total 2] ∧
    do_lex ">>= ".data = exec.done
      [out_line.word ASSIGN ">=".data, out_line.word SPACE " ".data, out_line.total 2] ∧
    do_lex ">>> ".data = exec.done
      [out_line.word SHIFT ">>".data, out_line.word SPACE " ".data, out_line.total 2] ∧
    do_lex ">>>= ".data = exec.done
      [out_line.word ASSIGN ">=".data, out_line.word SPACE " ".data, out_line.total 2] := by
  decide

/-! ## Claim C10 -/

/-- C10 fails on the code: `condition_flag` is set at the first `?` and never cleared, so
in `a ? b : c : d` the second `:` is written as the word `?:` of type CONDITION too, not
as a COLON. -/
theorem C10_second_colon_is_condition :
    do_lex "a ? b : c : d".data = exec.done
      [out_line.word IDENTIFIER "a".data, out_line.word SPACE " ".data,
       out_line.word SPACE " ".data, out_line.word IDENTIFIER "b".data,
       out_line.word SPACE " ".data, out_line.word CONDITION "?:".data,
       out_line.word SPACE " ".data, out_line.word IDENTIFIER "c".data,
       out_line.word SPACE " ".data, out_line.word CONDITION "?:".data,
       out_line.word SPACE " ".data, out_line.word IDENTIFIER "d".data,
       out_line.total 12] := by
  decide

/-! ## Scanning a comment -/

theorem step_state_47 (c : Char) (s : lex_state) (hst : s.state = 47) :
    do_lex_step c s = some (accept_if MUL_DIV (do_state_47 c s)) := by
  rw [do_lex_step, hst]
  rfl

theorem step_state_74 (c : Char) (s : lex_state) (hst : s.state = 74) :
    do_lex_step c s = some (count_line_if (do_state_74 c s)) := by
  rw [do_lex_step, hst]
  rfl

theorem step_state_75 (c : Char) (s : lex_state) (hst : s.state = 75) :
    do_lex_step c s = some (count_line_if (do_state_75 c s)) := by
  rw [do_lex_step, hst]
  rfl

theorem step_state_76 (c : Char) (s : lex_state) (hst : s.state = 76) :
    do_lex_step c s = some (do_clear s, false) := by
  rw [do_lex_step, hst]
  rfl

theorem step_state_77 (c : Char) (s : lex_state) (hst : s.state = 77) :
    do_lex_step c s = some (count_line_if (do_state_77 c s)) := by
  rw [do_lex_step, hst]
  rfl

theorem step_state_78 (c : Char) (s : lex_state) (hst : s.state = 78) :
    do_lex_step c s = some (do_clear s, false) := by
  rw [do_lex_step, hst]
  rfl

theorem written_words_append (a b : List out_line) :
    written_words (a ++ b) = written_words a ++ written_words b := by
  induction a with
  | nil => rfl
  | cons x a ih => cases x <;> simp [written_words, ih]

theorem written_words_line_count (s : lex_state) :
    written_words (do_update_line_count s).out = written_words s.out := by
  simp only [do_update_line_count, written_words_append]
  split <;> simp [written_words]

theorem count_lines_succ (k : Nat) (s : lex_state) :
    count_lines (k + 1) s = count_lines k (do_update_line_count s) := by
  simp [count_lines, Function.iterate_succ_apply]

theorem count_lines_goto (k : Nat) (n : Int) (s : lex_state) :
    count_lines k (goto n s) = goto n (count_lines k s) := by
  induction k generalizing s with
  | zero => rfl
  | succ k ih =>
    rw [count_lines_succ, count_lines_succ, ← ih]
    rfl

/-- Counting lines changes the line count and writes word counter lines, nothing else. -/
theorem count_lines_fields (k : Nat) (s : lex_state) :
    (count_lines k s).state = s.state ∧ (count_lines k s).word = s.word ∧
    (count_lines k s).length = s.length ∧ (count_lines k s).lines = s.lines + k ∧
    (count_lines k s).words = s.words ∧
    (count_lines k s).condition_flag = s.condition_flag ∧
    (count_lines k s).overrun = s.overrun ∧
    written_words (count_lines k s).out = written_words s.out := by
  induction k generalizing s with
  | zero => simp [count_lines]
  | succ k ih =>
    obtain ⟨h1, h2, h3, h4, h5, h6, h7, h8⟩ := ih (do_update_line_count s)
    rw [count_lines_succ]
    refine ⟨h1, h2, h3, ?_, h5, h6, h7, ?_⟩
    · rw [h4]; simp only [do_update_line_count]; omega
    · rw [h8, written_words_line_count]

/-- Inside a block comment, characters other than `*` are skipped, the newlines counted. -/
theorem scan_comment_body :
    ∀ (body : List Char) (s : lex_state) (tail : List Char) (fuel : Nat),
      s.state = 74 → '*' ∉ body →
      do_lex_loop (fuel + body.length) (body ++ tail) s =
        do_lex_loop fuel tail (count_lines (body.count LF) s) := by
  intro body
  induction body with
  | nil => intro s tail fuel _ _; simp [count_lines]
  | cons c cs ih =>
    intro s tail fuel hst hb
    have hc : c ≠ '*' := fun h => hb (by simp [h])
    have hcs : '*' ∉ cs := fun h => hb (by simp [h])
    have hfuel : fuel + (c :: cs).length = (fuel + cs.length) + 1 := by
      simp only [List.length_cons]; omega
    by_cases hlf : c = LF
    · have hstep : do_lex_step c s = some (do_update_line_count s, true) := by
        rw [step_state_74 c s hst, hlf]
        rfl
      rw [hfuel, List.cons_append, loop_advance _ _ _ _ _ hstep,
        ih (do_update_line_count s) tail fuel hst hcs, ← count_lines_succ]
      simp [hlf]
    · have hstep : do_lex_step c s = some (s, true) := by
        rw [step_state_74 c s hst]
        simp [do_state_74, count_line_if, hc, hlf]
      rw [hfuel, List.cons_append, loop_advance _ _ _ _ _ hstep, ih s tail fuel hst hcs]
      have : List.count LF (c :: cs) = List.count LF cs := by
        rw [List.count_cons]
        simp [hlf]
      rw [this]

/-- Inside a line comment, characters other than the newline are skipped. -/
theorem scan_line_comment :
    ∀ (text : List Char) (s : lex_state) (tail : List Char) (fuel : Nat),
      s.state = 77 → LF ∉ text →
      do_lex_loop (fuel + text.length) (text ++ tail) s = do_lex_loop fuel tail s := by
  intro text
  induction text with
  | nil => intro s tail fuel _ _; simp
  | cons c cs ih =>
    intro s tail fuel hst hb
    have hc : c ≠ LF := fun h => hb (by simp [h])
    have hcs : LF ∉ cs := fun h => hb (by simp [h])
    have hfuel : fuel + (c :: cs).length = (fuel + cs.length) + 1 := by
      simp only [List.length_cons]; omega
    have hstep : do_lex_step c s = some (s, true) := by
      rw [step_state_77 c s hst]
      simp [do_state_77, count_line_if, hc]
    rw [hfuel, List.cons_append, loop_advance _ _ _ _ _ hstep, ih s tail fuel hst hcs]

/-- From the initial state with a cleared buffer, `/` then `*` or `/` opens a comment and
leaves the variables as they were, but for the state. -/
theorem open_comment (c : Char) (s : lex_state) (tail : List Char) (fuel : Nat)
    (hst : s.state = 0) (hw : s.word = []) (hl : s.length = 0) (hc : c = '*' ∨ c = '/') :
    do_lex_loop (fuel + 2) ('/' :: c :: tail) s =
      do_lex_loop fuel tail (goto (if c = '*' then 74 else 77) s) := by
  have hstep0 : do_lex_step '/' s = some (goto 47 (push '/' s), true) := by
    rw [step_state_0 '/' s hst]
    rfl
  have hstep1 : do_lex_step c (goto 47 (push '/' s)) =
      some (goto (if c = '*' then 74 else 77) s, true) := by
    rw [step_state_47 c _ rfl]
    cases s
    simp only at hst hw hl
    subst hst hw hl
    rcases hc with rfl | rfl <;>
      simp [accept_if, do_state_47, goto, push, store, do_clear, BUF_SIZE]
  rw [loop_advance _ _ _ _ _ hstep0, loop_advance _ _ _ _ _ hstep1]

/-! ## Claim C11 -/

/-- C11: comments produce no word and count lines exactly. From the initial state with a
cleared buffer, (1) a block comment whose body holds no `*` and `k` newlines is scanned
with `k` calls of `do_update_line_count` and nothing else: the scan stands in state 76 after
the closing `*/`, from where the next round clears to the initial state without reading a
character; the line count has grown by `k` and no word was written; (2) a line comment is
scanned up to its first newline with one call of `do_update_line_count`: the scan stands in
state 78 after that newline, from where the next round clears to the initial state; the
line count has grown by 1 and no word was written. -/
theorem C11_comments_count_lines (s : lex_state) (hst : s.state = 0) (hw : s.word = [])
    (hl : s.length = 0) :
    (∀ (body tail : List Char) (fuel : Nat), '*' ∉ body →
      do_lex_loop (fuel + body.length + 4) ('/' :: '*' :: body ++ '*' :: '/' :: tail) s =
        do_lex_loop fuel tail (goto 76 (count_lines (body.count LF) s)) ∧
      (∀ c, do_lex_step c (goto 76 (count_lines (body.count LF) s)) =
        some (count_lines (body.count LF) s, false)) ∧
      (count_lines (body.count LF) s).state = 0 ∧
      (count_lines (body.count LF) s).lines = s.lines + body.count LF ∧
      (count_lines (body.count LF) s).words = s.words ∧
      written_words (count_lines (body.count LF) s).out = written_words s.out) ∧
    (∀ (text tail : List Char) (fuel : Nat), LF ∉ text →
      do_lex_loop (fuel + text.length + 3) ('/' :: '/' :: text ++ LF :: tail) s =
        do_lex_loop fuel tail (goto 78 (do_update_line_count s)) ∧
      (∀ c, do_lex_step c (goto 78 (do_update_line_count s)) =
        some (do_update_line_count s, false)) ∧
      (do_update_line_count s).state = 0 ∧
      (do_update_line_count s).lines = s.lines + 1 ∧
      (do_update_line_count s).words = s.words ∧
      written_words (do_update_line_count s).out = written_words s.out) := by
  have hclear : ∀ (t : lex_state) (n : Int), t.state = 0 → t.word = [] → t.length = 0 →
      do_clear (goto n t) = t := by
    intro t n h1 h2 h3
    cases t
    simp only at h1 h2 h3
    subst h1 h2 h3
    rfl
  constructor
  · intro body tail fuel hb
    obtain ⟨h1, h2, h3, h4, h5, _, _, h8⟩ := count_lines_fields (body.count LF) s
    refine ⟨?_, ?_, h1.trans hst, h4, h5, h8⟩
    · have hfuel : fuel + body.length + 4 = (fuel + 2 + body.length) + 2 := by omega
      have hstar : ∀ t : lex_state, t.state = 74 → do_lex_step '*' t = some (goto 75 t, true) := by
        intro t ht
        rw [step_state_74 '*' t ht]
        rfl
      have hslash : ∀ t : lex_state, t.state = 75 →
          do_lex_step '/' t = some (goto 76 t, true) := by
        intro t ht
        rw [step_state_75 '/' t ht]
        rfl
      rw [hfuel, List.cons_append, List.cons_append, open_comment '*' s _ _ hst hw hl (Or.inl rfl), if_pos rfl,
        scan_comment_body body (goto 74 s) _ (fuel + 2) rfl hb,
        loop_advance _ _ _ _ _ (hstar _ (count_lines_fields _ _).1),
        loop_advance _ _ _ _ _ (hslash _ rfl)]
      rw [count_lines_goto]
      rfl
    · intro c
      rw [step_state_76 c _ rfl, hclear _ 76 (h1.trans hst) (h2.trans hw) (h3.trans hl)]
  · intro text tail fuel hb
    refine ⟨?_, ?_, hst, rfl, rfl, written_words_line_count s⟩
    · have hfuel : fuel + text.length + 3 = (fuel + 1 + text.length) + 2 := by omega
      have hlf : ∀ t : lex_state, t.state = 77 →
          do_lex_step LF t = some (do_update_line_count (goto 78 t), true) := by
        intro t ht
        rw [step_state_77 LF t ht]
        rfl
      rw [hfuel, List.cons_append, List.cons_append, open_comment '/' s _ _ hst hw hl (Or.inr rfl), if_neg (by decide),
        scan_line_comment text (goto 77 s) _ (fuel + 1) rfl hb,
        loop_advance _ _ _ _ _ (hlf _ rfl)]
      rfl
    · intro c
      rw [step_state_78 c _ rfl]
      exact congrArg (fun t => some (t, false)) (hclear (do_update_line_count s) 78 hst hw hl)

/-- C11, witnesses: the block comment with the body ` a`, newline, `b ` (one newline) and
the line comment ` comment`, each scanned from the initial variables; the whole scans of
the two texts write one word counter line and no word. -/
theorem C11_comments_count_lines_witness :
    (lex_init.state = 0 ∧ lex_init.word = [] ∧ lex_init.length = 0 ∧
      '*' ∉ [' ', 'a', LF, 'b', ' '] ∧ LF ∉ " comment".data) ∧
    do_lex_loop (1 + [' ', 'a', LF, 'b', ' '].length + 4)
        ('/' :: '*' :: [' ', 'a', LF, 'b', ' '] ++ '*' :: '/' :: [LF]) lex_init =
      do_lex_loop 1 [LF] (goto 76 (count_lines 1 lex_init)) ∧
    do_lex_loop (0 + " comment".data.length + 3) ('/' :: '/' :: " comment".data ++ LF :: [])
        lex_init =
      do_lex_loop 0 [] (goto 78 (do_update_line_count lex_init)) ∧
    do_lex ['/', '*', ' ', 'a', LF, 'b', ' ', '*', '/'] =
      exec.done [out_line.line_word 1 0, out_line.total 0] ∧
    do_lex "// comment".data = exec.done [out_line.line_word 1 0, out_line.total 0] :=
  ⟨⟨rfl, rfl, rfl, by decide, by decide⟩,
   ((C11_comments_count_lines lex_init rfl rfl rfl).1 [' ', 'a', LF, 'b', ' '] [LF] 1
      (by decide)).1,
   ((C11_comments_count_lines lex_init rfl rfl rfl).2 " comment".data [] 0 (by decide)).1,
   by decide, by decide⟩

/-! ## Claim C12 -/

/-- C12 fails on the code: in state 75 (after a `*` in a block comment) a newline is
counted but the state is not set back to 74, so the `*` still pairs with a `/` that follows
the newline: the comment body `*`, newline, `/`, which does not hold the two adjacent
characters `*/`, takes the scan to state 76 (block comment end), and in
`/* a *`, newline, `/ b` the words ` ` and `b` after it are written. -/
theorem C12_newline_does_not_rearm :
    do_lex_loop 5 ['/', '*', '*', LF, '/'] lex_init =
      exec.done (goto 76 (do_update_line_count lex_init), true) ∧
    do_lex ['/', '*', ' ', 'a', ' ', '*', LF, '/', ' ', 'b'] = exec.done
      [out_line.line_word 1 0, out_line.word SPACE " ".data,
       out_line.word IDENTIFIER "b".data, out_line.total 2] := by
  decide

/-! ## Scanning inside a string or character literal -/

theorem accept_if_again (type : Int) (r : lex_state × Bool) (h : (accept_if type r).2 = false) :
    (accept_if type r).1.state = 0 := by
  by_cases hr : r.2 = true
  · simp [accept_if, hr, accept, do_clear]
  · simp [accept_if, hr] at h

theorem count_line_if_advances (r : lex_state × Bool) : (count_line_if r).2 = true := by
  by_cases hr : r.2 = true <;> simp [count_line_if, hr]

theorem do_state_m1_done (c : Char) (s : lex_state) (h : (!(do_state_m1 c s).2) = false) :
    (do_state_m1 c s).1.state = -2 := by
  by_cases hc : is_delimiter c = true
  · simp [do_state_m1, hc, goto]
  · simp [do_state_m1, hc] at h

theorem do_state_1_done (c : Char) (s : lex_state) (h : (!(do_state_1 c s).2) = false) :
    (do_state_1 c s).1.state = 2 := by
  by_cases hc : is_word_char c = true
  · simp [do_state_1, hc] at h
  · simp [do_state_1, hc, goto]

theorem state_0_advances (c : Char) (s : lex_state) (r : lex_state × Bool)
    (h : do_lex_step c s = some r) (hst : s.state = 0) : r.2 = true := by
  rw [step_state_0 c s hst] at h
  simp only at h
  split_ifs at h <;> (injection h with h; subst h; rfl)

set_option maxHeartbeats 4000000 in
/-- A round that does not read a character moves to a state of greater `slack`. -/
theorem step_slack (c : Char) (s : lex_state) (r : lex_state × Bool)
    (h : do_lex_step c s = some r) (hr : r.2 = false) :
    slack s.state + 1 ≤ slack r.1.state := by
  by_cases h0 : s.state = 0
  · rw [state_0_advances c s r h h0] at hr
    cases hr
  unfold do_lex_step at h
  split at h <;> rename_i heq <;>
    first
    | exact absurd heq h0
    | (injection h with h; subst h; rw [heq]
       first
       | (simp at hr; done)
       | (rw [accept_if_again _ _ hr]; decide)
       | (rw [do_state_m1_done c s hr]; decide)
       | (rw [do_state_1_done c s hr]; decide)
       | (rw [count_line_if_advances] at hr; cases hr)
       | (show _ ≤ slack 0; decide))
    | (split_ifs at h <;> injection h with h <;> subst h <;> rw [heq] <;> show _ ≤ slack 0 <;>
        decide)
    | cases h

/-! ## The loop ends -/

theorem slack_le (n : Int) : slack n ≤ 2 := by
  unfold slack
  split_ifs <;> omega

/-- The loop of `do_lex` ends within three rounds for each character. -/
theorem do_lex_loop_total :
    ∀ (fuel : Nat) (cs : List Char) (s : lex_state), 3 * cs.length ≤ fuel + slack s.state →
      ∃ r, do_lex_loop fuel cs s = exec.done r := by
  intro fuel
  induction fuel with
  | zero =>
    intro cs s h
    cases cs with
    | nil => exact ⟨_, rfl⟩
    | cons c cs =>
      have := slack_le s.state
      simp only [List.length_cons] at h
      omega
  | succ fuel ih =>
    intro cs s h
    cases cs with
    | nil => exact ⟨_, rfl⟩
    | cons c cs =>
      simp only [List.length_cons] at h
      cases hstep : do_lex_step c s with
      | none => exact ⟨(s, false), by simp [do_lex_loop, hstep]⟩
      | some r =>
        obtain ⟨s1, adv⟩ := r
        cases adv with
        | true =>
          rw [loop_advance _ _ _ _ _ hstep]
          have := slack_le s.state
          exact ih cs s1 (by omega)
        | false =>
          rw [loop_again _ _ _ _ _ hstep]
          have := step_slack c s _ hstep rfl
          exact ih (c :: cs) s1 (by simp only [List.length_cons]; simp only at this; omega)

/-! ## Scanning a wrong word -/

theorem same_scan_of_fields (P : List out_line → List out_line → Prop) (s s' : lex_state) (h1 : s'.state = s.state)
    (h2 : s'.word = s.word) (h3 : s'.length = s.length)
    (h4 : s'.condition_flag = s.condition_flag) (h5 : s'.lines = s.lines)
    (h6 : s'.overrun = s.overrun)
    (h7 : P (s.out.filter is_token) (s'.out.filter is_token)) : same_scan P s s' :=
  ⟨h1, h2, h3, h4, h5, h6, h7⟩

theorem frame_state_3 (P : List out_line → List out_line → Prop) (c : Char) (s s' : lex_state)
    (h : same_scan P s s') : same_scan P (do_state_3 c s) (do_state_3 c s') := by
  obtain ⟨e1, e2, e3, e4, e5, e6, e7⟩ := h
  cases s; cases s'
  simp only at e1 e2 e3 e4 e5 e6 e7
  subst e1 e2 e3 e4 e5 e6
  unfold do_state_3
  split_ifs <;> exact ⟨rfl, rfl, rfl, rfl, rfl, rfl, e7⟩

theorem frame_state_5 (P : List out_line → List out_line → Prop) (c : Char) (s s' : lex_state)
    (h : same_scan P s s') : same_scan P (do_state_5 c s) (do_state_5 c s') := by
  obtain ⟨e1, e2, e3, e4, e5, e6, e7⟩ := h
  cases s; cases s'
  simp only at e1 e2 e3 e4 e5 e6 e7
  subst e1 e2 e3 e4 e5 e6
  unfold do_state_5
  split_ifs <;> exact ⟨rfl, rfl, rfl, rfl, rfl, rfl, e7⟩

theorem frame_state_6_16 (P : List out_line → List out_line → Prop) (c : Char) (s s' : lex_state)
    (h : same_scan P s s') : same_scan P (do_state_6_16 c s) (do_state_6_16 c s') := by
  obtain ⟨e1, e2, e3, e4, e5, e6, e7⟩ := h
  cases s; cases s'
  simp only at e1 e2 e3 e4 e5 e6 e7
  subst e1 e2 e3 e4 e5 e6
  unfold do_state_6_16
  split_ifs <;> exact ⟨rfl, rfl, rfl, rfl, rfl, rfl, e7⟩

theorem frame_state_7 (P : List out_line → List out_line → Prop) (c : Char) (s s' : lex_state)
    (h : same_scan P s s') : same_scan P (do_state_7 c s) (do_state_7 c s') := by
  obtain ⟨e1, e2, e3, e4, e5, e6, e7⟩ := h
  cases s; cases s'
  simp only at e1 e2 e3 e4 e5 e6 e7
  subst e1 e2 e3 e4 e5 e6
  unfold do_state_7
  split_ifs <;> exact ⟨rfl, rfl, rfl, rfl, rfl, rfl, e7⟩

theorem frame_state_8_9_10_18_19_20 (P : List out_line → List out_line → Prop) (c : Char) (s s' : lex_state)
    (h : same_scan P s s') : same_scan P (do_state_8_9_10_18_19_20 c s) (do_state_8_9_10_18_19_20 c s') := by
  obtain ⟨e1, e2, e3, e4, e5, e6, e7⟩ := h
  cases s; cases s'
  simp only at e1 e2 e3 e4 e5 e6 e7
  subst e1 e2 e3 e4 e5 e6
  unfold do_state_8_9_10_18_19_20
  split_ifs <;> exact ⟨rfl, rfl, rfl, rfl, rfl, rfl, e7⟩

theorem frame_state_11 (P : List out_line → List out_line → Prop) (c : Char) (s s' : lex_state)
    (h : same_scan P s s') : same_scan P (do_state_11 c s) (do_state_11 c s') := by
  obtain ⟨e1, e2, e3, e4, e5, e6, e7⟩ := h
  cases s; cases s'
  simp only at e1 e2 e3 e4 e5 e6 e7
  subst e1 e2 e3 e4 e5 e6
  unfold do_state_11
  split_ifs <;> exact ⟨rfl, rfl, rfl, rfl, rfl, rfl, e7⟩

theorem frame_state_12 (P : List out_line → List out_line → Prop) (c : Char) (s s' : lex_state)
    (h : same_scan P s s') : same_scan P (do_state_12 c s) (do_state_12 c s') := by
  obtain ⟨e1, e2, e3, e4, e5, e6, e7⟩ := h
  cases s; cases s'
  simp only at e1 e2 e3 e4 e5 e6 e7
  subst e1 e2 e3 e4 e5 e6
  unfold do_state_12
  split_ifs <;> exact ⟨rfl, rfl, rfl, rfl, rfl, rfl, e7⟩

theorem frame_state_13 (P : List out_line → List out_line → Prop) (c : Char) (s s' : lex_state)
    (h : same_scan P s s') : same_scan P (do_state_13 c s) (do_state_13 c s') := by
  obtain ⟨e1, e2, e3, e4, e5, e6, e7⟩ := h
  cases s; cases s'
  simp only at e1 e2 e3 e4 e5 e6 e7
  subst e1 e2 e3 e4 e5 e6
  unfold do_state_13
  split_ifs <;> exact ⟨rfl, rfl, rfl, rfl, rfl, rfl, e7⟩

theorem frame_state_15 (P : List out_line → List out_line → Prop) (c : Char) (s s' : lex_state)
    (h : same_scan P s s') : same_scan P (do_state_15 c s) (do_state_15 c s') := by
  obtain ⟨e1, e2, e3, e4, e5, e6, e7⟩ := h
  cases s; cases s'
  simp only at e1 e2 e3 e4 e5 e6 e7
  subst e1 e2 e3 e4 e5 e6
  unfold do_state_15
  split_ifs <;> exact ⟨rfl, rfl, rfl, rfl, rfl, rfl, e7⟩

theorem frame_state_17 (P : List out_line → List out_line → Prop) (c : Char) (s s' : lex_state)
    (h : same_scan P s s') : same_scan P (do_state_17 c s) (do_state_17 c s') := by
  obtain ⟨e1, e2, e3, e4, e5, e6, e7⟩ := h
  cases s; cases s'
  simp only at e1 e2 e3 e4 e5 e6 e7
  subst e1 e2 e3 e4 e5 e6
  unfold do_state_17
  split_ifs <;> exact ⟨rfl, rfl, rfl, rfl, rfl, rfl, e7⟩

theorem frame_state_21 (P : List out_line → List out_line → Prop) (c : Char) (s s' : lex_state)
    (h : same_scan P s s') : same_scan P (do_state_21 c s) (do_state_21 c s') := by
  obtain ⟨e1, e2, e3, e4, e5, e6, e7⟩ := h
  cases s; cases s'
  simp only at e1 e2 e3 e4 e5 e6 e7
  subst e1 e2 e3 e4 e5 e6
  unfold do_state_21
  split_ifs <;> exact ⟨rfl, rfl, rfl, rfl, rfl, rfl, e7⟩

theorem frame_state_26 (P : List out_line → List out_line → Prop) (c : Char) (s s' : lex_state)
    (h : same_scan P s s') : same_scan P (do_state_26 c s) (do_state_26 c s') := by
  obtain ⟨e1, e2, e3, e4, e5, e6, e7⟩ := h
  cases s; cases s'
  simp only at e1 e2 e3 e4 e5 e6 e7
  subst e1 e2 e3 e4 e5 e6
  unfold do_state_26
  split_ifs <;> exact ⟨rfl, rfl, rfl, rfl, rfl, rfl, e7⟩

theorem frame_state_27 (P : List out_line → List out_line → Prop) (c : Char) (s s' : lex_state)
    (h : same_scan P s s') : same_scan P (do_state_27 c s) (do_state_27 c s') := by
  obtain ⟨e1, e2, e3, e4, e5, e6, e7⟩ := h
  cases s; cases s'
  simp only at e1 e2 e3 e4 e5 e6 e7
  subst e1 e2 e3 e4 e5 e6
  unfold do_state_27
  split_ifs <;> exact ⟨rfl, rfl, rfl, rfl, rfl, rfl, e7⟩

theorem frame_state_30 (P : List out_line → List out_line → Prop) (c : Char) (s s' : lex_state)
    (h : same_scan P s s') : same_scan P (do_state_30 c s) (do_state_30 c s') := by
  obtain ⟨e1, e2, e3, e4, e5, e6, e7⟩ := h
  cases s; cases s'
  simp only at e1 e2 e3 e4 e5 e6 e7
  subst e1 e2 e3 e4 e5 e6
  unfold do_state_30
  split_ifs <;> exact ⟨rfl, rfl, rfl, rfl, rfl, rfl, e7⟩

theorem frame_state_34 (P : List out_line → List out_line → Prop) (c : Char) (s s' : lex_state)
    (h : same_scan P s s') : same_scan P (do_state_34 c s) (do_state_34 c s') := by
  obtain ⟨e1, e2, e3, e4, e5, e6, e7⟩ := h
  cases s; cases s'
  simp only at e1 e2 e3 e4 e5 e6 e7
  subst e1 e2 e3 e4 e5 e6
  unfold do_state_34
  split_ifs <;> exact ⟨rfl, rfl, rfl, rfl, rfl, rfl, e7⟩

theorem frame_state_m1 (P : List out_line → List out_line → Prop) (c : Char) (s s' : lex_state)
    (h : same_scan P s s') :
    (do_state_m1 c s').2 = (do_state_m1 c s).2 ∧
      same_scan P (do_state_m1 c s).1 (do_state_m1 c s').1 := by
  obtain ⟨e1, e2, e3, e4, e5, e6, e7⟩ := h
  cases s; cases s'
  simp only at e1 e2 e3 e4 e5 e6 e7
  subst e1 e2 e3 e4 e5 e6
  unfold do_state_m1
  split_ifs <;> exact ⟨rfl, rfl, rfl, rfl, rfl, rfl, rfl, e7⟩

theorem frame_ite (P : List out_line → List out_line → Prop) (p : Prop) [Decidable p] (a b a' b' : lex_state × Bool)
    (ha : a'.2 = a.2 ∧ same_scan P a.1 a'.1) (hb : b'.2 = b.2 ∧ same_scan P b.1 b'.1) :
    (if p then a' else b').2 = (if p then a else b).2 ∧
      same_scan P (if p then a else b).1 (if p then a' else b').1 := by
  split_ifs
  · exact ha
  · exact hb

theorem frame_state_0 (P : List out_line → List out_line → Prop) (c : Char) (s s' : lex_state)
    (h : same_scan P s s') :
    (do_state_0 c s').2 = (do_state_0 c s).2 ∧
      same_scan P (do_state_0 c s).1 (do_state_0 c s').1 := by
  obtain ⟨e1, e2, e3, e4, e5, e6, e7⟩ := h
  cases s; cases s'
  simp only at e1 e2 e3 e4 e5 e6 e7
  subst e1 e2 e3 e4 e5 e6
  unfold do_state_0
  repeat (first
    | exact ⟨rfl, rfl, rfl, rfl, rfl, rfl, rfl, e7⟩
    | apply frame_ite)

theorem frame_state_1 (P : List out_line → List out_line → Prop) (c : Char) (s s' : lex_state)
    (h : same_scan P s s') :
    (do_state_1 c s').2 = (do_state_1 c s).2 ∧
      same_scan P (do_state_1 c s).1 (do_state_1 c s').1 := by
  obtain ⟨e1, e2, e3, e4, e5, e6, e7⟩ := h
  cases s; cases s'
  simp only at e1 e2 e3 e4 e5 e6 e7
  subst e1 e2 e3 e4 e5 e6
  unfold do_state_1
  split_ifs <;> exact ⟨rfl, rfl, rfl, rfl, rfl, rfl, rfl, e7⟩

theorem frame_state_22 (P : List out_line → List out_line → Prop) (c : Char) (s s' : lex_state)
    (h : same_scan P s s') :
    (do_state_22 c s').2 = (do_state_22 c s).2 ∧
      same_scan P (do_state_22 c s).1 (do_state_22 c s').1 := by
  obtain ⟨e1, e2, e3, e4, e5, e6, e7⟩ := h
  cases s; cases s'
  simp only at e1 e2 e3 e4 e5 e6 e7
  subst e1 e2 e3 e4 e5 e6
  unfold do_state_22
  split_ifs <;> exact ⟨rfl, rfl, rfl, rfl, rfl, rfl, rfl, e7⟩

theorem frame_state_23 (P : List out_line → List out_line → Prop) (c : Char) (s s' : lex_state)
    (h : same_scan P s s') :
    (do_state_23 c s').2 = (do_state_23 c s).2 ∧
      same_scan P (do_state_23 c s).1 (do_state_23 c s').1 := by
  obtain ⟨e1, e2, e3, e4, e5, e6, e7⟩ := h
  cases s; cases s'
  simp only at e1 e2 e3 e4 e5 e6 e7
  subst e1 e2 e3 e4 e5 e6
  unfold do_state_23
  split_ifs <;> exact ⟨rfl, rfl, rfl, rfl, rfl, rfl, rfl, e7⟩

theorem frame_state_24 (P : List out_line → List out_line → Prop) (c : Char) (s s' : lex_state)
    (h : same_scan P s s') :
    (do_state_24 c s').2 = (do_state_24 c s).2 ∧
      same_scan P (do_state_24 c s).1 (do_state_24 c s').1 := by
  obtain ⟨e1, e2, e3, e4, e5, e6, e7⟩ := h
  cases s; cases s'
  simp only at e1 e2 e3 e4 e5 e6 e7
  subst e1 e2 e3 e4 e5 e6
  unfold do_state_24
  split_ifs <;> exact ⟨rfl, rfl, rfl, rfl, rfl, rfl, rfl, e7⟩

theorem frame_state_28 (P : List out_line → List out_line → Prop) (c : Char) (s s' : lex_state)
    (h : same_scan P s s') :
    (do_state_28 c s').2 = (do_state_28 c s).2 ∧
      same_scan P (do_state_28 c s).1 (do_state_28 c s').1 := by
  obtain ⟨e1, e2, e3, e4, e5, e6, e7⟩ := h
  cases s; cases s'
  simp only at e1 e2 e3 e4 e5 e6 e7
  subst e1 e2 e3 e4 e5 e6
  unfold do_state_28
  split_ifs <;> exact ⟨rfl, rfl, rfl, rfl, rfl, rfl, rfl, e7⟩

theorem frame_state_29 (P : List out_line → List out_line → Prop) (c : Char) (s s' : lex_state)
    (h : same_scan P s s') :
    (do_state_29 c s').2 = (do_state_29 c s).2 ∧
      same_scan P (do_state_29 c s).1 (do_state_29 c s').1 := by
  obtain ⟨e1, e2, e3, e4, e5, e6, e7⟩ := h
  cases s; cases s'
  simp only at e1 e2 e3 e4 e5 e6 e7
  subst e1 e2 e3 e4 e5 e6
  unfold do_state_29
  split_ifs <;> exact ⟨rfl, rfl, rfl, rfl, rfl, rfl, rfl, e7⟩

theorem frame_state_31 (P : List out_line → List out_line → Prop) (c : Char) (s s' : lex_state)
    (h : same_scan P s s') :
    (do_state_31 c s').2 = (do_state_31 c s).2 ∧
      same_scan P (do_state_31 c s).1 (do_state_31 c s').1 := by
  obtain ⟨e1, e2, e3, e4, e5, e6, e7⟩ := h
  cases s; cases s'
  simp only at e1 e2 e3 e4 e5 e6 e7
  subst e1 e2 e3 e4 e5 e6
  unfold do_state_31
  split_ifs <;> exact ⟨rfl, rfl, rfl, rfl, rfl, rfl, rfl, e7⟩

theorem frame_state_33 (P : List out_line → List out_line → Prop) (c : Char) (s s' : lex_state)
    (h : same_scan P s s') :
    (do_state_33 c s').2 = (do_state_33 c s).2 ∧
      same_scan P (do_state_33 c s).1 (do_state_33 c s').1 := by
  obtain ⟨e1, e2, e3, e4, e5, e6, e7⟩ := h
  cases s; cases s'
  simp only at e1 e2 e3 e4 e5 e6 e7
  subst e1 e2 e3 e4 e5 e6
  unfold do_state_33
  split_ifs <;> exact ⟨rfl, rfl, rfl, rfl, rfl, rfl, rfl, e7⟩

theorem frame_state_39 (P : List out_line → List out_line → Prop) (c : Char) (s s' : lex_state)
    (h : same_scan P s s') :
    (do_state_39 c s').2 = (do_state_39 c s).2 ∧
      same_scan P (do_state_39 c s).1 (do_state_39 c s').1 := by
  obtain ⟨e1, e2, e3, e4, e5, e6, e7⟩ := h
  cases s; cases s'
  simp only at e1 e2 e3 e4 e5 e6 e7
  subst e1 e2 e3 e4 e5 e6
  unfold do_state_39
  split_ifs <;> exact ⟨rfl, rfl, rfl, rfl, rfl, rfl, rfl, e7⟩

theorem frame_state_42 (P : List out_line → List out_line → Prop) (c : Char) (s s' : lex_state)
    (h : same_scan P s s') :
    (do_state_42 c s').2 = (do_state_42 c s).2 ∧
      same_scan P (do_state_42 c s).1 (do_state_42 c s').1 := by
  obtain ⟨e1, e2, e3, e4, e5, e6, e7⟩ := h
  cases s; cases s'
  simp only at e1 e2 e3 e4 e5 e6 e7
  subst e1 e2 e3 e4 e5 e6
  unfold do_state_42
  split_ifs <;> exact ⟨rfl, rfl, rfl, rfl, rfl, rfl, rfl, e7⟩

theorem frame_state_45_49_57_60_64_70_72 (P : List out_line → List out_line → Prop) (c : Char) (s s' : lex_state)
    (h : same_scan P s s') :
    (do_state_45_49_57_60_64_70_72 c s').2 = (do_state_45_49_57_60_64_70_72 c s).2 ∧
      same_scan P (do_state_45_49_57_60_64_70_72 c s).1 (do_state_45_49_57_60_64_70_72 c s').1 := by
  obtain ⟨e1, e2, e3, e4, e5, e6, e7⟩ := h
  cases s; cases s'
  simp only at e1 e2 e3 e4 e5 e6 e7
  subst e1 e2 e3 e4 e5 e6
  unfold do_state_45_49_57_60_64_70_72
  split_ifs <;> exact ⟨rfl, rfl, rfl, rfl, rfl, rfl, rfl, e7⟩

theorem frame_state_51 (P : List out_line → List out_line → Prop) (c : Char) (s s' : lex_state)
    (h : same_scan P s s') :
    (do_state_51 c s').2 = (do_state_51 c s).2 ∧
      same_scan P (do_state_51 c s).1 (do_state_51 c s').1 := by
  obtain ⟨e1, e2, e3, e4, e5, e6, e7⟩ := h
  cases s; cases s'
  simp only at e1 e2 e3 e4 e5 e6 e7
  subst e1 e2 e3 e4 e5 e6
  unfold do_state_51
  split_ifs <;> exact ⟨rfl, rfl, rfl, rfl, rfl, rfl, rfl, e7⟩

theorem frame_state_54 (P : List out_line → List out_line → Prop) (c : Char) (s s' : lex_state)
    (h : same_scan P s s') :
    (do_state_54 c s').2 = (do_state_54 c s).2 ∧
      same_scan P (do_state_54 c s).1 (do_state_54 c s').1 := by
  obtain ⟨e1, e2, e3, e4, e5, e6, e7⟩ := h
  cases s; cases s'
  simp only at e1 e2 e3 e4 e5 e6 e7
  subst e1 e2 e3 e4 e5 e6
  unfold do_state_54
  split_ifs <;> exact ⟨rfl, rfl, rfl, rfl, rfl, rfl, rfl, e7⟩

theorem frame_state_62 (P : List out_line → List out_line → Prop) (c : Char) (s s' : lex_state)
    (h : same_scan P s s') :
    (do_state_62 c s').2 = (do_state_62 c s).2 ∧
      same_scan P (do_state_62 c s).1 (do_state_62 c s').1 := by
  obtain ⟨e1, e2, e3, e4, e5, e6, e7⟩ := h
  cases s; cases s'
  simp only at e1 e2 e3 e4 e5 e6 e7
  subst e1 e2 e3 e4 e5 e6
  unfold do_state_62
  split_ifs <;> exact ⟨rfl, rfl, rfl, rfl, rfl, rfl, rfl, e7⟩

theorem frame_state_66_68 (P : List out_line → List out_line → Prop) (c : Char) (s s' : lex_state)
    (h : same_scan P s s') :
    (do_state_66_68 c s').2 = (do_state_66_68 c s).2 ∧
      same_scan P (do_state_66_68 c s).1 (do_state_66_68 c s').1 := by
  obtain ⟨e1, e2, e3, e4, e5, e6, e7⟩ := h
  cases s; cases s'
  simp only at e1 e2 e3 e4 e5 e6 e7
  subst e1 e2 e3 e4 e5 e6
  unfold do_state_66_68
  split_ifs <;> exact ⟨rfl, rfl, rfl, rfl, rfl, rfl, rfl, e7⟩

theorem frame_state_47 (P : List out_line → List out_line → Prop) (c : Char) (s s' : lex_state)
    (h : same_scan P s s') :
    (do_state_47 c s').2 = (do_state_47 c s).2 ∧
      same_scan P (do_state_47 c s).1 (do_state_47 c s').1 := by
  obtain ⟨e1, e2, e3, e4, e5, e6, e7⟩ := h
  cases s; cases s'
  simp only at e1 e2 e3 e4 e5 e6 e7
  subst e1 e2 e3 e4 e5 e6
  unfold do_state_47
  split_ifs <;> exact ⟨rfl, rfl, rfl, rfl, rfl, rfl, rfl, e7⟩

theorem frame_state_74 (P : List out_line → List out_line → Prop) (c : Char) (s s' : lex_state)
    (h : same_scan P s s') :
    (do_state_74 c s').2 = (do_state_74 c s).2 ∧
      same_scan P (do_state_74 c s).1 (do_state_74 c s').1 := by
  obtain ⟨e1, e2, e3, e4, e5, e6, e7⟩ := h
  cases s; cases s'
  simp only at e1 e2 e3 e4 e5 e6 e7
  subst e1 e2 e3 e4 e5 e6
  unfold do_state_74
  split_ifs <;> exact ⟨rfl, rfl, rfl, rfl, rfl, rfl, rfl, e7⟩

theorem frame_state_75 (P : List out_line → List out_line → Prop) (c : Char) (s s' : lex_state)
    (h : same_scan P s s') :
    (do_state_75 c s').2 = (do_state_75 c s).2 ∧
      same_scan P (do_state_75 c s).1 (do_state_75 c s').1 := by
  obtain ⟨e1, e2, e3, e4, e5, e6, e7⟩ := h
  cases s; cases s'
  simp only at e1 e2 e3 e4 e5 e6 e7
  subst e1 e2 e3 e4 e5 e6
  unfold do_state_75
  split_ifs <;> exact ⟨rfl, rfl, rfl, rfl, rfl, rfl, rfl, e7⟩

theorem frame_state_77 (P : List out_line → List out_line → Prop) (c : Char) (s s' : lex_state)
    (h : same_scan P s s') :
    (do_state_77 c s').2 = (do_state_77 c s).2 ∧
      same_scan P (do_state_77 c s).1 (do_state_77 c s').1 := by
  obtain ⟨e1, e2, e3, e4, e5, e6, e7⟩ := h
  cases s; cases s'
  simp only at e1 e2 e3 e4 e5 e6 e7
  subst e1 e2 e3 e4 e5 e6
  unfold do_state_77
  split_ifs <;> exact ⟨rfl, rfl, rfl, rfl, rfl, rfl, rfl, e7⟩

theorem frame_accept (P : List out_line → List out_line → Prop) (hP : kept_by_writing P)
    (type : Int) (s s' : lex_state)
    (h : same_scan P s s') : same_scan P (accept type s) (accept type s') := by
  obtain ⟨e1, e2, e3, e4, e5, e6, e7⟩ := h
  refine ⟨rfl, rfl, rfl, e4, e5, e6, ?_⟩
  simp only [accept, do_clear, do_update_word_count, do_output_word, List.filter_append, e2]
  exact hP _ _ _ e7

theorem frame_line_count (P : List out_line → List out_line → Prop) (s s' : lex_state) (h : same_scan P s s') :
    same_scan P (do_update_line_count s) (do_update_line_count s') := by
  obtain ⟨e1, e2, e3, e4, e5, e6, e7⟩ := h
  refine ⟨e1, e2, e3, e4, ?_, e6, ?_⟩
  · simp only [do_update_line_count, e5]
  · simp only [do_update_line_count, List.filter_append]
    split_ifs <;> simpa [is_token] using e7

theorem frame_clear (P : List out_line → List out_line → Prop) (s s' : lex_state) (h : same_scan P s s') :
    same_scan P (do_clear s) (do_clear s') := by
  obtain ⟨e1, e2, e3, e4, e5, e6, e7⟩ := h
  exact ⟨rfl, rfl, rfl, e4, e5, e6, e7⟩

theorem frame_goto (P : List out_line → List out_line → Prop) (n : Int) (s s' : lex_state) (h : same_scan P s s') :
    same_scan P (goto n s) (goto n s') := by
  obtain ⟨e1, e2, e3, e4, e5, e6, e7⟩ := h
  exact ⟨rfl, e2, e3, e4, e5, e6, e7⟩

theorem frame_accept_if (P : List out_line → List out_line → Prop) (hP : kept_by_writing P)
    (type : Int) (r r' : lex_state × Bool)
    (h : r'.2 = r.2 ∧ same_scan P r.1 r'.1) :
    (accept_if type r').2 = (accept_if type r).2 ∧
      same_scan P (accept_if type r).1 (accept_if type r').1 := by
  unfold accept_if
  rw [h.1]
  split_ifs
  · exact ⟨rfl, frame_accept P hP type _ _ h.2⟩
  · exact ⟨rfl, h.2⟩

theorem frame_count_line_if (P : List out_line → List out_line → Prop) (r r' : lex_state × Bool)
    (h : r'.2 = r.2 ∧ same_scan P r.1 r'.1) :
    (count_line_if r').2 = (count_line_if r).2 ∧
      same_scan P (count_line_if r).1 (count_line_if r').1 := by
  unfold count_line_if
  rw [h.1]
  split_ifs
  · exact ⟨rfl, frame_line_count P _ _ h.2⟩
  · exact ⟨rfl, h.2⟩

theorem frame_wrong_word (P : List out_line → List out_line → Prop) (hP : kept_by_writing P)
    (s s' : lex_state) (h : same_scan P s s') :
    same_scan P
      (do_clear (do_update_word_count (do_output_wrong_word (cstr s.word) (s.lines + 1) s)))
      (do_clear (do_update_word_count
        (do_output_wrong_word (cstr s'.word) (s'.lines + 1) s'))) := by
  obtain ⟨e1, e2, e3, e4, e5, e6, e7⟩ := h
  refine ⟨rfl, rfl, rfl, e4, e5, e6, ?_⟩
  simp only [do_clear, do_update_word_count, do_output_wrong_word, List.filter_append, e2, e5]
  exact hP _ _ _ e7

theorem frame_newline (P : List out_line → List out_line → Prop) (hP : kept_by_writing P)
    (s s' : lex_state) (h : same_scan P s s') :
    same_scan P
      (do_clear (do_update_line_count
        (do_update_word_count (do_output_word (cstr s.word) SPACE s))))
      (do_clear (do_update_line_count
        (do_update_word_count (do_output_word (cstr s'.word) SPACE s')))) := by
  apply frame_clear
  apply frame_line_count
  obtain ⟨e1, e2, e3, e4, e5, e6, e7⟩ := h
  refine ⟨e1, e2, e3, e4, e5, e6, ?_⟩
  simp only [do_update_word_count, do_output_word, List.filter_append, e2]
  exact hP _ _ _ e7

theorem step_state_81 (c : Char) (s : lex_state) (hst : s.state = 81) :
    do_lex_step c s =
      (if s.condition_flag then
        some (do_clear (do_update_word_count (do_output_word "?:".data CONDITION s)), false)
      else some (accept COLON s, false)) := by
  rw [do_lex_step, hst]
  rfl

theorem frame_state_0_step (P : List out_line → List out_line → Prop) (c : Char) (s s' : lex_state)
    (h : same_scan P s s') (hst : s.state = 0) (r : lex_state × Bool)
    (hs : do_lex_step c s = some r) :
    ∃ r', do_lex_step c s' = some r' ∧ r'.2 = r.2 ∧ same_scan P r.1 r'.1 := by
  obtain ⟨f1, f2⟩ := frame_state_0 P c s s' h
  obtain ⟨e1, e2, e3, e4, e5, e6, e7⟩ := f2
  rw [step_state_0 c s hst] at hs
  rw [step_state_0 c s' (h.1.trans hst)]
  simp only at hs ⊢
  rw [f1, e4, e3]
  split_ifs at hs ⊢ <;> cases hs
  · exact ⟨_, rfl, rfl, frame_goto P _ _ _ ⟨e1, e2, e3, e4, e5, e6, e7⟩⟩
  · refine ⟨_, rfl, rfl, ?_⟩
    refine ⟨e1, ?_, rfl, rfl, e5, ?_, e7⟩
    · simp only [store, e2]
    · simp only [store, e6]
  · exact ⟨_, rfl, rfl, ⟨e1, e2, e3, e4, e5, e6, e7⟩⟩

theorem frame_state_81_step (P : List out_line → List out_line → Prop)
    (hP : kept_by_writing P) (c : Char) (s s' : lex_state)
    (h : same_scan P s s') (hst : s.state = 81) (r : lex_state × Bool)
    (hs : do_lex_step c s = some r) :
    ∃ r', do_lex_step c s' = some r' ∧ r'.2 = r.2 ∧ same_scan P r.1 r'.1 := by
  rw [step_state_81 c s hst] at hs
  rw [step_state_81 c s' (h.1.trans hst), h.2.2.2.1]
  split_ifs at hs ⊢ <;> cases hs
  · refine ⟨_, rfl, rfl, ?_⟩
    obtain ⟨e1, e2, e3, e4, e5, e6, e7⟩ := h
    refine ⟨rfl, rfl, rfl, e4, e5, e6, ?_⟩
    simp only [do_clear, do_update_word_count, do_output_word, List.filter_append]
    exact hP _ _ _ e7
  · exact ⟨_, rfl, rfl, frame_accept P hP _ _ _ h⟩

set_option maxHeartbeats 8000000 in
/-- A round of the loop keeps two scans alike. -/
theorem step_frame (P : List out_line → List out_line → Prop) (hP : kept_by_writing P)
    (c : Char) (s s' : lex_state) (h : same_scan P s s')
    (r : lex_state × Bool) (hs : do_lex_step c s = some r) :
    ∃ r', do_lex_step c s' = some r' ∧ r'.2 = r.2 ∧ same_scan P r.1 r'.1 := by
  by_cases h0 : s.state = 0
  · exact frame_state_0_step P c s s' h h0 r hs
  by_cases h81 : s.state = 81
  · exact frame_state_81_step P hP c s s' h h81 r hs
  have hm1 := frame_state_m1 P c s s' h
  have h1 := frame_state_1 P c s s' h
  have a3 := frame_state_3 P c s s' h
  have a5 := frame_state_5 P c s s' h
  have a6 := frame_state_6_16 P c s s' h
  have a7 := frame_state_7 P c s s' h
  have a8 := frame_state_8_9_10_18_19_20 P c s s' h
  have a11 := frame_state_11 P c s s' h
  have a12 := frame_state_12 P c s s' h
  have a13 := frame_state_13 P c s s' h
  have a15 := frame_state_15 P c s s' h
  have a17 := frame_state_17 P c s s' h
  have a21 := frame_state_21 P c s s' h
  have a26 := frame_state_26 P c s s' h
  have a27 := frame_state_27 P c s s' h
  have a30 := frame_state_30 P c s s' h
  have a34 := frame_state_34 P c s s' h
  have b22 := frame_state_22 P c s s' h
  have b23 := frame_state_23 P c s s' h
  have b24 := frame_state_24 P c s s' h
  have b28 := frame_state_28 P c s s' h
  have b29 := frame_state_29 P c s s' h
  have b31 := frame_state_31 P c s s' h
  have b33 := frame_state_33 P c s s' h
  have b39 := frame_state_39 P c s s' h
  have b42 := frame_state_42 P c s s' h
  have b45 := frame_state_45_49_57_60_64_70_72 P c s s' h
  have b51 := frame_state_51 P c s s' h
  have b54 := frame_state_54 P c s s' h
  have b62 := frame_state_62 P c s s' h
  have b66 := frame_state_66_68 P c s s' h
  have b47 := frame_state_47 P c s s' h
  have b74 := frame_state_74 P c s s' h
  have b75 := frame_state_75 P c s s' h
  have b77 := frame_state_77 P c s s' h
  have hwrong := frame_wrong_word P hP s s' h
  have hnl := frame_newline P hP s s' h
  have hclear := frame_clear P s s' h
  have hword : same_scan P (accept (do_judgement (cstr s.word)) s)
      (accept (do_judgement (cstr s'.word)) s') := by
    rw [h.2.1]
    exact frame_accept P hP _ _ _ h
  have e1 := h.1
  unfold do_lex_step at hs ⊢
  rw [e1]
  split at hs <;> rename_i heq <;>
    first
    | exact absurd heq h0
    | exact absurd heq h81
    | (cases hs; refine ⟨_, rfl, ?_⟩
       first
       | exact ⟨rfl, by assumption⟩
       | exact ⟨rfl, frame_accept P hP _ _ _ h⟩
       | exact frame_accept_if P hP _ _ _ (by assumption)
       | exact frame_count_line_if P _ _ (by assumption)
       | exact ⟨congrArg (fun b => !b) hm1.1, hm1.2⟩
       | exact ⟨congrArg (fun b => !b) h1.1, h1.2⟩)
    | cases hs

/-! ## The loop on scans that are alike -/

theorem kept_by_writing_swap (P : List out_line → List out_line → Prop)
    (hP : kept_by_writing P) : kept_by_writing (fun a b => P b a) :=
  fun a b e h => hP b a e h

theorem same_scan_swap (P : List out_line → List out_line → Prop) (s s' : lex_state)
    (h : same_scan P s s') : same_scan (fun a b => P b a) s' s :=
  ⟨h.1.symm, h.2.1.symm, h.2.2.1.symm, h.2.2.2.1.symm, h.2.2.2.2.1.symm, h.2.2.2.2.2.1.symm,
    h.2.2.2.2.2.2⟩

/-- Two scans that are alike stop at an illegal state together. -/
theorem step_frame_none (P : List out_line → List out_line → Prop) (hP : kept_by_writing P)
    (c : Char) (s s' : lex_state) (h : same_scan P s s') (hs : do_lex_step c s = none) :
    do_lex_step c s' = none := by
  cases hs' : do_lex_step c s' with
  | none => rfl
  | some r' =>
    obtain ⟨r, hr, _⟩ := step_frame _ (kept_by_writing_swap P hP) c s' s (same_scan_swap P s s' h)
      r' hs'
    rw [hs] at hr
    cases hr

/-- The loop of `do_lex` keeps two scans alike. -/
theorem loop_frame (P : List out_line → List out_line → Prop) (hP : kept_by_writing P) :
    ∀ (fuel : Nat) (cs : List Char) (s s' : lex_state) (r : lex_state × Bool),
      same_scan P s s' → do_lex_loop fuel cs s = exec.done r →
      ∃ r', do_lex_loop fuel cs s' = exec.done r' ∧ r'.2 = r.2 ∧ same_scan P r.1 r'.1 := by
  intro fuel
  induction fuel with
  | zero =>
    intro cs s s' r h hr
    cases cs with
    | nil =>
      simp only [do_lex_loop, exec.done.injEq] at hr
      subst hr
      exact ⟨(s', true), rfl, rfl, h⟩
    | cons c cs => simp [do_lex_loop] at hr
  | succ fuel ih =>
    intro cs s s' r h hr
    cases cs with
    | nil =>
      simp only [do_lex_loop, exec.done.injEq] at hr
      subst hr
      exact ⟨(s', true), rfl, rfl, h⟩
    | cons c cs =>
      cases hstep : do_lex_step c s with
      | none =>
        have hstep' := step_frame_none P hP c s s' h hstep
        simp only [do_lex_loop, hstep, exec.done.injEq] at hr
        subst hr
        exact ⟨(s', false), by simp [do_lex_loop, hstep'], rfl, h⟩
      | some t =>
        obtain ⟨t', ht', hb, hsame⟩ := step_frame P hP c s s' h t hstep
        obtain ⟨t1, adv⟩ := t
        obtain ⟨t1', adv'⟩ := t'
        simp only at hb hsame
        subst hb
        simp only [do_lex_loop, hstep] at hr
        obtain ⟨r', hr', hres⟩ := ih _ t1 t1' r hsame hr
        exact ⟨r', by simp only [do_lex_loop, ht']; exact hr', hres⟩

theorem do_lex_loop_nil (fuel : Nat) (s : lex_state) :
    do_lex_loop fuel [] s = exec.done (s, true) := by
  cases fuel <;> rfl

/-- More fuel does not change the result of the loop. -/
theorem loop_more_fuel :
    ∀ (fuel k : Nat) (cs : List Char) (s : lex_state) (r : lex_state × Bool),
      do_lex_loop fuel cs s = exec.done r → do_lex_loop (fuel + k) cs s = exec.done r := by
  intro fuel
  induction fuel with
  | zero =>
    intro k cs s r hr
    cases cs with
    | nil =>
      rw [do_lex_loop_nil] at hr ⊢
      exact hr
    | cons c cs => simp [do_lex_loop] at hr
  | succ fuel ih =>
    intro k cs s r hr
    cases cs with
    | nil =>
      rw [do_lex_loop_nil] at hr ⊢
      exact hr
    | cons c cs =>
      rw [show fuel + 1 + k = (fuel + k) + 1 by omega]
      cases hstep : do_lex_step c s with
      | none =>
        simp only [do_lex_loop, hstep] at hr ⊢
        exact hr
      | some t =>
        simp only [do_lex_loop, hstep] at hr ⊢
        exact ih k _ _ r hr

/-! ## Claim C18 on the output file of the scanner -/

/-- C18, witness: the output file of `do_lex` for `@@@ x = 1 ;`, read back line by line,
starts with the wrong word `@@@`; `main` exits with the status 1 and no output. -/
theorem C18_wrong_word_fails_validation_witness :
    ((do_lex source_wrong_word).bind fun o => parse_file (scanner_output o)) =
      exec.done file_wrong_word ∧
    (tokens file_wrong_word =
        [] ++ (⟨WRONG, "@@@"⟩ : word_t) ::
          [⟨IDENTIFIER, "x"⟩, ⟨ASSIGN, "="⟩, ⟨INT, "1"⟩, ⟨SEMICOLON, ";"⟩] ∧
      (∀ t ∈ ([] : List word_t), t.key ≠ 0) ∧ (⟨WRONG, "@@@"⟩ : word_t).key = WRONG) ∧
    main (fun _ => 1) file_wrong_word = exec.done (1, none) :=
  ⟨by decide, ⟨by decide, by simp, rfl⟩,
   (C18_wrong_word_fails_validation (fun _ => 1) file_wrong_word []
      [⟨IDENTIFIER, "x"⟩, ⟨ASSIGN, "="⟩, ⟨INT, "1"⟩, ⟨SEMICOLON, ";"⟩] ⟨WRONG, "@@@"⟩
      (by decide) (by simp) rfl).2⟩

/-- C18 as stated fails: on the output file of `do_lex` for `@@@ x = 1 ;` the lexical
validation pass returns 0, and `main` ends with the status 1 without any output: the
statement `x = 1 ;` is not translated. -/
theorem C18_counterexample :
    ((do_lex source_wrong_word).bind fun o => parse_file (scanner_output o)) =
      exec.done file_wrong_word ∧
    (do_validate_lex file_wrong_word (parser_init file_wrong_word)).bind
      (fun r => exec.done r.1) = exec.done 0 ∧
    main (fun _ => 1) file_wrong_word ≠ exec.done (0, some [asm_line.binary "mov" "x" "1"]) := by
  refine ⟨by decide, by decide, ?_⟩
  have h : main (fun _ => 1) file_wrong_word = exec.done (1, none) := by decide
  rw [h]
  decide

/-! ## The records that do_lex writes -/

/-- Variables in a state other than 0, 79 and 80 are `scanning` when the state is one the
switch handles and the records written are `well_written`. -/
theorem scanning_of_state (t : lex_state)
    (hm : (legal_state t.state && decide (t.state ≠ 0) && decide (t.state ≠ 79) &&
      decide (t.state ≠ 80)) = true)
    (hout : ∀ l ∈ t.out, well_written l) : scanning t := by
  simp only [Bool.and_eq_true, decide_eq_true_eq] at hm
  obtain ⟨⟨⟨h1, h2⟩, h3⟩, h4⟩ := hm
  exact ⟨h1, fun h => absurd h h2, fun h => h.elim (fun h => absurd h h3) (fun h => absurd h h4),
    hout⟩

theorem scanning_state_m1 (c : Char) (s : lex_state) (hi : scanning s)
    (hst : s.state ∈ ([-1] : List Int)) : scanning (do_state_m1 c s).1 := by
  obtain ⟨h1, h2, h3, h4⟩ := hi
  cases s
  simp only [List.mem_cons, List.mem_singleton, List.not_mem_nil, or_false] at hst
  rcases hst with rfl
  unfold do_state_m1
  split_ifs <;> exact scanning_of_state _ rfl h4

theorem scanning_state_1 (c : Char) (s : lex_state) (hi : scanning s)
    (hst : s.state ∈ ([1] : List Int)) : scanning (do_state_1 c s).1 := by
  obtain ⟨h1, h2, h3, h4⟩ := hi
  cases s
  simp only [List.mem_cons, List.mem_singleton, List.not_mem_nil, or_false] at hst
  rcases hst with rfl
  unfold do_state_1
  split_ifs <;> exact scanning_of_state _ rfl h4

theorem scanning_state_3 (c : Char) (s : lex_state) (hi : scanning s)
    (hst : s.state ∈ ([3] : List Int)) : scanning (do_state_3 c s) := by
  obtain ⟨h1, h2, h3, h4⟩ := hi
  cases s
  simp only [List.mem_cons, List.mem_singleton, List.not_mem_nil, or_false] at hst
  rcases hst with rfl
  unfold do_state_3
  split_ifs <;> exact scanning_of_state _ rfl h4

theorem scanning_state_5 (c : Char) (s : lex_state) (hi : scanning s)
    (hst : s.state ∈ ([5] : List Int)) : scanning (do_state_5 c s) := by
  obtain ⟨h1, h2, h3, h4⟩ := hi
  cases s
  simp only [List.mem_cons, List.mem_singleton, List.not_mem_nil, or_false] at hst
  rcases hst with rfl
  unfold do_state_5
  split_ifs <;> exact scanning_of_state _ rfl h4

theorem scanning_state_6_16 (c : Char) (s : lex_state) (hi : scanning s)
    (hst : s.state ∈ ([6, 16] : List Int)) : scanning (do_state_6_16 c s) := by
  obtain ⟨h1, h2, h3, h4⟩ := hi
  cases s
  simp only [List.mem_cons, List.mem_singleton, List.not_mem_nil, or_false] at hst
  rcases hst with rfl | rfl <;> unfold do_state_6_16 <;>
    split_ifs <;> exact scanning_of_state _ rfl h4

theorem scanning_state_7 (c : Char) (s : lex_state) (hi : scanning s)
    (hst : s.state ∈ ([7] : List Int)) : scanning (do_state_7 c s) := by
  obtain ⟨h1, h2, h3, h4⟩ := hi
  cases s
  simp only [List.mem_cons, List.mem_singleton, List.not_mem_nil, or_false] at hst
  rcases hst with rfl
  unfold do_state_7
  split_ifs <;> exact scanning_of_state _ rfl h4

theorem scanning_state_8_9_10_18_19_20 (c : Char) (s : lex_state) (hi : scanning s)
    (hst : s.state ∈ ([8, 9, 10, 18, 19, 20] : List Int)) : scanning (do_state_8_9_10_18_19_20 c s) := by
  obtain ⟨h1, h2, h3, h4⟩ := hi
  cases s
  simp only [List.mem_cons, List.mem_singleton, List.not_mem_nil, or_false] at hst
  rcases hst with rfl | rfl | rfl | rfl | rfl | rfl <;> unfold do_state_8_9_10_18_19_20 <;>
    split_ifs <;> exact scanning_of_state _ rfl h4

theorem scanning_state_11 (c : Char) (s : lex_state) (hi : scanning s)
    (hst : s.state ∈ ([11] : List Int)) : scanning (do_state_11 c s) := by
  obtain ⟨h1, h2, h3, h4⟩ := hi
  cases s
  simp only [List.mem_cons, List.mem_singleton, List.not_mem_nil, or_false] at hst
  rcases hst with rfl
  unfold do_state_11
  split_ifs <;> exact scanning_of_state _ rfl h4

theorem scanning_state_12 (c : Char) (s : lex_state) (hi : scanning s)
    (hst : s.state ∈ ([12] : List Int)) : scanning (do_state_12 c s) := by
  obtain ⟨h1, h2, h3, h4⟩ := hi
  cases s
  simp only [List.mem_cons, List.mem_singleton, List.not_mem_nil, or_false] at hst
  rcases hst with rfl
  unfold do_state_12
  split_ifs <;> exact scanning_of_state _ rfl h4

theorem scanning_state_13 (c : Char) (s : lex_state) (hi : scanning s)
    (hst : s.state ∈ ([13] : List Int)) : scanning (do_state_13 c s) := by
  obtain ⟨h1, h2, h3, h4⟩ := hi
  cases s
  simp only [List.mem_cons, List.mem_singleton, List.not_mem_nil, or_false] at hst
  rcases hst with rfl
  unfold do_state_13
  split_ifs <;> exact scanning_of_state _ rfl h4

theorem scanning_state_15 (c : Char) (s : lex_state) (hi : scanning s)
    (hst : s.state ∈ ([15] : List Int)) : scanning (do_state_15 c s) := by
  obtain ⟨h1, h2, h3, h4⟩ := hi
  cases s
  simp only [List.mem_cons, List.mem_singleton, List.not_mem_nil, or_false] at hst
  rcases hst with rfl
  unfold do_state_15
  split_ifs <;> exact scanning_of_state _ rfl h4

theorem scanning_state_17 (c : Char) (s : lex_state) (hi : scanning s)
    (hst : s.state ∈ ([17] : List Int)) : scanning (do_state_17 c s) := by
  obtain ⟨h1, h2, h3, h4⟩ := hi
  cases s
  simp only [List.mem_cons, List.mem_singleton, List.not_mem_nil, or_false] at hst
  rcases hst with rfl
  unfold do_state_17
  split_ifs <;> exact scanning_of_state _ rfl h4

theorem scanning_state_21 (c : Char) (s : lex_state) (hi : scanning s)
    (hst : s.state ∈ ([21] : List Int)) : scanning (do_state_21 c s) := by
  obtain ⟨h1, h2, h3, h4⟩ := hi
  cases s
  simp only [List.mem_cons, List.mem_singleton, List.not_mem_nil, or_false] at hst
  rcases hst with rfl
  unfold do_state_21
  split_ifs <;> exact scanning_of_state _ rfl h4

theorem scanning_state_22 (c : Char) (s : lex_state) (hi : scanning s)
    (hst : s.state ∈ ([22] : List Int)) : scanning (do_state_22 c s).1 := by
  obtain ⟨h1, h2, h3, h4⟩ := hi
  cases s
  simp only [List.mem_cons, List.mem_singleton, List.not_mem_nil, or_false] at hst
  rcases hst with rfl
  unfold do_state_22
  split_ifs <;> exact scanning_of_state _ rfl h4

theorem scanning_state_23 (c : Char) (s : lex_state) (hi : scanning s)
    (hst : s.state ∈ ([23] : List Int)) : scanning (do_state_23 c s).1 := by
  obtain ⟨h1, h2, h3, h4⟩ := hi
  cases s
  simp only [List.mem_cons, List.mem_singleton, List.not_mem_nil, or_false] at hst
  rcases hst with rfl
  unfold do_state_23
  split_ifs <;> exact scanning_of_state _ rfl h4

theorem scanning_state_24 (c : Char) (s : lex_state) (hi : scanning s)
    (hst : s.state ∈ ([24] : List Int)) : scanning (do_state_24 c s).1 := by
  obtain ⟨h1, h2, h3, h4⟩ := hi
  cases s
  simp only [List.mem_cons, List.mem_singleton, List.not_mem_nil, or_false] at hst
  rcases hst with rfl
  unfold do_state_24
  split_ifs <;> exact scanning_of_state _ rfl h4

theorem scanning_state_26 (c : Char) (s : lex_state) (hi : scanning s)
    (hst : s.state ∈ ([26] : List Int)) : scanning (do_state_26 c s) := by
  obtain ⟨h1, h2, h3, h4⟩ := hi
  cases s
  simp only [List.mem_cons, List.mem_singleton, List.not_mem_nil, or_false] at hst
  rcases hst with rfl
  unfold do_state_26
  split_ifs <;> exact scanning_of_state _ rfl h4

theorem scanning_state_27 (c : Char) (s : lex_state) (hi : scanning s)
    (hst : s.state ∈ ([27] : List Int)) : scanning (do_state_27 c s) := by
  obtain ⟨h1, h2, h3, h4⟩ := hi
  cases s
  simp only [List.mem_cons, List.mem_singleton, List.not_mem_nil, or_false] at hst
  rcases hst with rfl
  unfold do_state_27
  split_ifs <;> exact scanning_of_state _ rfl h4

theorem scanning_state_28 (c : Char) (s : lex_state) (hi : scanning s)
    (hst : s.state ∈ ([28] : List Int)) : scanning (do_state_28 c s).1 := by
  obtain ⟨h1, h2, h3, h4⟩ := hi
  cases s
  simp only [List.mem_cons, List.mem_singleton, List.not_mem_nil, or_false] at hst
  rcases hst with rfl
  unfold do_state_28
  split_ifs <;> exact scanning_of_state _ rfl h4

theorem scanning_state_29 (c : Char) (s : lex_state) (hi : scanning s)
    (hst : s.state ∈ ([29] : List Int)) : scanning (do_state_29 c s).1 := by
  obtain ⟨h1, h2, h3, h4⟩ := hi
  cases s
  simp only [List.mem_cons, List.mem_singleton, List.not_mem_nil, or_false] at hst
  rcases hst with rfl
  unfold do_state_29
  split_ifs <;> exact scanning_of_state _ rfl h4

theorem scanning_state_30 (c : Char) (s : lex_state) (hi : scanning s)
    (hst : s.state ∈ ([30] : List Int)) : scanning (do_state_30 c s) := by
  obtain ⟨h1, h2, h3, h4⟩ := hi
  cases s
  simp only [List.mem_cons, List.mem_singleton, List.not_mem_nil, or_false] at hst
  rcases hst with rfl
  unfold do_state_30
  split_ifs <;> exact scanning_of_state _ rfl h4

theorem scanning_state_31 (c : Char) (s : lex_state) (hi : scanning s)
    (hst : s.state ∈ ([31] : List Int)) : scanning (do_state_31 c s).1 := by
  obtain ⟨h1, h2, h3, h4⟩ := hi
  cases s
  simp only [List.mem_cons, List.mem_singleton, List.not_mem_nil, or_false] at hst
  rcases hst with rfl
  unfold do_state_31
  split_ifs <;> exact scanning_of_state _ rfl h4

theorem scanning_state_33 (c : Char) (s : lex_state) (hi : scanning s)
    (hst : s.state ∈ ([33] : List Int)) : scanning (do_state_33 c s).1 := by
  obtain ⟨h1, h2, h3, h4⟩ := hi
  cases s
  simp only [List.mem_cons, List.mem_singleton, List.not_mem_nil, or_false] at hst
  rcases hst with rfl
  unfold do_state_33
  split_ifs <;> exact scanning_of_state _ rfl h4

theorem scanning_state_34 (c : Char) (s : lex_state) (hi : scanning s)
    (hst : s.state ∈ ([34] : List Int)) : scanning (do_state_34 c s) := by
  obtain ⟨h1, h2, h3, h4⟩ := hi
  cases s
  simp only [List.mem_cons, List.mem_singleton, List.not_mem_nil, or_false] at hst
  rcases hst with rfl
  unfold do_state_34
  split_ifs <;> exact scanning_of_state _ rfl h4

theorem scanning_state_39 (c : Char) (s : lex_state) (hi : scanning s)
    (hst : s.state ∈ ([39] : List Int)) : scanning (do_state_39 c s).1 := by
  obtain ⟨h1, h2, h3, h4⟩ := hi
  cases s
  simp only [List.mem_cons, List.mem_singleton, List.not_mem_nil, or_false] at hst
  rcases hst with rfl
  unfold do_state_39
  split_ifs <;> exact scanning_of_state _ rfl h4

theorem scanning_state_42 (c : Char) (s : lex_state) (hi : scanning s)
    (hst : s.state ∈ ([42] : List Int)) : scanning (do_state_42 c s).1 := by
  obtain ⟨h1, h2, h3, h4⟩ := hi
  cases s
  simp only [List.mem_cons, List.mem_singleton, List.not_mem_nil, or_false] at hst
  rcases hst with rfl
  unfold do_state_42
  split_ifs <;> exact scanning_of_state _ rfl h4

theorem scanning_state_45_49_57_60_64_70_72 (c : Char) (s : lex_state) (hi : scanning s)
    (hst : s.state ∈ ([45, 49, 57, 60, 64, 70, 72] : List Int)) : scanning (do_state_45_49_57_60_64_70_72 c s).1 := by
  obtain ⟨h1, h2, h3, h4⟩ := hi
  cases s
  simp only [List.mem_cons, List.mem_singleton, List.not_mem_nil, or_false] at hst
  rcases hst with rfl | rfl | rfl | rfl | rfl | rfl | rfl <;> unfold do_state_45_49_57_60_64_70_72 <;>
    split_ifs <;> exact scanning_of_state _ rfl h4

theorem scanning_state_51 (c : Char) (s : lex_state) (hi : scanning s)
    (hst : s.state ∈ ([51] : List Int)) : scanning (do_state_51 c s).1 := by
  obtain ⟨h1, h2, h3, h4⟩ := hi
  cases s
  simp only [List.mem_cons, List.mem_singleton, List.not_mem_nil, or_false] at hst
  rcases hst with rfl
  unfold do_state_51
  split_ifs <;> exact scanning_of_state _ rfl h4

theorem scanning_state_54 (c : Char) (s : lex_state) (hi : scanning s)
    (hst : s.state ∈ ([54] : List Int)) : scanning (do_state_54 c s).1 := by
  obtain ⟨h1, h2, h3, h4⟩ := hi
  cases s
  simp only [List.mem_cons, List.mem_singleton, List.not_mem_nil, or_false] at hst
  rcases hst with rfl
  unfold do_state_54
  split_ifs <;> exact scanning_of_state _ rfl h4

theorem scanning_state_62 (c : Char) (s : lex_state) (hi : scanning s)
    (hst : s.state ∈ ([62] : List Int)) : scanning (do_state_62 c s).1 := by
  obtain ⟨h1, h2, h3, h4⟩ := hi
  cases s
  simp only [List.mem_cons, List.mem_singleton, List.not_mem_nil, or_false] at hst
  rcases hst with rfl
  unfold do_state_62
  split_ifs <;> exact scanning_of_state _ rfl h4

theorem scanning_state_66_68 (c : Char) (s : lex_state) (hi : scanning s)
    (hst : s.state ∈ ([66, 68] : List Int)) : scanning (do_state_66_68 c s).1 := by
  obtain ⟨h1, h2, h3, h4⟩ := hi
  cases s
  simp only [List.mem_cons, List.mem_singleton, List.not_mem_nil, or_false] at hst
  rcases hst with rfl | rfl <;> unfold do_state_66_68 <;>
    split_ifs <;> exact scanning_of_state _ rfl h4

theorem scanning_state_47 (c : Char) (s : lex_state) (hi : scanning s)
    (hst : s.state ∈ ([47] : List Int)) : scanning (do_state_47 c s).1 := by
  obtain ⟨h1, h2, h3, h4⟩ := hi
  cases s
  simp only [List.mem_cons, List.mem_singleton, List.not_mem_nil, or_false] at hst
  rcases hst with rfl
  unfold do_state_47
  split_ifs <;> exact scanning_of_state _ rfl h4

theorem scanning_state_74 (c : Char) (s : lex_state) (hi : scanning s)
    (hst : s.state ∈ ([74] : List Int)) : scanning (do_state_74 c s).1 := by
  obtain ⟨h1, h2, h3, h4⟩ := hi
  cases s
  simp only [List.mem_cons, List.mem_singleton, List.not_mem_nil, or_false] at hst
  rcases hst with rfl
  unfold do_state_74
  split_ifs <;> exact scanning_of_state _ rfl h4

theorem scanning_state_75 (c : Char) (s : lex_state) (hi : scanning s)
    (hst : s.state ∈ ([75] : List Int)) : scanning (do_state_75 c s).1 := by
  obtain ⟨h1, h2, h3, h4⟩ := hi
  cases s
  simp only [List.mem_cons, List.mem_singleton, List.not_mem_nil, or_false] at hst
  rcases hst with rfl
  unfold do_state_75
  split_ifs <;> exact scanning_of_state _ rfl h4

theorem scanning_state_77 (c : Char) (s : lex_state) (hi : scanning s)
    (hst : s.state ∈ ([77] : List Int)) : scanning (do_state_77 c s).1 := by
  obtain ⟨h1, h2, h3, h4⟩ := hi
  cases s
  simp only [List.mem_cons, List.mem_singleton, List.not_mem_nil, or_false] at hst
  rcases hst with rfl
  unfold do_state_77
  split_ifs <;> exact scanning_of_state _ rfl h4

theorem cstr_no_NUL (w : List Char) : NUL ∉ cstr w := by
  intro h
  have := List.mem_takeWhile_imp h
  simp at this

theorem cstr_subset (w : List Char) (c : Char) (h : c ∈ cstr w) : c ∈ w :=
  (List.takeWhile_sublist _).subset h

theorem do_judgement_kind (w : List Char) :
    do_judgement w ∈ word_kinds ∧ do_judgement w ≠ SPACE := by
  unfold do_judgement
  split_ifs <;> exact ⟨by decide, by decide⟩

/-- After a word of a type other than `SPACE` is written, the variables are `scanning`. -/
theorem scanning_accept (type : Int) (hT : type ∈ word_kinds) (hS : type ≠ SPACE)
    (t : lex_state) (hout : ∀ l ∈ t.out, well_written l) : scanning (accept type t) := by
  refine ⟨rfl, fun _ => ⟨rfl, by simp [accept, do_clear]⟩, fun h => ?_, ?_⟩
  · rcases h with h | h <;> simp [accept, do_clear] at h
  · intro l hl
    simp only [accept, do_clear, do_update_word_count, do_output_word, List.mem_append,
      List.mem_singleton] at hl
    rcases hl with hl | rfl
    · exact hout l hl
    · exact ⟨hT, cstr_no_NUL _, fun h => absurd h hS⟩

/-- After a space without a newline in it is written, the variables are `scanning`. -/
theorem scanning_accept_space (t : lex_state) (hw : LF ∉ t.word)
    (hout : ∀ l ∈ t.out, well_written l) : scanning (accept SPACE t) := by
  refine ⟨rfl, fun _ => ⟨rfl, by simp [accept, do_clear]⟩, fun h => ?_, ?_⟩
  · rcases h with h | h <;> simp [accept, do_clear] at h
  · intro l hl
    simp only [accept, do_clear, do_update_word_count, do_output_word, List.mem_append,
      List.mem_singleton] at hl
    rcases hl with hl | rfl
    · exact hout l hl
    · exact ⟨by decide, cstr_no_NUL _, fun _ h => hw (cstr_subset _ _ h)⟩

theorem scanning_accept_if (type : Int) (hT : type ∈ word_kinds) (hS : type ≠ SPACE)
    (r : lex_state × Bool) (hr : scanning r.1) : scanning (accept_if type r).1 := by
  unfold accept_if
  split_ifs
  · exact scanning_accept type hT hS r.1 hr.2.2.2
  · exact hr

theorem scanning_line_count (t : lex_state) (ht : scanning t) :
    scanning (do_update_line_count t) := by
  obtain ⟨h1, h2, h3, h4⟩ := ht
  refine ⟨h1, h2, h3, ?_⟩
  intro l hl
  simp only [do_update_line_count, List.mem_append, List.mem_singleton] at hl
  rcases hl with hl | rfl
  · exact h4 l hl
  · split_ifs <;> trivial

theorem scanning_count_line_if (r : lex_state × Bool) (hr : scanning r.1) :
    scanning (count_line_if r).1 := by
  unfold count_line_if
  split_ifs
  · exact scanning_line_count r.1 hr
  · exact hr

theorem scanning_clear (t : lex_state) (hout : ∀ l ∈ t.out, well_written l) :
    scanning (do_clear t) :=
  ⟨rfl, fun _ => ⟨rfl, by simp [do_clear]⟩,
   fun h => by rcases h with h | h <;> simp [do_clear] at h, hout⟩

theorem scanning_wrong_word (t : lex_state) (hout : ∀ l ∈ t.out, well_written l) :
    scanning (do_clear (do_update_word_count
      (do_output_wrong_word (cstr t.word) (t.lines + 1) t))) := by
  apply scanning_clear
  intro l hl
  simp only [do_update_word_count, do_output_wrong_word, List.mem_append,
    List.mem_singleton] at hl
  rcases hl with hl | rfl
  · exact hout l hl
  · exact cstr_no_NUL _

theorem scanning_newline (t : lex_state) (hw : LF ∉ t.word)
    (hout : ∀ l ∈ t.out, well_written l) :
    scanning (do_clear (do_update_line_count
      (do_update_word_count (do_output_word (cstr t.word) SPACE t)))) := by
  apply scanning_clear
  intro l hl
  simp only [do_update_line_count, do_update_word_count, do_output_word, List.mem_append,
    List.mem_singleton] at hl
  rcases hl with (hl | rfl) | rfl
  · exact hout l hl
  · exact ⟨by decide, cstr_no_NUL _, fun _ h => hw (cstr_subset _ _ h)⟩
  · split_ifs <;> trivial

theorem scanning_state_81_step (c : Char) (s : lex_state) (hi : scanning s)
    (hst : s.state = 81) (r : lex_state × Bool) (hs : do_lex_step c s = some r) :
    scanning r.1 := by
  rw [step_state_81 c s hst] at hs
  split_ifs at hs <;> cases hs
  · apply scanning_clear
    intro l hl
    simp only [do_update_word_count, do_output_word, List.mem_append,
      List.mem_singleton] at hl
    rcases hl with hl | rfl
    · exact hi.2.2.2 l hl
    · exact ⟨by decide, by decide, fun h => absurd h (by decide)⟩
  · exact scanning_accept COLON (by decide) (by decide) s hi.2.2.2

theorem initial_result_ite (s : lex_state) (p : Prop) [Decidable p] (a b : lex_state × Bool)
    (ha : p → initial_result s a) (hb : ¬ p → initial_result s b) :
    initial_result s (if p then a else b) := by
  split_ifs with h
  · exact ha h
  · exact hb h

/-- The result of `do_state_0` on `scanning` variables in the initial state. -/
theorem do_state_0_result (c : Char) (s : lex_state) (hi : scanning s) (hst : s.state = 0) :
    initial_result s (do_state_0 c s) := by
  obtain ⟨h1, h2, h3, h4⟩ := hi
  obtain ⟨hl, hw⟩ := h2 hst
  cases s with
  | mk state word length condition_flag words lines words_in_line out overrun =>
  simp only at hst hl hw h4
  subst hst hl
  have hword : word = [] ∨ ∃ x, word = [x] := by
    rcases word with _ | ⟨x, _ | ⟨y, r⟩⟩
    · exact Or.inl rfl
    · exact Or.inr ⟨x, rfl⟩
    · simp at hw
  unfold do_state_0
  rcases hword with rfl | ⟨x, rfl⟩ <;>
    repeat (first
      | exact ⟨fun _ => scanning_of_state _ rfl h4, fun h => Bool.noConfusion h, rfl⟩
      | exact ⟨fun h => Bool.noConfusion h, fun _ => ⟨rfl, rfl, rfl⟩, rfl⟩
      | (subst c
         exact ⟨fun _ => ⟨rfl, fun h => absurd h (by decide : ¬ ((79 : Int) = 0)),
           fun _ => (by decide : LF ∉ [' ']), h4⟩, fun h => Bool.noConfusion h, rfl⟩)
      | (subst c
         exact ⟨fun _ => ⟨rfl, fun h => absurd h (by decide : ¬ ((79 : Int) = 0)),
           fun _ => (by decide : LF ∉ [BACKSLASH, 't']), h4⟩, fun h => Bool.noConfusion h, rfl⟩)
      | (subst c
         exact ⟨fun _ => ⟨rfl, fun h => absurd h (by decide : ¬ ((79 : Int) = 0)),
           fun _ => (by decide : LF ∉ [BACKSLASH, 'r']), h4⟩, fun h => Bool.noConfusion h, rfl⟩)
      | (subst c
         exact ⟨fun _ => ⟨rfl, fun h => absurd h (by decide : ¬ ((80 : Int) = 0)),
           fun _ => (by decide : LF ∉ [BACKSLASH, 'n']), h4⟩, fun h => Bool.noConfusion h, rfl⟩)
      | (refine initial_result_ite _ _ _ _ (fun hc => ?_) (fun hc => ?_)))

theorem scanning_state_0_step (c : Char) (s : lex_state) (hi : scanning s) (hst : s.state = 0)
    (r : lex_state × Bool) (hs : do_lex_step c s = some r) : scanning r.1 := by
  obtain ⟨f1, f2, f3⟩ := do_state_0_result c s hi hst
  have hout : ∀ l ∈ (do_state_0 c s).1.out, well_written l := by
    rw [f3]; exact hi.2.2.2
  rw [step_state_0 c s hst] at hs
  simp only at hs
  split_ifs at hs with hq hflag <;> cases hs
  · exact scanning_of_state _ rfl hout
  · obtain ⟨g1, g2, g3⟩ := f2 hq
    refine ⟨?_, fun _ => ⟨?_, ?_⟩, fun h => ?_, hout⟩
    · show legal_state (do_state_0 c s).1.state = true
      rw [g3]; rfl
    · show (do_state_0 c s).1.length - 1 = 0
      rw [g1]
    · show (buf_write (do_state_0 c s).1.word ((do_state_0 c s).1.length - 1) NUL).length ≤ 1
      rw [g1]
      simp [buf_write, g2]
    · have h' : (do_state_0 c s).1.state = 79 ∨ (do_state_0 c s).1.state = 80 := h
      rw [g3] at h'
      rcases h' with h' | h' <;> cases h'
  · exact f1 (by simpa using hq)

set_option maxHeartbeats 8000000 in
/-- A round of the loop keeps the variables `scanning`. -/
theorem step_scanning (c : Char) (s : lex_state) (hi : scanning s) (r : lex_state × Bool)
    (hs : do_lex_step c s = some r) : scanning r.1 := by
  by_cases h0 : s.state = 0
  · exact scanning_state_0_step c s hi h0 r hs
  by_cases h81 : s.state = 81
  · exact scanning_state_81_step c s hi h81 r hs
  have hout := hi.2.2.2
  have hclear := scanning_clear s hout
  have hwrong := scanning_wrong_word s hout
  have hword := scanning_accept (do_judgement (cstr s.word)) (do_judgement_kind _).1
    (do_judgement_kind _).2 s hout
  unfold do_lex_step at hs
  split at hs
  · rename_i heq; cases hs; exact scanning_state_m1 c s hi (by rw [heq]; decide)
  · rename_i heq; cases hs; exact hwrong
  · rename_i heq; exact absurd heq h0
  · rename_i heq; cases hs; exact scanning_state_1 c s hi (by rw [heq]; decide)
  · rename_i heq; cases hs; exact hword
  · rename_i heq; cases hs; exact scanning_state_3 c s hi (by rw [heq]; decide)
  · rename_i heq; cases hs; exact scanning_accept _ (by decide) (by decide) s hout
  · rename_i heq; cases hs; exact scanning_state_5 c s hi (by rw [heq]; decide)
  · rename_i heq; cases hs; exact scanning_state_6_16 c s hi (by rw [heq]; decide)
  · rename_i heq; cases hs; exact scanning_state_6_16 c s hi (by rw [heq]; decide)
  · rename_i heq; cases hs; exact scanning_state_7 c s hi (by rw [heq]; decide)
  · rename_i heq; cases hs; exact scanning_state_8_9_10_18_19_20 c s hi (by rw [heq]; decide)
  · rename_i heq; cases hs; exact scanning_state_8_9_10_18_19_20 c s hi (by rw [heq]; decide)
  · rename_i heq; cases hs; exact scanning_state_8_9_10_18_19_20 c s hi (by rw [heq]; decide)
  · rename_i heq; cases hs; exact scanning_state_8_9_10_18_19_20 c s hi (by rw [heq]; decide)
  · rename_i heq; cases hs; exact scanning_state_8_9_10_18_19_20 c s hi (by rw [heq]; decide)
  · rename_i heq; cases hs; exact scanning_state_8_9_10_18_19_20 c s hi (by rw [heq]; decide)
  · rename_i heq; cases hs; exact scanning_state_11 c s hi (by rw [heq]; decide)
  · rename_i heq; cases hs; exact scanning_state_12 c s hi (by rw [heq]; decide)
  · rename_i heq; cases hs; exact scanning_state_13 c s hi (by rw [heq]; decide)
  · rename_i heq; cases hs; exact scanning_accept _ (by decide) (by decide) s hout
  · rename_i heq; cases hs; exact scanning_state_15 c s hi (by rw [heq]; decide)
  · rename_i heq; cases hs; exact scanning_state_17 c s hi (by rw [heq]; decide)
  · rename_i heq; cases hs; exact scanning_state_21 c s hi (by rw [heq]; decide)
  · rename_i heq; cases hs; exact scanning_accept_if _ (by decide) (by decide) _ (scanning_state_22 c s hi (by rw [heq]; decide))
  · rename_i heq; cases hs; exact scanning_accept_if _ (by decide) (by decide) _ (scanning_state_23 c s hi (by rw [heq]; decide))
  · rename_i heq; cases hs; exact scanning_accept_if _ (by decide) (by decide) _ (scanning_state_24 c s hi (by rw [heq]; decide))
  · rename_i heq; cases hs; exact scanning_accept _ (by decide) (by decide) s hout
  · rename_i heq; cases hs; exact scanning_state_26 c s hi (by rw [heq]; decide)
  · rename_i heq; cases hs; exact scanning_state_27 c s hi (by rw [heq]; decide)
  · rename_i heq; cases hs; exact scanning_accept_if _ (by decide) (by decide) _ (scanning_state_28 c s hi (by rw [heq]; decide))
  · rename_i heq; cases hs; exact scanning_accept_if _ (by decide) (by decide) _ (scanning_state_29 c s hi (by rw [heq]; decide))
  · rename_i heq; cases hs; exact scanning_state_30 c s hi (by rw [heq]; decide)
  · rename_i heq; cases hs; exact scanning_accept_if _ (by decide) (by decide) _ (scanning_state_31 c s hi (by rw [heq]; decide))
  · rename_i heq; cases hs; exact scanning_accept _ (by decide) (by decide) s hout
  · rename_i heq; cases hs; exact scanning_accept_if _ (by decide) (by decide) _ (scanning_state_33 c s hi (by rw [heq]; decide))
  · rename_i heq; cases hs; exact scanning_state_34 c s hi (by rw [heq]; decide)
  · rename_i heq; cases hs; exact scanning_accept _ (by decide) (by decide) s hout
  · rename_i heq; cases hs; exact scanning_accept _ (by decide) (by decide) s hout
  · rename_i heq; cases hs; exact scanning_accept _ (by decide) (by decide) s hout
  · rename_i heq; cases hs; exact scanning_accept _ (by decide) (by decide) s hout
  · rename_i heq; cases hs; exact scanning_accept_if _ (by decide) (by decide) _ (scanning_state_39 c s hi (by rw [heq]; decide))
  · rename_i heq; cases hs; exact scanning_accept _ (by decide) (by decide) s hout
  · rename_i heq; cases hs; exact scanning_accept _ (by decide) (by decide) s hout
  · rename_i heq; cases hs; exact scanning_accept _ (by decide) (by decide) s hout
  · rename_i heq; cases hs; exact scanning_accept _ (by decide) (by decide) s hout
  · rename_i heq; cases hs; exact scanning_accept _ (by decide) (by decide) s hout
  · rename_i heq; cases hs; exact scanning_accept _ (by decide) (by decide) s hout
  · rename_i heq; cases hs; exact scanning_accept _ (by decide) (by decide) s hout
  · rename_i heq; cases hs; exact scanning_accept _ (by decide) (by decide) s hout
  · rename_i heq; cases hs; exact scanning_accept _ (by decide) (by decide) s hout
  · rename_i heq; cases hs; exact scanning_accept _ (by decide) (by decide) s hout
  · rename_i heq; cases hs; exact scanning_accept _ (by decide) (by decide) s hout
  · rename_i heq; cases hs; exact scanning_accept _ (by decide) (by decide) s hout
  · rename_i heq; cases hs; exact scanning_accept _ (by decide) (by decide) s hout
  · rename_i heq; cases hs; exact scanning_accept _ (by decide) (by decide) s hout
  · rename_i heq; cases hs; exact scanning_accept_if _ (by decide) (by decide) _ (scanning_state_42 c s hi (by rw [heq]; decide))
  · rename_i heq; cases hs; exact scanning_accept_if _ (by decide) (by decide) _ (scanning_state_45_49_57_60_64_70_72 c s hi (by rw [heq]; decide))
  · rename_i heq; cases hs; exact scanning_accept_if _ (by decide) (by decide) _ (scanning_state_45_49_57_60_64_70_72 c s hi (by rw [heq]; decide))
  · rename_i heq; cases hs; exact scanning_accept_if _ (by decide) (by decide) _ (scanning_state_47 c s hi (by rw [heq]; decide))
  · rename_i heq; cases hs; exact scanning_accept_if _ (by decide) (by decide) _ (scanning_state_51 c s hi (by rw [heq]; decide))
  · rename_i heq; cases hs; exact scanning_accept _ (by decide) (by decide) s hout
  · rename_i heq; cases hs; exact scanning_accept_if _ (by decide) (by decide) _ (scanning_state_54 c s hi (by rw [heq]; decide))
  · rename_i heq; cases hs; exact scanning_accept _ (by decide) (by decide) s hout
  · rename_i heq; cases hs; exact scanning_accept_if _ (by decide) (by decide) _ (scanning_state_45_49_57_60_64_70_72 c s hi (by rw [heq]; decide))
  · rename_i heq; cases hs; exact scanning_accept_if _ (by decide) (by decide) _ (scanning_state_45_49_57_60_64_70_72 c s hi (by rw [heq]; decide))
  · rename_i heq; cases hs; exact scanning_accept _ (by decide) (by decide) s hout
  · rename_i heq; cases hs; exact scanning_accept _ (by decide) (by decide) s hout
  · rename_i heq; cases hs; exact scanning_accept_if _ (by decide) (by decide) _ (scanning_state_62 c s hi (by rw [heq]; decide))
  · rename_i heq; cases hs; exact scanning_accept _ (by decide) (by decide) s hout
  · rename_i heq; cases hs; exact scanning_accept _ (by decide) (by decide) s hout
  · rename_i heq; cases hs; exact scanning_accept_if _ (by decide) (by decide) _ (scanning_state_45_49_57_60_64_70_72 c s hi (by rw [heq]; decide))
  · rename_i heq; cases hs; exact scanning_accept_if _ (by decide) (by decide) _ (scanning_state_45_49_57_60_64_70_72 c s hi (by rw [heq]; decide))
  · rename_i heq; cases hs; exact scanning_accept_if _ (by decide) (by decide) _ (scanning_state_66_68 c s hi (by rw [heq]; decide))
  · rename_i heq; cases hs; exact scanning_accept_if _ (by decide) (by decide) _ (scanning_state_66_68 c s hi (by rw [heq]; decide))
  · rename_i heq; cases hs; exact scanning_accept_if _ (by decide) (by decide) _ (scanning_state_45_49_57_60_64_70_72 c s hi (by rw [heq]; decide))
  · rename_i heq; cases hs; exact scanning_count_line_if _ (scanning_state_74 c s hi (by rw [heq]; decide))
  · rename_i heq; cases hs; exact scanning_count_line_if _ (scanning_state_75 c s hi (by rw [heq]; decide))
  · rename_i heq; cases hs; exact hclear
  · rename_i heq; cases hs; exact scanning_count_line_if _ (scanning_state_77 c s hi (by rw [heq]; decide))
  · rename_i heq; cases hs; exact hclear
  · rename_i heq; cases hs; exact scanning_accept_space s (hi.2.2.1 (Or.inl heq)) hout
  · rename_i heq; cases hs; exact scanning_newline s (hi.2.2.1 (Or.inr heq)) hout
  · rename_i heq; exact absurd heq h81
  · cases hs

/-- The loop of `do_lex` keeps the variables `scanning`. -/
theorem loop_scanning :
    ∀ (fuel : Nat) (cs : List Char) (s : lex_state) (r : lex_state × Bool),
      scanning s → do_lex_loop fuel cs s = exec.done r → scanning r.1 := by
  intro fuel
  induction fuel with
  | zero =>
    intro cs s r hi hr
    cases cs with
    | nil =>
      rw [do_lex_loop_nil] at hr
      cases hr
      exact hi
    | cons c cs => simp [do_lex_loop] at hr
  | succ fuel ih =>
    intro cs s r hi hr
    cases cs with
    | nil =>
      rw [do_lex_loop_nil] at hr
      cases hr
      exact hi
    | cons c cs =>
      cases hstep : do_lex_step c s with
      | none =>
        simp only [do_lex_loop, hstep, exec.done.injEq] at hr
        subst hr
        exact hi
      | some t =>
        simp only [do_lex_loop, hstep] at hr
        exact ih _ _ r (step_scanning c s hi t hstep) hr

theorem scanning_init : scanning lex_init :=
  ⟨rfl, fun _ => ⟨rfl, by simp [lex_init]⟩, fun h => (by rcases h with h | h <;> cases h),
   fun l hl => (by simp [lex_init] at hl)⟩

/-- Every record that `do_lex` writes is `well_written`. -/
theorem do_lex_well_written (src : List Char) (o : List out_line)
    (h : do_lex src = exec.done o) : ∀ l ∈ o, well_written l := by
  obtain ⟨r, hr⟩ := do_lex_loop_total (3 * (src.length + 1)) (src ++ [LF]) lex_init (by simp)
  have hs := loop_scanning _ _ _ r scanning_init hr
  simp only [do_lex, hr, exec.bind] at h
  split_ifs at h <;> cases h
  · intro l hl
    simp only [do_output_word_count, List.mem_append, List.mem_singleton] at hl
    rcases hl with hl | rfl
    · exact hs.2.2.2 l hl
    · trivial
  · exact hs.2.2.2

/-! ## Reading the output file back -/

theorem toDigitsCore_chars (b : Nat) (hb : 0 < b) (hb16 : b ≤ 16) :
    ∀ (fuel n : Nat) (ds : List Char), (∀ c ∈ ds, c ∈ digit_chars) →
      ∀ c ∈ Nat.toDigitsCore b fuel n ds, c ∈ digit_chars := by
  have hd : ∀ d, d < 16 → Nat.digitChar d ∈ digit_chars := by decide
  intro fuel
  induction fuel with
  | zero => intro n ds h c hc; exact h c hc
  | succ fuel ih =>
    intro n ds h c hc
    have hm : Nat.digitChar (n % b) ∈ digit_chars :=
      hd _ (lt_of_lt_of_le (Nat.mod_lt n hb) hb16)
    have h' : ∀ c ∈ Nat.digitChar (n % b) :: ds, c ∈ digit_chars := by
      intro x hx
      rcases List.mem_cons.1 hx with rfl | hx
      · exact hm
      · exact h x hx
    simp only [Nat.toDigitsCore] at hc
    split_ifs at hc
    · exact h' c hc
    · exact ih _ _ h' c hc

theorem fmt_d_chars (n : Nat) : ∀ c ∈ fmt_d n, c ∈ digit_chars :=
  toDigitsCore_chars 10 (by decide) (by decide) _ _ [] (by simp)

theorem digit_chars_plain : ∀ c ∈ digit_chars, is_blank c = false ∧ c ≠ NUL ∧ c ≠ LF := by
  decide

theorem fmt_d_no_NUL (n : Nat) : NUL ∉ fmt_d n :=
  fun h => (digit_chars_plain _ (fmt_d_chars n _ h)).2.1 rfl

theorem fmt_d_no_LF (n : Nat) : LF ∉ fmt_d n :=
  fun h => (digit_chars_plain _ (fmt_d_chars n _ h)).2.2 rfl

/-- The first field of a K-V pair line: what holds of it for every type that do_lex
writes. -/
theorem first_field_of_kind : ∀ t ∈ WRONG :: word_kinds,
    (∀ c ∈ "0x".data ++ fmt_x t, is_blank c = false) ∧ NUL ∉ "0x".data ++ fmt_x t ∧
    "0x".data ++ fmt_x t ≠ "line".data ∧ "0x".data ++ fmt_x t ≠ "total".data ∧
    strtol16 ("0x".data ++ fmt_x t) = t := by
  decide

theorem one_field_spec (w : List Char) (h : one_field w = true) :
    w ≠ [] ∧ ∀ c ∈ w, is_blank c = false := by
  simp only [one_field, Bool.and_eq_true, Bool.not_eq_true', List.isEmpty_eq_false,
    List.all_eq_true] at h
  exact ⟨h.1, h.2⟩

theorem one_field_no_LF (w : List Char) (h : one_field w = true) : LF ∉ w :=
  fun hm => absurd ((one_field_spec w h).2 LF hm) (by decide)

theorem no_LF_of_blank_free (p : List Char) (h : ∀ c ∈ p, is_blank c = false) : LF ∉ p :=
  fun hm => absurd (h LF hm) (by decide)

/-- A K-V pair line whose value is one field: `get_word` reads the type and the value. -/
theorem parse_pair_line (t : Int) (ht : t ∈ WRONG :: word_kinds) (hs : t ≠ SPACE)
    (w tail : List Char) (hw : one_field w = true) (hnul : NUL ∉ w ++ tail)
    (htail : tail = [] ∨ ∃ d r, tail = d :: r ∧ is_blank d = true) :
    parse_line ("0x".data ++ fmt_x t ++ [TAB] ++ w ++ tail) =
      exec.done (src_line.pair t (String.mk w)) := by
  obtain ⟨h1, h2, h3, h4, h5⟩ := first_field_of_kind t ht
  obtain ⟨hne, hbl⟩ := one_field_spec w hw
  have hp : "0x".data ++ fmt_x t ≠ [] := by simp
  have hc : c_string ("0x".data ++ fmt_x t ++ [TAB] ++ w ++ tail) =
      ("0x".data ++ fmt_x t) ++ (TAB :: (w ++ tail)) := by
    rw [c_string_eq_self]
    · simp
    · intro hm
      simp only [List.append_assoc, List.mem_append, List.mem_singleton] at hm hnul h2
      rcases hm with hm | hm | hm | hm | hm
      · exact h2 (Or.inl hm)
      · exact h2 (Or.inr hm)
      · exact absurd hm (by decide)
      · exact hnul (Or.inl hm)
      · exact hnul (Or.inr hm)
  have hk : strtok (("0x".data ++ fmt_x t) ++ (TAB :: (w ++ tail))) =
      some ("0x".data ++ fmt_x t, w ++ tail) :=
    strtok_token _ _ hp h1 (Or.inr ⟨TAB, _, rfl, by decide⟩)
  have hv : strtok (w ++ tail) = some (w, tail.drop 1) := strtok_token w tail hne hbl htail
  rw [parse_line, hc, hk]
  simp only [hv, h5, if_neg hs]
  rw [if_neg (fun h => h.elim h3 h4)]

/-- The line of a space: `get_word` reads the type only. -/
theorem parse_space_line (w : List Char) (hnul : NUL ∉ w) :
    parse_line ("0x".data ++ fmt_x SPACE ++ [TAB] ++ w ++ [LF]) =
      exec.done (src_line.pair SPACE "") := by
  obtain ⟨h1, h2, h3, h4, h5⟩ := first_field_of_kind SPACE (by decide)
  have hp : "0x".data ++ fmt_x SPACE ≠ [] := by simp
  have hc : c_string ("0x".data ++ fmt_x SPACE ++ [TAB] ++ w ++ [LF]) =
      ("0x".data ++ fmt_x SPACE) ++ (TAB :: (w ++ [LF])) := by
    rw [c_string_eq_self]
    · simp
    · intro hm
      simp only [List.append_assoc, List.mem_append, List.mem_singleton] at hm h2
      rcases hm with hm | hm | hm | hm | hm
      · exact h2 (Or.inl hm)
      · exact h2 (Or.inr hm)
      · exact absurd hm (by decide)
      · exact hnul hm
      · exact absurd hm (by decide)
  have hk : strtok (("0x".data ++ fmt_x SPACE) ++ (TAB :: (w ++ [LF]))) =
      some ("0x".data ++ fmt_x SPACE, w ++ [LF]) :=
    strtok_token _ _ hp h1 (Or.inr ⟨TAB, _, rfl, by decide⟩)
  rw [parse_line, hc, hk]
  simp only [h5, if_true]
  rw [if_neg (fun h => h.elim h3 h4)]

/-- A word counter line: `get_word` passes it by. -/
theorem parse_counter_line (first : List Char) (hf : first = "line".data ∨ first = "total".data)
    (tail : List Char) (hnul : NUL ∉ tail) :
    parse_line (first ++ (' ' :: tail)) = exec.done src_line.counter := by
  have hne : first ≠ [] := by rcases hf with rfl | rfl <;> decide
  have hbl : ∀ c ∈ first, is_blank c = false := by rcases hf with rfl | rfl <;> decide
  have hn : NUL ∉ first := by rcases hf with rfl | rfl <;> decide
  have hc : c_string (first ++ (' ' :: tail)) = first ++ (' ' :: tail) := by
    apply c_string_eq_self
    intro hm
    simp only [List.mem_append, List.mem_cons] at hm
    rcases hm with hm | hm | hm
    · exact hn hm
    · exact absurd hm (by decide)
    · exact hnul hm
  have hk : strtok (first ++ (' ' :: tail)) = some (first, tail) :=
    strtok_token _ _ hne hbl (Or.inr ⟨' ', _, rfl, by decide⟩)
  rw [parse_line, hc, hk]
  simp only [if_pos hf]

/-- Reading one record of the output file back: `get_word` finds the record, when the
record was written by `do_lex` and its word is one field. -/
theorem parse_render_line (l : out_line) (hw : well_written l) (hr : readable l = true) :
    parse_line (render_line l) = exec.done (line_read l) := by
  cases l with
  | word t w =>
    obtain ⟨hk, hnul, hsp⟩ := hw
    by_cases hs : t = SPACE
    · subst hs
      simp only [render_line, line_read, if_true]
      exact parse_space_line w hnul
    · simp only [readable, Bool.or_eq_true, beq_iff_eq] at hr
      have hf : one_field w = true := hr.resolve_left hs
      simp only [render_line, line_read, if_neg hs]
      refine parse_pair_line t (List.mem_cons_of_mem _ hk) hs w [LF] hf ?_
        (Or.inr ⟨LF, [], rfl, by decide⟩)
      intro hm
      rcases List.mem_append.1 hm with hm | hm
      · exact hnul hm
      · exact absurd hm (by decide)
  | wrong w n =>
    have hnul : NUL ∉ w := hw
    have hf : one_field w = true := hr
    have hshape : render_line (out_line.wrong w n) =
        "0x".data ++ fmt_x WRONG ++ [TAB] ++ w ++ (' ' :: ("at line ".data ++ fmt_d n ++ [LF])) := by
      simp [render_line]
    rw [hshape]
    simp only [line_read]
    refine parse_pair_line WRONG (by decide) (by decide) w _ hf ?_
      (Or.inr ⟨' ', _, rfl, by decide⟩)
    intro hm
    simp only [List.mem_append, List.mem_cons, List.mem_singleton] at hm
    rcases hm with hm | hm | (hm | hm) | hm
    · exact hnul hm
    · exact absurd hm (by decide)
    · exact absurd hm (by decide)
    · exact fmt_d_no_NUL n hm
    · exact absurd hm (by decide)
  | line_word n k =>
    have hshape : render_line (out_line.line_word n k) =
        "line".data ++ (' ' :: (fmt_d n ++ " has ".data ++ fmt_d k ++ " word".data ++ [LF])) := by
      simp [render_line]
    rw [hshape]
    refine parse_counter_line _ (Or.inl rfl) _ ?_
    intro hm
    simp only [List.mem_append, List.mem_singleton] at hm
    rcases hm with (((hm | hm) | hm) | hm) | hm
    · exact fmt_d_no_NUL n hm
    · exact absurd hm (by decide)
    · exact fmt_d_no_NUL k hm
    · exact absurd hm (by decide)
    · exact absurd hm (by decide)
  | line_words n k =>
    have hshape : render_line (out_line.line_words n k) =
        "line".data ++ (' ' :: (fmt_d n ++ " has ".data ++ fmt_d k ++ " words".data ++ [LF])) := by
      simp [render_line]
    rw [hshape]
    refine parse_counter_line _ (Or.inl rfl) _ ?_
    intro hm
    simp only [List.mem_append, List.mem_singleton] at hm
    rcases hm with (((hm | hm) | hm) | hm) | hm
    · exact fmt_d_no_NUL n hm
    · exact absurd hm (by decide)
    · exact fmt_d_no_NUL k hm
    · exact absurd hm (by decide)
    · exact absurd hm (by decide)
  | total k =>
    have hshape : render_line (out_line.total k) =
        "total".data ++ (' ' :: (fmt_d k ++ " words".data ++ [LF])) := by
      simp [render_line]
    rw [hshape]
    refine parse_counter_line _ (Or.inr rfl) _ ?_
    intro hm
    simp only [List.mem_append, List.mem_singleton] at hm
    rcases hm with (hm | hm) | hm
    · exact fmt_d_no_NUL k hm
    · exact absurd hm (by decide)
    · exact absurd hm (by decide)

/-- A record of the output file is one line: its newline comes last and is the only one,
when the record was written by `do_lex` and its word is one field. -/
theorem render_line_shape (l : out_line) (hw : well_written l) (hr : readable l = true) :
    ∃ body, render_line l = body ++ [LF] ∧ LF ∉ body := by
  have hx : ∀ t ∈ WRONG :: word_kinds, LF ∉ "0x".data ++ fmt_x t :=
    fun t ht => no_LF_of_blank_free _ (first_field_of_kind t ht).1
  cases l with
  | word t w =>
    obtain ⟨hk, _, hsp⟩ := hw
    have hlf : LF ∉ w := by
      by_cases hs : t = SPACE
      · exact hsp hs
      · simp only [readable, Bool.or_eq_true, beq_iff_eq] at hr
        exact one_field_no_LF w (hr.resolve_left hs)
    refine ⟨"0x".data ++ fmt_x t ++ [TAB] ++ w, rfl, ?_⟩
    intro hm
    simp only [List.mem_append, List.mem_singleton] at hm
    rcases hm with (hm | hm) | hm
    · exact hx t (List.mem_cons_of_mem _ hk) (List.mem_append.2 hm)
    · exact absurd hm (by decide)
    · exact hlf hm
  | wrong w n =>
    have hlf : LF ∉ w := one_field_no_LF w hr
    refine ⟨"0x".data ++ fmt_x WRONG ++ [TAB] ++ w ++ " at line ".data ++ fmt_d n, rfl, ?_⟩
    intro hm
    simp only [List.mem_append, List.mem_singleton] at hm
    rcases hm with (((hm | hm) | hm) | hm) | hm
    · exact hx WRONG (by decide) (List.mem_append.2 hm)
    · exact absurd hm (by decide)
    · exact hlf hm
    · exact absurd hm (by decide)
    · exact fmt_d_no_LF n hm
  | line_word n k =>
    refine ⟨"line ".data ++ fmt_d n ++ " has ".data ++ fmt_d k ++ " word".data, rfl, ?_⟩
    intro hm
    simp only [List.mem_append] at hm
    rcases hm with (((hm | hm) | hm) | hm) | hm
    · exact absurd hm (by decide)
    · exact fmt_d_no_LF n hm
    · exact absurd hm (by decide)
    · exact fmt_d_no_LF k hm
    · exact absurd hm (by decide)
  | line_words n k =>
    refine ⟨"line ".data ++ fmt_d n ++ " has ".data ++ fmt_d k ++ " words".data, rfl, ?_⟩
    intro hm
    simp only [List.mem_append] at hm
    rcases hm with (((hm | hm) | hm) | hm) | hm
    · exact absurd hm (by decide)
    · exact fmt_d_no_LF n hm
    · exact absurd hm (by decide)
    · exact fmt_d_no_LF k hm
    · exact absurd hm (by decide)
  | total k =>
    refine ⟨"total ".data ++ fmt_d k ++ " words".data, rfl, ?_⟩
    intro hm
    simp only [List.mem_append] at hm
    rcases hm with (hm | hm) | hm
    · exact absurd hm (by decide)
    · exact fmt_d_no_LF k hm
    · exact absurd hm (by decide)

/-- The lines `fgets` delivers from the output file are its records. -/
theorem file_lines_scanner_output (o : List out_line) (hw : ∀ l ∈ o, well_written l)
    (hr : ∀ l ∈ o, readable l = true)
    (hfit : ∀ l ∈ o, (render_line l).length < ParseJava.BUF_SIZE) :
    file_lines (scanner_output o).length (scanner_output o) = o.map render_line := by
  have hl : ∀ x ∈ o.map render_line, ∃ body, x = body ++ [Char.ofNat 10] ∧
      Char.ofNat 10 ∉ body ∧ body.length + 1 < ParseJava.BUF_SIZE := by
    intro x hx
    obtain ⟨l, hlo, rfl⟩ := List.mem_map.1 hx
    obtain ⟨body, hb, hlf⟩ := render_line_shape l (hw l hlo) (hr l hlo)
    refine ⟨body, hb, hlf, ?_⟩
    have := hfit l hlo
    rw [hb, List.length_append] at this
    exact this
  refine file_lines_of_lines _ _ ?_ hl
  have := length_le_flatten (o.map render_line) (fun x hx => by
    obtain ⟨body, hb, _⟩ := hl x hx
    rw [hb]
    simp)
  exact this

/-- The lines of the output file as `get_word` tells them apart. -/
theorem parse_lines_render :
    ∀ (o : List out_line), (∀ l ∈ o, well_written l) → (∀ l ∈ o, readable l = true) →
      parse_lines (o.map render_line) = exec.done (o.map line_read) := by
  intro o
  induction o with
  | nil => intro _ _; rfl
  | cons l o ih =>
    intro hw hr
    have h1 := parse_render_line l (hw l (by simp)) (hr l (by simp))
    have h2 := ih (fun x hx => hw x (by simp [hx])) (fun x hx => hr x (by simp [hx]))
    simp only [List.map_cons, parse_lines, h1, h2, exec.bind]

/-- The words `get_word` delivers from the lines it has read. -/
theorem tokens_line_read : ∀ (o : List out_line), tokens (o.map line_read) = words_to_read o := by
  intro o
  induction o with
  | nil => rfl
  | cons l o ih =>
    cases l with
    | word t w =>
      by_cases hs : t = SPACE
      · simp only [List.map_cons, line_read, words_to_read, tokens, if_pos hs, if_true, ih]
      · simp only [List.map_cons, line_read, words_to_read, tokens, if_neg hs, ih]
    | wrong w n =>
      have hs : ¬ (WRONG = SPACE) := by decide
      simp only [List.map_cons, line_read, words_to_read, tokens, if_neg hs, ih]
    | line_word n k => simp only [List.map_cons, line_read, words_to_read, tokens, ih]
    | line_words n k => simp only [List.map_cons, line_read, words_to_read, tokens, ih]
    | total k => simp only [List.map_cons, line_read, words_to_read, tokens, ih]

/-! ## Claim C19 -/

/-- C19, amended: for every source text that `do_lex` scans, when every word other than a
space is one field (not empty, no blank, tab, carriage return or newline in it) and every
record fits the line buffer of `get_word`, reading the output file back line by line with
`get_word` finds every record, and the words `get_word` delivers are the (type, text)
pairs of the words written, in order, the spaces left out. -/
theorem C19_words_read_back (src : List Char) (o : List out_line)
    (h : do_lex src = exec.done o) (hread : ∀ l ∈ o, readable l = true)
    (hfit : ∀ l ∈ o, (render_line l).length < ParseJava.BUF_SIZE) :
    parse_file (scanner_output o) = exec.done (o.map line_read) ∧
    tokens (o.map line_read) = words_to_read o := by
  have hw := do_lex_well_written src o h
  refine ⟨?_, tokens_line_read o⟩
  rw [parse_file, file_lines_scanner_output o hw hread hfit]
  exact parse_lines_render o hw hread

/-- C19, witness: the source text `@@@ x = 1 ;`. -/
theorem C19_words_read_back_witness :
    do_lex source_wrong_word = exec.done records_wrong_word ∧
    (∀ l ∈ records_wrong_word, readable l = true) ∧
    (∀ l ∈ records_wrong_word, (render_line l).length < ParseJava.BUF_SIZE) ∧
    parse_file (scanner_output records_wrong_word) =
      exec.done (records_wrong_word.map line_read) ∧
    tokens (records_wrong_word.map line_read) = words_to_read records_wrong_word :=
  ⟨by decide, by decide, by decide,
   C19_words_read_back source_wrong_word records_wrong_word (by decide) (by decide)
     (by decide)⟩

/-- C19 as stated fails: for the source text `"a b" c` the scanner writes the string
constant `"a b"`, a space and the identifier `c`; `get_word` delivers the two words `"a`
and `c`, which are neither the words written nor the words written without the space. -/
theorem C19_counterexample :
    do_lex source_blank_string = exec.done records_blank_string ∧
    written_words records_blank_string =
      [(STRING, [DQUOTE, 'a', ' ', 'b', DQUOTE]), (SPACE, [' ']), (IDENTIFIER, ['c'])] ∧
    words_to_read records_blank_string = [⟨STRING, "\"a b\""⟩, ⟨IDENTIFIER, "c"⟩] ∧
    (parse_file (scanner_output records_blank_string)).bind
      (fun lines => exec.done (tokens lines)) =
      exec.done [⟨STRING, "\"a"⟩, ⟨IDENTIFIER, "c"⟩] ∧
    (parse_file (scanner_output records_blank_string)).bind
      (fun lines => exec.done ((tokens lines).map fun w => (w.key, w.value.data))) ≠
      exec.done (written_words records_blank_string) ∧
    (parse_file (scanner_output records_blank_string)).bind
      (fun lines => exec.done (tokens lines)) ≠
      exec.done (words_to_read records_blank_string) := by
  decide

/-! ## The counters of do_lex -/

theorem quiet_refl (s : lex_state) : quiet s s := ⟨rfl, rfl, rfl, rfl⟩

theorem quiet_state_3 (c : Char) (s : lex_state) : quiet s (do_state_3 c s) := by
  unfold do_state_3
  split_ifs <;> exact ⟨rfl, rfl, rfl, rfl⟩

theorem quiet_state_5 (c : Char) (s : lex_state) : quiet s (do_state_5 c s) := by
  unfold do_state_5
  split_ifs <;> exact ⟨rfl, rfl, rfl, rfl⟩

theorem quiet_state_6_16 (c : Char) (s : lex_state) : quiet s (do_state_6_16 c s) := by
  unfold do_state_6_16
  split_ifs <;> exact ⟨rfl, rfl, rfl, rfl⟩

theorem quiet_state_7 (c : Char) (s : lex_state) : quiet s (do_state_7 c s) := by
  unfold do_state_7
  split_ifs <;> exact ⟨rfl, rfl, rfl, rfl⟩

theorem quiet_state_8_9_10_18_19_20 (c : Char) (s : lex_state) : quiet s (do_state_8_9_10_18_19_20 c s) := by
  unfold do_state_8_9_10_18_19_20
  split_ifs <;> exact ⟨rfl, rfl, rfl, rfl⟩

theorem quiet_state_11 (c : Char) (s : lex_state) : quiet s (do_state_11 c s) := by
  unfold do_state_11
  split_ifs <;> exact ⟨rfl, rfl, rfl, rfl⟩

theorem quiet_state_12 (c : Char) (s : lex_state) : quiet s (do_state_12 c s) := by
  unfold do_state_12
  split_ifs <;> exact ⟨rfl, rfl, rfl, rfl⟩

theorem quiet_state_13 (c : Char) (s : lex_state) : quiet s (do_state_13 c s) := by
  unfold do_state_13
  split_ifs <;> exact ⟨rfl, rfl, rfl, rfl⟩

theorem quiet_state_15 (c : Char) (s : lex_state) : quiet s (do_state_15 c s) := by
  unfold do_state_15
  split_ifs <;> exact ⟨rfl, rfl, rfl, rfl⟩

theorem quiet_state_17 (c : Char) (s : lex_state) : quiet s (do_state_17 c s) := by
  unfold do_state_17
  split_ifs <;> exact ⟨rfl, rfl, rfl, rfl⟩

theorem quiet_state_21 (c : Char) (s : lex_state) : quiet s (do_state_21 c s) := by
  unfold do_state_21
  split_ifs <;> exact ⟨rfl, rfl, rfl, rfl⟩

theorem quiet_state_26 (c : Char) (s : lex_state) : quiet s (do_state_26 c s) := by
  unfold do_state_26
  split_ifs <;> exact ⟨rfl, rfl, rfl, rfl⟩

theorem quiet_state_27 (c : Char) (s : lex_state) : quiet s (do_state_27 c s) := by
  unfold do_state_27
  split_ifs <;> exact ⟨rfl, rfl, rfl, rfl⟩

theorem quiet_state_30 (c : Char) (s : lex_state) : quiet s (do_state_30 c s) := by
  unfold do_state_30
  split_ifs <;> exact ⟨rfl, rfl, rfl, rfl⟩

theorem quiet_state_34 (c : Char) (s : lex_state) : quiet s (do_state_34 c s) := by
  unfold do_state_34
  split_ifs <;> exact ⟨rfl, rfl, rfl, rfl⟩

theorem quiet_state_m1 (c : Char) (s : lex_state) : quiet s (do_state_m1 c s).1 := by
  unfold do_state_m1
  split_ifs <;> exact ⟨rfl, rfl, rfl, rfl⟩

theorem quiet_state_1 (c : Char) (s : lex_state) : quiet s (do_state_1 c s).1 := by
  unfold do_state_1
  split_ifs <;> exact ⟨rfl, rfl, rfl, rfl⟩

theorem quiet_state_22 (c : Char) (s : lex_state) : quiet s (do_state_22 c s).1 := by
  unfold do_state_22
  split_ifs <;> exact ⟨rfl, rfl, rfl, rfl⟩

theorem quiet_state_23 (c : Char) (s : lex_state) : quiet s (do_state_23 c s).1 := by
  unfold do_state_23
  split_ifs <;> exact ⟨rfl, rfl, rfl, rfl⟩

theorem quiet_state_24 (c : Char) (s : lex_state) : quiet s (do_state_24 c s).1 := by
  unfold do_state_24
  split_ifs <;> exact ⟨rfl, rfl, rfl, rfl⟩

theorem quiet_state_28 (c : Char) (s : lex_state) : quiet s (do_state_28 c s).1 := by
  unfold do_state_28
  split_ifs <;> exact ⟨rfl, rfl, rfl, rfl⟩

theorem quiet_state_29 (c : Char) (s : lex_state) : quiet s (do_state_29 c s).1 := by
  unfold do_state_29
  split_ifs <;> exact ⟨rfl, rfl, rfl, rfl⟩

theorem quiet_state_31 (c : Char) (s : lex_state) : quiet s (do_state_31 c s).1 := by
  unfold do_state_31
  split_ifs <;> exact ⟨rfl, rfl, rfl, rfl⟩

theorem quiet_state_33 (c : Char) (s : lex_state) : quiet s (do_state_33 c s).1 := by
  unfold do_state_33
  split_ifs <;> exact ⟨rfl, rfl, rfl, rfl⟩

theorem quiet_state_39 (c : Char) (s : lex_state) : quiet s (do_state_39 c s).1 := by
  unfold do_state_39
  split_ifs <;> exact ⟨rfl, rfl, rfl, rfl⟩

theorem quiet_state_42 (c : Char) (s : lex_state) : quiet s (do_state_42 c s).1 := by
  unfold do_state_42
  split_ifs <;> exact ⟨rfl, rfl, rfl, rfl⟩

theorem quiet_state_45_49_57_60_64_70_72 (c : Char) (s : lex_state) : quiet s (do_state_45_49_57_60_64_70_72 c s).1 := by
  unfold do_state_45_49_57_60_64_70_72
  split_ifs <;> exact ⟨rfl, rfl, rfl, rfl⟩

theorem quiet_state_51 (c : Char) (s : lex_state) : quiet s (do_state_51 c s).1 := by
  unfold do_state_51
  split_ifs <;> exact ⟨rfl, rfl, rfl, rfl⟩

theorem quiet_state_54 (c : Char) (s : lex_state) : quiet s (do_state_54 c s).1 := by
  unfold do_state_54
  split_ifs <;> exact ⟨rfl, rfl, rfl, rfl⟩

theorem quiet_state_62 (c : Char) (s : lex_state) : quiet s (do_state_62 c s).1 := by
  unfold do_state_62
  split_ifs <;> exact ⟨rfl, rfl, rfl, rfl⟩

theorem quiet_state_66_68 (c : Char) (s : lex_state) : quiet s (do_state_66_68 c s).1 := by
  unfold do_state_66_68
  split_ifs <;> exact ⟨rfl, rfl, rfl, rfl⟩

theorem quiet_state_47 (c : Char) (s : lex_state) : quiet s (do_state_47 c s).1 := by
  unfold do_state_47
  split_ifs <;> exact ⟨rfl, rfl, rfl, rfl⟩

theorem quiet_state_74 (c : Char) (s : lex_state) : quiet s (do_state_74 c s).1 := by
  unfold do_state_74
  split_ifs <;> exact ⟨rfl, rfl, rfl, rfl⟩

theorem quiet_state_75 (c : Char) (s : lex_state) : quiet s (do_state_75 c s).1 := by
  unfold do_state_75
  split_ifs <;> exact ⟨rfl, rfl, rfl, rfl⟩

theorem quiet_state_77 (c : Char) (s : lex_state) : quiet s (do_state_77 c s).1 := by
  unfold do_state_77
  split_ifs <;> exact ⟨rfl, rfl, rfl, rfl⟩

theorem quiet_ite (s : lex_state) (p : Prop) [Decidable p] (a b : lex_state × Bool)
    (ha : quiet s a.1) (hb : quiet s b.1) : quiet s (if p then a else b).1 := by
  split_ifs
  · exact ha
  · exact hb

theorem quiet_state_0 (c : Char) (s : lex_state) : quiet s (do_state_0 c s).1 := by
  unfold do_state_0
  repeat (first
    | exact ⟨rfl, rfl, rfl, rfl⟩
    | apply quiet_ite)


theorem do_update_line_count_record (s : lex_state) :
    do_update_line_count s =
      { s with lines := s.lines + 1,
               out := s.out ++ [line_record (s.lines + 1) s.words_in_line],
               words_in_line := 0 } := rfl

theorem effect_quiet (s s' : lex_state) (h : quiet s s') : step_effect s s' := Or.inl h

theorem effect_accept (type : Int) (s t : lex_state) (h : quiet s t) :
    step_effect s (accept type t) := by
  obtain ⟨h1, h2, h3, h4⟩ := h
  refine Or.inr (Or.inl ⟨out_line.word type (cstr t.word), rfl, ?_, ?_, ?_, ?_⟩)
  · show t.out ++ _ = _
    rw [h1]
  · show t.words + 1 = _
    rw [h2]
  · show t.words_in_line + 1 = _
    rw [h3]
  · exact h4

theorem effect_accept_if (type : Int) (s : lex_state) (r : lex_state × Bool)
    (h : quiet s r.1) : step_effect s (accept_if type r).1 := by
  unfold accept_if
  split_ifs
  · exact effect_accept type s r.1 h
  · exact Or.inl h

theorem effect_count_line_if (s : lex_state) (r : lex_state × Bool) (h : quiet s r.1) :
    step_effect s (count_line_if r).1 := by
  obtain ⟨h1, h2, h3, h4⟩ := h
  unfold count_line_if
  split_ifs
  · refine Or.inr (Or.inr (Or.inl ⟨?_, ?_, rfl, ?_⟩))
    · show r.1.out ++ [line_record (r.1.lines + 1) r.1.words_in_line] = _
      rw [h1, h3, h4]
    · exact h2
    · show r.1.lines + 1 = _
      rw [h4]
  · exact Or.inl ⟨h1, h2, h3, h4⟩

theorem effect_clear (s : lex_state) : step_effect s (do_clear s) :=
  Or.inl ⟨rfl, rfl, rfl, rfl⟩

theorem effect_wrong_word (s : lex_state) :
    step_effect s
      (do_clear (do_update_word_count (do_output_wrong_word (cstr s.word) (s.lines + 1) s))) :=
  Or.inr (Or.inl ⟨out_line.wrong (cstr s.word) (s.lines + 1), rfl, rfl, rfl, rfl, rfl⟩)

theorem effect_newline (s : lex_state) :
    step_effect s
      (do_clear (do_update_line_count
        (do_update_word_count (do_output_word (cstr s.word) SPACE s)))) := by
  refine Or.inr (Or.inr (Or.inr ⟨out_line.word SPACE (cstr s.word), rfl, ?_, rfl, rfl, rfl⟩))
  show (s.out ++ [out_line.word SPACE (cstr s.word)]) ++
      [line_record (s.lines + 1) (s.words_in_line + 1)] = _
  simp

theorem effect_state_81_step (c : Char) (s : lex_state) (hst : s.state = 81)
    (r : lex_state × Bool) (hs : do_lex_step c s = some r) : step_effect s r.1 := by
  rw [step_state_81 c s hst] at hs
  split_ifs at hs <;> cases hs
  · exact Or.inr (Or.inl ⟨out_line.word CONDITION "?:".data, rfl, rfl, rfl, rfl, rfl⟩)
  · exact effect_accept COLON s s (quiet_refl s)

theorem effect_state_0_step (c : Char) (s : lex_state) (hst : s.state = 0)
    (r : lex_state × Bool) (hs : do_lex_step c s = some r) : step_effect s r.1 := by
  obtain ⟨h1, h2, h3, h4⟩ := quiet_state_0 c s
  rw [step_state_0 c s hst] at hs
  simp only at hs
  split_ifs at hs <;> cases hs
  · exact Or.inl ⟨h1, h2, h3, h4⟩
  · exact Or.inl ⟨h1, h2, h3, h4⟩
  · exact Or.inl ⟨h1, h2, h3, h4⟩

set_option maxHeartbeats 8000000 in
/-- What a round of the loop does to the output file and the counters. -/
theorem step_has_effect (c : Char) (s : lex_state) (r : lex_state × Bool)
    (hs : do_lex_step c s = some r) : step_effect s r.1 := by
  by_cases h0 : s.state = 0
  · exact effect_state_0_step c s h0 r hs
  by_cases h81 : s.state = 81
  · exact effect_state_81_step c s h81 r hs
  unfold do_lex_step at hs
  split at hs
  · rename_i heq; cases hs; exact Or.inl (quiet_state_m1 c s)
  · rename_i heq; cases hs; exact effect_wrong_word s
  · rename_i heq; exact absurd heq h0
  · rename_i heq; cases hs; exact Or.inl (quiet_state_1 c s)
  · rename_i heq; cases hs; exact effect_accept _ s s (quiet_refl s)
  · rename_i heq; cases hs; exact Or.inl (quiet_state_3 c s)
  · rename_i heq; cases hs; exact effect_accept _ s s (quiet_refl s)
  · rename_i heq; cases hs; exact Or.inl (quiet_state_5 c s)
  · rename_i heq; cases hs; exact Or.inl (quiet_state_6_16 c s)
  · rename_i heq; cases hs; exact Or.inl (quiet_state_6_16 c s)
  · rename_i heq; cases hs; exact Or.inl (quiet_state_7 c s)
  · rename_i heq; cases hs; exact Or.inl (quiet_state_8_9_10_18_19_20 c s)
  · rename_i heq; cases hs; exact Or.inl (quiet_state_8_9_10_18_19_20 c s)
  · rename_i heq; cases hs; exact Or.inl (quiet_state_8_9_10_18_19_20 c s)
  · rename_i heq; cases hs; exact Or.inl (quiet_state_8_9_10_18_19_20 c s)
  · rename_i heq; cases hs; exact Or.inl (quiet_state_8_9_10_18_19_20 c s)
  · rename_i heq; cases hs; exact Or.inl (quiet_state_8_9_10_18_19_20 c s)
  · rename_i heq; cases hs; exact Or.inl (quiet_state_11 c s)
  · rename_i heq; cases hs; exact Or.inl (quiet_state_12 c s)
  · rename_i heq; cases hs; exact Or.inl (quiet_state_13 c s)
  · rename_i heq; cases hs; exact effect_accept _ s s (quiet_refl s)
  · rename_i heq; cases hs; exact Or.inl (quiet_state_15 c s)
  · rename_i heq; cases hs; exact Or.inl (quiet_state_17 c s)
  · rename_i heq; cases hs; exact Or.inl (quiet_state_21 c s)
  · rename_i heq; cases hs; exact effect_accept_if _ s _ (quiet_state_22 c s)
  · rename_i heq; cases hs; exact effect_accept_if _ s _ (quiet_state_23 c s)
  · rename_i heq; cases hs; exact effect_accept_if _ s _ (quiet_state_24 c s)
  · rename_i heq; cases hs; exact effect_accept _ s s (quiet_refl s)
  · rename_i heq; cases hs; exact Or.inl (quiet_state_26 c s)
  · rename_i heq; cases hs; exact Or.inl (quiet_state_27 c s)
  · rename_i heq; cases hs; exact effect_accept_if _ s _ (quiet_state_28 c s)
  · rename_i heq; cases hs; exact effect_accept_if _ s _ (quiet_state_29 c s)
  · rename_i heq; cases hs; exact Or.inl (quiet_state_30 c s)
  · rename_i heq; cases hs; exact effect_accept_if _ s _ (quiet_state_31 c s)
  · rename_i heq; cases hs; exact effect_accept _ s s (quiet_refl s)
  · rename_i heq; cases hs; exact effect_accept_if _ s _ (quiet_state_33 c s)
  · rename_i heq; cases hs; exact Or.inl (quiet_state_34 c s)
  · rename_i heq; cases hs; exact effect_accept _ s s (quiet_refl s)
  · rename_i heq; cases hs; exact effect_accept _ s s (quiet_refl s)
  · rename_i heq; cases hs; exact effect_accept _ s s (quiet_refl s)
  · rename_i heq; cases hs; exact effect_accept _ s s (quiet_refl s)
  · rename_i heq; cases hs; exact effect_accept_if _ s _ (quiet_state_39 c s)
  · rename_i heq; cases hs; exact effect_accept _ s s (quiet_refl s)
  · rename_i heq; cases hs; exact effect_accept _ s s (quiet_refl s)
  · rename_i heq; cases hs; exact effect_accept _ s s (quiet_refl s)
  · rename_i heq; cases hs; exact effect_accept _ s s (quiet_refl s)
  · rename_i heq; cases hs; exact effect_accept _ s s (quiet_refl s)
  · rename_i heq; cases hs; exact effect_accept _ s s (quiet_refl s)
  · rename_i heq; cases hs; exact effect_accept _ s s (quiet_refl s)
  · rename_i heq; cases hs; exact effect_accept _ s s (quiet_refl s)
  · rename_i heq; cases hs; exact effect_accept _ s s (quiet_refl s)
  · rename_i heq; cases hs; exact effect_accept _ s s (quiet_refl s)
  · rename_i heq; cases hs; exact effect_accept _ s s (quiet_refl s)
  · rename_i heq; cases hs; exact effect_accept _ s s (quiet_refl s)
  · rename_i heq; cases hs; exact effect_accept _ s s (quiet_refl s)
  · rename_i heq; cases hs; exact effect_accept _ s s (quiet_refl s)
  · rename_i heq; cases hs; exact effect_accept_if _ s _ (quiet_state_42 c s)
  · rename_i heq; cases hs; exact effect_accept_if _ s _ (quiet_state_45_49_57_60_64_70_72 c s)
  · rename_i heq; cases hs; exact effect_accept_if _ s _ (quiet_state_45_49_57_60_64_70_72 c s)
  · rename_i heq; cases hs; exact effect_accept_if _ s _ (quiet_state_47 c s)
  · rename_i heq; cases hs; exact effect_accept_if _ s _ (quiet_state_51 c s)
  · rename_i heq; cases hs; exact effect_accept _ s s (quiet_refl s)
  · rename_i heq; cases hs; exact effect_accept_if _ s _ (quiet_state_54 c s)
  · rename_i heq; cases hs; exact effect_accept _ s s (quiet_refl s)
  · rename_i heq; cases hs; exact effect_accept_if _ s _ (quiet_state_45_49_57_60_64_70_72 c s)
  · rename_i heq; cases hs; exact effect_accept_if _ s _ (quiet_state_45_49_57_60_64_70_72 c s)
  · rename_i heq; cases hs; exact effect_accept _ s s (quiet_refl s)
  · rename_i heq; cases hs; exact effect_accept _ s s (quiet_refl s)
  · rename_i heq; cases hs; exact effect_accept_if _ s _ (quiet_state_62 c s)
  · rename_i heq; cases hs; exact effect_accept _ s s (quiet_refl s)
  · rename_i heq; cases hs; exact effect_accept _ s s (quiet_refl s)
  · rename_i heq; cases hs; exact effect_accept_if _ s _ (quiet_state_45_49_57_60_64_70_72 c s)
  · rename_i heq; cases hs; exact effect_accept_if _ s _ (quiet_state_45_49_57_60_64_70_72 c s)
  · rename_i heq; cases hs; exact effect_accept_if _ s _ (quiet_state_66_68 c s)
  · rename_i heq; cases hs; exact effect_accept_if _ s _ (quiet_state_66_68 c s)
  · rename_i heq; cases hs; exact effect_accept_if _ s _ (quiet_state_45_49_57_60_64_70_72 c s)
  · rename_i heq; cases hs; exact effect_count_line_if s _ (quiet_state_74 c s)
  · rename_i heq; cases hs; exact effect_count_line_if s _ (quiet_state_75 c s)
  · rename_i heq; cases hs; exact effect_clear s
  · rename_i heq; cases hs; exact effect_count_line_if s _ (quiet_state_77 c s)
  · rename_i heq; cases hs; exact effect_clear s
  · rename_i heq; cases hs; exact effect_accept _ s s (quiet_refl s)
  · rename_i heq; cases hs; exact effect_newline s
  · rename_i heq; exact absurd heq h81
  · cases hs

theorem line_record_facts (n k : Nat) :
    is_token (line_record n k) = false ∧ is_counter (line_record n k) = true ∧
    counter_words (line_record n k) = k ∧ counter_form (line_record n k) = true ∧
    ∀ j, line_record n k ≠ out_line.total j := by
  unfold line_record
  split_ifs with h
  · exact ⟨rfl, rfl, rfl, by simp [counter_form, h], fun j hj => by cases hj⟩
  · exact ⟨rfl, rfl, rfl, by simp only [counter_form, decide_eq_true_eq]; omega,
      fun j hj => by cases hj⟩

theorem token_facts (l : out_line) (h : is_token l = true) :
    is_counter l = false ∧ counter_words l = 0 ∧ counter_form l = true ∧
    ∀ j, l ≠ out_line.total j := by
  cases l <;> simp [is_token] at h <;>
    exact ⟨rfl, rfl, rfl, fun j hj => by cases hj⟩

theorem count_words_append (a b : List out_line) :
    count_words (a ++ b) = count_words a + count_words b := by
  simp [count_words]

theorem line_sum_append (a b : List out_line) :
    line_sum (a ++ b) = line_sum a + line_sum b := by
  simp [line_sum]

theorem words_after_line_token (o : List out_line) (l : out_line) (h : is_token l = true) :
    words_after_line (o ++ [l]) = words_after_line o + 1 := by
  have hc := (token_facts l h).1
  simp only [words_after_line, List.reverse_append, List.reverse_singleton,
    List.singleton_append, List.takeWhile_cons, hc, Bool.not_false, if_true, count_words,
    List.filter_cons, h, List.length_cons]

theorem words_after_line_counter (o : List out_line) (l : out_line)
    (h : is_counter l = true) : words_after_line (o ++ [l]) = 0 := by
  simp [words_after_line, h, count_words]

/-- A round of the loop keeps the counters `counted`. -/
theorem effect_counted (s s' : lex_state) (hi : counted s) (he : step_effect s s') :
    counted s' := by
  obtain ⟨i1, i2, i3, i4, i5⟩ := hi
  rcases he with ⟨e1, e2, e3, e4⟩ | ⟨l, hl, e1, e2, e3, e4⟩ | ⟨e1, e2, e3, e4⟩ |
    ⟨l, hl, e1, e2, e3, e4⟩
  · exact ⟨by rw [e2, e1, i1], by rw [e3, e1, i2], by rw [e2, e1, e3]; exact i3,
      by rw [e1]; exact i4, by rw [e1]; exact i5⟩
  · obtain ⟨t1, t2, t3, t4⟩ := token_facts l hl
    refine ⟨?_, ?_, ?_, ?_, ?_⟩
    · rw [e2, e1, count_words_append, i1]
      simp [count_words, hl]
    · rw [e3, e1, words_after_line_token _ _ hl, i2]
    · rw [e2, e1, e3, line_sum_append, i3]
      simp [line_sum, t2]
      omega
    · rw [e1]
      intro x hx
      rcases List.mem_append.1 hx with hx | hx
      · exact i4 x hx
      · rw [List.mem_singleton.1 hx]; exact t3
    · rw [e1]
      intro x hx
      rcases List.mem_append.1 hx with hx | hx
      · exact i5 x hx
      · rw [List.mem_singleton.1 hx]; exact t4
  · obtain ⟨r1, r2, r3, r4, r5⟩ := line_record_facts (s.lines + 1) s.words_in_line
    refine ⟨?_, ?_, ?_, ?_, ?_⟩
    · rw [e2, e1, count_words_append, i1]
      simp [count_words, r1]
    · rw [e3, e1, words_after_line_counter _ _ r2]
    · rw [e2, e1, e3, line_sum_append, i3]
      simp [line_sum, r3]
    · rw [e1]
      intro x hx
      rcases List.mem_append.1 hx with hx | hx
      · exact i4 x hx
      · rw [List.mem_singleton.1 hx]; exact r4
    · rw [e1]
      intro x hx
      rcases List.mem_append.1 hx with hx | hx
      · exact i5 x hx
      · rw [List.mem_singleton.1 hx]; exact r5
  · obtain ⟨t1, t2, t3, t4⟩ := token_facts l hl
    obtain ⟨r1, r2, r3, r4, r5⟩ := line_record_facts (s.lines + 1) (s.words_in_line + 1)
    have hsplit : s.out ++ [l, line_record (s.lines + 1) (s.words_in_line + 1)] =
        (s.out ++ [l]) ++ [line_record (s.lines + 1) (s.words_in_line + 1)] := by simp
    refine ⟨?_, ?_, ?_, ?_, ?_⟩
    · rw [e2, e1, count_words_append, i1]
      simp [count_words, hl, r1]
    · rw [e3, e1, hsplit, words_after_line_counter _ _ r2]
    · rw [e2, e1, e3, line_sum_append, i3]
      simp [line_sum, t2, r3]
      omega
    · rw [e1]
      intro x hx
      simp only [List.mem_append, List.mem_cons, List.mem_singleton, List.not_mem_nil,
        or_false] at hx
      rcases hx with hx | rfl | rfl
      · exact i4 x hx
      · exact t3
      · exact r4
    · rw [e1]
      intro x hx
      simp only [List.mem_append, List.mem_cons, List.mem_singleton, List.not_mem_nil,
        or_false] at hx
      rcases hx with hx | rfl | rfl
      · exact i5 x hx
      · exact t4
      · exact r5

/-- The loop of `do_lex` keeps the counters `counted`. -/
theorem loop_counted :
    ∀ (fuel : Nat) (cs : List Char) (s : lex_state) (r : lex_state × Bool),
      counted s → do_lex_loop fuel cs s = exec.done r → counted r.1 := by
  intro fuel
  induction fuel with
  | zero =>
    intro cs s r hi hr
    cases cs with
    | nil =>
      rw [do_lex_loop_nil] at hr
      cases hr
      exact hi
    | cons c cs => simp [do_lex_loop] at hr
  | succ fuel ih =>
    intro cs s r hi hr
    cases cs with
    | nil =>
      rw [do_lex_loop_nil] at hr
      cases hr
      exact hi
    | cons c cs =>
      cases hstep : do_lex_step c s with
      | none =>
        simp only [do_lex_loop, hstep, exec.done.injEq] at hr
        subst hr
        exact hi
      | some t =>
        simp only [do_lex_loop, hstep] at hr
        exact ih _ _ r (effect_counted s t.1 hi (step_has_effect c s t hstep)) hr

theorem counted_init : counted lex_init :=
  ⟨rfl, rfl, rfl, fun l hl => (by simp [lex_init] at hl),
   fun l hl => (by simp [lex_init] at hl)⟩

set_option maxHeartbeats 4000000 in
/-- The switch of `do_lex` handles every state from -2 to 81. -/
theorem step_of_legal (c : Char) (s : lex_state) (h : legal_state s.state = true) :
    ∃ r, do_lex_step c s = some r := by
  simp only [legal_state, decide_eq_true_eq] at h
  by_cases h0 : s.state = 0
  · rw [step_state_0 c s h0]
    simp only
    split_ifs <;> exact ⟨_, rfl⟩
  by_cases h81 : s.state = 81
  · rw [step_state_81 c s h81]
    split_ifs <;> exact ⟨_, rfl⟩
  unfold do_lex_step
  split
  all_goals first
    | exact ⟨_, rfl⟩
    | (rename_i heq; exact absurd heq h0)
    | (rename_i heq; exact absurd heq h81)
    | (exfalso; simp only [imp_false] at *; omega)

/-- The loop of `do_lex` started in a state that the switch handles reaches the end of the
characters: the default case of the switch is never taken. -/
theorem loop_reaches_end :
    ∀ (fuel : Nat) (cs : List Char) (s : lex_state) (r : lex_state × Bool),
      scanning s → do_lex_loop fuel cs s = exec.done r → r.2 = true := by
  intro fuel
  induction fuel with
  | zero =>
    intro cs s r hi hr
    cases cs with
    | nil =>
      rw [do_lex_loop_nil] at hr
      cases hr
      rfl
    | cons c cs => simp [do_lex_loop] at hr
  | succ fuel ih =>
    intro cs s r hi hr
    cases cs with
    | nil =>
      rw [do_lex_loop_nil] at hr
      cases hr
      rfl
    | cons c cs =>
      obtain ⟨t, hstep⟩ := step_of_legal c s hi.1
      simp only [do_lex_loop, hstep] at hr
      exact ih _ _ r (step_scanning c s hi t hstep) hr


/-! ## The word buffer along the loop -/

theorem grows_refl (s : lex_state) : grows 1 s s :=
  ⟨Nat.le_succ _, fun _ => rfl, fun h => h⟩

theorem grows_state_3 (c : Char) (s : lex_state) : grows 1 s (do_state_3 c s) := by
  unfold do_state_3 grows
  split_ifs <;> refine ⟨?_, ?_, ?_⟩ <;> simp [push, store, goto, do_clear, BUF_SIZE] <;>
    first | omega | (intros; omega) | (intro h; simp [h])

theorem grows_state_5 (c : Char) (s : lex_state) : grows 1 s (do_state_5 c s) := by
  unfold do_state_5 grows
  split_ifs <;> refine ⟨?_, ?_, ?_⟩ <;> simp [push, store, goto, do_clear, BUF_SIZE] <;>
    first | omega | (intros; omega) | (intro h; simp [h])

theorem grows_state_6_16 (c : Char) (s : lex_state) : grows 1 s (do_state_6_16 c s) := by
  unfold do_state_6_16 grows
  split_ifs <;> refine ⟨?_, ?_, ?_⟩ <;> simp [push, store, goto, do_clear, BUF_SIZE] <;>
    first | omega | (intros; omega) | (intro h; simp [h])

theorem grows_state_7 (c : Char) (s : lex_state) : grows 1 s (do_state_7 c s) := by
  unfold do_state_7 grows
  split_ifs <;> refine ⟨?_, ?_, ?_⟩ <;> simp [push, store, goto, do_clear, BUF_SIZE] <;>
    first | omega | (intros; omega) | (intro h; simp [h])

theorem grows_state_8_9_10_18_19_20 (c : Char) (s : lex_state) : grows 1 s (do_state_8_9_10_18_19_20 c s) := by
  unfold do_state_8_9_10_18_19_20 grows
  split_ifs <;> refine ⟨?_, ?_, ?_⟩ <;> simp [push, store, goto, do_clear, BUF_SIZE] <;>
    first | omega | (intros; omega) | (intro h; simp [h])

theorem grows_state_11 (c : Char) (s : lex_state) : grows 1 s (do_state_11 c s) := by
  unfold do_state_11 grows
  split_ifs <;> refine ⟨?_, ?_, ?_⟩ <;> simp [push, store, goto, do_clear, BUF_SIZE] <;>
    first | omega | (intros; omega) | (intro h; simp [h])

theorem grows_state_12 (c : Char) (s : lex_state) : grows 1 s (do_state_12 c s) := by
  unfold do_state_12 grows
  split_ifs <;> refine ⟨?_, ?_, ?_⟩ <;> simp [push, store, goto, do_clear, BUF_SIZE] <;>
    first | omega | (intros; omega) | (intro h; simp [h])

theorem grows_state_13 (c : Char) (s : lex_state) : grows 1 s (do_state_13 c s) := by
  unfold do_state_13 grows
  split_ifs <;> refine ⟨?_, ?_, ?_⟩ <;> simp [push, store, goto, do_clear, BUF_SIZE] <;>
    first | omega | (intros; omega) | (intro h; simp [h])

theorem grows_state_15 (c : Char) (s : lex_state) : grows 1 s (do_state_15 c s) := by
  unfold do_state_15 grows
  split_ifs <;> refine ⟨?_, ?_, ?_⟩ <;> simp [push, store, goto, do_clear, BUF_SIZE] <;>
    first | omega | (intros; omega) | (intro h; simp [h])

theorem grows_state_17 (c : Char) (s : lex_state) : grows 1 s (do_state_17 c s) := by
  unfold do_state_17 grows
  split_ifs <;> refine ⟨?_, ?_, ?_⟩ <;> simp [push, store, goto, do_clear, BUF_SIZE] <;>
    first | omega | (intros; omega) | (intro h; simp [h])

theorem grows_state_21 (c : Char) (s : lex_state) : grows 1 s (do_state_21 c s) := by
  unfold do_state_21 grows
  split_ifs <;> refine ⟨?_, ?_, ?_⟩ <;> simp [push, store, goto, do_clear, BUF_SIZE] <;>
    first | omega | (intros; omega) | (intro h; simp [h])

theorem grows_state_26 (c : Char) (s : lex_state) : grows 1 s (do_state_26 c s) := by
  unfold do_state_26 grows
  split_ifs <;> refine ⟨?_, ?_, ?_⟩ <;> simp [push, store, goto, do_clear, BUF_SIZE] <;>
    first | omega | (intros; omega) | (intro h; simp [h])

theorem grows_state_27 (c : Char) (s : lex_state) : grows 1 s (do_state_27 c s) := by
  unfold do_state_27 grows
  split_ifs <;> refine ⟨?_, ?_, ?_⟩ <;> simp [push, store, goto, do_clear, BUF_SIZE] <;>
    first | omega | (intros; omega) | (intro h; simp [h])

theorem grows_state_30 (c : Char) (s : lex_state) : grows 1 s (do_state_30 c s) := by
  unfold do_state_30 grows
  split_ifs <;> refine ⟨?_, ?_, ?_⟩ <;> simp [push, store, goto, do_clear, BUF_SIZE] <;>
    first | omega | (intros; omega) | (intro h; simp [h])

theorem grows_state_34 (c : Char) (s : lex_state) : grows 1 s (do_state_34 c s) := by
  unfold do_state_34 grows
  split_ifs <;> refine ⟨?_, ?_, ?_⟩ <;> simp [push, store, goto, do_clear, BUF_SIZE] <;>
    first | omega | (intros; omega) | (intro h; simp [h])

theorem grows_state_m1 (c : Char) (s : lex_state) : grows 1 s (do_state_m1 c s).1 := by
  unfold do_state_m1 grows
  split_ifs <;> refine ⟨?_, ?_, ?_⟩ <;> simp [push, store, goto, do_clear, BUF_SIZE] <;>
    first | omega | (intros; omega) | (intro h; simp [h])

theorem grows_state_1 (c : Char) (s : lex_state) : grows 1 s (do_state_1 c s).1 := by
  unfold do_state_1 grows
  split_ifs <;> refine ⟨?_, ?_, ?_⟩ <;> simp [push, store, goto, do_clear, BUF_SIZE] <;>
    first | omega | (intros; omega) | (intro h; simp [h])

theorem grows_state_22 (c : Char) (s : lex_state) : grows 1 s (do_state_22 c s).1 := by
  unfold do_state_22 grows
  split_ifs <;> refine ⟨?_, ?_, ?_⟩ <;> simp [push, store, goto, do_clear, BUF_SIZE] <;>
    first | omega | (intros; omega) | (intro h; simp [h])

theorem grows_state_23 (c : Char) (s : lex_state) : grows 1 s (do_state_23 c s).1 := by
  unfold do_state_23 grows
  split_ifs <;> refine ⟨?_, ?_, ?_⟩ <;> simp [push, store, goto, do_clear, BUF_SIZE] <;>
    first | omega | (intros; omega) | (intro h; simp [h])

theorem grows_state_24 (c : Char) (s : lex_state) : grows 1 s (do_state_24 c s).1 := by
  unfold do_state_24 grows
  split_ifs <;> refine ⟨?_, ?_, ?_⟩ <;> simp [push, store, goto, do_clear, BUF_SIZE] <;>
    first | omega | (intros; omega) | (intro h; simp [h])

theorem grows_state_28 (c : Char) (s : lex_state) : grows 1 s (do_state_28 c s).1 := by
  unfold do_state_28 grows
  split_ifs <;> refine ⟨?_, ?_, ?_⟩ <;> simp [push, store, goto, do_clear, BUF_SIZE] <;>
    first | omega | (intros; omega) | (intro h; simp [h])

theorem grows_state_29 (c : Char) (s : lex_state) : grows 1 s (do_state_29 c s).1 := by
  unfold do_state_29 grows
  split_ifs <;> refine ⟨?_, ?_, ?_⟩ <;> simp [push, store, goto, do_clear, BUF_SIZE] <;>
    first | omega | (intros; omega) | (intro h; simp [h])

theorem grows_state_31 (c : Char) (s : lex_state) : grows 1 s (do_state_31 c s).1 := by
  unfold do_state_31 grows
  split_ifs <;> refine ⟨?_, ?_, ?_⟩ <;> simp [push, store, goto, do_clear, BUF_SIZE] <;>
    first | omega | (intros; omega) | (intro h; simp [h])

theorem grows_state_33 (c : Char) (s : lex_state) : grows 1 s (do_state_33 c s).1 := by
  unfold do_state_33 grows
  split_ifs <;> refine ⟨?_, ?_, ?_⟩ <;> simp [push, store, goto, do_clear, BUF_SIZE] <;>
    first | omega | (intros; omega) | (intro h; simp [h])

theorem grows_state_39 (c : Char) (s : lex_state) : grows 1 s (do_state_39 c s).1 := by
  unfold do_state_39 grows
  split_ifs <;> refine ⟨?_, ?_, ?_⟩ <;> simp [push, store, goto, do_clear, BUF_SIZE] <;>
    first | omega | (intros; omega) | (intro h; simp [h])

theorem grows_state_42 (c : Char) (s : lex_state) : grows 1 s (do_state_42 c s).1 := by
  unfold do_state_42 grows
  split_ifs <;> refine ⟨?_, ?_, ?_⟩ <;> simp [push, store, goto, do_clear, BUF_SIZE] <;>
    first | omega | (intros; omega) | (intro h; simp [h])

theorem grows_state_45_49_57_60_64_70_72 (c : Char) (s : lex_state) : grows 1 s (do_state_45_49_57_60_64_70_72 c s).1 := by
  unfold do_state_45_49_57_60_64_70_72 grows
  split_ifs <;> refine ⟨?_, ?_, ?_⟩ <;> simp [push, store, goto, do_clear, BUF_SIZE] <;>
    first | omega | (intros; omega) | (intro h; simp [h])

theorem grows_state_51 (c : Char) (s : lex_state) : grows 1 s (do_state_51 c s).1 := by
  unfold do_state_51 grows
  split_ifs <;> refine ⟨?_, ?_, ?_⟩ <;> simp [push, store, goto, do_clear, BUF_SIZE] <;>
    first | omega | (intros; omega) | (intro h; simp [h])

theorem grows_state_54 (c : Char) (s : lex_state) : grows 1 s (do_state_54 c s).1 := by
  unfold do_state_54 grows
  split_ifs <;> refine ⟨?_, ?_, ?_⟩ <;> simp [push, store, goto, do_clear, BUF_SIZE] <;>
    first | omega | (intros; omega) | (intro h; simp [h])

theorem grows_state_62 (c : Char) (s : lex_state) : grows 1 s (do_state_62 c s).1 := by
  unfold do_state_62 grows
  split_ifs <;> refine ⟨?_, ?_, ?_⟩ <;> simp [push, store, goto, do_clear, BUF_SIZE] <;>
    first | omega | (intros; omega) | (intro h; simp [h])

theorem grows_state_66_68 (c : Char) (s : lex_state) : grows 1 s (do_state_66_68 c s).1 := by
  unfold do_state_66_68 grows
  split_ifs <;> refine ⟨?_, ?_, ?_⟩ <;> simp [push, store, goto, do_clear, BUF_SIZE] <;>
    first | omega | (intros; omega) | (intro h; simp [h])

theorem grows_state_47 (c : Char) (s : lex_state) : grows 1 s (do_state_47 c s).1 := by
  unfold do_state_47 grows
  split_ifs <;> refine ⟨?_, ?_, ?_⟩ <;> simp [push, store, goto, do_clear, BUF_SIZE] <;>
    first | omega | (intros; omega) | (intro h; simp [h])

theorem grows_state_74 (c : Char) (s : lex_state) : grows 1 s (do_state_74 c s).1 := by
  unfold do_state_74 grows
  split_ifs <;> refine ⟨?_, ?_, ?_⟩ <;> simp [push, store, goto, do_clear, BUF_SIZE]

theorem grows_state_75 (c : Char) (s : lex_state) : grows 1 s (do_state_75 c s).1 := by
  unfold do_state_75 grows
  split_ifs <;> refine ⟨?_, ?_, ?_⟩ <;> simp [push, store, goto, do_clear, BUF_SIZE]

theorem grows_state_77 (c : Char) (s : lex_state) : grows 1 s (do_state_77 c s).1 := by
  unfold do_state_77 grows
  split_ifs <;> refine ⟨?_, ?_, ?_⟩ <;> simp [push, store, goto, do_clear, BUF_SIZE]

theorem grows_ite (k : Nat) (s : lex_state) (p : Prop) [Decidable p] (a b : lex_state × Bool)
    (ha : grows k s a.1) (hb : grows k s b.1) : grows k s (if p then a else b).1 := by
  split_ifs
  · exact ha
  · exact hb

theorem grows_push (c : Char) (s : lex_state) : grows 1 s (push c s) := by
  refine ⟨?_, ?_, ?_⟩ <;> simp [push, store, BUF_SIZE] <;>
    first | omega | (intros; omega) | (intro h; simp [h])

theorem grows_goto_push (n : Int) (c : Char) (s : lex_state) :
    grows 2 s (goto n (push c s)) := by
  refine ⟨?_, ?_, ?_⟩ <;> simp [push, store, goto, BUF_SIZE] <;>
    first | omega | (intros; omega) | (intro h; simp [h])

theorem grows_escape (n : Int) (c x : Char) (s : lex_state) :
    grows 2 s (push x (store ((push c s).length - 1) BACKSLASH (goto n (push c s)))) := by
  refine ⟨?_, ?_, ?_⟩
  · simp [push, store, goto]
  · intro h
    have h1 : ¬ BUF_SIZE ≤ s.length + 1 := by omega
    have h2 : ¬ BUF_SIZE ≤ s.length + 1 + 1 := by omega
    simp [push, store, goto, h1, h2]
  · intro h
    simp [push, store, goto, h]

theorem grows_push_two (c : Char) (s : lex_state) : grows 2 s (push c s) :=
  (grows_push c s).imp (fun h => Nat.le_succ_of_le h) id

theorem grows_state_0 (c : Char) (s : lex_state) : grows 2 s (do_state_0 c s).1 := by
  unfold do_state_0
  dsimp only
  repeat (first
    | apply grows_ite
    | exact grows_goto_push _ c s
    | exact grows_escape _ c _ s
    | exact grows_push_two c s)

theorem bound_advance (s t : lex_state) (hst : s.state ≠ 0) (h : grows 1 s t) :
    step_bound s (t, true) := by
  obtain ⟨h1, h2, h3⟩ := h
  refine ⟨fun _ => ?_, fun h => (by cases h), h2, h3⟩
  simp only [hst, if_false]
  exact h1

theorem bound_accept (type : Int) (s t : lex_state) (h : grows 1 s t) :
    step_bound s (accept type t, false) := by
  obtain ⟨h1, h2, h3⟩ := h
  exact ⟨fun h => (by cases h), fun _ => Nat.zero_le _, h2, h3⟩

theorem bound_accept_if (type : Int) (s : lex_state) (r : lex_state × Bool) (hst : s.state ≠ 0)
    (h : grows 1 s r.1) : step_bound s (accept_if type r) := by
  unfold accept_if
  split_ifs
  · exact bound_accept type s r.1 h
  · exact bound_advance s r.1 hst h

theorem bound_count_line_if (s : lex_state) (r : lex_state × Bool) (hst : s.state ≠ 0)
    (h : grows 1 s r.1) : step_bound s (count_line_if r) := by
  obtain ⟨h1, h2, h3⟩ := h
  unfold count_line_if
  split_ifs
  · refine ⟨fun _ => ?_, fun h => (by cases h), h2, h3⟩
    simp only [hst, if_false]
    exact h1
  · exact bound_advance s r.1 hst ⟨h1, h2, h3⟩

theorem bound_clear (s : lex_state) : step_bound s (do_clear s, false) :=
  ⟨fun h => (by cases h), fun _ => Nat.zero_le _, fun _ => rfl, fun h => h⟩

theorem bound_wrong_word (s : lex_state) :
    step_bound s
      (do_clear (do_update_word_count (do_output_wrong_word (cstr s.word) (s.lines + 1) s)),
        false) :=
  ⟨fun h => (by cases h), fun _ => Nat.zero_le _, fun _ => rfl, fun h => h⟩

theorem bound_newline (s : lex_state) :
    step_bound s
      (do_clear (do_update_line_count
        (do_update_word_count (do_output_word (cstr s.word) SPACE s))), false) :=
  ⟨fun h => (by cases h), fun _ => Nat.zero_le _, fun _ => rfl, fun h => h⟩

theorem bound_state_m1 (c : Char) (s : lex_state) (hst : s.state ≠ 0) :
    step_bound s ((do_state_m1 c s).1, !(do_state_m1 c s).2) := by
  unfold do_state_m1 step_bound
  split_ifs <;> refine ⟨?_, ?_, ?_, ?_⟩ <;> simp [push, store, goto, hst, BUF_SIZE] <;>
    first | omega | (intros; omega) | (intro h; simp [h])

theorem bound_state_1 (c : Char) (s : lex_state) (hst : s.state ≠ 0) :
    step_bound s ((do_state_1 c s).1, !(do_state_1 c s).2) := by
  unfold do_state_1 step_bound
  split_ifs <;> refine ⟨?_, ?_, ?_, ?_⟩ <;> simp [push, store, goto, hst, BUF_SIZE] <;>
    first | omega | (intros; omega) | (intro h; simp [h])

theorem bound_state_81_step (c : Char) (s : lex_state) (hst : s.state = 81)
    (r : lex_state × Bool) (hs : do_lex_step c s = some r) : step_bound s r := by
  rw [step_state_81 c s hst] at hs
  split_ifs at hs <;> cases hs
  · exact ⟨fun h => (by cases h), fun _ => Nat.zero_le _, fun _ => rfl, fun h => h⟩
  · exact bound_accept COLON s s (grows_refl s)

theorem bound_state_0_step (c : Char) (s : lex_state) (hst : s.state = 0)
    (r : lex_state × Bool) (hs : do_lex_step c s = some r) : step_bound s r := by
  obtain ⟨h1, h2, h3⟩ := grows_state_0 c s
  rw [step_state_0 c s hst] at hs
  simp only at hs
  split_ifs at hs <;> cases hs
  · refine ⟨fun _ => ?_, fun h => (by cases h), h2, h3⟩
    simp only [hst, if_true]
    exact h1
  · refine ⟨fun _ => ?_, fun h => (by cases h), ?_, ?_⟩
    · simp only [hst, if_true]
      show (do_state_0 c s).1.length - 1 ≤ _
      omega
    · intro hb
      show ((do_state_0 c s).1.overrun || decide (BUF_SIZE ≤ (do_state_0 c s).1.length - 1 + 1))
        = s.overrun
      rw [h2 hb]
      have : ¬ BUF_SIZE ≤ (do_state_0 c s).1.length - 1 + 1 := by omega
      simp [this]
    · intro ho
      show ((do_state_0 c s).1.overrun || decide (BUF_SIZE ≤ (do_state_0 c s).1.length - 1 + 1))
        = true
      rw [h3 ho]
      rfl
  · refine ⟨fun _ => ?_, fun h => (by cases h), h2, h3⟩
    simp only [hst, if_true]
    exact h1

set_option maxHeartbeats 8000000 in
/-- What a round of the loop does to the word buffer. -/
theorem step_in_bound (c : Char) (s : lex_state) (r : lex_state × Bool)
    (hs : do_lex_step c s = some r) : step_bound s r := by
  by_cases h0 : s.state = 0
  · exact bound_state_0_step c s h0 r hs
  by_cases h81 : s.state = 81
  · exact bound_state_81_step c s h81 r hs
  unfold do_lex_step at hs
  split at hs
  · rename_i heq; cases hs; exact bound_state_m1 c s h0
  · rename_i heq; cases hs; exact bound_wrong_word s
  · rename_i heq; exact absurd heq h0
  · rename_i heq; cases hs; exact bound_state_1 c s h0
  · rename_i heq; cases hs; exact bound_accept _ s s (grows_refl s)
  · rename_i heq; cases hs; exact bound_advance s _ h0 (grows_state_3 c s)
  · rename_i heq; cases hs; exact bound_accept _ s s (grows_refl s)
  · rename_i heq; cases hs; exact bound_advance s _ h0 (grows_state_5 c s)
  · rename_i heq; cases hs; exact bound_advance s _ h0 (grows_state_6_16 c s)
  · rename_i heq; cases hs; exact bound_advance s _ h0 (grows_state_6_16 c s)
  · rename_i heq; cases hs; exact bound_advance s _ h0 (grows_state_7 c s)
  · rename_i heq; cases hs; exact bound_advance s _ h0 (grows_state_8_9_10_18_19_20 c s)
  · rename_i heq; cases hs; exact bound_advance s _ h0 (grows_state_8_9_10_18_19_20 c s)
  · rename_i heq; cases hs; exact bound_advance s _ h0 (grows_state_8_9_10_18_19_20 c s)
  · rename_i heq; cases hs; exact bound_advance s _ h0 (grows_state_8_9_10_18_19_20 c s)
  · rename_i heq; cases hs; exact bound_advance s _ h0 (grows_state_8_9_10_18_19_20 c s)
  · rename_i heq; cases hs; exact bound_advance s _ h0 (grows_state_8_9_10_18_19_20 c s)
  · rename_i heq; cases hs; exact bound_advance s _ h0 (grows_state_11 c s)
  · rename_i heq; cases hs; exact bound_advance s _ h0 (grows_state_12 c s)
  · rename_i heq; cases hs; exact bound_advance s _ h0 (grows_state_13 c s)
  · rename_i heq; cases hs; exact bound_accept _ s s (grows_refl s)
  · rename_i heq; cases hs; exact bound_advance s _ h0 (grows_state_15 c s)
  · rename_i heq; cases hs; exact bound_advance s _ h0 (grows_state_17 c s)
  · rename_i heq; cases hs; exact bound_advance s _ h0 (grows_state_21 c s)
  · rename_i heq; cases hs; exact bound_accept_if _ s _ h0 (grows_state_22 c s)
  · rename_i heq; cases hs; exact bound_accept_if _ s _ h0 (grows_state_23 c s)
  · rename_i heq; cases hs; exact bound_accept_if _ s _ h0 (grows_state_24 c s)
  · rename_i heq; cases hs; exact bound_accept _ s s (grows_refl s)
  · rename_i heq; cases hs; exact bound_advance s _ h0 (grows_state_26 c s)
  · rename_i heq; cases hs; exact bound_advance s _ h0 (grows_state_27 c s)
  · rename_i heq; cases hs; exact bound_accept_if _ s _ h0 (grows_state_28 c s)
  · rename_i heq; cases hs; exact bound_accept_if _ s _ h0 (grows_state_29 c s)
  · rename_i heq; cases hs; exact bound_advance s _ h0 (grows_state_30 c s)
  · rename_i heq; cases hs; exact bound_accept_if _ s _ h0 (grows_state_31 c s)
  · rename_i heq; cases hs; exact bound_accept _ s s (grows_refl s)
  · rename_i heq; cases hs; exact bound_accept_if _ s _ h0 (grows_state_33 c s)
  · rename_i heq; cases hs; exact bound_advance s _ h0 (grows_state_34 c s)
  · rename_i heq; cases hs; exact bound_accept _ s s (grows_refl s)
  · rename_i heq; cases hs; exact bound_accept _ s s (grows_refl s)
  · rename_i heq; cases hs; exact bound_accept _ s s (grows_refl s)
  · rename_i heq; cases hs; exact bound_accept _ s s (grows_refl s)
  · rename_i heq; cases hs; exact bound_accept_if _ s _ h0 (grows_state_39 c s)
  · rename_i heq; cases hs; exact bound_accept _ s s (grows_refl s)
  · rename_i heq; cases hs; exact bound_accept _ s s (grows_refl s)
  · rename_i heq; cases hs; exact bound_accept _ s s (grows_refl s)
  · rename_i heq; cases hs; exact bound_accept _ s s (grows_refl s)
  · rename_i heq; cases hs; exact bound_accept _ s s (grows_refl s)
  · rename_i heq; cases hs; exact bound_accept _ s s (grows_refl s)
  · rename_i heq; cases hs; exact bound_accept _ s s (grows_refl s)
  · rename_i heq; cases hs; exact bound_accept _ s s (grows_refl s)
  · rename_i heq; cases hs; exact bound_accept _ s s (grows_refl s)
  · rename_i heq; cases hs; exact bound_accept _ s s (grows_refl s)
  · rename_i heq; cases hs; exact bound_accept _ s s (grows_refl s)
  · rename_i heq; cases hs; exact bound_accept _ s s (grows_refl s)
  · rename_i heq; cases hs; exact bound_accept _ s s (grows_refl s)
  · rename_i heq; cases hs; exact bound_accept _ s s (grows_refl s)
  · rename_i heq; cases hs; exact bound_accept_if _ s _ h0 (grows_state_42 c s)
  · rename_i heq; cases hs; exact bound_accept_if _ s _ h0 (grows_state_45_49_57_60_64_70_72 c s)
  · rename_i heq; cases hs; exact bound_accept_if _ s _ h0 (grows_state_45_49_57_60_64_70_72 c s)
  · rename_i heq; cases hs; exact bound_accept_if _ s _ h0 (grows_state_47 c s)
  · rename_i heq; cases hs; exact bound_accept_if _ s _ h0 (grows_state_51 c s)
  · rename_i heq; cases hs; exact bound_accept _ s s (grows_refl s)
  · rename_i heq; cases hs; exact bound_accept_if _ s _ h0 (grows_state_54 c s)
  · rename_i heq; cases hs; exact bound_accept _ s s (grows_refl s)
  · rename_i heq; cases hs; exact bound_accept_if _ s _ h0 (grows_state_45_49_57_60_64_70_72 c s)
  · rename_i heq; cases hs; exact bound_accept_if _ s _ h0 (grows_state_45_49_57_60_64_70_72 c s)
  · rename_i heq; cases hs; exact bound_accept _ s s (grows_refl s)
  · rename_i heq; cases hs; exact bound_accept _ s s (grows_refl s)
  · rename_i heq; cases hs; exact bound_accept_if _ s _ h0 (grows_state_62 c s)
  · rename_i heq; cases hs; exact bound_accept _ s s (grows_refl s)
  · rename_i heq; cases hs; exact bound_accept _ s s (grows_refl s)
  · rename_i heq; cases hs; exact bound_accept_if _ s _ h0 (grows_state_45_49_57_60_64_70_72 c s)
  · rename_i heq; cases hs; exact bound_accept_if _ s _ h0 (grows_state_45_49_57_60_64_70_72 c s)
  · rename_i heq; cases hs; exact bound_accept_if _ s _ h0 (grows_state_66_68 c s)
  · rename_i heq; cases hs; exact bound_accept_if _ s _ h0 (grows_state_66_68 c s)
  · rename_i heq; cases hs; exact bound_accept_if _ s _ h0 (grows_state_45_49_57_60_64_70_72 c s)
  · rename_i heq; cases hs; exact bound_count_line_if s _ h0 (grows_state_74 c s)
  · rename_i heq; cases hs; exact bound_count_line_if s _ h0 (grows_state_75 c s)
  · rename_i heq; cases hs; exact bound_clear s
  · rename_i heq; cases hs; exact bound_count_line_if s _ h0 (grows_state_77 c s)
  · rename_i heq; cases hs; exact bound_clear s
  · rename_i heq; cases hs; exact bound_accept _ s s (grows_refl s)
  · rename_i heq; cases hs; exact bound_newline s
  · rename_i heq; exact absurd heq h81
  · cases hs


/-- Once raised, `overrun` stays raised to the end of the loop. -/
theorem loop_keeps_flag :
    ∀ (fuel : Nat) (cs : List Char) (s : lex_state) (r : lex_state × Bool),
      s.overrun = true → do_lex_loop fuel cs s = exec.done r → r.1.overrun = true := by
  intro fuel
  induction fuel with
  | zero =>
    intro cs s r ho hr
    cases cs with
    | nil =>
      rw [do_lex_loop_nil] at hr
      cases hr
      exact ho
    | cons c cs => simp [do_lex_loop] at hr
  | succ fuel ih =>
    intro cs s r ho hr
    cases cs with
    | nil =>
      rw [do_lex_loop_nil] at hr
      cases hr
      exact ho
    | cons c cs =>
      cases hstep : do_lex_step c s with
      | none =>
        simp only [do_lex_loop, hstep, exec.done.injEq] at hr
        subst hr
        exact ho
      | some t =>
        simp only [do_lex_loop, hstep] at hr
        exact ih _ t.1 r ((step_in_bound c s t hstep).2.2.2 ho) hr

/-- A text that fits the word buffer with what the buffer holds does not overrun it: when
the length of the word (counted as 1 at least) and the number of characters still to be
scanned are less than `BUF_SIZE - 1` together, the loop ends with `overrun` as it was. -/
theorem loop_in_room :
    ∀ (fuel : Nat) (cs : List Char) (s : lex_state) (r : lex_state × Bool),
      scanning s → max s.length 1 + cs.length + 1 < BUF_SIZE →
      do_lex_loop fuel cs s = exec.done r → r.1.overrun = s.overrun := by
  intro fuel
  induction fuel with
  | zero =>
    intro cs s r hi hb hr
    cases cs with
    | nil =>
      rw [do_lex_loop_nil] at hr
      cases hr
      rfl
    | cons c cs => simp [do_lex_loop] at hr
  | succ fuel ih =>
    intro cs s r hi hb hr
    cases cs with
    | nil =>
      rw [do_lex_loop_nil] at hr
      cases hr
      rfl
    | cons c cs =>
      simp only [List.length_cons] at hb
      cases hstep : do_lex_step c s with
      | none =>
        simp only [do_lex_loop, hstep, exec.done.injEq] at hr
        subst hr
        rfl
      | some t =>
        obtain ⟨t1, adv⟩ := t
        obtain ⟨h1, h2, h3, -⟩ := step_in_bound c s (t1, adv) hstep
        have hi1 := step_scanning c s hi (t1, adv) hstep
        have ho : t1.overrun = s.overrun := h3 (by omega)
        simp only [do_lex_loop, hstep] at hr
        rw [← ho]
        cases adv with
        | true =>
          simp only [if_true] at hr
          have hl := h1 rfl
          simp only at hl
          refine ih cs t1 r hi1 ?_ hr
          by_cases h0 : s.state = 0
          · have := (hi.2.1 h0).1
            simp only [h0, if_true] at hl
            omega
          · simp only [h0, if_false] at hl
            omega
        | false =>
          have hl := h2 rfl
          simp only at hl
          refine ih (c :: cs) t1 r hi1 ?_ hr
          simp only [List.length_cons]
          omega

/-- The counters only grow, by one a round at most. -/
theorem loop_counters :
    ∀ (fuel : Nat) (cs : List Char) (s : lex_state) (r : lex_state × Bool),
      do_lex_loop fuel cs s = exec.done r →
      s.words ≤ r.1.words ∧ r.1.words ≤ s.words + fuel ∧
      s.lines ≤ r.1.lines ∧ r.1.lines ≤ s.lines + fuel := by
  intro fuel
  induction fuel with
  | zero =>
    intro cs s r hr
    cases cs with
    | nil =>
      rw [do_lex_loop_nil] at hr
      cases hr
      simp
    | cons c cs => simp [do_lex_loop] at hr
  | succ fuel ih =>
    intro cs s r hr
    cases cs with
    | nil =>
      rw [do_lex_loop_nil] at hr
      cases hr
      simp
    | cons c cs =>
      cases hstep : do_lex_step c s with
      | none =>
        simp only [do_lex_loop, hstep, exec.done.injEq] at hr
        subst hr
        simp
      | some t =>
        simp only [do_lex_loop, hstep] at hr
        obtain ⟨a1, a2, a3, a4⟩ := ih _ t.1 r hr
        have he := step_has_effect c s t hstep
        rcases he with ⟨-, hw, -, hl⟩ | ⟨l, -, -, hw, -, hl⟩ | ⟨-, hw, -, hl⟩ | ⟨l, -, -, hw, -, hl⟩ <;>
          (rw [hw] at a1 a2; rw [hl] at a3 a4; omega)

/-- A loop that ends within bounds started within bounds. -/
theorem loop_bounds_back (fuel : Nat) (cs : List Char) (s : lex_state) (r : lex_state × Bool)
    (hr : do_lex_loop fuel cs s = exec.done r) (hb : in_bounds r.1 = true) :
    in_bounds s = true := by
  obtain ⟨a1, -, a3, -⟩ := loop_counters fuel cs s r hr
  simp only [in_bounds, Bool.and_eq_true, Bool.not_eq_true', decide_eq_true_eq] at hb ⊢
  refine ⟨⟨?_, by omega⟩, by omega⟩
  by_contra ho
  have ho' : s.overrun = true := by simpa using ho
  rw [loop_keeps_flag fuel cs s r ho' hr] at hb
  exact absurd hb.1.1 (by simp)

/-- The loop only visits reached variables, as long as it stays within bounds. -/
theorem loop_reachable :
    ∀ (fuel : Nat) (cs : List Char) (s : lex_state) (r : lex_state × Bool),
      reachable s → do_lex_loop fuel cs s = exec.done r → in_bounds r.1 = true →
      reachable r.1 := by
  intro fuel
  induction fuel with
  | zero =>
    intro cs s r hi hr hb
    cases cs with
    | nil =>
      simp only [do_lex_loop, exec.done.injEq] at hr
      subst hr
      exact hi
    | cons c cs => simp [do_lex_loop] at hr
  | succ n ih =>
    intro cs s r hi hr hb
    cases cs with
    | nil =>
      simp only [do_lex_loop, exec.done.injEq] at hr
      subst hr
      exact hi
    | cons c cs =>
      rw [do_lex_loop] at hr
      cases hs : do_lex_step c s with
      | none =>
        rw [hs] at hr
        simp only [exec.done.injEq] at hr
        subst hr
        exact hi
      | some p =>
        obtain ⟨s1, adv⟩ := p
        rw [hs] at hr
        exact ih _ s1 r
          (reachable.step c s (s1, adv) hi hs (loop_bounds_back _ _ s1 r hr hb)) hr hb

/-! ## The whole run of do_lex -/

/-- The run of `do_lex` on any source text: the loop ends within its three rounds for each
character, at the end of the characters (never in the default case of the switch), in
variables `s` that satisfy the loop invariants; `do_lex` yields the records written and the
total when `s` is within bounds, and has no defined result otherwise. A source text of
fewer than `BUF_SIZE - 3` characters stays within bounds. -/
theorem do_lex_run (src : List Char) :
    ∃ s, scanning s ∧ counted s ∧
      do_lex_loop (3 * (src.length + 1)) (src ++ [LF]) lex_init = exec.done (s, true) ∧
      do_lex src = (if in_bounds s = true then exec.done (s.out ++ [out_line.total s.words])
        else exec.undefined) ∧
      (src.length + 3 < BUF_SIZE → in_bounds s = true) := by
  obtain ⟨r, hr⟩ := do_lex_loop_total (3 * (src.length + 1)) (src ++ [LF]) lex_init (by simp)
  have hs := loop_scanning _ _ _ r scanning_init hr
  have hc := loop_counted _ _ _ r counted_init hr
  have he := loop_reaches_end _ _ _ r scanning_init hr
  obtain ⟨r1, r2⟩ := r
  simp only at he hs hc
  subst he
  refine ⟨r1, hs, hc, hr, ?_, ?_⟩
  · simp only [do_lex, hr, exec.bind]
    rfl
  · intro hb
    have ho := loop_in_room _ _ _ _ scanning_init (by
      show max 0 1 + (src ++ [LF]).length + 1 < BUF_SIZE
      simp only [List.length_append, List.length_singleton]
      omega) hr
    obtain ⟨-, a2, -, a4⟩ := loop_counters _ _ _ _ hr
    simp only at a2 a4
    simp only [in_bounds, Bool.and_eq_true, Bool.not_eq_true', decide_eq_true_eq]
    simp only [BUF_SIZE] at hb
    refine ⟨⟨ho, ?_⟩, ?_⟩
    · show r1.words ≤ 2147483647
      have : lex_init.words = 0 := rfl
      omega
    · show r1.lines < 2147483647
      have : lex_init.lines = 0 := rfl
      omega

/-- The records `do_lex` writes: those of the loop, then the total. -/
theorem do_lex_records (src : List Char) (o : List out_line) (h : do_lex src = exec.done o) :
    ∃ s, scanning s ∧ counted s ∧ in_bounds s = true ∧
      do_lex_loop (3 * (src.length + 1)) (src ++ [LF]) lex_init = exec.done (s, true) ∧
      o = s.out ++ [out_line.total s.words] := by
  obtain ⟨s, hs, hc, hr, hd, -⟩ := do_lex_run src
  rw [hd] at h
  by_cases hb : in_bounds s = true
  · rw [if_pos hb] at h
    cases h
    exact ⟨s, hs, hc, hb, hr, rfl⟩
  · rw [if_neg hb] at h
    cases h

/-- A source text of fewer than `BUF_SIZE - 3` characters is scanned to the end. -/
theorem do_lex_short (src : List Char) (h : src.length + 3 < BUF_SIZE) :
    ∃ o, do_lex src = exec.done o := by
  obtain ⟨s, -, -, -, hd, hb⟩ := do_lex_run src
  exact ⟨_, by rw [hd, if_pos (hb h)]⟩

/-- The run of `do_lex` is never out of fuel. -/
theorem do_lex_ends (src : List Char) :
    (∃ o, do_lex src = exec.done o) ∨ do_lex src = exec.undefined := by
  obtain ⟨s, -, -, -, hd, -⟩ := do_lex_run src
  by_cases hb : in_bounds s = true
  · exact Or.inl ⟨_, by rw [hd, if_pos hb]⟩
  · exact Or.inr (by rw [hd, if_neg hb])

/-- The words of a source text that starts with a word: when the scan of `w tail` from the
initial variables goes on, after `k` rounds, as the scan of `tail` with the single record
`l` written, the words the whole scan writes are `l` followed by the words the scan of
`tail` on its own writes. The one scan has a defined result if the other has, the word
counter leaving room for one word more; both have when the text is shorter than
`BUF_SIZE - 3`. -/
theorem scan_tokens_prefix (w tail : List Char) (l : out_line) (k : Nat)
    (hl : is_token l = true) (hk : k ≤ 3 * w.length)
    (hrun : ∀ fuel, do_lex_loop (fuel + k) (w ++ (tail ++ [LF])) lex_init =
      do_lex_loop fuel (tail ++ [LF])
        { lex_init with out := lex_init.out ++ [l], words := lex_init.words + 1,
                        words_in_line := lex_init.words_in_line + 1 }) :
    (∀ ts', scan_tokens (w ++ tail) = some ts' →
      ∃ ts, scan_tokens tail = some ts ∧ ts' = l :: ts) ∧
    (∀ ts, scan_tokens tail = some ts → ts.length < INT_MAX →
      scan_tokens (w ++ tail) = some (l :: ts)) ∧
    ((w ++ tail).length + 3 < BUF_SIZE →
      ∃ ts, scan_tokens tail = some ts ∧ scan_tokens (w ++ tail) = some (l :: ts)) := by
  -- the scan of `tail` on its own
  obtain ⟨s, hs, hc, hr, hd, -⟩ := do_lex_run tail
  -- the whole scan
  obtain ⟨s', hs', hc', hr', hd', hshort⟩ := do_lex_run (w ++ tail)
  -- the scan that goes on after the word is like the scan of `tail`
  have hr2 := loop_more_fuel _ (3 * w.length - k) _ _ _ hr
  have hP : kept_by_writing (fun a b => b = l :: a) := by
    intro a b e hab
    have hab' : b = l :: a := hab
    show b ++ e = l :: (a ++ e)
    rw [hab']
    rfl
  have hsame : same_scan (fun a b => b = l :: a) lex_init
      { lex_init with out := lex_init.out ++ [l], words := lex_init.words + 1,
                      words_in_line := lex_init.words_in_line + 1 } :=
    ⟨rfl, rfl, rfl, rfl, rfl, rfl, by
      show List.filter is_token ([] ++ [l]) = l :: List.filter is_token []
      simp [hl]⟩
  obtain ⟨r', hgo, -, hres⟩ := loop_frame _ hP _ _ _ _ _ hsame hr2
  have hwhole : do_lex_loop (3 * ((w ++ tail).length + 1)) ((w ++ tail) ++ [LF]) lex_init =
      exec.done r' := by
    have hfuel : 3 * ((w ++ tail).length + 1) = (3 * (tail.length + 1) + (3 * w.length - k)) + k := by
      simp only [List.length_append]; omega
    rw [hfuel, List.append_assoc, hrun]
    exact hgo
  rw [hr'] at hwhole
  cases hwhole
  obtain ⟨-, -, -, -, hlines, hover, htok⟩ := hres
  have htok' : s'.out.filter is_token = l :: s.out.filter is_token := htok
  have hwords : s'.words = s.words + 1 := by
    rw [hc'.1, hc.1, count_words, count_words, htok']
    rfl
  have hlines' : s'.lines = s.lines := hlines
  have hover' : s'.overrun = s.overrun := hover
  have hback : in_bounds s' = true → in_bounds s = true := by
    simp only [in_bounds, Bool.and_eq_true, Bool.not_eq_true', decide_eq_true_eq]
    rw [hwords, hlines', hover']
    rintro ⟨⟨a, b⟩, c⟩
    exact ⟨⟨a, by omega⟩, c⟩
  have hforth : in_bounds s = true → s.words < INT_MAX → in_bounds s' = true := by
    simp only [in_bounds, Bool.and_eq_true, Bool.not_eq_true', decide_eq_true_eq]
    rw [hwords, hlines', hover']
    rintro ⟨⟨a, b⟩, c⟩ d
    exact ⟨⟨a, by omega⟩, c⟩
  have hfil : ∀ t : lex_state, (t.out ++ [out_line.total t.words]).filter is_token =
      t.out.filter is_token := by
    intro t
    simp [List.filter_append, is_token]
  have hwhole_tokens : in_bounds s' = true → in_bounds s = true →
      scan_tokens tail = some (s.out.filter is_token) ∧
      scan_tokens (w ++ tail) = some (l :: s.out.filter is_token) := by
    intro h1 h2
    simp only [scan_tokens, hd, hd', if_pos h1, if_pos h2, hfil, htok']
    exact ⟨trivial, trivial⟩
  refine ⟨?_, ?_, ?_⟩
  · intro ts' h
    by_cases hb : in_bounds s' = true
    · obtain ⟨h1, h2⟩ := hwhole_tokens hb (hback hb)
      rw [h2] at h
      cases h
      exact ⟨_, h1, rfl⟩
    · simp [scan_tokens, hd', hb] at h
  · intro ts h hlen
    by_cases hb : in_bounds s = true
    · have h1 : scan_tokens tail = some (s.out.filter is_token) := by
        simp only [scan_tokens, hd, if_pos hb, hfil]
      rw [h1] at h
      cases h
      have hw : s.words < INT_MAX := by
        rw [hc.1, count_words]
        exact hlen
      exact (hwhole_tokens (hforth hb hw) hb).2
    · simp [scan_tokens, hd, hb] at h
  · intro hb
    have h1 := hshort hb
    exact ⟨_, hwhole_tokens h1 (hback h1)⟩

/-- A word of 4096 characters or more overruns the word buffer: the scan of a source text
that starts with it has no defined result, whatever follows. -/
theorem long_word_overruns (c0 : Char) (cs rest : List Char)
    (h0 : is_word_start c0 = true) (hcs : ∀ c ∈ cs, is_word_char c = true)
    (hlen : BUF_SIZE ≤ (c0 :: cs).length) :
    do_lex ((c0 :: cs) ++ rest) = exec.undefined := by
  obtain ⟨s, -, -, hr, hd, -⟩ := do_lex_run ((c0 :: cs) ++ rest)
  have hn : BUF_SIZE - 2 < cs.length := by
    simp only [List.length_cons, BUF_SIZE] at hlen ⊢
    omega
  -- the cells 0 to 4094, then the character that goes to the last cell
  have hsplit : cs = cs.take (BUF_SIZE - 2) ++ cs[BUF_SIZE - 2] :: cs.drop (BUF_SIZE - 1) := by
    have := List.take_append_drop (BUF_SIZE - 2) cs
    rw [List.drop_eq_getElem_cons hn] at this
    exact this.symm
  generalize cs[BUF_SIZE - 2] = x at hsplit
  have htake : (cs.take (BUF_SIZE - 2)).length = BUF_SIZE - 2 := by
    rw [List.length_take]
    omega
  have hxw : is_word_char x = true := hcs x (by rw [hsplit]; simp)
  have hstep0 : do_lex_step c0 lex_init = some (goto 1 (push c0 lex_init), true) := by
    rw [step_state_0 c0 lex_init rfl]
    simp [do_state_0, h0]
  have hpush0 : push c0 lex_init = { lex_init with word := [c0], length := 1 } := rfl
  have hfuel : 3 * (((c0 :: cs) ++ rest).length + 1) =
      ((3 * (((c0 :: cs) ++ rest).length + 1) - BUF_SIZE) + 1 + (cs.take (BUF_SIZE - 2)).length)
        + 1 := by
    rw [htake]
    simp only [List.length_append, List.length_cons, BUF_SIZE] at hlen ⊢
    omega
  have hlist : ((c0 :: cs) ++ rest) ++ [LF] =
      c0 :: (cs.take (BUF_SIZE - 2) ++ x :: (cs.drop (BUF_SIZE - 1) ++ rest ++ [LF])) := by
    conv_lhs => rw [hsplit]
    simp
  rw [hlist, hfuel, loop_advance _ _ _ _ _ hstep0, hpush0,
    scan_word_chars (cs.take (BUF_SIZE - 2)) _ _ _ rfl rfl
      (by rw [htake]; show 1 + (BUF_SIZE - 2) < BUF_SIZE; decide)
      (fun c hc => hcs c (List.mem_of_mem_take hc))] at hr
  have hstepx : ∀ t : lex_state, t.state = 1 → do_lex_step x t = some (push x t, true) := by
    intro t ht
    rw [step_state_1 x t ht]
    simp [do_state_1, hxw]
  rw [loop_advance _ _ _ _ _ (hstepx _ rfl)] at hr
  have htake' : (cs.take (4096 - 2)).length = 4094 := htake
  have hflag := loop_keeps_flag _ _ _ _ (by
    simp [push, store, goto, htake', BUF_SIZE]) hr
  have hb : ¬ in_bounds s = true := by
    simp only at hflag
    simp [in_bounds, hflag]
  rw [hd, if_neg hb]

/-- The words of a source text that starts with a word, see `first_word`. -/
theorem first_word_of_run (w tail : List Char) (l : out_line) (k : Nat)
    (hl : is_token l = true) (hk : k ≤ 3 * w.length)
    (hrun : ∀ fuel, do_lex_loop (fuel + k) (w ++ (tail ++ [LF])) lex_init =
      do_lex_loop fuel (tail ++ [LF])
        { lex_init with out := lex_init.out ++ [l], words := lex_init.words + 1,
                        words_in_line := lex_init.words_in_line + 1 }) :
    first_word w tail l :=
  scan_tokens_prefix w tail l k hl hk hrun

/-! ## Claim C23 -/

/-- C23 fails on the code: after a decimal literal `do_state_23` takes `l` or `L` to state
33, the state of an int in octal, where `do_state_29`, `do_state_31` and `do_state_33`
take it to state 32, which accepts the word at once. So the literal goes on behind the
suffix: `1L7` is written as the one word `1L7` of type INT (`0L7`, `0x1L7` and `017L7`
are written as the literal with its suffix, then `7`), and `1l8` followed by a space is a
wrong word. -/
theorem C23_suffix_after_decimal_goes_on :
    (∀ s : lex_state, do_state_23 'L' s = (goto 33 (push 'L' s), false) ∧
      do_state_29 'L' s = (goto 32 (push 'L' s), false) ∧
      do_state_31 'L' s = (goto 32 (push 'L' s), false) ∧
      do_state_33 'L' s = (goto 32 (push 'L' s), false)) ∧
    do_lex "1L7 ".data = exec.done
      [out_line.word INT "1L7".data, out_line.word SPACE " ".data, out_line.total 2] ∧
    do_lex "0L7 ".data = exec.done
      [out_line.word INT "0L".data, out_line.word INT "7".data, out_line.word SPACE " ".data,
       out_line.total 3] ∧
    do_lex "0x1L7 ".data = exec.done
      [out_line.word INT "0x1L".data, out_line.word INT "7".data,
       out_line.word SPACE " ".data, out_line.total 3] ∧
    do_lex "017L7 ".data = exec.done
      [out_line.word INT "017L".data, out_line.word INT "7".data,
       out_line.word SPACE " ".data, out_line.total 3] ∧
    do_lex "1l8 ".data = exec.done [out_line.wrong "1l8 ".data 1, out_line.total 1] := by
  refine ⟨fun s => ⟨rfl, rfl, rfl, rfl⟩, by decide, by decide, by decide, by decide, by decide⟩

/-! ## Claim C25 -/

/-- C25 fails on the code: `do_state_26`, `do_state_27`, `do_state_30` and `do_state_34`
append the character to the word before they test it, so the delimiter that cannot go on
the number lands in the wrong word and the wrong word runs on to the next delimiter; only
`do_state_m1` ends the word in front of a delimiter. For `0x;` the wrong word is `0x;` and
no semicolon is written; `0x; y` gives the wrong word `0x;`, and `1e;`, `1e+;` and `089;`
go the same way, where `@;` gives the wrong word `@` and the semicolon. -/
theorem C25_delimiter_lands_in_wrong_word :
    (∀ s : lex_state, do_state_30 ';' s = goto (-1) (push ';' s) ∧
      do_state_26 ';' s = goto (-1) (push ';' s) ∧
      do_state_27 ';' s = goto (-1) (push ';' s) ∧
      do_state_34 ';' s = goto (-1) (push ';' s) ∧
      do_state_m1 ';' s = (goto (-2) s, true)) ∧
    do_lex "0x;".data = exec.done [out_line.wrong "0x;".data 1, out_line.total 1] ∧
    do_lex "0x; y".data = exec.done
      [out_line.wrong "0x;".data 1, out_line.word SPACE " ".data,
       out_line.word IDENTIFIER "y".data, out_line.total 3] ∧
    do_lex "1e;".data = exec.done [out_line.wrong "1e;".data 1, out_line.total 1] ∧
    do_lex "1e+;".data = exec.done [out_line.wrong "1e+;".data 1, out_line.total 1] ∧
    do_lex "089;".data = exec.done [out_line.wrong "089;".data 1, out_line.total 1] ∧
    do_lex "@;".data = exec.done
      [out_line.wrong "@".data 1, out_line.word SEMICOLON ";".data, out_line.total 2] := by
  refine ⟨fun s => ⟨rfl, rfl, rfl, rfl, rfl⟩, by decide, by decide, by decide, by decide,
    by decide, by decide⟩

/-! ## Claim C26 -/

/-- C26 fails on the code: the line number of a wrong word is `lines + 1`, and `lines` is
advanced for a newline met in the initial state or in a comment only, not for a newline
inside a string, a character literal or a wrong word. The string `"a`, newline, `\q"` with
the unsupported escape `\q` ends on line 2 and is written as a wrong word at line 1; after
the string `"a`, newline, `b"` the wrong word `@` on line 2 is written at line 1; after
`0x` and a newline the wrong word runs on to `a` on line 2 and is written at line 1, and
so is the `@` behind it. After a newline in a block comment or in the initial state the
`@` on line 2 is written at line 2. -/
theorem C26_newline_in_word_not_counted :
    do_lex [DQUOTE, 'a', LF, BACKSLASH, 'q', DQUOTE, ' '] = exec.done
      [out_line.wrong [DQUOTE, 'a', LF, BACKSLASH, 'q', DQUOTE] 1,
       out_line.word SPACE " ".data, out_line.total 2] ∧
    do_lex [DQUOTE, 'a', LF, 'b', DQUOTE, ' ', '@', ' '] = exec.done
      [out_line.word STRING [DQUOTE, 'a', LF, 'b', DQUOTE], out_line.word SPACE " ".data,
       out_line.wrong "@".data 1, out_line.word SPACE " ".data, out_line.total 4] ∧
    do_lex ['0', 'x', LF, 'a', ' ', '@', ' '] = exec.done
      [out_line.wrong ['0', 'x', LF, 'a'] 1, out_line.word SPACE " ".data,
       out_line.wrong "@".data 1, out_line.word SPACE " ".data, out_line.total 4] ∧
    do_lex ['/', '*', LF, '*', '/', ' ', '@', ' '] = exec.done
      [out_line.line_word 1 0, out_line.word SPACE " ".data, out_line.wrong "@".data 2,
       out_line.word SPACE " ".data, out_line.total 3] ∧
    do_lex ['x', LF, '@', ' '] = exec.done
      [out_line.word IDENTIFIER "x".data, out_line.word SPACE [BACKSLASH, 'n'],
       out_line.line_words 1 2, out_line.wrong "@".data 2, out_line.word SPACE " ".data,
       out_line.total 4] := by
  refine ⟨by decide, by decide, by decide, by decide, by decide⟩

/-! ## Scanning a number -/

/-- C7: longest match for words. For every word `c0 cs` matching
`[A-Za-z_$][A-Za-z0-9_$]*`, shorter than the word buffer, at the start of a source text and
followed by any character `d` outside `[A-Za-z0-9_$]` and any text `rest`, `do_lex` writes
exactly one record for the word, with the whole word as its text and the type `do_judgement`
gives it, and then the words of `d rest`: (1) the words of every scan of `c0 cs d rest`
that has a result are that record followed by the words of the scan of `d rest` on its
own, which has a result too, and the other way round; both scans have a result when the
text is shorter than `BUF_SIZE - 3`; (2) the scan of the word and a space yields the record
of the word, the record of the space and the total of 2 words. -/
theorem C7_longest_match_word (c0 d : Char) (cs rest : List Char)
    (h0 : is_word_start c0 = true) (hcs : ∀ c ∈ cs, is_word_char c = true)
    (hlen : (c0 :: cs).length < BUF_SIZE) (hd : is_word_char d = false) :
    first_word (c0 :: cs) (d :: rest) (out_line.word (do_judgement (c0 :: cs)) (c0 :: cs)) ∧
    do_lex ((c0 :: cs) ++ [' ']) = exec.done
      [out_line.word (do_judgement (c0 :: cs)) (c0 :: cs), out_line.word SPACE [' '],
       out_line.total 2] := by
  refine ⟨first_word_of_run _ _ _ ((c0 :: cs).length + 2) rfl
    (by show (c0 :: cs).length + 2 ≤ 3 * (c0 :: cs).length
        simp only [List.length_cons]; omega)
    (fun fuel => scan_word c0 d cs (rest ++ [LF]) lex_init fuel h0 hcs hlen hd rfl rfl rfl), ?_⟩
  have hrun := scan_word c0 ' ' cs [LF] lex_init (2 * (c0 :: cs).length + 4)
    h0 hcs hlen (by decide) rfl rfl rfl
  have hfuel : 3 * (((c0 :: cs) ++ [' ']).length + 1) =
      (2 * (c0 :: cs).length + 4) + (c0 :: cs).length + 2 := by
    simp only [List.length_append, List.length_cons, List.length_nil]
    omega
  simp only [do_lex, List.append_assoc, List.singleton_append, hfuel, hrun]
  rfl

/-- C7, witness: `abc123` in front of ` x`: the words of the scan of `abc123 x` are the one
record IDENTIFIER `abc123` and the words of the scan of ` x`; and the scan of `abc123` and
a space is done with two words. -/
theorem C7_longest_match_word_witness :
    (is_word_start 'a' = true ∧ (∀ c ∈ "bc123".data, is_word_char c = true) ∧
      ('a' :: "bc123".data).length < BUF_SIZE ∧ is_word_char ' ' = false) ∧
    (first_word ('a' :: "bc123".data) (' ' :: ['x'])
        (out_line.word (do_judgement ('a' :: "bc123".data)) ('a' :: "bc123".data)) ∧
      do_lex (('a' :: "bc123".data) ++ [' ']) = exec.done
        [out_line.word (do_judgement ('a' :: "bc123".data)) ('a' :: "bc123".data),
         out_line.word SPACE [' '], out_line.total 2]) ∧
    do_judgement ('a' :: "bc123".data) = IDENTIFIER ∧
    scan_tokens "abc123 x".data = some
      [out_line.word IDENTIFIER "abc123".data, out_line.word SPACE " ".data,
       out_line.word IDENTIFIER "x".data] :=
  ⟨⟨by decide, by decide, by decide, by decide⟩,
   C7_longest_match_word 'a' ' ' "bc123".data ['x'] (by decide) (by decide) (by decide)
     (by decide),
   by decide, by decide⟩

/-! ## Claim C13 -/

/-- C16, amended: the scan of every source text ends, with a result unless it ran out of
the bounds of the word buffer or of the counters. (1) For every source text the loop ends
within the three rounds for each character that it is given, at the end of the characters;
`do_lex` yields the records and the total when the variables are within bounds, and has no
defined result otherwise; (2) it has a result when the text is shorter than `BUF_SIZE - 3`;
(3) it has none when the text starts with a word of 4096 characters or more: no handler
compares `length` with `BUF_SIZE`, and the word is written past the end of the buffer.
(4) A round in the initial state always reads a character. (5) From any state, after two
rounds in a row that do not read a character the next round reads one. -/
theorem C16_lexer_terminates :
    (∀ src : List Char, ∃ s,
      do_lex_loop (3 * (src.length + 1)) (src ++ [LF]) lex_init = exec.done (s, true) ∧
      do_lex src = (if in_bounds s = true then exec.done (s.out ++ [out_line.total s.words])
        else exec.undefined)) ∧
    (∀ src : List Char, src.length + 3 < BUF_SIZE → ∃ o, do_lex src = exec.done o) ∧
    (∀ (c0 : Char) (cs rest : List Char), is_word_start c0 = true →
      (∀ c ∈ cs, is_word_char c = true) → BUF_SIZE ≤ (c0 :: cs).length →
      do_lex ((c0 :: cs) ++ rest) = exec.undefined) ∧
    (∀ (c : Char) (s : lex_state) (r : lex_state × Bool),
      s.state = 0 → do_lex_step c s = some r → r.2 = true) ∧
    (∀ (c : Char) (s : lex_state) (r1 r2 r3 : lex_state × Bool),
      do_lex_step c s = some r1 → r1.2 = false →
      do_lex_step c r1.1 = some r2 → r2.2 = false →
      do_lex_step c r2.1 = some r3 → r3.2 = true) := by
  refine ⟨?_, do_lex_short,
    fun c0 cs rest h0 hcs hlen => long_word_overruns c0 cs rest h0 hcs hlen, ?_, ?_⟩
  · intro src
    obtain ⟨s, -, -, hr, hd, -⟩ := do_lex_run src
    exact ⟨s, hr, hd⟩
  · intro c s r hst h
    exact state_0_advances c s r h hst
  · intro c s r1 r2 r3 h1 hr1 h2 hr2 h3
    by_contra hr3
    have hr3' : r3.2 = false := by simpa using hr3
    have a := step_slack c s r1 h1 hr1
    have b := step_slack c r1.1 r2 h2 hr2
    have d := step_slack c r2.1 r3 h3 hr3'
    have e := slack_le r3.1.state
    omega

/-- C16, witness: the scan of `x = 1 ;` has a result; in a wrong word (state -1) a space
is looked at in three rounds, the third of which, in the initial state, reads it. -/
theorem C16_lexer_terminates_witness :
    ("x = 1 ;".data.length + 3 < BUF_SIZE ∧ ∃ o, do_lex "x = 1 ;".data = exec.done o) ∧
    do_lex "x = 1 ;".data = exec.done
      [out_line.word IDENTIFIER ['x'], out_line.word SPACE [' '], out_line.word ASSIGN ['='],
       out_line.word SPACE [' '], out_line.word INT ['1'], out_line.word SPACE [' '],
       out_line.word SEMICOLON [';'], out_line.total 7] ∧
    do_lex_step ' ' { lex_init with state := -1, word := ['@'], length := 1 } =
      some (goto (-2) { lex_init with state := -1, word := ['@'], length := 1 }, false) ∧
    do_lex_step ' ' (goto (-2) { lex_init with state := -1, word := ['@'], length := 1 }) =
      some ({ lex_init with out := [out_line.wrong ['@'] 1], words := 1, words_in_line := 1 },
        false) ∧
    do_lex_step ' '
        { lex_init with out := [out_line.wrong ['@'] 1], words := 1, words_in_line := 1 } =
      some ({ lex_init with state := 79, word := [' '], length := 1,
                            out := [out_line.wrong ['@'] 1], words := 1, words_in_line := 1 },
        true) :=
  ⟨⟨by decide, C16_lexer_terminates.2.1 "x = 1 ;".data (by decide)⟩,
   by decide, rfl, rfl, rfl⟩

/-- C16 as stated fails: the scan of a word of 4096 letters `a` has no defined result. The
letter 4096 is written to the last cell of `char word[BUF_SIZE]`, which leaves the word
without the NUL that ends it: `strcmp` and `fprintf` read past the array. -/
theorem C16_counterexample :
    do_lex ('a' :: List.replicate 4095 'a') = exec.undefined := by
  have := long_word_overruns 'a' (List.replicate 4095 'a') [] (by decide)
    (fun c hc => by rw [List.eq_of_mem_replicate hc]; decide)
    (by rw [List.length_cons, List.length_replicate]; decide)
  rwa [List.append_nil] at this

/-! ## Claim C17 -/

/-- C27, amended: in the result of every scan, every word counter line of a source line
reads `line N has W word` when W is less than 2, that is 0 or 1, and `line N has W words`
when W is 2 or more. The scan of every source text ends, with a result or at an overrun of
the word buffer, and with a result when the text is shorter than `BUF_SIZE - 3`. -/
theorem C27_singular_below_two (src : List Char) :
    (∀ o, do_lex src = exec.done o →
      (∀ n k, out_line.line_word n k ∈ o → k < 2) ∧
      (∀ n k, out_line.line_words n k ∈ o → 2 ≤ k) ∧
      ∀ l ∈ o, is_counter l = true → ∃ n k, render_line l =
        "line ".data ++ fmt_d n ++ " has ".data ++ fmt_d k ++
          (if k < 2 then " word".data else " words".data) ++ [LF]) ∧
    ((∃ o, do_lex src = exec.done o) ∨ do_lex src = exec.undefined) ∧
    (src.length + 3 < BUF_SIZE → ∃ o, do_lex src = exec.done o) := by
  refine ⟨?_, do_lex_ends src, do_lex_short src⟩
  intro o h
  obtain ⟨s, -, hc, -, -, ho⟩ := do_lex_records src o h
  subst ho
  have hform : ∀ l ∈ s.out ++ [out_line.total s.words], counter_form l = true := by
    intro l hl
    rcases List.mem_append.1 hl with hl | hl
    · exact hc.2.2.2.1 l hl
    · rw [List.mem_singleton.1 hl]; rfl
  refine ⟨fun n k hm => ?_, fun n k hm => ?_, fun l hl hcount => ?_⟩
  · simpa [counter_form] using hform _ hm
  · simpa [counter_form] using hform _ hm
  · have hf := hform l hl
    cases l with
    | word t w => cases hcount
    | wrong w n => cases hcount
    | line_word n k =>
      have hk : k < 2 := by simpa [counter_form] using hf
      exact ⟨n, k, by simp [render_line, hk]⟩
    | line_words n k =>
      have hk : ¬ k < 2 := by
        have : 2 ≤ k := by simpa [counter_form] using hf
        omega
      exact ⟨n, k, by simp [render_line, hk]⟩
    | total k => cases hcount

/-- C27, witness: the source text of three lines `x`, an empty line and `y z`, with 2, 1
and 4 words. -/
theorem C27_singular_below_two_witness :
    do_lex source_three_lines = exec.done records_three_lines ∧
    source_three_lines.length + 3 < BUF_SIZE ∧
    ((∀ n k, out_line.line_word n k ∈ records_three_lines → k < 2) ∧
      (∀ n k, out_line.line_words n k ∈ records_three_lines → 2 ≤ k) ∧
      ∀ l ∈ records_three_lines, is_counter l = true → ∃ n k, render_line l =
        "line ".data ++ fmt_d n ++ " has ".data ++ fmt_d k ++
          (if k < 2 then " word".data else " words".data) ++ [LF]) ∧
    ∃ o, do_lex source_three_lines = exec.done o :=
  ⟨by decide, by decide,
   (C27_singular_below_two source_three_lines).1 records_three_lines (by decide),
   (C27_singular_below_two source_three_lines).2.2 (by decide)⟩

/-- C27 as stated fails: a line that holds only a comment has 0 words, and its word
counter line reads `line 1 has 0 word`, in the singular. -/
theorem C27_counterexample :
    do_lex source_comment_line = exec.done
      [out_line.line_word 1 0, out_line.word IDENTIFIER "x".data, out_line.total 1] ∧
    render_line (out_line.line_word 1 0) = "line 1 has 0 word".data ++ [LF] := by
  refine ⟨by decide, by decide⟩

/-! ## Claim C28 -/

/-- C28, amended: word counting is exact in every scan that has a result. (1) The result of
a scan is a list of records without a total, followed by one record `total W words`, where
W is the number of words among those records (spaces and wrong words included; a comment
writes no record), W is the sum of the numbers of the word counter lines of the source
lines plus the number of words written after the last of them, and W is within `INT_MAX`;
(2) the scan of every source text ends, with a result or out of the bounds of the word
buffer or of the counters, and (3) with a result when the text is shorter than
`BUF_SIZE - 3`. -/
theorem C28_word_count_exact (src : List Char) :
    (∀ o : List out_line, do_lex src = exec.done o →
      ∃ body, o = body ++ [out_line.total (count_words body)] ∧
        (∀ l ∈ body, ∀ k, l ≠ out_line.total k) ∧
        count_words body = line_sum body + words_after_line body ∧
        count_words body ≤ INT_MAX) ∧
    ((∃ o, do_lex src = exec.done o) ∨ do_lex src = exec.undefined) ∧
    (src.length + 3 < BUF_SIZE → ∃ o, do_lex src = exec.done o) := by
  refine ⟨?_, do_lex_ends src, do_lex_short src⟩
  intro o h
  obtain ⟨s, -, hc, hb, -, ho⟩ := do_lex_records src o h
  obtain ⟨c1, c2, c3, -, c5⟩ := hc
  refine ⟨s.out, by rw [ho, c1], c5, ?_, ?_⟩
  · rw [← c1, ← c2]
    exact c3
  · rw [← c1]
    simp only [in_bounds, Bool.and_eq_true, decide_eq_true_eq] at hb
    exact hb.1.2

/-- C28, witness: the source text of three lines `x`, an empty line and `y z`: 7 words,
2 + 1 + 4 on the three lines and none after the last line. -/
theorem C28_word_count_exact_witness :
    do_lex source_three_lines = exec.done records_three_lines ∧
    (∃ body, records_three_lines = body ++ [out_line.total (count_words body)] ∧
      (∀ l ∈ body, ∀ k, l ≠ out_line.total k) ∧
      count_words body = line_sum body + words_after_line body ∧
      count_words body ≤ INT_MAX) ∧
    (source_three_lines.length + 3 < BUF_SIZE ∧
      ∃ o, do_lex source_three_lines = exec.done o) :=
  ⟨by decide,
   (C28_word_count_exact source_three_lines).1 records_three_lines (by decide),
   by decide, (C28_word_count_exact source_three_lines).2.2 (by decide)⟩

/-- C28 as stated fails: the scan of a word of 5000 letters `b`, a space and `x` has no
defined result, and so no total: the word is written past the end of
`char word[BUF_SIZE]`, next to which the counters lie on the stack of `do_lex`. -/
theorem C28_counterexample :
    do_lex (('b' :: List.replicate 4999 'b') ++ [' ', 'x']) = exec.undefined :=
  long_word_overruns 'b' (List.replicate 4999 'b') [' ', 'x'] (by decide)
    (fun c hc => by rw [List.eq_of_mem_replicate hc]; decide)
    (by rw [List.length_cons, List.length_replicate]; decide)

/-! ## Claim C38 -/

/-- Reached variables satisfy the loop invariant. -/
theorem reachable_scanning (s : lex_state) (h : reachable s) : scanning s := by
  induction h with
  | init => exact scanning_init
  | step c s r _ hs _ ih => exact step_scanning c s ih r hs

/-- C38, amended: as long as the scan stays within the bounds of the word buffer and of
the counters, the DFA never leaves the states that the switch handles. (1) Every state that
the loop reaches from the initial state 0 within bounds, the sums `state + 1` and
`state + 2` of the shared handlers included, is one of -2 .. 81; the switch has a case for
it whatever the character read; and a run of the loop from it that ends within bounds did
not leave through the `illegal state` branch (the flag of the result is true: the input was
read to its end) and ends in reached variables. (2) Every scan that has a result read the
source text to its end, in reached variables; (3) the scan of every source text ends, with
a result or out of bounds. -/
theorem C38_illegal_state_unreachable :
    (∀ s : lex_state, reachable s →
      legal_state s.state = true ∧ (∀ c, ∃ r, do_lex_step c s = some r) ∧
      ∀ fuel cs r, do_lex_loop fuel cs s = exec.done r → in_bounds r.1 = true →
        r.2 = true ∧ reachable r.1) ∧
    (∀ (src : List Char) (o : List out_line), do_lex src = exec.done o →
      ∃ s, reachable s ∧
        do_lex_loop (3 * (src.length + 1)) (src ++ [LF]) lex_init = exec.done (s, true) ∧
        o = s.out ++ [out_line.total s.words]) ∧
    (∀ src : List Char, (∃ o, do_lex src = exec.done o) ∨ do_lex src = exec.undefined) := by
  refine ⟨?_, ?_, do_lex_ends⟩
  · intro s h
    exact ⟨(reachable_scanning s h).1, fun c => step_of_legal c s (reachable_scanning s h).1,
      fun fuel cs r hr hb => ⟨loop_reaches_end fuel cs s r (reachable_scanning s h) hr,
        loop_reachable fuel cs s r h hr hb⟩⟩
  · intro src o h
    obtain ⟨s, -, -, hb, hr, ho⟩ := do_lex_records src o h
    exact ⟨s, loop_reachable _ _ _ _ reachable.init hr hb, hr, ho⟩

/-- C38 at the variables reached after the characters `>>` (state 66, then 66 + 2), and
for the scan of `a >>= 1;`. -/
theorem C38_illegal_state_unreachable_witness :
    reachable (goto 68 (store 1 '>' (goto 66 (push '>' lex_init)))) ∧
    (legal_state (goto 68 (store 1 '>' (goto 66 (push '>' lex_init)))).state = true ∧
      (∀ c, ∃ r, do_lex_step c (goto 68 (store 1 '>' (goto 66 (push '>' lex_init)))) = some r) ∧
      ∀ fuel cs r, do_lex_loop fuel cs (goto 68 (store 1 '>' (goto 66 (push '>' lex_init))))
        = exec.done r → in_bounds r.1 = true → r.2 = true ∧ reachable r.1) ∧
    do_lex "a >>= 1;".data = exec.done
      [out_line.word IDENTIFIER ['a'], out_line.word SPACE [' '], out_line.word ASSIGN ">=".data,
       out_line.word SPACE [' '], out_line.word INT ['1'], out_line.word SEMICOLON [';'],
       out_line.total 6] ∧
    ∃ s, reachable s ∧
      do_lex_loop (3 * ("a >>= 1;".data.length + 1)) ("a >>= 1;".data ++ [LF]) lex_init =
        exec.done (s, true) ∧
      [out_line.word IDENTIFIER ['a'], out_line.word SPACE [' '], out_line.word ASSIGN ">=".data,
       out_line.word SPACE [' '], out_line.word INT ['1'], out_line.word SEMICOLON [';'],
       out_line.total 6] = s.out ++ [out_line.total s.words] :=
  ⟨reachable.step '>' (goto 66 (push '>' lex_init))
      (goto 68 (store 1 '>' (goto 66 (push '>' lex_init))), true)
      (reachable.step '>' lex_init (goto 66 (push '>' lex_init), true) reachable.init rfl rfl)
      rfl rfl,
   C38_illegal_state_unreachable.1 _
    (reachable.step '>' (goto 66 (push '>' lex_init))
      (goto 68 (store 1 '>' (goto 66 (push '>' lex_init))), true)
      (reachable.step '>' lex_init (goto 66 (push '>' lex_init), true) reachable.init rfl rfl)
      rfl rfl),
   by decide,
   C38_illegal_state_unreachable.2.1 "a >>= 1;".data _ (by decide)⟩

/-- C38 as stated fails: the scan of a word of 4200 letters `z` and `;` has no defined
result: the word is written past the end of `char word[BUF_SIZE]`, next to which `state`
lies on the stack of `do_lex`, and nothing holds of the state from there on. -/
theorem C38_counterexample :
    do_lex (('z' :: List.replicate 4199 'z') ++ [';']) = exec.undefined :=
  long_word_overruns 'z' (List.replicate 4199 'z') [';'] (by decide)
    (fun c hc => by rw [List.eq_of_mem_replicate hc]; decide)
    (by rw [List.length_cons, List.length_replicate]; decide)

end LexJava
